import Mathlib

/-!
# Singular value decomposition (`svd.c`): embedding and verification

The two C functions `svd` and `svdsolve` are embedded twice, line by line.

First as Lean functions over an arbitrary linearly ordered field `K` (the
reading of `double` "over the reals"), with the square root passed as a
parameter `sqrt : K → K`.  At `K = ℝ` and `sqrt = Real.sqrt` this is exact real
arithmetic; at `K = ℚ` the same definitions can be evaluated.

Second (namespace `Fp`) over the operations of the C type `double`, collected
in the class `Arith`: the arithmetic operators, `fabs`, `sqrt` and the
comparisons `==`, `<`, `<=`, each used where the source uses it.  The type `Dbl`
is IEEE 754 binary64 (round to nearest, ties to even, signed zeros, subnormals,
infinities, NaN); at `K = Dbl` the definitions evaluate to what the program
computes in double precision, overflow and NaN included.  What is said of
rounding, overflow or NaN is said of this second embedding.

* A C array is a `Buf`, a function from flat offsets (`Int`) to `K`; a pointer
  argument that may be `NULL` is an `Option` of such a buffer.
* `malloc` is a parameter: `none` when the allocation fails, `some r` when it
  returns a block whose (uninitialised) contents are `r`.
* A dereference of a `NULL` pointer is the result `none` of `svd`.
* Loop variables are natural numbers (they never go below `0` in the code); the
  index macros produce `Int` offsets, so `VINDX 0 = -1` as in C.
-/

namespace Svd

/-- Contents of a C array of doubles, by flat offset. -/
structure Buf (K : Type) where
  get : Int → K

instance {K : Type} : CoeFun (Buf K) (fun _ => Int → K) := ⟨Buf.get⟩

/-- The store `f[a] = v`. -/
def Buf.set {K : Type} (f : Buf K) (a : Int) (v : K) : Buf K :=
  ⟨fun x => if x = a then v else f.get x⟩

/-- The macro `VINDX(j) = (j)-1`. -/
def VINDX (j : Nat) : Int := (j : Int) - 1

/-- The macro `MINDX(i,j,rowsize) = ((i)-1) * (rowsize) + (j)-1`. -/
def MINDX (i j rowsize : Nat) : Int := ((i : Int) - 1) * (rowsize : Int) + (j : Int) - 1

/-- The loop `for (i = lo; cnt iterations; ++i) s = body i s`. -/
def forUp {σ : Type} (body : Nat → σ → σ) : Nat → Nat → σ → σ
  | 0, _, s => s
  | cnt + 1, lo, s => forUp body cnt (lo + 1) (body lo s)

/-- The loop `for (i = lo; i <= hi; ++i) s = body i s`. -/
def forRange {σ : Type} (lo hi : Nat) (body : Nat → σ → σ) (s : σ) : σ :=
  forUp body (hi + 1 - lo) lo s

/-- The loop `for (i = hi; i >= 1; --i) s = body i s`. -/
def forDown {σ : Type} (body : Nat → σ → σ) : Nat → σ → σ
  | 0, s => s
  | i + 1, s => forDown body i (body (i + 1) s)

section Model

variable {K : Type} [LinearOrderedField K]

/-- The macro `MIN(a,b) = ((a) < (b)) ? (a) : (b)`. -/
def MIN (a b : Nat) : Nat := if a < b then a else b

/-- The macro `MAX(a,b) = ((a) > (b)) ? (a) : (b)`. -/
def MAX (a b : K) : K := if a > b then a else b

/-- The macro `SIGN(a,b) = ((b) >= 0.0) ? fabs(a) : -fabs(a)`. -/
def SIGN (a b : K) : K := if b ≥ 0 then |a| else -|a|

/-! ## `svdsolve` -/

/-- What a call of `svdsolve` leaves behind: the function value, `*ierr` and `x`. -/
structure SolveOut (K : Type) where
  ret : Int
  ierr : Int
  x : Option (Buf K)

/-- First loop of `svdsolve` (lines 573-583): `tv = 1/s . u^T . b`, truncated. -/
def solveTv (nm m n : Nat) (u w b : Buf K) (tol : K) (tv : Buf K) : Buf K :=
  forUp (fun j tv =>
    let s : K := 0
    let s := if w j ≥ tol then
        (forUp (fun i s => s + u ((i : Int) * nm + j) * b i) m 0 s) / w j
      else s
    tv.set (j : Int) s) n 0 tv

/-- Second loop of `svdsolve` (lines 586-591): `x = v . tv`. -/
def solveX (nm n : Nat) (v tv : Buf K) (x : Buf K) : Buf K :=
  forUp (fun j x =>
    let s : K := forUp (fun i s => s + v ((j : Int) * nm + i) * tv i) n 0 0
    x.set (j : Int) s) n 0 x

/-- The function `svdsolve` (lines 476-596). `tvAlloc` is what `malloc` returns. -/
def svdsolve (tvAlloc : Option (Buf K)) (nm m n : Int)
    (u w v b x : Option (Buf K)) (tol : K) : SolveOut K :=
  if n ≤ 1 ∨ m ≤ 1 ∨ (nm < n ∧ nm < m) ∨ u.isNone ∨ w.isNone ∨
      v.isNone ∨ b.isNone ∨ x.isNone ∨ tol ≤ 0 then
    { ret := 0, ierr := -2, x := x }
  else
    match tvAlloc, u, w, v, b, x with
    | some tv, some u, some w, some v, some b, some x =>
      let tv := solveTv nm.toNat m.toNat n.toNat u w b tol tv
      { ret := 0, ierr := 0, x := some (solveX nm.toNat n.toNat v tv x) }
    | _, _, _, _, _, x => { ret := 0, ierr := -1, x := x }

/-! ## `svd` -/

/-- The arrays `svd` works on: `u`, `w`, `v` of the caller and the workspace `rv1`. -/
structure St (K : Type) where
  u : Buf K
  w : Buf K
  v : Buf K
  rv1 : Buf K

/-- Lines 155-158: copy of `a` into `u`. -/
def copyAU (nm m n : Nat) (a u : Buf K) : Buf K :=
  forRange 1 m (fun i u =>
    forRange 1 n (fun j u => u.set (MINDX i j nm) (a (MINDX i j nm))) u) u

/-- Scalars and arrays carried round the bidiagonalization loop (lines 166-244). -/
structure BSt (K : Type) where
  u : Buf K
  w : Buf K
  rv1 : Buf K
  g : K
  scale : K
  anorm : K

/-- Line 175: `scale` = sum of `fabs(u[k,i])` for `k = i..m`. -/
def colScale (nm m i : Nat) (u : Buf K) : K :=
  forRange i m (fun k scale => scale + |u (MINDX k i nm)|) 0

/-- Lines 179-184: column `i` is divided by `scale`; gives `(s, u)`. -/
def colNormalize (nm m i : Nat) (scale : K) (u : Buf K) : K × Buf K :=
  forRange i m (fun k su =>
    let t := su.2 (MINDX k i nm) / scale
    (su.1 + t * t, su.2.set (MINDX k i nm) t)) (0, u)

/-- Lines 192-200: the reflection is applied to the columns `j = i+1..n`. -/
def colApply (nm m n i : Nat) (h : K) (u : Buf K) : Buf K :=
  forRange (i + 1) n (fun j u =>
    let s : K := forRange i m (fun k s => s + u (MINDX k i nm) * u (MINDX k j nm)) 0
    let f := s / h
    forRange i m (fun k u =>
      u.set (MINDX k j nm) (u (MINDX k j nm) + f * u (MINDX k i nm))) u) u

/-- Line 203: column `i` is multiplied by `scale`. -/
def colRescale (nm m i : Nat) (scale : K) (u : Buf K) : Buf K :=
  forRange i m (fun k u => u.set (MINDX k i nm) (u (MINDX k i nm) * scale)) u

/-- Lines 178-204, the branch `scale != 0.0` of the column step; gives `(u, g)`. -/
def colHouse (sqrt : K → K) (nm m n i : Nat) (scale : K) (u : Buf K) : Buf K × K :=
  let su := colNormalize nm m i scale u
  let s := su.1
  let u := su.2
  let f := u (MINDX i i nm)
  let g := -(SIGN (sqrt s) f)
  let h := f * g - s
  let u := u.set (MINDX i i nm) (f - g)
  let u := if i ≠ n then colApply nm m n i h u else u
  (colRescale nm m i scale u, g)

/-- Lines 173-205: the Householder step on column `i`; gives `(u, g, scale)`. -/
def colStep (sqrt : K → K) (nm m n i : Nat) (u : Buf K) : Buf K × K × K :=
  if i ≤ m then
    let scale : K := colScale nm m i u
    if scale ≠ 0 then
      let r := colHouse sqrt nm m n i scale u
      (r.1, r.2, scale)
    else (u, 0, scale)
  else (u, 0, 0)

/-- Line 213: `scale` = sum of `fabs(u[i,k])` for `k = i+1..n`. -/
def rowScale (nm n i : Nat) (u : Buf K) : K :=
  forRange (i + 1) n (fun k scale => scale + |u (MINDX i k nm)|) 0

/-- Lines 217-222: row `i` is divided by `scale`; gives `(s, u)`. -/
def rowNormalize (nm n i : Nat) (scale : K) (u : Buf K) : K × Buf K :=
  forRange (i + 1) n (fun k su =>
    let t := su.2 (MINDX i k nm) / scale
    (su.1 + t * t, su.2.set (MINDX i k nm) t)) (0, u)

/-- Line 227: `rv1[k] = u[i,k] / h` for `k = i+1..n`. -/
def rowRv1 (nm n i : Nat) (h : K) (u rv1 : Buf K) : Buf K :=
  forRange (i + 1) n (fun k rv1 => rv1.set (VINDX k) (u (MINDX i k nm) / h)) rv1

/-- Lines 230-237: the reflection is applied to the rows `j = i+1..m`. -/
def rowApply (nm m n i : Nat) (rv1 : Buf K) (u : Buf K) : Buf K :=
  forRange (i + 1) m (fun j u =>
    let s : K := forRange (i + 1) n (fun k s => s + u (MINDX j k nm) * u (MINDX i k nm)) 0
    forRange (i + 1) n (fun k u =>
      u.set (MINDX j k nm) (u (MINDX j k nm) + s * rv1 (VINDX k))) u) u

/-- Line 239: row `i` is multiplied by `scale`. -/
def rowRescale (nm n i : Nat) (scale : K) (u : Buf K) : Buf K :=
  forRange (i + 1) n (fun k u => u.set (MINDX i k nm) (u (MINDX i k nm) * scale)) u

/-- Lines 216-240, the branch `scale != 0.0` of the row step; gives `(u, rv1, g)`. -/
def rowHouse (sqrt : K → K) (nm m n i : Nat) (scale : K) (u rv1 : Buf K) :
    Buf K × Buf K × K :=
  let L := i + 1
  let su := rowNormalize nm n i scale u
  let s := su.1
  let u := su.2
  let f := u (MINDX i L nm)
  let g := -(SIGN (sqrt s) f)
  let h := f * g - s
  let u := u.set (MINDX i L nm) (f - g)
  let rv1 := rowRv1 nm n i h u rv1
  let u := if i ≠ m then rowApply nm m n i rv1 u else u
  (rowRescale nm n i scale u, rv1, g)

/-- Lines 211-241: the Householder step on row `i`; gives `(u, rv1, g, scale)`. -/
def rowStep (sqrt : K → K) (nm m n i : Nat) (u rv1 : Buf K) : Buf K × Buf K × K × K :=
  if i ≤ m ∧ i ≠ n then
    let scale : K := rowScale nm n i u
    if scale ≠ 0 then
      let r := rowHouse sqrt nm m n i scale u rv1
      (r.1, r.2.1, r.2.2, scale)
    else (u, rv1, 0, scale)
  else (u, rv1, 0, 0)

/-- Body of the bidiagonalization loop for one `i` (lines 167-244). -/
def bidiagStep (sqrt : K → K) (nm m n i : Nat) (b : BSt K) : BSt K :=
  let rv1 := b.rv1.set (VINDX i) (b.scale * b.g)
  let c := colStep sqrt nm m n i b.u
  let w := b.w.set (VINDX i) (c.2.2 * c.2.1)
  let r := rowStep sqrt nm m n i c.1 rv1
  let anorm := MAX b.anorm (|w (VINDX i)| + |r.2.1 (VINDX i)|)
  { u := r.1, w := w, rv1 := r.2.1, g := r.2.2.1, scale := r.2.2.2, anorm := anorm }

/-- Lines 162-244: Householder reduction to bidiagonal form. -/
def bidiag (sqrt : K → K) (nm m n : Nat) (u w rv1 : Buf K) : BSt K :=
  forRange 1 n (bidiagStep sqrt nm m n)
    { u := u, w := w, rv1 := rv1, g := 0, scale := 0, anorm := 0 }

/-- Lines 257-258: `v[j,i] = (u[i,j] / u[i,L]) / g` for `j = L..n`. -/
def accVCol (nm n i L : Nat) (u : Buf K) (g : K) (v : Buf K) : Buf K :=
  forRange L n (fun j v =>
    v.set (MINDX j i nm) ((u (MINDX i j nm) / u (MINDX i L nm)) / g)) v

/-- Lines 259-266: the reflection is applied to the columns `j = L..n` of `v`. -/
def accVApply (nm n i L : Nat) (u : Buf K) (v : Buf K) : Buf K :=
  forRange L n (fun j v =>
    let s : K := forRange L n (fun k s => s + u (MINDX i k nm) * v (MINDX k j nm)) 0
    forRange L n (fun k v =>
      v.set (MINDX k j nm) (v (MINDX k j nm) + s * v (MINDX k i nm))) v) v

/-- Lines 268-272: `v[i,j] = 0; v[j,i] = 0` for `j = L..n`. -/
def accVClear (nm n i L : Nat) (v : Buf K) : Buf K :=
  forRange L n (fun j v => (v.set (MINDX i j nm) 0).set (MINDX j i nm) 0) v

/-- Body of the loop of lines 250-278 for one `i`; the state is `(v, g, L)`. -/
def accVStep (nm n : Nat) (u rv1 : Buf K) (i : Nat) (s : Buf K × K × Nat) : Buf K × K × Nat :=
  let v := s.1
  let g := s.2.1
  let L := s.2.2
  let v := if i ≠ n then
      let v := if g ≠ 0 then accVApply nm n i L u (accVCol nm n i L u g v) else v
      accVClear nm n i L v
    else v
  let v := v.set (MINDX i i nm) 1
  (v, rv1 (VINDX i), i)

/-- Lines 250-278: accumulation of right-hand transformations (under `if (matv)`).
`g` and `L` are the values left by the bidiagonalization loop. -/
def accV (nm n : Nat) (u rv1 : Buf K) (v : Buf K) (g : K) (L : Nat) : Buf K :=
  (forDown (accVStep nm n u rv1) n (v, g, L)).1

/-- Line 293: `u[i,j] = 0` for `j = i+1..n`. -/
def accUClearRow (nm n i : Nat) (u : Buf K) : Buf K :=
  forRange (i + 1) n (fun j u => u.set (MINDX i j nm) 0) u

/-- Lines 300-309: the reflection is applied to the columns `j = i+1..n` of `u`. -/
def accUApply (nm m n i : Nat) (g : K) (u : Buf K) : Buf K :=
  forRange (i + 1) n (fun j u =>
    let s : K := forRange (i + 1) m (fun k s => s + u (MINDX k i nm) * u (MINDX k j nm)) 0
    let f := (s / u (MINDX i i nm)) / g
    forRange i m (fun k u =>
      u.set (MINDX k j nm) (u (MINDX k j nm) + f * u (MINDX k i nm))) u) u

/-- Line 312: `u[j,i] /= g` for `j = i..m`. -/
def accUScale (nm m i : Nat) (g : K) (u : Buf K) : Buf K :=
  forRange i m (fun j u => u.set (MINDX j i nm) (u (MINDX j i nm) / g)) u

/-- Line 316: `u[j,i] = 0` for `j = i..m`. -/
def accUZero (nm m i : Nat) (u : Buf K) : Buf K :=
  forRange i m (fun j u => u.set (MINDX j i nm) 0) u

/-- Body of the loop of lines 287-320 for one `i`. -/
def accUStep (nm m n mn : Nat) (w : Buf K) (i : Nat) (u : Buf K) : Buf K :=
  let g := w (VINDX i)
  let u := if i ≠ n then accUClearRow nm n i u else u
  let u := if g ≠ 0 then
      let u := if i ≠ mn then accUApply nm m n i g u else u
      accUScale nm m i g u
    else accUZero nm m i u
  u.set (MINDX i i nm) (u (MINDX i i nm) + 1)

/-- Lines 286-320: accumulation of left-hand transformations (under `if (matu)`). -/
def accU (nm m n : Nat) (w : Buf K) (u : Buf K) : Buf K :=
  let mn := MIN m n
  forDown (accUStep nm m n mn w) mn u

/-- Lines 336-343, the test for splitting: the scan `for (L = k; L >= 1; --L)`.
The result is `(L, true)` on `goto L565`, `(L, false)` on `goto L540`, and
`(0, false)` when the loop is left through the bottom (control then falls into
`L540` with `L = 0`). -/
def splitScan (anorm : K) (w rv1 : Buf K) : Nat → Nat × Bool
  | 0 => (0, false)
  | L + 1 =>
    if |rv1 (VINDX (L + 1))| + anorm = anorm then (L + 1, true)
    else if |w (VINDX L)| + anorm = anorm then (L + 1, false)
    else splitScan anorm w rv1 L

/-- Lines 364-370: rotation of columns `p` and `q` of the `rows` x . matrix `u`:
`y = u[j,p]; z = u[j,q]; u[j,p] = y*c + z*s; u[j,q] = -y*s + z*c`. -/
def rotCols (nm rows p q : Nat) (c s : K) (u : Buf K) : Buf K :=
  forRange 1 rows (fun j u =>
    let y := u (MINDX j p nm)
    let z := u (MINDX j q nm)
    let u := u.set (MINDX j p nm) (y * c + z * s)
    u.set (MINDX j q nm) (-y * s + z * c)) u

/-- Lines 351-372, the cancellation loop `for (i = L; i <= k; ++i)` with its
`goto L565`; `cnt` is the number of iterations left, `c`, `s` the rotation. -/
def cancelLoop (nm m : Nat) (matu : Int) (anorm : K) (sqrt : K → K) (L1 : Nat) :
    Nat → Nat → K → K → St K → St K
  | 0, _, _, _, st => st
  | cnt + 1, i, c, s, st =>
    let f := s * st.rv1 (VINDX i)
    let st := { st with rv1 := st.rv1.set (VINDX i) (st.rv1 (VINDX i) * c) }
    if |f| + anorm = anorm then st
    else
      let g := st.w (VINDX i)
      let h := sqrt (f * f + g * g)
      let st := { st with w := st.w.set (VINDX i) h }
      let c := g / h
      let s := -f / h
      let st := if matu ≠ 0 then { st with u := rotCols nm m L1 i c s st.u } else st
      cancelLoop nm m matu anorm sqrt L1 cnt (i + 1) c s st

/-- Lines 332-372: from label `L520` to label `L565`; gives the state and `L`. -/
def splitCancel (nm m : Nat) (matu : Int) (anorm : K) (sqrt : K → K) (k : Nat)
    (st : St K) : St K × Nat :=
  let r := splitScan anorm st.w st.rv1 k
  let L := r.1
  if r.2 then (st, L)
  else (cancelLoop nm m matu anorm sqrt (L - 1) (k + 1 - L) L 0 1 st, L)

/-- Scalars and arrays carried round the QR loop of lines 400-445. -/
structure QSt (K : Type) where
  st : St K
  c : K
  s : K
  f : K
  x : K

/-- Body of the QR loop for one `i1` (lines 401-445). -/
def qrStep (nm m n : Nat) (matu matv : Int) (sqrt : K → K) (i1 : Nat) (q : QSt K) : QSt K :=
  let i := i1 + 1
  let g := q.st.rv1 (VINDX i)
  let y := q.st.w (VINDX i)
  let h := q.s * g
  let g := q.c * g
  let z := sqrt (q.f * q.f + h * h)
  let rv1 := q.st.rv1.set (VINDX i1) z
  let c := q.f / z
  let s := h / z
  let f := q.x * c + g * s
  let g := -q.x * s + g * c
  let h := y * s
  let y := y * c
  let v := if matv ≠ 0 then rotCols nm n i1 i c s q.st.v else q.st.v
  let z := sqrt (f * f + h * h)
  let w := q.st.w.set (VINDX i1) z
  let c := if z ≠ 0 then f / z else c
  let s := if z ≠ 0 then h / z else s
  let f := c * g + s * y
  let x := -s * g + c * y
  let u := if matu ≠ 0 then rotCols nm m i1 i c s q.st.u else q.st.u
  { st := { u := u, w := w, v := v, rv1 := rv1 }, c := c, s := s, f := f, x := x }

/-- Lines 389-449: the shift from the bottom 2 by 2 minor and one QR sweep;
`z` is `w[VINDX(k)]` as read at `L565`. -/
def qrSweep (nm m n : Nat) (matu matv : Int) (sqrt : K → K) (k L : Nat) (z : K)
    (st : St K) : St K :=
  let k1 := k - 1
  let x := st.w (VINDX L)
  let y := st.w (VINDX k1)
  let g := st.rv1 (VINDX k1)
  let h := st.rv1 (VINDX k)
  let f := ((y - z) * (y + z) + (g - h) * (g + h)) / (2 * h * y)
  let g := sqrt (f * f + 1)
  let f := ((x - z) * (x + z) + h * (y / (f + SIGN g f) - h)) / x
  let q := forRange L k1 (qrStep nm m n matu matv sqrt)
    { st := st, c := 1, s := 1, f := f, x := x }
  let rv1 := q.st.rv1.set (VINDX L) 0
  let rv1 := rv1.set (VINDX k) q.f
  let w := q.st.w.set (VINDX k) q.x
  { q.st with w := w, rv1 := rv1 }

/-- Lines 455-463: the converged `w[VINDX(k)]` is made non-negative. -/
def converge (nm n : Nat) (matv : Int) (k : Nat) (st : St K) : St K :=
  let z := st.w (VINDX k)
  if z < 0 then
    let st := { st with w := st.w.set (VINDX k) (-z) }
    if matv ≠ 0 then
      { st with v := forRange 1 n (fun j v =>
          v.set (MINDX j k nm) (-(v (MINDX j k nm)))) st.v }
    else st
  else st

/-- The REPEAT loop of lines 332-463 for one `k`. The first argument is
`30 - its`, the number of QR sweeps still allowed. The result is the state and
whether `k` converged (`false`: the exit `*ierr = k; goto LeaveSvd`). -/
def repeatK (nm m n : Nat) (matu matv : Int) (anorm : K) (sqrt : K → K) (k : Nat) :
    Nat → St K → St K × Bool
  | rem, st =>
    let r := splitCancel nm m matu anorm sqrt k st
    let st := r.1
    let L := r.2
    let z := st.w (VINDX k)
    if L ≠ k then
      match rem with
      | 0 => (st, false)
      | rem + 1 =>
        repeatK nm m n matu matv anorm sqrt k rem (qrSweep nm m n matu matv sqrt k L z st)
    else (converge nm n matv k st, true)

/-- Lines 326-465: `for (k = n; k >= 1; --k)`; gives the state and `*ierr`. -/
def diagonalize (nm m n : Nat) (matu matv : Int) (anorm : K) (sqrt : K → K) :
    Nat → St K → St K × Int
  | 0, st => (st, 0)
  | k + 1, st =>
    let r := repeatK nm m n matu matv anorm sqrt (k + 1) 30 st
    if r.2 then diagonalize nm m n matu matv anorm sqrt k r.1
    else (r.1, ((k + 1 : Nat) : Int))

/-- Lines 155-321 of `svd`: the copy of `a`, the bidiagonalization and the two
accumulations; gives the arrays and `anorm` at the start of the diagonalization. -/
def svdPrep (sqrt : K → K) (nm m n : Nat) (a w : Buf K) (matu : Int) (u : Buf K)
    (matv : Int) (v rv1 : Buf K) : St K × K :=
  let u := copyAU nm m n a u
  let b := bidiag sqrt nm m n u w rv1
  let v := if matv ≠ 0 then accV nm n b.u b.rv1 v b.g (n + 1) else v
  let u := if matu ≠ 0 then accU nm m n b.w b.u else b.u
  ({ u := u, w := b.w, v := v, rv1 := b.rv1 }, b.anorm)

/-- Lines 155-465 of `svd`, after the input check and the allocation of `rv1`. -/
def svdCore (sqrt : K → K) (nm m n : Nat) (a w : Buf K) (matu : Int) (u : Buf K)
    (matv : Int) (v rv1 : Buf K) : St K × Int :=
  let p := svdPrep sqrt nm m n a w matu u matv v rv1
  diagonalize nm m n matu matv p.2 sqrt n p.1

/-- What a call of `svd` leaves behind: the function value, `*ierr`, `u`, `w`, `v`. -/
structure SvdOut (K : Type) where
  ret : Int
  ierr : Int
  u : Option (Buf K)
  w : Option (Buf K)
  v : Option (Buf K)

/-- The function `svd` (lines 37-470). `rv1Alloc` is what `malloc` returns. The
result `none` is a store through a `NULL` pointer: `u` at line 157, or `v` at
line 275 when `matv` is set. With `matv == 0` the array `v` is not referenced. -/
def svd (sqrt : K → K) (rv1Alloc : Option (Buf K)) (nm m n : Int) (a w : Option (Buf K))
    (matu : Int) (u : Option (Buf K)) (matv : Int) (v : Option (Buf K)) :
    Option (SvdOut K) :=
  if n ≤ 1 ∨ m ≤ 1 ∨ (nm < n ∧ nm < m) ∨ a.isNone ∨ w.isNone then
    some { ret := 0, ierr := -2, u := u, w := w, v := v }
  else
    match rv1Alloc, a, w with
    | some rv1, some a, some w0 =>
      match u with
      | none => none
      | some u0 =>
        if matv ≠ 0 ∧ v.isNone then none
        else
          let r := svdCore sqrt nm.toNat m.toNat n.toNat a w0 matu u0 matv
            (v.getD ⟨fun _ => 0⟩) rv1
          some { ret := 0, ierr := r.2, u := some r.1.u, w := some r.1.w,
                 v := v.map (fun _ => r.1.v) }
    | _, _, _ => some { ret := 0, ierr := -1, u := u, w := w, v := v }

/-! ## Definitions used to state the properties -/

/-- The truncated quotient `t[i]` of `svdsolve`. -/
def solveT (nm m : Nat) (u w b : Buf K) (tol : K) (i : Nat) : K :=
  if w (i : Int) ≥ tol then (∑ k ∈ Finset.range m, u ((k : Int) * nm + i) * b k) / w (i : Int)
  else 0

/-- The `rows` x `cols` matrix stored in `buf` with leading dimension `nm`
(0-based: entry `(i, j)` at offset `i * nm + j`). -/
def matOf (nm rows cols : Nat) (buf : Buf K) : Matrix (Fin rows) (Fin cols) K :=
  fun i j => buf (((i : Nat) : Int) * nm + ((j : Nat) : Int))

/-- The vector of the first `len` entries of `buf`. -/
def vecOf (len : Nat) (buf : Buf K) : Fin len → K :=
  fun i => buf ((i : Nat) : Int)

/-- The array that is `0` at every offset. -/
def zeroBuf {K : Type} [Zero K] : Buf K := ⟨fun _ => 0⟩

/-- The array of rationals that is `1` at every offset. -/
def onesBuf : Buf ℚ := ⟨fun _ => 1⟩

/-- The 2 x 2 identity matrix stored with leading dimension 2. -/
def eye2 : Buf ℚ := ⟨fun x => if x = 0 ∨ x = 3 then 1 else 0⟩

/-- Entry `(i, j)`, 1-based, of the matrix stored in `b` with leading dimension `nm`. -/
def M (nm : Nat) (b : Buf K) (i j : Nat) : K := b (MINDX i j nm)

/-- The columns `c0..c1` of `X`, restricted to the rows `r0..r1`, are orthonormal. -/
def ColsON (X : Nat → Nat → K) (r0 r1 c0 c1 : Nat) : Prop :=
  ∀ p q, c0 ≤ p → p ≤ c1 → c0 ≤ q → q ≤ c1 →
    ∑ i ∈ Finset.Icc r0 r1, X i p * X i q = if p = q then 1 else 0

/-- What the split test and the cancellation leave before a QR sweep on `L..k`:
`rv1[L]` is zero, `rv1[L+1..k]` and `w[L..k-1]` are non-zero. -/
def SweepPre (st : St K) (L k : Nat) : Prop :=
  1 ≤ L ∧ L < k ∧ st.rv1 (VINDX L) = 0 ∧
    (∀ i, L < i → i ≤ k → st.rv1 (VINDX i) ≠ 0) ∧ (∀ i, L ≤ i → i < k → st.w (VINDX i) ≠ 0)

/-- What the row step `i` leaves for the accumulation of `v`: either `g = 0`, or
row `i` of `u`, columns `i+1..n`, is a vector `p` with `u[i,i+1] * g != 0` and
`p . p = -2 * u[i,i+1] * g`. -/
def RowOK (nm n : Nat) (u : Buf K) (i : Nat) (g : K) : Prop :=
  g = 0 ∨ (M nm u i (i + 1) * g ≠ 0 ∧
    ∑ k ∈ Finset.Icc (i + 1) n, M nm u i k * M nm u i k = -2 * (M nm u i (i + 1) * g))

/-- What the column step `i` leaves for the accumulation of `u`: either `g = 0`,
or column `i` of `u`, rows `i..m`, is a vector `p` with `u[i,i] * g != 0` and
`p . p = -2 * u[i,i] * g`. -/
def ColOK (nm m : Nat) (u : Buf K) (i : Nat) (g : K) : Prop :=
  g = 0 ∨ (M nm u i i * g ≠ 0 ∧
    ∑ k ∈ Finset.Icc i m, M nm u k i * M nm u k i = -2 * (M nm u i i * g))

/-- The upper bidiagonal matrix held in `w` (diagonal) and `rv1` (superdiagonal,
entry `(t-1, t)` in `rv1[VINDX t]`), 1-based. -/
def Bmat (w rv1 : Buf K) (r t : Nat) : K :=
  if t = r then w (VINDX r) else if t = r + 1 then rv1 (VINDX t) else 0

/-- The product `sum_r sum_t uu[r] * B[r,t] * vv[t]` over `1..n`. -/
def Prod3 (n : Nat) (uu : Nat → K) (B : Nat → Nat → K) (vv : Nat → K) : K :=
  ∑ r ∈ Finset.Icc 1 n, ∑ t ∈ Finset.Icc 1 n, uu r * B r t * vv t

/-- The arrays of `st` reproduce `a`: `A = U B V^T` with `B` the bidiagonal
matrix of `w` and `rv1`. -/
def Recon (nm m n : Nat) (a : Buf K) (st : St K) : Prop :=
  ∀ i j, 1 ≤ i → i ≤ m → 1 ≤ j → j ≤ n →
    M nm a i j = Prod3 n (fun r => M nm st.u i r) (Bmat st.w st.rv1) (fun t => M nm st.v j t)

/-- The matrix the QR loop works on at the top of the iteration `i1`: the stored
bidiagonal, with `x` at `(i1, i1)`, `f` at `(i1-1, i1)`, `c * rv1` at
`(i1, i1+1)`, the bulge `s * rv1` at `(i1-1, i1+1)`, and 0 at `(L-1, L)`. -/
def Bq (L i1 : Nat) (q : QSt K) (r t : Nat) : K :=
  if t = r then (if r = i1 then q.x else q.st.w (VINDX r))
  else if t = r + 1 then
    (if t = L then 0
     else if t = i1 then q.f
     else if t = i1 + 1 then q.c * q.st.rv1 (VINDX t)
     else q.st.rv1 (VINDX t))
  else if t = r + 2 ∧ t = i1 + 1 ∧ L < i1 then q.s * q.st.rv1 (VINDX t)
  else 0

/-- The matrix the cancellation loop works on at the top of the iteration `i`:
the stored bidiagonal with `c * rv1[i]` at `(i-1, i)`, plus `s * rv1[i]` at
`(L1, i)`. -/
def Bc (L1 i : Nat) (c s : K) (st : St K) (r t : Nat) : K :=
  (if t = r then st.w (VINDX r)
   else if t = r + 1 then (if t = i then c * st.rv1 (VINDX t) else st.rv1 (VINDX t))
   else 0) + (if r = L1 ∧ t = i then s * st.rv1 (VINDX t) else 0)

/-- The steps `n, n-1, ..., n-cnt+1` of a loop `for (i = n; i >= 1; --i)`. -/
def downFrom {σ : Type} (body : Nat → σ → σ) (n : Nat) : Nat → σ → σ
  | 0, s => s
  | cnt + 1, s => body (n - cnt) (downFrom body n cnt s)

/-- The state of the bidiagonalization after the steps `1..i`. -/
def bidiagAt (sqrt : K → K) (nm m n : Nat) (u w rv1 : Buf K) (i : Nat) : BSt K :=
  forUp (bidiagStep sqrt nm m n) i 1
    { u := u, w := w, rv1 := rv1, g := 0, scale := 0, anorm := 0 }

/-- The state `(v, g, L)` of the accumulation of `v` after the steps `n..i`. -/
def accVAt (nm n : Nat) (u rv1 : Buf K) (v : Buf K) (g : K) (L : Nat) (i : Nat) :
    Buf K × K × Nat :=
  downFrom (accVStep nm n u rv1) n (n + 1 - i) (v, g, L)

/-- The array `u` during its accumulation, after the steps `min(m,n)..i`. -/
def accUAt (nm m n : Nat) (w : Buf K) (u : Buf K) (i : Nat) : Buf K :=
  downFrom (accUStep nm m n (MIN m n) w) (MIN m n) (MIN m n + 1 - i) u

/-- The arrays at every arrival at the label `L520` for the index `k`, in order of
execution. The first argument is `30 - its`, as in `repeatK`. -/
def scansK (nm m n : Nat) (matu matv : Int) (anorm : K)
    (sqrt : K → K) (k : Nat) : Nat → St K → List (St K)
  | rem, st =>
    let r := splitCancel nm m matu anorm sqrt k st
    st :: (if r.2 ≠ k then
      match rem with
      | 0 => []
      | rem + 1 =>
        scansK nm m n matu matv anorm sqrt k rem
          (qrSweep nm m n matu matv sqrt k r.2 (r.1.w (VINDX k)) r.1)
    else [])

/-- The pairs `(k, arrays)` at every arrival at the label `L520` during the loop
`for (k = k0; k >= 1; --k)` of the diagonalization, in order of execution. -/
def scans (nm m n : Nat) (matu matv : Int) (anorm : K)
    (sqrt : K → K) : Nat → St K → List (Nat × St K)
  | 0, _ => []
  | k + 1, st =>
    let r := repeatK nm m n matu matv anorm sqrt (k + 1) 30 st
    (scansK nm m n matu matv anorm sqrt (k + 1) 30 st).map (fun s => (k + 1, s)) ++
      (if r.2 then scans nm m n matu matv anorm sqrt k r.1 else [])

/-- The number of passages through the shift and QR sweep (lines 389-449, ending
in `goto L520`) for the index `k`. The first argument is `30 - its`, as in
`repeatK`. -/
def sweepsK (nm m n : Nat) (matu matv : Int) (anorm : K) (sqrt : K → K) (k : Nat) :
    Nat → St K → Nat
  | rem, st =>
    let r := splitCancel nm m matu anorm sqrt k st
    if r.2 ≠ k then
      match rem with
      | 0 => 0
      | rem + 1 =>
        sweepsK nm m n matu matv anorm sqrt k rem
          (qrSweep nm m n matu matv sqrt k r.2 (r.1.w (VINDX k)) r.1) + 1
    else 0

/-- The number of QR sweeps of the whole loop `for (k = k0; k >= 1; --k)`. -/
def sweeps (nm m n : Nat) (matu matv : Int) (anorm : K) (sqrt : K → K) :
    Nat → St K → Nat
  | 0, _ => 0
  | k + 1, st =>
    let r := repeatK nm m n matu matv anorm sqrt (k + 1) 30 st
    sweepsK nm m n matu matv anorm sqrt (k + 1) 30 st +
      (if r.2 then sweeps nm m n matu matv anorm sqrt k r.1 else 0)

/-- The offsets of the `r` x `c` window of an array with leading dimension `nm`:
the cells `(i, j)`, 1-based, with `1 <= i <= r` and `1 <= j <= c`. -/
def Win (nm r c : Nat) (x : Int) : Prop :=
  ∃ i j : Nat, 1 ≤ i ∧ i ≤ r ∧ 1 ≤ j ∧ j ≤ c ∧ x = MINDX i j nm

/-- The arrays `u` and `t` hold the same values at the offsets in `W`. -/
def AgreeOn (W : Int → Prop) (u t : Buf K) : Prop := ∀ x, W x → u.get x = t.get x
/-- The indices `0..n-1` of a vector of length `n`. -/
def Seg (n : Nat) (x : Int) : Prop := 0 ≤ x ∧ x < n
/-- The offsets of the trailing block of `v`: the cells `(k, j)`, 1-based, with
`lo <= k <= n` and `lo <= j <= n`. -/
def Blk (nm lo n : Nat) (x : Int) : Prop :=
  ∃ k j : Nat, lo ≤ k ∧ k ≤ n ∧ lo ≤ j ∧ j ≤ n ∧ x = MINDX k j nm
/-- Two states of the diagonalization that agree where it matters: on the window
of `u` when `pu` holds, on the window of `v` when `pv` holds, on the first `n`
entries of `w`, and in the whole workspace `rv1`. -/
def StRel (nm m n : Nat) (pu pv : Prop) (s t : St K) : Prop :=
  (pu → AgreeOn (Win nm m n) s.u t.u) ∧ (pv → AgreeOn (Win nm n n) s.v t.v) ∧
    AgreeOn (Seg n) s.w t.w ∧ s.rv1 = t.rv1

/-- The matrix `diag(2, 3, 4)` stored with leading dimension 3. -/
def diag234 : Buf ℝ :=
  ⟨fun x => if x = 0 then 2 else if x = 4 then 3 else if x = 8 then 4 else 0⟩

/-- The rank-1 matrix `[[1, 2], [2, 4]]` stored with leading dimension 2. -/
def rank1 : Buf ℝ :=
  ⟨fun x => if x = 0 then 1 else if x = 1 then 2 else if x = 2 then 2 else if x = 3 then 4 else 0⟩

/-- One pass of the REPEAT loop for index `k` that does not converge: from `L520`
through the split test and the cancellation to the end of the QR sweep
(`goto L520`). -/
def sweepOnce (nm m n : Nat) (matu matv : Int) (anorm : K) (sqrt : K → K) (k : Nat)
    (st : St K) : St K :=
  let r := splitCancel nm m matu anorm sqrt k st
  qrSweep nm m n matu matv sqrt k r.2 (r.1.w (VINDX k)) r.1

/-- The arrays at the top of the loop `for (k = k0; k >= 1; --k)` when it reaches
the index `k`, provided every index above `k` converged (`none` otherwise). -/
def stateAt (nm m n : Nat) (matu matv : Int) (anorm : K) (sqrt : K → K) (k : Nat) :
    Nat → St K → Option (St K)
  | 0, st => if k = 0 then some st else none
  | k0 + 1, st =>
    if k0 + 1 = k then some st
    else
      let r := repeatK nm m n matu matv anorm sqrt (k0 + 1) 30 st
      if r.2 then stateAt nm m n matu matv anorm sqrt k k0 r.1 else none

end Model

/-! ## The C type `double`

The second embedding reads `double` as IEEE 754 binary64 with rounding to nearest,
ties to even: overflow gives an infinity, invalid operations give a NaN, and
`==` is false on a NaN. -/


/-- Index of the highest set bit of `n`, found by binary search over the bit
positions below `2^steps`. -/
def bitTop (n : Nat) : Nat → Nat → Nat
  | 0, acc => acc
  | f + 1, acc =>
    if n >>> (acc + 2 ^ f) ≠ 0 then bitTop n f (acc + 2 ^ f) else bitTop n f acc

/-- Number of binary digits of `n` (for `n < 2^8192`). -/
def bitLen (n : Nat) : Nat := if n = 0 then 0 else bitTop n 13 0 + 1

/-- Integer square root by binary digits: the largest `r` with `r * r <= n`, for
`r < 2^bits`. -/
def isqrtGo (n : Nat) : Nat → Nat → Nat
  | 0, r => r
  | b + 1, r => if (r + 2 ^ b) * (r + 2 ^ b) ≤ n then isqrtGo n b (r + 2 ^ b) else isqrtGo n b r

/-- Integer square root. -/
def isqrt (n : Nat) : Nat := isqrtGo n (bitLen n / 2 + 1) 0

/-- A value of the C type `double` (IEEE 754 binary64): a finite number
`(-1)^neg * m * 2^e`, an infinity, or a NaN. -/
inductive Dbl where
  | fin (neg : Bool) (m : Nat) (e : Int)
  | inf (neg : Bool)
  | nan
  deriving DecidableEq

namespace Dbl

/-- Rounding to nearest, ties to even, of the positive number `m * 2^e`, or, when
`sticky` is set, of a number strictly between `m * 2^e` and `(m + 1) * 2^e` (then
`m` has more than 54 digits). The result has a 53 digit mantissa with exponent in
`-1074..971`, is subnormal (exponent `-1074`), or is an infinity. -/
def round (neg : Bool) (m : Nat) (e : Int) (sticky : Bool) : Dbl :=
  if m = 0 then fin neg 0 0
  else
    let e1 : Int := max (e + (bitLen m : Int) - 53) (-1074)
    if e1 ≤ e then
      if e1 > 971 then inf neg else fin neg (m <<< (e - e1).toNat) e1
    else
      let sh := (e1 - e).toNat
      let q := m >>> sh
      let r := m % 2 ^ sh
      let half := 2 ^ (sh - 1)
      let q := if half < r ∨ (r = half ∧ (sticky ∨ q % 2 = 1)) then q + 1 else q
      let e2 : Int := if q = 2 ^ 53 then e1 + 1 else e1
      let q := if q = 2 ^ 53 then 2 ^ 52 else q
      if e2 > 971 then inf neg else fin neg q e2

/-- The C operation `x + y` on doubles. -/
def add : Dbl → Dbl → Dbl
  | nan, _ => nan
  | _, nan => nan
  | inf s, inf t => if s = t then inf s else nan
  | inf s, fin _ _ _ => inf s
  | fin _ _ _, inf t => inf t
  | fin s m e, fin t n f =>
    if m = 0 ∧ n = 0 then fin (s && t) 0 0
    else if m = 0 then fin t n f
    else if n = 0 then fin s m e
    else
      let e0 := min e f
      let a := m <<< (e - e0).toNat
      let b := n <<< (f - e0).toNat
      if s = t then round s (a + b) e0 false
      else if a = b then fin false 0 0
      else if b < a then round s (a - b) e0 false
      else round t (b - a) e0 false

/-- The C operation `-x`. -/
def neg : Dbl → Dbl
  | nan => nan
  | inf s => inf (!s)
  | fin s m e => fin (!s) m e

/-- The C operation `x - y`. -/
def sub (x y : Dbl) : Dbl := add x (neg y)

/-- The C operation `x * y`. -/
def mul : Dbl → Dbl → Dbl
  | nan, _ => nan
  | _, nan => nan
  | inf s, inf t => inf (xor s t)
  | inf s, fin t n _ => if n = 0 then nan else inf (xor s t)
  | fin s m _, inf t => if m = 0 then nan else inf (xor s t)
  | fin s m e, fin t n f =>
    if m = 0 ∨ n = 0 then fin (xor s t) 0 0 else round (xor s t) (m * n) (e + f) false

/-- The C operation `x / y`. -/
def div : Dbl → Dbl → Dbl
  | nan, _ => nan
  | _, nan => nan
  | inf _, inf _ => nan
  | inf s, fin t _ _ => inf (xor s t)
  | fin s _ _, inf t => fin (xor s t) 0 0
  | fin s m e, fin t n f =>
    if n = 0 then (if m = 0 then nan else inf (xor s t))
    else if m = 0 then fin (xor s t) 0 0
    else
      let k := 64 + bitLen n
      let num := m <<< k
      round (xor s t) (num / n) (e - (k : Int) - f) (num % n ≠ 0)

/-- The library function `sqrt`. -/
def sqrt : Dbl → Dbl
  | nan => nan
  | inf s => if s then nan else inf false
  | fin s m e =>
    if m = 0 then fin s 0 0
    else if s then nan
    else
      let k : Nat := if (e - 110) % 2 = 0 then 110 else 111
      let num := m <<< k
      let r := isqrt num
      round false r ((e - (k : Int)) / 2) (r * r ≠ num)

/-- The library function `fabs`. -/
def fabs : Dbl → Dbl
  | nan => nan
  | inf _ => inf false
  | fin _ m e => fin false m e

/-- The finite double `(-1)^s * m * 2^e` as an integer multiple of `2^e0`, for
`e0 <= e`. -/
def scaled (s : Bool) (m : Nat) (e e0 : Int) : Int :=
  if s then -((m <<< (e - e0).toNat : Nat) : Int) else ((m <<< (e - e0).toNat : Nat) : Int)

/-- The C comparison `x < y`. -/
def lt : Dbl → Dbl → Bool
  | nan, _ => false
  | _, nan => false
  | inf s, inf t => s && !t
  | inf s, fin _ _ _ => s
  | fin _ _ _, inf t => !t
  | fin s m e, fin t n f => decide (scaled s m e (min e f) < scaled t n f (min e f))

/-- The C comparison `x == y`. -/
def eq : Dbl → Dbl → Bool
  | nan, _ => false
  | _, nan => false
  | inf s, inf t => s == t
  | inf _, fin _ _ _ => false
  | fin _ _ _, inf _ => false
  | fin s m e, fin t n f => decide (scaled s m e (min e f) = scaled t n f (min e f))

/-- The C comparison `x <= y`. -/
def le (x y : Dbl) : Bool := lt x y || eq x y

/-- The integer `z` as a double. -/
def ofInt (z : Int) : Dbl := round (decide (z < 0)) z.natAbs 0 false

/-- The double `z * 2^e`. -/
def ofScaled (z : Int) (e : Int) : Dbl := round (decide (z < 0)) z.natAbs e false

end Dbl

/-! ## `svd` and `svdsolve` over the operations of `double`

The same two functions, line by line, with every arithmetic operation and every
comparison taken from a class `Arith`; the instance for `Dbl` is the program as
it runs in double precision. -/

/-- The operations of the C type `double` that `svd.c` uses: the arithmetic
operators, the constant `2.0`, the library functions `fabs` and `sqrt`, and the
comparisons `==`, `<` and `<=`. -/
class Arith (K : Type) extends Add K, Sub K, Mul K, Div K, Neg K, Zero K, One K where
  two : K
  fabs : K → K
  sqrt : K → K
  eqb : K → K → Bool
  ltb : K → K → Bool
  leb : K → K → Bool

namespace Fp

open Arith

section FpModel

variable {K : Type} [Arith K]

/-- The macro `MAX(a,b) = ((a) > (b)) ? (a) : (b)`. -/
def MAX (a b : K) : K := if ltb b a then a else b

/-- The macro `SIGN(a,b) = ((b) >= 0.0) ? fabs(a) : -fabs(a)`. -/
def SIGN (a b : K) : K := if leb 0 b then fabs a else -(fabs a)

/-- First loop of `svdsolve` (lines 573-583): `tv = 1/s . u^T . b`, truncated. -/
def solveTv (nm m n : Nat) (u w b : Buf K) (tol : K) (tv : Buf K) : Buf K :=
  forUp (fun j tv =>
    let s : K := 0
    let s := if leb tol (w j) then
        (forUp (fun i s => s + u ((i : Int) * nm + j) * b i) m 0 s) / w j
      else s
    tv.set (j : Int) s) n 0 tv

/-- Second loop of `svdsolve` (lines 586-591): `x = v . tv`. -/
def solveX (nm n : Nat) (v tv : Buf K) (x : Buf K) : Buf K :=
  forUp (fun j x =>
    let s : K := forUp (fun i s => s + v ((j : Int) * nm + i) * tv i) n 0 0
    x.set (j : Int) s) n 0 x

/-- The function `svdsolve` (lines 476-596). `tvAlloc` is what `malloc` returns. -/
def svdsolve (tvAlloc : Option (Buf K)) (nm m n : Int)
    (u w v b x : Option (Buf K)) (tol : K) : SolveOut K :=
  if n ≤ 1 ∨ m ≤ 1 ∨ (nm < n ∧ nm < m) ∨ u.isNone ∨ w.isNone ∨
      v.isNone ∨ b.isNone ∨ x.isNone ∨ leb tol 0 then
    { ret := 0, ierr := -2, x := x }
  else
    match tvAlloc, u, w, v, b, x with
    | some tv, some u, some w, some v, some b, some x =>
      let tv := solveTv nm.toNat m.toNat n.toNat u w b tol tv
      { ret := 0, ierr := 0, x := some (solveX nm.toNat n.toNat v tv x) }
    | _, _, _, _, _, x => { ret := 0, ierr := -1, x := x }

/-- Lines 155-158: copy of `a` into `u`. -/
def copyAU (nm m n : Nat) (a u : Buf K) : Buf K :=
  forRange 1 m (fun i u =>
    forRange 1 n (fun j u => u.set (MINDX i j nm) (a (MINDX i j nm))) u) u

/-- Line 175: `scale` = sum of `fabs(u[k,i])` for `k = i..m`. -/
def colScale (nm m i : Nat) (u : Buf K) : K :=
  forRange i m (fun k scale => scale + fabs (u (MINDX k i nm))) 0

/-- Lines 179-184: column `i` is divided by `scale`; gives `(s, u)`. -/
def colNormalize (nm m i : Nat) (scale : K) (u : Buf K) : K × Buf K :=
  forRange i m (fun k su =>
    let t := su.2 (MINDX k i nm) / scale
    (su.1 + t * t, su.2.set (MINDX k i nm) t)) (0, u)

/-- Lines 192-200: the reflection is applied to the columns `j = i+1..n`. -/
def colApply (nm m n i : Nat) (h : K) (u : Buf K) : Buf K :=
  forRange (i + 1) n (fun j u =>
    let s : K := forRange i m (fun k s => s + u (MINDX k i nm) * u (MINDX k j nm)) 0
    let f := s / h
    forRange i m (fun k u =>
      u.set (MINDX k j nm) (u (MINDX k j nm) + f * u (MINDX k i nm))) u) u

/-- Line 203: column `i` is multiplied by `scale`. -/
def colRescale (nm m i : Nat) (scale : K) (u : Buf K) : Buf K :=
  forRange i m (fun k u => u.set (MINDX k i nm) (u (MINDX k i nm) * scale)) u

/-- Lines 178-204, the branch `scale != 0.0` of the column step; gives `(u, g)`. -/
def colHouse (nm m n i : Nat) (scale : K) (u : Buf K) : Buf K × K :=
  let su := colNormalize nm m i scale u
  let s := su.1
  let u := su.2
  let f := u (MINDX i i nm)
  let g := -(SIGN (sqrt s) f)
  let h := f * g - s
  let u := u.set (MINDX i i nm) (f - g)
  let u := if i ≠ n then colApply nm m n i h u else u
  (colRescale nm m i scale u, g)

/-- Lines 173-205: the Householder step on column `i`; gives `(u, g, scale)`. -/
def colStep (nm m n i : Nat) (u : Buf K) : Buf K × K × K :=
  if i ≤ m then
    let scale : K := colScale nm m i u
    if eqb scale 0 = false then
      let r := colHouse nm m n i scale u
      (r.1, r.2, scale)
    else (u, 0, scale)
  else (u, 0, 0)

/-- Line 213: `scale` = sum of `fabs(u[i,k])` for `k = i+1..n`. -/
def rowScale (nm n i : Nat) (u : Buf K) : K :=
  forRange (i + 1) n (fun k scale => scale + fabs (u (MINDX i k nm))) 0

/-- Lines 217-222: row `i` is divided by `scale`; gives `(s, u)`. -/
def rowNormalize (nm n i : Nat) (scale : K) (u : Buf K) : K × Buf K :=
  forRange (i + 1) n (fun k su =>
    let t := su.2 (MINDX i k nm) / scale
    (su.1 + t * t, su.2.set (MINDX i k nm) t)) (0, u)

/-- Line 227: `rv1[k] = u[i,k] / h` for `k = i+1..n`. -/
def rowRv1 (nm n i : Nat) (h : K) (u rv1 : Buf K) : Buf K :=
  forRange (i + 1) n (fun k rv1 => rv1.set (VINDX k) (u (MINDX i k nm) / h)) rv1

/-- Lines 230-237: the reflection is applied to the rows `j = i+1..m`. -/
def rowApply (nm m n i : Nat) (rv1 : Buf K) (u : Buf K) : Buf K :=
  forRange (i + 1) m (fun j u =>
    let s : K := forRange (i + 1) n (fun k s => s + u (MINDX j k nm) * u (MINDX i k nm)) 0
    forRange (i + 1) n (fun k u =>
      u.set (MINDX j k nm) (u (MINDX j k nm) + s * rv1 (VINDX k))) u) u

/-- Line 239: row `i` is multiplied by `scale`. -/
def rowRescale (nm n i : Nat) (scale : K) (u : Buf K) : Buf K :=
  forRange (i + 1) n (fun k u => u.set (MINDX i k nm) (u (MINDX i k nm) * scale)) u

/-- Lines 216-240, the branch `scale != 0.0` of the row step; gives `(u, rv1, g)`. -/
def rowHouse (nm m n i : Nat) (scale : K) (u rv1 : Buf K) :
    Buf K × Buf K × K :=
  let L := i + 1
  let su := rowNormalize nm n i scale u
  let s := su.1
  let u := su.2
  let f := u (MINDX i L nm)
  let g := -(SIGN (sqrt s) f)
  let h := f * g - s
  let u := u.set (MINDX i L nm) (f - g)
  let rv1 := rowRv1 nm n i h u rv1
  let u := if i ≠ m then rowApply nm m n i rv1 u else u
  (rowRescale nm n i scale u, rv1, g)

/-- Lines 211-241: the Householder step on row `i`; gives `(u, rv1, g, scale)`. -/
def rowStep (nm m n i : Nat) (u rv1 : Buf K) : Buf K × Buf K × K × K :=
  if i ≤ m ∧ i ≠ n then
    let scale : K := rowScale nm n i u
    if eqb scale 0 = false then
      let r := rowHouse nm m n i scale u rv1
      (r.1, r.2.1, r.2.2, scale)
    else (u, rv1, 0, scale)
  else (u, rv1, 0, 0)

/-- Body of the bidiagonalization loop for one `i` (lines 167-244). -/
def bidiagStep (nm m n i : Nat) (b : BSt K) : BSt K :=
  let rv1 := b.rv1.set (VINDX i) (b.scale * b.g)
  let c := colStep nm m n i b.u
  let w := b.w.set (VINDX i) (c.2.2 * c.2.1)
  let r := rowStep nm m n i c.1 rv1
  let anorm := MAX b.anorm (fabs (w (VINDX i)) + fabs (r.2.1 (VINDX i)))
  { u := r.1, w := w, rv1 := r.2.1, g := r.2.2.1, scale := r.2.2.2, anorm := anorm }

/-- Lines 162-244: Householder reduction to bidiagonal form. -/
def bidiag (nm m n : Nat) (u w rv1 : Buf K) : BSt K :=
  forRange 1 n (bidiagStep nm m n)
    { u := u, w := w, rv1 := rv1, g := 0, scale := 0, anorm := 0 }

/-- Lines 257-258: `v[j,i] = (u[i,j] / u[i,L]) / g` for `j = L..n`. -/
def accVCol (nm n i L : Nat) (u : Buf K) (g : K) (v : Buf K) : Buf K :=
  forRange L n (fun j v =>
    v.set (MINDX j i nm) ((u (MINDX i j nm) / u (MINDX i L nm)) / g)) v

/-- Lines 259-266: the reflection is applied to the columns `j = L..n` of `v`. -/
def accVApply (nm n i L : Nat) (u : Buf K) (v : Buf K) : Buf K :=
  forRange L n (fun j v =>
    let s : K := forRange L n (fun k s => s + u (MINDX i k nm) * v (MINDX k j nm)) 0
    forRange L n (fun k v =>
      v.set (MINDX k j nm) (v (MINDX k j nm) + s * v (MINDX k i nm))) v) v

/-- Lines 268-272: `v[i,j] = 0; v[j,i] = 0` for `j = L..n`. -/
def accVClear (nm n i L : Nat) (v : Buf K) : Buf K :=
  forRange L n (fun j v => (v.set (MINDX i j nm) 0).set (MINDX j i nm) 0) v

/-- Body of the loop of lines 250-278 for one `i`; the state is `(v, g, L)`. -/
def accVStep (nm n : Nat) (u rv1 : Buf K) (i : Nat) (s : Buf K × K × Nat) : Buf K × K × Nat :=
  let v := s.1
  let g := s.2.1
  let L := s.2.2
  let v := if i ≠ n then
      let v := if eqb g 0 = false then accVApply nm n i L u (accVCol nm n i L u g v) else v
      accVClear nm n i L v
    else v
  let v := v.set (MINDX i i nm) 1
  (v, rv1 (VINDX i), i)

/-- Lines 250-278: accumulation of right-hand transformations (under `if (matv)`).
`g` and `L` are the values left by the bidiagonalization loop. -/
def accV (nm n : Nat) (u rv1 : Buf K) (v : Buf K) (g : K) (L : Nat) : Buf K :=
  (forDown (accVStep nm n u rv1) n (v, g, L)).1

/-- Line 293: `u[i,j] = 0` for `j = i+1..n`. -/
def accUClearRow (nm n i : Nat) (u : Buf K) : Buf K :=
  forRange (i + 1) n (fun j u => u.set (MINDX i j nm) 0) u

/-- Lines 300-309: the reflection is applied to the columns `j = i+1..n` of `u`. -/
def accUApply (nm m n i : Nat) (g : K) (u : Buf K) : Buf K :=
  forRange (i + 1) n (fun j u =>
    let s : K := forRange (i + 1) m (fun k s => s + u (MINDX k i nm) * u (MINDX k j nm)) 0
    let f := (s / u (MINDX i i nm)) / g
    forRange i m (fun k u =>
      u.set (MINDX k j nm) (u (MINDX k j nm) + f * u (MINDX k i nm))) u) u

/-- Line 312: `u[j,i] /= g` for `j = i..m`. -/
def accUScale (nm m i : Nat) (g : K) (u : Buf K) : Buf K :=
  forRange i m (fun j u => u.set (MINDX j i nm) (u (MINDX j i nm) / g)) u

/-- Line 316: `u[j,i] = 0` for `j = i..m`. -/
def accUZero (nm m i : Nat) (u : Buf K) : Buf K :=
  forRange i m (fun j u => u.set (MINDX j i nm) 0) u

/-- Body of the loop of lines 287-320 for one `i`. -/
def accUStep (nm m n mn : Nat) (w : Buf K) (i : Nat) (u : Buf K) : Buf K :=
  let g := w (VINDX i)
  let u := if i ≠ n then accUClearRow nm n i u else u
  let u := if eqb g 0 = false then
      let u := if i ≠ mn then accUApply nm m n i g u else u
      accUScale nm m i g u
    else accUZero nm m i u
  u.set (MINDX i i nm) (u (MINDX i i nm) + 1)

/-- Lines 286-320: accumulation of left-hand transformations (under `if (matu)`). -/
def accU (nm m n : Nat) (w : Buf K) (u : Buf K) : Buf K :=
  let mn := MIN m n
  forDown (accUStep nm m n mn w) mn u

/-- Lines 336-343, the test for splitting: the scan `for (L = k; L >= 1; --L)`.
The result is `(L, true)` on `goto L565`, `(L, false)` on `goto L540`, and
`(0, false)` when the loop is left through the bottom (control then falls into
`L540` with `L = 0` and `L1 = 0`). -/
def splitScan (anorm : K) (w rv1 : Buf K) : Nat → Nat × Bool
  | 0 => (0, false)
  | L + 1 =>
    if eqb (fabs (rv1 (VINDX (L + 1))) + anorm) anorm then (L + 1, true)
    else if eqb (fabs (w (VINDX L)) + anorm) anorm then (L + 1, false)
    else splitScan anorm w rv1 L

/-- Lines 364-370: rotation of columns `p` and `q` of the `rows` x . matrix `u`:
`y = u[j,p]; z = u[j,q]; u[j,p] = y*c + z*s; u[j,q] = -y*s + z*c`. -/
def rotCols (nm rows p q : Nat) (c s : K) (u : Buf K) : Buf K :=
  forRange 1 rows (fun j u =>
    let y := u (MINDX j p nm)
    let z := u (MINDX j q nm)
    let u := u.set (MINDX j p nm) (y * c + z * s)
    u.set (MINDX j q nm) (-y * s + z * c)) u

/-- Lines 351-372, the cancellation loop `for (i = L; i <= k; ++i)` with its
`goto L565`; `cnt` is the number of iterations left, `c`, `s` the rotation. -/
def cancelLoop (nm m : Nat) (matu : Int) (anorm : K) (L1 : Nat) :
    Nat → Nat → K → K → St K → St K
  | 0, _, _, _, st => st
  | cnt + 1, i, c, s, st =>
    let f := s * st.rv1 (VINDX i)
    let st := { st with rv1 := st.rv1.set (VINDX i) (st.rv1 (VINDX i) * c) }
    if eqb (fabs f + anorm) anorm then st
    else
      let g := st.w (VINDX i)
      let h := sqrt (f * f + g * g)
      let st := { st with w := st.w.set (VINDX i) h }
      let c := g / h
      let s := -f / h
      let st := if matu ≠ 0 then { st with u := rotCols nm m L1 i c s st.u } else st
      cancelLoop nm m matu anorm L1 cnt (i + 1) c s st

/-- Lines 332-372: from label `L520` to label `L565`; gives the state and `L`. -/
def splitCancel (nm m : Nat) (matu : Int) (anorm : K) (k : Nat)
    (st : St K) : St K × Nat :=
  let r := splitScan anorm st.w st.rv1 k
  let L := r.1
  if r.2 then (st, L)
  else (cancelLoop nm m matu anorm (L - 1) (k + 1 - L) L 0 1 st, L)

/-- Body of the QR loop for one `i1` (lines 401-445). -/
def qrStep (nm m n : Nat) (matu matv : Int) (i1 : Nat) (q : QSt K) : QSt K :=
  let i := i1 + 1
  let g := q.st.rv1 (VINDX i)
  let y := q.st.w (VINDX i)
  let h := q.s * g
  let g := q.c * g
  let z := sqrt (q.f * q.f + h * h)
  let rv1 := q.st.rv1.set (VINDX i1) z
  let c := q.f / z
  let s := h / z
  let f := q.x * c + g * s
  let g := -q.x * s + g * c
  let h := y * s
  let y := y * c
  let v := if matv ≠ 0 then rotCols nm n i1 i c s q.st.v else q.st.v
  let z := sqrt (f * f + h * h)
  let w := q.st.w.set (VINDX i1) z
  let c := if eqb z 0 = false then f / z else c
  let s := if eqb z 0 = false then h / z else s
  let f := c * g + s * y
  let x := -s * g + c * y
  let u := if matu ≠ 0 then rotCols nm m i1 i c s q.st.u else q.st.u
  { st := { u := u, w := w, v := v, rv1 := rv1 }, c := c, s := s, f := f, x := x }

/-- Lines 389-449: the shift from the bottom 2 by 2 minor and one QR sweep;
`z` is `w[VINDX(k)]` as read at `L565`. -/
def qrSweep (nm m n : Nat) (matu matv : Int) (k L : Nat) (z : K)
    (st : St K) : St K :=
  let k1 := k - 1
  let x := st.w (VINDX L)
  let y := st.w (VINDX k1)
  let g := st.rv1 (VINDX k1)
  let h := st.rv1 (VINDX k)
  let f := ((y - z) * (y + z) + (g - h) * (g + h)) / (two * h * y)
  let g := sqrt (f * f + 1)
  let f := ((x - z) * (x + z) + h * (y / (f + SIGN g f) - h)) / x
  let q := forRange L k1 (qrStep nm m n matu matv)
    { st := st, c := 1, s := 1, f := f, x := x }
  let rv1 := q.st.rv1.set (VINDX L) 0
  let rv1 := rv1.set (VINDX k) q.f
  let w := q.st.w.set (VINDX k) q.x
  { q.st with w := w, rv1 := rv1 }

/-- Lines 455-463: the converged `w[VINDX(k)]` is made non-negative. -/
def converge (nm n : Nat) (matv : Int) (k : Nat) (st : St K) : St K :=
  let z := st.w (VINDX k)
  if ltb z 0 then
    let st := { st with w := st.w.set (VINDX k) (-z) }
    if matv ≠ 0 then
      { st with v := forRange 1 n (fun j v =>
          v.set (MINDX j k nm) (-(v (MINDX j k nm)))) st.v }
    else st
  else st

/-- The REPEAT loop of lines 332-463 for one `k`. The first argument is
`30 - its`, the number of QR sweeps still allowed. The result is the state and
whether `k` converged (`false`: the exit `*ierr = k; goto LeaveSvd`). -/
def repeatK (nm m n : Nat) (matu matv : Int) (anorm : K) (k : Nat) :
    Nat → St K → St K × Bool
  | rem, st =>
    let r := splitCancel nm m matu anorm k st
    let st := r.1
    let L := r.2
    let z := st.w (VINDX k)
    if L ≠ k then
      match rem with
      | 0 => (st, false)
      | rem + 1 =>
        repeatK nm m n matu matv anorm k rem (qrSweep nm m n matu matv k L z st)
    else (converge nm n matv k st, true)

/-- Lines 326-465: `for (k = n; k >= 1; --k)`; gives the state and `*ierr`. -/
def diagonalize (nm m n : Nat) (matu matv : Int) (anorm : K) :
    Nat → St K → St K × Int
  | 0, st => (st, 0)
  | k + 1, st =>
    let r := repeatK nm m n matu matv anorm (k + 1) 30 st
    if r.2 then diagonalize nm m n matu matv anorm k r.1
    else (r.1, ((k + 1 : Nat) : Int))

/-- Lines 155-321 of `svd`: the copy of `a`, the bidiagonalization and the two
accumulations; gives the arrays and `anorm` at the start of the diagonalization. -/
def svdPrep (nm m n : Nat) (a w : Buf K) (matu : Int) (u : Buf K)
    (matv : Int) (v rv1 : Buf K) : St K × K :=
  let u := copyAU nm m n a u
  let b := bidiag nm m n u w rv1
  let v := if matv ≠ 0 then accV nm n b.u b.rv1 v b.g (n + 1) else v
  let u := if matu ≠ 0 then accU nm m n b.w b.u else b.u
  ({ u := u, w := b.w, v := v, rv1 := b.rv1 }, b.anorm)

/-- Lines 155-465 of `svd`, after the input check and the allocation of `rv1`. -/
def svdCore (nm m n : Nat) (a w : Buf K) (matu : Int) (u : Buf K)
    (matv : Int) (v rv1 : Buf K) : St K × Int :=
  let p := svdPrep nm m n a w matu u matv v rv1
  diagonalize nm m n matu matv p.2 n p.1

/-- The function `svd` (lines 37-470). `rv1Alloc` is what `malloc` returns. The
result `none` is a store through a `NULL` pointer: `u` at line 157, or `v` at
line 275 when `matv` is set. With `matv == 0` the array `v` is not referenced. -/
def svd (rv1Alloc : Option (Buf K)) (nm m n : Int) (a w : Option (Buf K))
    (matu : Int) (u : Option (Buf K)) (matv : Int) (v : Option (Buf K)) :
    Option (SvdOut K) :=
  if n ≤ 1 ∨ m ≤ 1 ∨ (nm < n ∧ nm < m) ∨ a.isNone ∨ w.isNone then
    some { ret := 0, ierr := -2, u := u, w := w, v := v }
  else
    match rv1Alloc, a, w with
    | some rv1, some a, some w0 =>
      match u with
      | none => none
      | some u0 =>
        if matv ≠ 0 ∧ v.isNone then none
        else
          let r := svdCore nm.toNat m.toNat n.toNat a w0 matu u0 matv
            (v.getD ⟨fun _ => 0⟩) rv1
          some { ret := 0, ierr := r.2, u := some r.1.u, w := some r.1.w,
                 v := v.map (fun _ => r.1.v) }
    | _, _, _ => some { ret := 0, ierr := -1, u := u, w := w, v := v }

end FpModel

end Fp

/-- The operations of `svd.c` on IEEE doubles. -/
instance : Arith Dbl where
  add := Dbl.add
  sub := Dbl.sub
  mul := Dbl.mul
  div := Dbl.div
  neg := Dbl.neg
  zero := Dbl.fin false 0 0
  one := Dbl.fin false 4503599627370496 (-52)
  two := Dbl.fin false 4503599627370496 (-51)
  fabs := Dbl.fabs
  sqrt := Dbl.sqrt
  eqb := Dbl.eq
  ltb := Dbl.lt
  leb := Dbl.le

/-- The array whose first cells are the entries of `l`, and `d` everywhere else. -/
def Buf.ofList {K : Type} (l : List K) (d : K) : Buf K :=
  ⟨fun i => if i < 0 then d else l.getD i.toNat d⟩

/-- The array of doubles that is `+0.0` at every offset. -/
def zeroD : Buf Dbl := ⟨fun _ => Dbl.fin false 0 0⟩

/-- The 2 x 2 matrix `[[2^440, 0], [-2^440, -2^480]]` of doubles (`nm = 2`). -/
def bigD : Buf Dbl :=
  Buf.ofList [Dbl.fin false 4503599627370496 388, Dbl.fin false 0 0,
    Dbl.fin true 4503599627370496 388, Dbl.fin true 4503599627370496 428] (Dbl.fin false 0 0)

/-- The 2 x 2 matrix `[[8 * 2^1020, 0], [15 * 2^1020, 0]]` of doubles (`nm = 2`). -/
def hugeD : Buf Dbl :=
  Buf.ofList [Dbl.fin false 4503599627370496 971, Dbl.fin false 0 0,
    Dbl.fin false 8444249301319680 971, Dbl.fin false 0 0] (Dbl.fin false 0 0)

/-- The rank-1 matrix `[[1, 2], [2, 4]]` of doubles (`nm = 2`). -/
def rank1D : Buf Dbl :=
  Buf.ofList [Dbl.fin false 4503599627370496 (-52), Dbl.fin false 4503599627370496 (-51),
    Dbl.fin false 4503599627370496 (-51), Dbl.fin false 4503599627370496 (-50)]
    (Dbl.fin false 0 0)

/-- The 2 x 3 matrix `[[0, 8 * 2^1020, 15 * 2^1020], [0, 0, 0]]` of doubles (`nm = 3`). -/
def hugeRowD : Buf Dbl :=
  Buf.ofList [Dbl.fin false 0 0, Dbl.fin false 4503599627370496 971,
    Dbl.fin false 8444249301319680 971] (Dbl.fin false 0 0)

/-- The right-hand side `[5, 0]` of doubles. -/
def rhs50D : Buf Dbl := Buf.ofList [Dbl.ofInt 5, Dbl.ofInt 0] (Dbl.fin false 0 0)

/-- The matrix `[[12, 7], [0, 12]]` stored with leading dimension 2; its singular
values are 9 and 16. -/
def mat127 : Buf ℝ :=
  ⟨fun x => if x = 0 then 12 else if x = 1 then 7 else if x = 3 then 12 else 0⟩

/-- Properties of the operations of `double` on which the control flow of the
diagonalization rests: `0.0 * 0.0` is `0.0`; when some `x` passes the test
`(fabs(x) + a) == a`, so does `0.0` (then `a` is not a NaN); the negative `-z`
of a `z < 0.0` satisfies `-z >= 0.0` and not `-z < 0.0`; and a `z` for which
`z < 0.0` is false satisfies `z >= 0.0` unless it is a NaN (`z == z` false). -/
structure Laws (K : Type) [Arith K] : Prop where
  zero_mul_zero : (0 : K) * 0 = 0
  test_zero : ∀ x a : K, Arith.eqb (Arith.fabs x + a) a = true →
    Arith.eqb (Arith.fabs 0 + a) a = true
  neg_of_neg : ∀ z : K, Arith.ltb z 0 = true →
    Arith.leb 0 (-z) = true ∧ Arith.ltb (-z) 0 = false
  nonneg_of_not_neg : ∀ z : K, Arith.ltb z 0 = false →
    Arith.leb 0 z = true ∨ Arith.eqb z z = false

namespace Fp

open Arith

section FpTrace

variable {K : Type} [Arith K]

/-- One pass of the REPEAT loop for index `k` that does not converge: from `L520`
through the split test and the cancellation to the end of the QR sweep
(`goto L520`). -/
def sweepOnce (nm m n : Nat) (matu matv : Int) (anorm : K) (k : Nat)
    (st : St K) : St K :=
  let r := splitCancel nm m matu anorm k st
  qrSweep nm m n matu matv k r.2 (r.1.w (VINDX k)) r.1

/-- The arrays at the top of the loop `for (k = k0; k >= 1; --k)` when it reaches
the index `k`, provided every index above `k` converged (`none` otherwise). -/
def stateAt (nm m n : Nat) (matu matv : Int) (anorm : K) (k : Nat) :
    Nat → St K → Option (St K)
  | 0, st => if k = 0 then some st else none
  | k0 + 1, st =>
    if k0 + 1 = k then some st
    else
      let r := repeatK nm m n matu matv anorm (k0 + 1) 30 st
      if r.2 then stateAt nm m n matu matv anorm k k0 r.1 else none

end FpTrace

end Fp

/-- The matrix `[[1, 2], [3, 4]]` of doubles (`nm = 2`). -/
def mat1234D : Buf Dbl :=
  Buf.ofList [Dbl.ofInt 1, Dbl.ofInt 2, Dbl.ofInt 3, Dbl.ofInt 4] (Dbl.fin false 0 0)

/-- The 3 x 3 matrix `[[2^600, 2^600, 0], [0, 2^600, 0], [0, 0, 1]]` of doubles
(`nm = 3`). -/
def blockD : Buf Dbl :=
  Buf.ofList [Dbl.fin false 4503599627370496 548, Dbl.fin false 4503599627370496 548,
    Dbl.fin false 0 0, Dbl.fin false 0 0, Dbl.fin false 4503599627370496 548,
    Dbl.fin false 0 0, Dbl.fin false 0 0, Dbl.fin false 0 0, Dbl.ofInt 1] (Dbl.fin false 0 0)
/-- The matrix `diag(2, 3, 4)` of doubles (`nm = 3`). -/
def diag234D : Buf Dbl :=
  Buf.ofList [Dbl.ofInt 2, Dbl.ofInt 0, Dbl.ofInt 0, Dbl.ofInt 0, Dbl.ofInt 3, Dbl.ofInt 0,
    Dbl.ofInt 0, Dbl.ofInt 0, Dbl.ofInt 4] (Dbl.fin false 0 0)

/-- The right-hand side `[2, 3, 4]` of doubles. -/
def rhs234D : Buf Dbl := Buf.ofList [Dbl.ofInt 2, Dbl.ofInt 3, Dbl.ofInt 4] (Dbl.fin false 0 0)

/-- The right-hand side `[19, 12]`. -/
def rhs1912 : Buf ℝ := ⟨fun y => if y = 0 then 19 else if y = 1 then 12 else 0⟩

/-- The 2 x 4 matrix `[[1, 0, 0, 0], [0, 0, 2^1023, 2^1023]]` of doubles
(`nm = 4`). -/
def wideD : Buf Dbl :=
  Buf.ofList [Dbl.ofInt 1, Dbl.fin false 0 0, Dbl.fin false 0 0, Dbl.fin false 0 0,
    Dbl.fin false 0 0, Dbl.fin false 0 0, Dbl.fin false 4503599627370496 971,
    Dbl.fin false 4503599627370496 971] (Dbl.fin false 0 0)

/-- The 3 x 5 matrix `[[2^600, 2^600, 0, 0, 0], [0, 2^600, 0, 0, 0],
[0, 0, 0, 2^1023, 2^1023]]` of doubles (`nm = 5`). -/
def wideBlockD : Buf Dbl :=
  Buf.ofList [Dbl.fin false 4503599627370496 548, Dbl.fin false 4503599627370496 548,
    Dbl.fin false 0 0, Dbl.fin false 0 0, Dbl.fin false 0 0,
    Dbl.fin false 0 0, Dbl.fin false 4503599627370496 548,
    Dbl.fin false 0 0, Dbl.fin false 0 0, Dbl.fin false 0 0,
    Dbl.fin false 0 0, Dbl.fin false 0 0, Dbl.fin false 0 0,
    Dbl.fin false 4503599627370496 971, Dbl.fin false 4503599627370496 971] (Dbl.fin false 0 0)

/-- The right-hand side `[2^440, -(2^440 + 2^480)]` of doubles: the product of
`[[2^440, 0], [-2^440, -2^480]]` with `[1, 1]`. -/
def rhsBigD : Buf Dbl :=
  Buf.ofList [Dbl.fin false 4503599627370496 388, Dbl.fin true 4503599627374592 428]
    (Dbl.fin false 0 0)

/-! ## Basic facts about buffers and loops -/

section Basic

variable {K : Type}

theorem Buf.get_set (f : Buf K) (a : Int) (v : K) (x : Int) :
    (f.set a v).get x = if x = a then v else f.get x := rfl

theorem Buf.get_set_same (f : Buf K) (a : Int) (v : K) : (f.set a v).get a = v := by
  simp [Buf.get_set]

theorem Buf.get_set_ne (f : Buf K) {a x : Int} (v : K) (h : x ≠ a) :
    (f.set a v).get x = f.get x := by
  simp [Buf.get_set, h]

theorem Buf.ext_get {f g : Buf K} (h : ∀ x, f.get x = g.get x) : f = g := by
  cases f; cases g; congr; funext x; exact h x

theorem forUp_succ_last {σ : Type} (body : Nat → σ → σ) (cnt lo : Nat) (s : σ) :
    forUp body (cnt + 1) lo s = body (lo + cnt) (forUp body cnt lo s) := by
  induction cnt generalizing lo s with
  | zero => simp [forUp]
  | succ c ih =>
    rw [forUp, ih (lo + 1) (body lo s)]
    have : lo + 1 + c = lo + (c + 1) := by omega
    rw [this]
    rfl

/-- Invariant rule for `forUp`. -/
theorem forUp_induct {σ : Type} (body : Nat → σ → σ) (P : Nat → σ → Prop) (cnt lo : Nat) (s : σ)
    (h0 : P lo s)
    (hstep : ∀ i t, lo ≤ i → i < lo + cnt → P i t → P (i + 1) (body i t)) :
    P (lo + cnt) (forUp body cnt lo s) := by
  induction cnt generalizing lo s with
  | zero => simpa [forUp] using h0
  | succ c ih =>
    rw [forUp]
    have h1 : P (lo + 1) (body lo s) := hstep lo s (le_refl _) (by omega) h0
    have := ih (lo + 1) (body lo s) h1 (fun i t hi hi2 hp => hstep i t (by omega) (by omega) hp)
    have e : lo + 1 + c = lo + (c + 1) := by omega
    rwa [e] at this

/-- Invariant rule for `forRange`. -/
theorem forRange_induct {σ : Type} (body : Nat → σ → σ) (P : Nat → σ → Prop) (lo hi : Nat) (s : σ)
    (hle : lo ≤ hi + 1) (h0 : P lo s)
    (hstep : ∀ i t, lo ≤ i → i ≤ hi → P i t → P (i + 1) (body i t)) :
    P (hi + 1) (forRange lo hi body s) := by
  unfold forRange
  have := forUp_induct body P (hi + 1 - lo) lo s h0
    (fun i t h1 h2 hp => hstep i t h1 (by omega) hp)
  have e : lo + (hi + 1 - lo) = hi + 1 := by omega
  rwa [e] at this

theorem forRange_empty {σ : Type} (body : Nat → σ → σ) (lo hi : Nat) (s : σ) (h : hi < lo) :
    forRange lo hi body s = s := by
  unfold forRange
  have : hi + 1 - lo = 0 := by omega
  rw [this]; rfl

/-- A loop-independent property is kept by `forRange` when every body keeps it. -/
theorem forRange_keep {σ : Type} (body : Nat → σ → σ) (P : σ → Prop) (lo hi : Nat) (s : σ)
    (h0 : P s) (hstep : ∀ i t, lo ≤ i → i ≤ hi → P t → P (body i t)) :
    P (forRange lo hi body s) := by
  by_cases hle : lo ≤ hi + 1
  · exact forRange_induct body (fun _ t => P t) lo hi s hle h0 hstep
  · rw [forRange_empty body lo hi s (by omega)]; exact h0

/-- A loop-independent property is kept by `forDown` when every body keeps it. -/
theorem forDown_keep {σ : Type} (body : Nat → σ → σ) (P : σ → Prop) (n : Nat) (s : σ)
    (h0 : P s) (hstep : ∀ i t, 1 ≤ i → i ≤ n → P t → P (body i t)) :
    P (forDown body n s) := by
  induction n generalizing s with
  | zero => simpa [forDown] using h0
  | succ k ih =>
    rw [forDown]
    exact ih _ (hstep (k + 1) s (by omega) (le_refl _) h0)
      (fun i t h1 h2 hp => hstep i t h1 (by omega) hp)

/-- A loop of stores `buf[j] = g j` for `j = 0 .. cnt-1`. -/
theorem forUp_set_get (g : Nat → K) (cnt : Nat) (buf : Buf K) (x : Int) :
    (forUp (fun j b => b.set (j : Int) (g j)) cnt 0 buf).get x =
      if 0 ≤ x ∧ x < cnt then g x.toNat else buf.get x := by
  induction cnt with
  | zero =>
    have h0 : ¬ (0 ≤ x ∧ x < ((0 : Nat) : Int)) := by omega
    rw [if_neg h0]; rfl
  | succ c ih =>
    rw [forUp_succ_last, Buf.get_set, ih]
    simp only [Nat.zero_add]
    split_ifs with h1 h2 h3 h4 <;> first | rfl | (exfalso; omega) | (congr 1; omega)

end Basic

section SolveFacts

variable {K : Type} [LinearOrderedField K]

/-- An accumulation loop `s += f i` is a finite sum. -/
theorem forUp_sum (f : Nat → K) (cnt : Nat) (s : K) :
    forUp (fun i s => s + f i) cnt 0 s = s + ∑ i ∈ Finset.range cnt, f i := by
  induction cnt with
  | zero => simp [forUp]
  | succ c ih =>
    rw [forUp_succ_last, ih, Finset.sum_range_succ]
    simp [add_assoc]

theorem solveTv_get (nm m n : Nat) (u w b : Buf K) (tol : K) (tv : Buf K) (x : Int) :
    (solveTv nm m n u w b tol tv).get x =
      if 0 ≤ x ∧ x < n then solveT nm m u w b tol x.toNat else tv.get x := by
  unfold solveTv
  have := forUp_set_get (fun j => solveT nm m u w b tol j) n tv x
  rw [← this]
  congr 2
  funext j t
  unfold solveT
  simp only [forUp_sum, zero_add]

theorem solveX_get (nm n : Nat) (v tv x : Buf K) (y : Int) :
    (solveX nm n v tv x).get y =
      if 0 ≤ y ∧ y < n then ∑ i ∈ Finset.range n, v ((y.toNat : Int) * nm + i) * tv i
      else x.get y := by
  unfold solveX
  have := forUp_set_get
    (fun j => ∑ i ∈ Finset.range n, v ((j : Int) * nm + i) * tv (i : Int)) n x y
  rw [← this]
  congr 2
  funext j t
  simp only [forUp_sum, zero_add]

theorem svdsolve_valid (tv : Buf K) (nm m n : Nat) (u w v b x : Buf K) (tol : K)
    (hm : 2 ≤ m) (hn : 2 ≤ n) (hnm : n ≤ nm ∨ m ≤ nm) (htol : 0 < tol) :
    svdsolve (some tv) (nm : Int) m n (some u) (some w) (some v) (some b) (some x) tol =
      { ret := 0, ierr := 0,
        x := some (solveX nm n v (solveTv nm m n u w b tol tv) x) } := by
  unfold svdsolve
  have h : ¬ ((n : Int) ≤ 1 ∨ (m : Int) ≤ 1 ∨ ((nm : Int) < n ∧ (nm : Int) < m) ∨
      (some u).isNone ∨ (some w).isNone ∨ (some v).isNone ∨ (some b).isNone ∨
      (some x).isNone ∨ tol ≤ 0) := by
    simp only [Option.isNone_some, Bool.false_eq_true, or_false, false_or, not_or, not_and,
      not_le, not_lt]
    refine ⟨by omega, by omega, by omega, htol⟩
  rw [if_neg h]
  simp

end SolveFacts

section Checks

variable {K : Type} [LinearOrderedField K]

theorem diagonalize_ierr (nm m n : Nat) (matu matv : Int) (anorm : K) (sqrt : K → K)
    (k : Nat) (st : St K) :
    (diagonalize nm m n matu matv anorm sqrt k st).2 = 0 ∨
      (1 ≤ (diagonalize nm m n matu matv anorm sqrt k st).2 ∧
        (diagonalize nm m n matu matv anorm sqrt k st).2 ≤ k) := by
  induction k generalizing st with
  | zero => left; rfl
  | succ k ih =>
    rw [diagonalize]
    by_cases h : (repeatK nm m n matu matv anorm sqrt (k + 1) 30 st).2 = true
    · simp only [h, if_true]
      rcases ih (repeatK nm m n matu matv anorm sqrt (k + 1) 30 st).1 with h0 | ⟨h1, h2⟩
      · left; exact h0
      · right; exact ⟨h1, by push_cast; omega⟩
    · simp only [h]
      right
      constructor <;> simp

/-- On input that passes the check, with every array present and the workspace
allocated, `svd` runs lines 155-465. -/
theorem svd_valid (sqrt : K → K) (rv1 : Buf K) (nm m n : Nat) (a w : Buf K) (matu : Int)
    (u : Buf K) (matv : Int) (v : Buf K) (hm : 2 ≤ m) (hn : 2 ≤ n) (hnm : n ≤ nm ∨ m ≤ nm) :
    svd sqrt (some rv1) (nm : Int) m n (some a) (some w) matu (some u) matv (some v) =
      some { ret := 0, ierr := (svdCore sqrt nm m n a w matu u matv v rv1).2,
             u := some (svdCore sqrt nm m n a w matu u matv v rv1).1.u,
             w := some (svdCore sqrt nm m n a w matu u matv v rv1).1.w,
             v := some (svdCore sqrt nm m n a w matu u matv v rv1).1.v } := by
  unfold svd
  have h : ¬ ((n : Int) ≤ 1 ∨ (m : Int) ≤ 1 ∨ ((nm : Int) < n ∧ (nm : Int) < m) ∨
      (some a).isNone ∨ (some w).isNone) := by
    simp only [Option.isNone_some, Bool.false_eq_true, or_false, not_or, not_and,
      not_le, not_lt]
    refine ⟨by omega, by omega, by omega⟩
  rw [if_neg h]
  simp

end Checks

/-! ## Control flow of the diagonalization -/

section Diag

variable {K : Type} [LinearOrderedField K]

theorem VINDX_one : VINDX 1 = 0 := by simp [VINDX]

theorem splitScan_le (anorm : K) (w rv1 : Buf K) (k : Nat) :
    (splitScan anorm w rv1 k).1 ≤ k := by
  induction k with
  | zero => simp [splitScan]
  | succ k ih =>
    rw [splitScan]
    split_ifs
    · exact le_refl _
    · exact le_refl _
    · exact Nat.le_succ_of_le ih

theorem splitScan_pos (anorm : K) (w rv1 : Buf K) (k : Nat) (h0 : rv1.get 0 = 0) (hk : 1 ≤ k) :
    1 ≤ (splitScan anorm w rv1 k).1 ∧
      ((splitScan anorm w rv1 k).1 = 1 → (splitScan anorm w rv1 k).2 = true) := by
  induction k with
  | zero => omega
  | succ k ih =>
    rw [splitScan]
    by_cases hk0 : k = 0
    · subst hk0
      have : |rv1.get (VINDX (0 + 1))| + anorm = anorm := by
        simp [VINDX, h0]
      rw [if_pos this]
      simp
    · split_ifs with h1 h2
      · exact ⟨by simp, fun _ => rfl⟩
      · exact ⟨by simp, fun h => by simp at h; omega⟩
      · exact ih (by omega)

theorem cancelLoop_w_frame (nm m : Nat) (matu : Int) (anorm : K) (sqrt : K → K) (L1 : Nat)
    (x : Int) (cnt i : Nat) (c s : K) (st : St K)
    (hx : ∀ j, i ≤ j → j < i + cnt → VINDX j ≠ x) :
    (cancelLoop nm m matu anorm sqrt L1 cnt i c s st).w.get x = st.w.get x := by
  induction cnt generalizing i c s st with
  | zero => rfl
  | succ cnt ih =>
    rw [cancelLoop]
    simp only []
    split_ifs with h1 h2
    · rfl
    · rw [ih _ _ _ _ (fun j h3 h4 => hx j (by omega) (by omega))]
      exact Buf.get_set_ne _ _ (fun h => hx i (le_refl _) (by omega) h.symm)
    · rw [ih _ _ _ _ (fun j h3 h4 => hx j (by omega) (by omega))]
      exact Buf.get_set_ne _ _ (fun h => hx i (le_refl _) (by omega) h.symm)

theorem cancelLoop_rv1_zero (nm m : Nat) (matu : Int) (anorm : K) (sqrt : K → K) (L1 : Nat)
    (x : Int) (cnt i : Nat) (c s : K) (st : St K) (hx : st.rv1.get x = 0) :
    (cancelLoop nm m matu anorm sqrt L1 cnt i c s st).rv1.get x = 0 := by
  induction cnt generalizing i c s st with
  | zero => exact hx
  | succ cnt ih =>
    rw [cancelLoop]
    simp only []
    have key : (st.rv1.set (VINDX i) (st.rv1.get (VINDX i) * c)).get x = 0 := by
      rw [Buf.get_set]
      split_ifs with h
      · rw [← h, hx, zero_mul]
      · exact hx
    split_ifs with h1 h2
    · exact key
    · exact ih _ _ _ _ key
    · exact ih _ _ _ _ key

theorem splitCancel_le (nm m : Nat) (matu : Int) (anorm : K) (sqrt : K → K) (k : Nat)
    (st : St K) : (splitCancel nm m matu anorm sqrt k st).2 ≤ k := by
  unfold splitCancel
  simp only []
  split_ifs <;> exact splitScan_le anorm st.w st.rv1 k

theorem splitCancel_pos (nm m : Nat) (matu : Int) (anorm : K) (sqrt : K → K) (k : Nat)
    (st : St K) (h0 : st.rv1.get 0 = 0) (hk : 1 ≤ k) :
    1 ≤ (splitCancel nm m matu anorm sqrt k st).2 := by
  unfold splitCancel
  simp only []
  split_ifs <;> exact (splitScan_pos anorm st.w st.rv1 k h0 hk).1

theorem splitCancel_w_frame (nm m : Nat) (matu : Int) (anorm : K) (sqrt : K → K) (k : Nat)
    (st : St K) (x : Int) (hx : VINDX k < x) :
    (splitCancel nm m matu anorm sqrt k st).1.w.get x = st.w.get x := by
  unfold splitCancel
  simp only []
  split_ifs
  · rfl
  · apply cancelLoop_w_frame
    intro j h1 h2
    have := splitScan_le anorm st.w st.rv1 k
    unfold VINDX at hx ⊢
    omega

theorem splitCancel_rv1_zero (nm m : Nat) (matu : Int) (anorm : K) (sqrt : K → K) (k : Nat)
    (st : St K) (x : Int) (h0 : st.rv1.get x = 0) :
    (splitCancel nm m matu anorm sqrt k st).1.rv1.get x = 0 := by
  unfold splitCancel
  simp only []
  split_ifs
  · exact h0
  · exact cancelLoop_rv1_zero _ _ _ _ _ _ _ _ _ _ _ _ h0

theorem qrStep_w_frame (nm m n : Nat) (matu matv : Int) (sqrt : K → K) (i1 : Nat) (q : QSt K)
    (x : Int) (hx : x ≠ VINDX i1) :
    (qrStep nm m n matu matv sqrt i1 q).st.w.get x = q.st.w.get x := by
  unfold qrStep
  exact Buf.get_set_ne _ _ hx

theorem qrStep_rv1_frame (nm m n : Nat) (matu matv : Int) (sqrt : K → K) (i1 : Nat) (q : QSt K)
    (x : Int) (hx : x ≠ VINDX i1) :
    (qrStep nm m n matu matv sqrt i1 q).st.rv1.get x = q.st.rv1.get x := by
  unfold qrStep
  exact Buf.get_set_ne _ _ hx

theorem qrSweep_w_frame (nm m n : Nat) (matu matv : Int) (sqrt : K → K) (k L : Nat) (z : K)
    (st : St K) (x : Int) (hx : VINDX k < x) :
    (qrSweep nm m n matu matv sqrt k L z st).w.get x = st.w.get x := by
  unfold qrSweep
  simp only []
  rw [Buf.get_set_ne _ _ (ne_of_gt hx)]
  apply forRange_keep (qrStep nm m n matu matv sqrt) (fun q => q.st.w.get x = st.w.get x)
  · rfl
  · intro i t h1 h2 hp
    rw [qrStep_w_frame _ _ _ _ _ _ _ _ _ (by unfold VINDX at hx ⊢; omega)]
    exact hp

theorem qrSweep_rv1_zero (nm m n : Nat) (matu matv : Int) (sqrt : K → K) (k L : Nat) (z : K)
    (st : St K) (h0 : st.rv1.get 0 = 0) (hL : 1 ≤ L) (hLk : L < k) :
    (qrSweep nm m n matu matv sqrt k L z st).rv1.get 0 = 0 := by
  unfold qrSweep
  simp only []
  rw [Buf.get_set_ne _ _ (by unfold VINDX; omega), Buf.get_set]
  split_ifs with h
  · rfl
  · have hL2 : 2 ≤ L := by
      unfold VINDX at h
      omega
    apply forRange_keep (qrStep nm m n matu matv sqrt) (fun q => q.st.rv1.get 0 = 0)
    · exact h0
    · intro i t h1 h2 hp
      rw [qrStep_rv1_frame _ _ _ _ _ _ _ _ _ (by unfold VINDX; omega)]
      exact hp

theorem converge_w_nonneg (nm n : Nat) (matv : Int) (k : Nat) (st : St K) :
    0 ≤ (converge nm n matv k st).w.get (VINDX k) := by
  unfold converge
  simp only []
  split_ifs with h1 h2
  · show 0 ≤ (st.w.set (VINDX k) (-st.w.get (VINDX k))).get (VINDX k)
    rw [Buf.get_set_same]
    exact le_of_lt (neg_pos.mpr h1)
  · show 0 ≤ (st.w.set (VINDX k) (-st.w.get (VINDX k))).get (VINDX k)
    rw [Buf.get_set_same]
    exact le_of_lt (neg_pos.mpr h1)
  · exact not_lt.mp h1

theorem converge_w_frame (nm n : Nat) (matv : Int) (k : Nat) (st : St K) (x : Int)
    (hx : x ≠ VINDX k) : (converge nm n matv k st).w.get x = st.w.get x := by
  unfold converge
  simp only []
  split_ifs with h1 h2
  · exact Buf.get_set_ne _ _ hx
  · exact Buf.get_set_ne _ _ hx
  · rfl

theorem converge_rv1 (nm n : Nat) (matv : Int) (k : Nat) (st : St K) :
    (converge nm n matv k st).rv1 = st.rv1 := by
  unfold converge
  simp only []
  split_ifs <;> rfl

theorem repeatK_spec (nm m n : Nat) (matu matv : Int) (anorm : K) (sqrt : K → K) (k : Nat)
    (hk : 1 ≤ k) (rem : Nat) (st : St K) (h0 : st.rv1.get 0 = 0) :
    (repeatK nm m n matu matv anorm sqrt k rem st).1.rv1.get 0 = 0 ∧
    (∀ x, VINDX k < x →
      (repeatK nm m n matu matv anorm sqrt k rem st).1.w.get x = st.w.get x) ∧
    ((repeatK nm m n matu matv anorm sqrt k rem st).2 = true →
      0 ≤ (repeatK nm m n matu matv anorm sqrt k rem st).1.w.get (VINDX k)) ∧
    (k = 1 → (repeatK nm m n matu matv anorm sqrt k rem st).2 = true) := by
  have hL1 := splitCancel_pos nm m matu anorm sqrt k st h0 hk
  have hL2 := splitCancel_le nm m matu anorm sqrt k st
  have hr0 := splitCancel_rv1_zero nm m matu anorm sqrt k st 0 h0
  have hwf := splitCancel_w_frame nm m matu anorm sqrt k st
  induction rem generalizing st with
  | zero =>
    rw [repeatK]
    split_ifs with hL
    · refine ⟨hr0, hwf, fun h => by simp at h, fun h1 => ?_⟩
      exact absurd (by omega) hL
    · refine ⟨?_, ?_, fun _ => converge_w_nonneg _ _ _ _ _, fun _ => rfl⟩
      · rw [converge_rv1]; exact hr0
      · intro x hx
        rw [converge_w_frame _ _ _ _ _ _ (ne_of_gt hx)]
        exact hwf x hx
  | succ rem ih =>
    rw [repeatK]
    split_ifs with hL
    · have hq0 := qrSweep_rv1_zero nm m n matu matv sqrt k
        (splitCancel nm m matu anorm sqrt k st).2
        ((splitCancel nm m matu anorm sqrt k st).1.w.get (VINDX k))
        (splitCancel nm m matu anorm sqrt k st).1 hr0 hL1 (by omega)
      have := ih _ hq0 (splitCancel_pos nm m matu anorm sqrt k _ hq0 hk)
        (splitCancel_le nm m matu anorm sqrt k _)
        (splitCancel_rv1_zero nm m matu anorm sqrt k _ 0 hq0)
        (splitCancel_w_frame nm m matu anorm sqrt k _)
      refine ⟨this.1, ?_, this.2.2.1, this.2.2.2⟩
      intro x hx
      rw [this.2.1 x hx, qrSweep_w_frame _ _ _ _ _ _ _ _ _ _ _ hx]
      exact hwf x hx
    · refine ⟨?_, ?_, fun _ => converge_w_nonneg _ _ _ _ _, fun _ => rfl⟩
      · rw [converge_rv1]; exact hr0
      · intro x hx
        rw [converge_w_frame _ _ _ _ _ _ (ne_of_gt hx)]
        exact hwf x hx

theorem repeatK_fail (nm m n : Nat) (matu matv : Int) (anorm : K) (sqrt : K → K) (k : Nat)
    (rem : Nat) (st : St K)
    (h : (repeatK nm m n matu matv anorm sqrt k rem st).2 = false) :
    (∀ j, j ≤ rem →
      (splitCancel nm m matu anorm sqrt k
        ((sweepOnce nm m n matu matv anorm sqrt k)^[j] st)).2 ≠ k) ∧
    (repeatK nm m n matu matv anorm sqrt k rem st).1 =
      (splitCancel nm m matu anorm sqrt k
        ((sweepOnce nm m n matu matv anorm sqrt k)^[rem] st)).1 := by
  induction rem generalizing st with
  | zero =>
    rw [repeatK] at h ⊢
    split_ifs at h ⊢ with hL
    · refine ⟨fun j hj => ?_, rfl⟩
      have : j = 0 := by omega
      subst this
      exact hL
  | succ rem ih =>
    rw [repeatK] at h ⊢
    split_ifs at h ⊢ with hL
    · have := ih (sweepOnce nm m n matu matv anorm sqrt k st) h
      refine ⟨fun j hj => ?_, ?_⟩
      · cases j with
        | zero => exact hL
        | succ j =>
          rw [Function.iterate_succ_apply]
          exact this.1 j (by omega)
      · rw [Function.iterate_succ_apply]
        exact this.2

theorem diagonalize_fail (nm m n : Nat) (matu matv : Int) (anorm : K) (sqrt : K → K)
    (k0 : Nat) (st : St K) (k : Nat) (hk : 0 < k)
    (h : (diagonalize nm m n matu matv anorm sqrt k0 st).2 = (k : Int)) :
    ∃ st0, stateAt nm m n matu matv anorm sqrt k k0 st = some st0 ∧
      repeatK nm m n matu matv anorm sqrt k 30 st0 =
        ((diagonalize nm m n matu matv anorm sqrt k0 st).1, false) := by
  induction k0 generalizing st with
  | zero =>
    rw [diagonalize] at h
    simp only [] at h
    omega
  | succ k0 ih =>
    rw [diagonalize] at h ⊢
    rw [stateAt]
    simp only [] at h ⊢
    by_cases hr : (repeatK nm m n matu matv anorm sqrt (k0 + 1) 30 st).2 = true
    · rw [if_pos hr] at h ⊢
      have hle : k ≤ k0 := by
        rcases diagonalize_ierr nm m n matu matv anorm sqrt k0
          (repeatK nm m n matu matv anorm sqrt (k0 + 1) 30 st).1 with h1 | ⟨_, h2⟩
        · rw [h] at h1; omega
        · rw [h] at h2; omega
      rw [if_neg (by omega), if_pos hr]
      exact ih _ h
    · rw [if_neg hr] at h ⊢
      simp only [Nat.cast_inj] at h
      rw [if_pos h]
      refine ⟨st, rfl, ?_⟩
      subst h
      simp only [Bool.not_eq_true] at hr
      rw [if_neg (by simp [hr]), ← hr]

theorem stateAt_inv (nm m n : Nat) (matu matv : Int) (anorm : K) (sqrt : K → K)
    (k k0 : Nat) (st st0 : St K)
    (h : stateAt nm m n matu matv anorm sqrt k k0 st = some st0)
    (h0 : st.rv1.get 0 = 0)
    (hw : ∀ j, k0 < j → j ≤ n → 0 ≤ st.w.get (VINDX j)) :
    k ≤ k0 ∧ st0.rv1.get 0 = 0 ∧ ∀ j, k < j → j ≤ n → 0 ≤ st0.w.get (VINDX j) := by
  induction k0 generalizing st with
  | zero =>
    rw [stateAt] at h
    split_ifs at h with hk
    cases h
    exact ⟨by omega, h0, fun j h1 h2 => hw j (by omega) h2⟩
  | succ k0 ih =>
    rw [stateAt] at h
    simp only [] at h
    split_ifs at h with hk hr
    · cases h
      exact ⟨by omega, h0, fun j h1 h2 => hw j (by omega) h2⟩
    · have sp := repeatK_spec nm m n matu matv anorm sqrt (k0 + 1) (by omega) 30 st h0
      have := ih _ h sp.1 (fun j h1 h2 => by
        by_cases hj : j = k0 + 1
        · subst hj; exact sp.2.2.1 hr
        · rw [sp.2.1 _ (by unfold VINDX; omega)]
          exact hw j (by omega) h2)
      exact ⟨by omega, this.2⟩

theorem diagonalize_ok (nm m n : Nat) (matu matv : Int) (anorm : K) (sqrt : K → K)
    (k0 : Nat) (st : St K)
    (h : (diagonalize nm m n matu matv anorm sqrt k0 st).2 = 0)
    (h0 : st.rv1.get 0 = 0)
    (hw : ∀ j, k0 < j → j ≤ n → 0 ≤ st.w.get (VINDX j)) :
    ∀ j, 1 ≤ j → j ≤ n → 0 ≤ (diagonalize nm m n matu matv anorm sqrt k0 st).1.w.get (VINDX j) := by
  induction k0 generalizing st with
  | zero =>
    rw [diagonalize]
    exact fun j h1 h2 => hw j (by omega) h2
  | succ k0 ih =>
    rw [diagonalize] at h ⊢
    split_ifs at h ⊢ with hr
    · have sp := repeatK_spec nm m n matu matv anorm sqrt (k0 + 1) (by omega) 30 st h0
      exact ih _ h sp.1 (fun j h1 h2 => by
        by_cases hj : j = k0 + 1
        · subst hj; exact sp.2.2.1 hr
        · rw [sp.2.1 _ (by unfold VINDX; omega)]
          exact hw j (by omega) h2)
    · simp only at h
      omega

theorem diagonalize_ierr_ne_one (nm m n : Nat) (matu matv : Int) (anorm : K) (sqrt : K → K)
    (k0 : Nat) (st : St K) (h0 : st.rv1.get 0 = 0) :
    (diagonalize nm m n matu matv anorm sqrt k0 st).2 ≠ 1 := by
  induction k0 generalizing st with
  | zero => rw [diagonalize]; simp
  | succ k0 ih =>
    rw [diagonalize]
    have sp := repeatK_spec nm m n matu matv anorm sqrt (k0 + 1) (by omega) 30 st h0
    split_ifs with hr
    · exact ih _ sp.1
    · intro h
      simp only at h
      have : k0 + 1 = 1 := by omega
      exact hr (sp.2.2.2 this)

theorem rowRv1_frame (nm n i : Nat) (h : K) (u rv1 : Buf K) (x : Int)
    (hx : x ≤ VINDX i) : (rowRv1 nm n i h u rv1).get x = rv1.get x := by
  unfold rowRv1
  apply forRange_keep _ (fun r : Buf K => r.get x = rv1.get x)
  · rfl
  · intro k t h1 h2 hp
    rw [Buf.get_set_ne _ _ (by unfold VINDX at hx ⊢; omega)]
    exact hp

theorem rowStep_rv1_frame (sqrt : K → K) (nm m n i : Nat) (u rv1 : Buf K) (x : Int)
    (hx : x ≤ VINDX i) : (rowStep sqrt nm m n i u rv1).2.1.get x = rv1.get x := by
  unfold rowStep
  simp only []
  split_ifs
  · exact rowRv1_frame nm n i _ _ rv1 x hx
  · rfl
  · rfl

theorem bidiag_rv1_zero (sqrt : K → K) (nm m n : Nat) (u w rv1 : Buf K) (hn : 1 ≤ n) :
    (bidiag sqrt nm m n u w rv1).rv1.get 0 = 0 := by
  unfold bidiag
  have := forRange_induct (bidiagStep sqrt nm m n)
    (fun i b => (i = 1 → b.scale = 0) ∧ (2 ≤ i → b.rv1.get 0 = 0)) 1 n
    { u := u, w := w, rv1 := rv1, g := 0, scale := 0, anorm := 0 } (by omega)
    ⟨fun _ => rfl, fun h => by omega⟩
    (fun i b h1 h2 hp => by
      refine ⟨fun h => by omega, fun _ => ?_⟩
      show (rowStep sqrt nm m n i _ _).2.1.get 0 = 0
      rw [rowStep_rv1_frame _ _ _ _ _ _ _ _ (by unfold VINDX; omega), Buf.get_set]
      split_ifs with h3
      · have hi : i = 1 := by unfold VINDX at h3; omega
        rw [hp.1 hi, zero_mul]
      · exact hp.2 (by unfold VINDX at h3; omega))
  exact this.2 (by omega)

theorem svdPrep_rv1_zero (sqrt : K → K) (nm m n : Nat) (a w : Buf K) (matu : Int) (u : Buf K)
    (matv : Int) (v rv1 : Buf K) (hn : 1 ≤ n) :
    (svdPrep sqrt nm m n a w matu u matv v rv1).1.rv1.get 0 = 0 := by
  unfold svdPrep
  exact bidiag_rv1_zero sqrt nm m n _ _ _ hn

/-- On input that passes the check, with `a`, `w`, `u` present and the workspace
allocated, a call of `svd` that returns has run lines 155-465. -/
theorem svd_eq_some (sqrt : K → K) (rv1 : Buf K) (nm m n : Nat) (a w : Buf K) (matu : Int)
    (u : Buf K) (matv : Int) (v : Option (Buf K)) (hm : 2 ≤ m) (hn : 2 ≤ n)
    (hnm : n ≤ nm ∨ m ≤ nm) (out : SvdOut K)
    (h : svd sqrt (some rv1) (nm : Int) m n (some a) (some w) matu (some u) matv v = some out) :
    out = { ret := 0,
            ierr := (svdCore sqrt nm m n a w matu u matv (v.getD ⟨fun _ => 0⟩) rv1).2,
            u := some (svdCore sqrt nm m n a w matu u matv (v.getD ⟨fun _ => 0⟩) rv1).1.u,
            w := some (svdCore sqrt nm m n a w matu u matv (v.getD ⟨fun _ => 0⟩) rv1).1.w,
            v := v.map (fun _ =>
              (svdCore sqrt nm m n a w matu u matv (v.getD ⟨fun _ => 0⟩) rv1).1.v) } := by
  unfold svd at h
  have hc : ¬ ((n : Int) ≤ 1 ∨ (m : Int) ≤ 1 ∨ ((nm : Int) < n ∧ (nm : Int) < m) ∨
      (some a).isNone ∨ (some w).isNone) := by
    simp only [Option.isNone_some, Bool.false_eq_true, or_false, not_or, not_and,
      not_le, not_lt]
    refine ⟨by omega, by omega, by omega⟩
  rw [if_neg hc] at h
  simp only [Int.toNat_ofNat] at h
  split_ifs at h with h1
  simp only [Option.some.injEq] at h
  exact h.symm

end Diag

/-! ## The truncated pseudo-inverse -/

section Pinv

open Matrix

variable {K : Type} [LinearOrderedField K]

theorem pinv_square {n : Nat} (Um Vm : Matrix (Fin n) (Fin n) K)
    (w : Fin n → K) (b : Fin n → K) (t : Fin n → K)
    (hU : Umᵀ * Um = 1) (hV1 : Vmᵀ * Vm = 1)
    (ht : ∀ i, w i * t i = (Umᵀ *ᵥ b) i) :
    (Um * diagonal w * Vmᵀ) *ᵥ (Vm *ᵥ t) = b := by
  have hU2 : Um * Umᵀ = 1 := (Matrix.mul_eq_one_comm).mp hU
  rw [mulVec_mulVec, Matrix.mul_assoc, hV1, Matrix.mul_one, ← mulVec_mulVec]
  have : diagonal w *ᵥ t = Umᵀ *ᵥ b := by
    funext i
    rw [mulVec_diagonal]
    exact ht i
  rw [this, mulVec_mulVec, hU2, one_mulVec]

theorem matOf_mulVec (nm rows cols : Nat) (buf : Buf K) (x : Buf K) (i : Fin rows) :
    (matOf nm rows cols buf *ᵥ vecOf cols x) i =
      ∑ l ∈ Finset.range cols, buf (((i : Nat) : Int) * nm + (l : Int)) * x (l : Int) := by
  unfold mulVec dotProduct matOf vecOf
  exact Fin.sum_univ_eq_sum_range
    (fun l => buf.get (((i : Nat) : Int) * nm + (l : Int)) * x.get (l : Int)) cols

theorem matOf_transpose_mulVec (nm rows cols : Nat) (buf : Buf K) (y : Fin rows → K)
    (j : Fin cols) :
    ((matOf nm rows cols buf)ᵀ *ᵥ y) j =
      ∑ i : Fin rows, buf (((i : Nat) : Int) * nm + ((j : Nat) : Int)) * y i := by
  unfold mulVec dotProduct matOf
  rfl

theorem matOf_gram (nm rows cols : Nat) (buf : Buf K)
    (h : ∀ p q : Nat, p < cols → q < cols →
      ∑ i ∈ Finset.range rows, buf ((i : Int) * nm + p) * buf ((i : Int) * nm + q) =
        if p = q then 1 else 0) :
    (matOf nm rows cols buf)ᵀ * matOf nm rows cols buf = 1 := by
  ext p q
  rw [Matrix.mul_apply, Matrix.one_apply]
  have := h p q p.2 q.2
  rw [← Fin.sum_univ_eq_sum_range
    (fun i => buf.get ((i : Int) * nm + (p : Nat)) * buf.get ((i : Int) * nm + (q : Nat)))] at this
  simp only [Fin.ext_iff]
  exact this

theorem matOf_factor (nm m n : Nat) (A U w V : Buf K)
    (h : ∀ i j : Nat, i < m → j < n →
      A ((i : Int) * nm + j) =
        ∑ r ∈ Finset.range n, U ((i : Int) * nm + r) * w (r : Int) * V ((j : Int) * nm + r)) :
    matOf nm m n A = matOf nm m n U * diagonal (vecOf n w) * (matOf nm n n V)ᵀ := by
  ext i j
  rw [Matrix.mul_apply]
  have := h i j i.2 j.2
  rw [← Fin.sum_univ_eq_sum_range
    (fun r => U.get (((i : Nat) : Int) * nm + r) * w.get (r : Int) *
      V.get (((j : Nat) : Int) * nm + r))] at this
  simp only [Matrix.mul_diagonal, Matrix.transpose_apply]
  exact this

end Pinv

/-! ## Loops over matrix cells -/

section Loops

variable {K : Type} [LinearOrderedField K]

/-- Offsets of distinct cells of a matrix with leading dimension `nm` are distinct. -/
theorem MINDX_inj {nm i j i' j' : Nat} (hi : 1 ≤ i) (hi' : 1 ≤ i') (hj : 1 ≤ j) (hj' : 1 ≤ j')
    (hjn : j ≤ nm) (hjn' : j' ≤ nm) (h : MINDX i j nm = MINDX i' j' nm) : i = i' ∧ j = j' := by
  unfold MINDX at h
  obtain ⟨a, rfl⟩ : ∃ a, i = a + 1 := ⟨i - 1, by omega⟩
  obtain ⟨a', rfl⟩ : ∃ a', i' = a' + 1 := ⟨i' - 1, by omega⟩
  obtain ⟨c, rfl⟩ : ∃ c, j = c + 1 := ⟨j - 1, by omega⟩
  obtain ⟨c', rfl⟩ : ∃ c', j' = c' + 1 := ⟨j' - 1, by omega⟩
  have h2 : a * nm + c = a' * nm + c' := by
    have : ((a * nm + c : Nat) : Int) = ((a' * nm + c' : Nat) : Int) := by
      push_cast at h ⊢
      linarith
    exact_mod_cast this
  have hc : c < nm := by omega
  have hc' : c' < nm := by omega
  have hnm : 0 < nm := by omega
  have e1 : (a * nm + c) / nm = a := by
    rw [Nat.add_comm, Nat.add_mul_div_right _ _ hnm, Nat.div_eq_of_lt hc, Nat.zero_add]
  have e2 : (a' * nm + c') / nm = a' := by
    rw [Nat.add_comm, Nat.add_mul_div_right _ _ hnm, Nat.div_eq_of_lt hc', Nat.zero_add]
  have e3 : a = a' := by rw [← e1, ← e2, h2]
  subst e3
  have : c = c' := by omega
  exact ⟨rfl, by omega⟩

theorem MINDX_ne {nm i j i' j' : Nat} (hi : 1 ≤ i) (hi' : 1 ≤ i') (hj : 1 ≤ j) (hj' : 1 ≤ j')
    (hjn : j ≤ nm) (hjn' : j' ≤ nm) (h : i ≠ i' ∨ j ≠ j') : MINDX i j nm ≠ MINDX i' j' nm := by
  intro e
  have := MINDX_inj hi hi' hj hj' hjn hjn' e
  rcases h with h | h
  · exact h this.1
  · exact h this.2

theorem VINDX_inj {i j : Nat} (h : VINDX i = VINDX j) : i = j := by
  unfold VINDX at h; omega

/-- An accumulation loop `s += f k` over `k = lo..hi` is a finite sum. -/
theorem forRange_sum (f : Nat → K) (lo hi : Nat) :
    forRange lo hi (fun k s => s + f k) 0 = ∑ k ∈ Finset.Icc lo hi, f k := by
  by_cases h : lo ≤ hi + 1
  · have := forRange_induct (fun k (s : K) => s + f k)
      (fun i s => s = ∑ k ∈ Finset.Ico lo i, f k) lo hi 0 h (by simp)
      (fun i t h1 h2 hp => by
        show t + f i = ∑ k ∈ Finset.Ico lo (i + 1), f k
        have hp' : t = ∑ k ∈ Finset.Ico lo i, f k := hp
        rw [Finset.sum_Ico_succ_top h1, hp'])
    have this' : forRange lo hi (fun k s => s + f k) 0 = ∑ k ∈ Finset.Ico lo (hi + 1), f k := this
    rw [this', Nat.Ico_succ_right]
  · rw [forRange_empty _ _ _ _ (by omega)]
    rw [Finset.Icc_eq_empty (by omega)]
    simp

/-- A loop whose iteration `j` writes only the cells `R j`, the regions being
disjoint, and whose result on `R j` is `F j t` for the state `t` it starts from,
`F j t` reading only cells that earlier iterations do not write. -/
theorem forRange_region (body : Nat → Buf K → Buf K) (R : Nat → Int → Prop)
    (F : Nat → Buf K → Int → K) (lo hi : Nat) (u0 : Buf K)
    (hin : ∀ j t x, lo ≤ j → j ≤ hi → R j x → (body j t).get x = F j t x)
    (hout : ∀ j t x, lo ≤ j → j ≤ hi → ¬ R j x → (body j t).get x = t.get x)
    (hdisj : ∀ j j' x, lo ≤ j → j ≤ hi → lo ≤ j' → j' ≤ hi → R j x → R j' x → j = j')
    (hF : ∀ j t x, lo ≤ j → j ≤ hi → R j x →
      (∀ y, (∀ j', lo ≤ j' → j' < j → ¬ R j' y) → t.get y = u0.get y) → F j t x = F j u0 x) :
    (∀ j x, lo ≤ j → j ≤ hi → R j x → (forRange lo hi body u0).get x = F j u0 x) ∧
    (∀ x, (∀ j, lo ≤ j → j ≤ hi → ¬ R j x) → (forRange lo hi body u0).get x = u0.get x) := by
  by_cases h : lo ≤ hi + 1
  · have := forRange_induct body
      (fun i t => (∀ j x, lo ≤ j → j < i → R j x → t.get x = F j u0 x) ∧
        (∀ x, (∀ j, lo ≤ j → j < i → ¬ R j x) → t.get x = u0.get x)) lo hi u0 h
      ⟨fun j x h1 h2 => by omega, fun x _ => rfl⟩
      (fun i t h1 h2 hp => by
        constructor
        · intro j x hj1 hj2 hR
          by_cases hji : j = i
          · subst hji
            rw [hin j t x h1 h2 hR]
            exact hF j t x h1 h2 hR hp.2
          · have hne : ¬ R i x := fun hRi => hji (hdisj j i x hj1 (by omega) h1 h2 hR hRi)
            rw [hout i t x h1 h2 hne]
            exact hp.1 j x hj1 (by omega) hR
        · intro x hx
          rw [hout i t x h1 h2 (hx i h1 (by omega))]
          exact hp.2 x (fun j hj1 hj2 => hx j hj1 (by omega)))
    exact ⟨fun j x h1 h2 hR => this.1 j x h1 (by omega) hR,
      fun x hx => this.2 x (fun j h1 h2 => hx j h1 (by omega))⟩
  · rw [forRange_empty _ _ _ _ (by omega)]
    exact ⟨fun j x h1 h2 => by omega, fun x _ => rfl⟩

/-- A loop of stores `u[idx k] = val k u` at distinct offsets. -/
theorem forRange_set (idx : Nat → Int) (val : Nat → Buf K → K) (lo hi : Nat) (u0 : Buf K)
    (hinj : ∀ k k', lo ≤ k → k ≤ hi → lo ≤ k' → k' ≤ hi → idx k = idx k' → k = k')
    (hval : ∀ k t, lo ≤ k → k ≤ hi →
      (∀ y, (∀ k', lo ≤ k' → k' < k → y ≠ idx k') → t.get y = u0.get y) → val k t = val k u0) :
    (∀ k, lo ≤ k → k ≤ hi →
      (forRange lo hi (fun k u => u.set (idx k) (val k u)) u0).get (idx k) = val k u0) ∧
    (∀ x, (∀ k, lo ≤ k → k ≤ hi → x ≠ idx k) →
      (forRange lo hi (fun k u => u.set (idx k) (val k u)) u0).get x = u0.get x) := by
  have := forRange_region (fun k u => u.set (idx k) (val k u)) (fun k x => x = idx k)
    (fun k t _ => val k t) lo hi u0
    (fun j t x _ _ hR => by rw [hR]; exact Buf.get_set_same _ _ _)
    (fun j t x _ _ hR => Buf.get_set_ne _ _ hR)
    (fun j j' x h1 h2 h3 h4 hR hR' => hinj j j' h1 h2 h3 h4 (by rw [← hR, ← hR']))
    (fun j t x h1 h2 _ ht => hval j t h1 h2 ht)
  exact ⟨fun k h1 h2 => this.1 k (idx k) h1 h2 rfl, this.2⟩

/-- The 1-based cell `(i+1, j+1)` is at the 0-based offset `i * nm + j`. -/
theorem MINDX_succ (i j nm : Nat) : MINDX (i + 1) (j + 1) nm = (i : Int) * nm + j := by
  unfold MINDX
  push_cast
  ring

/-- A sum over the 1-based indices `1..n` as a sum over `0..n-1`. -/
theorem sum_Icc_one_eq_range (f : Nat → K) (n : Nat) :
    ∑ r ∈ Finset.Icc 1 n, f r = ∑ i ∈ Finset.range n, f (i + 1) := by
  induction n with
  | zero => simp
  | succ k ih =>
    rw [Finset.sum_Icc_succ_top (by omega), ih, Finset.sum_range_succ]

end Loops

/-! ## Plane rotations of columns -/

section Rot

variable {K : Type} [LinearOrderedField K]

theorem gram_lin (X : Nat → Nat → K) (r0 r1 a b c d : Nat) (α β γ δ : K) :
    ∑ i ∈ Finset.Icc r0 r1, (α * X i a + β * X i b) * (γ * X i c + δ * X i d) =
      α * γ * (∑ i ∈ Finset.Icc r0 r1, X i a * X i c) +
      α * δ * (∑ i ∈ Finset.Icc r0 r1, X i a * X i d) +
      β * γ * (∑ i ∈ Finset.Icc r0 r1, X i b * X i c) +
      β * δ * (∑ i ∈ Finset.Icc r0 r1, X i b * X i d) := by
  simp only [Finset.mul_sum, ← Finset.sum_add_distrib]
  apply Finset.sum_congr rfl
  intro i _
  ring

/-- A plane rotation of two columns keeps the columns orthonormal. -/
theorem ColsON_rot (X Y : Nat → Nat → K) (r0 r1 c0 c1 p q : Nat) (c s : K)
    (hpq : p ≠ q) (hp : c0 ≤ p ∧ p ≤ c1) (hq : c0 ≤ q ∧ q ≤ c1) (hcs : c * c + s * s = 1)
    (hYp : ∀ i, r0 ≤ i → i ≤ r1 → Y i p = X i p * c + X i q * s)
    (hYq : ∀ i, r0 ≤ i → i ≤ r1 → Y i q = -X i p * s + X i q * c)
    (hY : ∀ i j, r0 ≤ i → i ≤ r1 → c0 ≤ j → j ≤ c1 → j ≠ p → j ≠ q → Y i j = X i j)
    (hX : ColsON X r0 r1 c0 c1) : ColsON Y r0 r1 c0 c1 := by
  have col : ∀ j, c0 ≤ j → j ≤ c1 → ∃ α β : K, ∃ a b : Nat, (c0 ≤ j → j ≤ c1 → (c0 ≤ a ∧ a ≤ c1) ∧ (c0 ≤ b ∧ b ≤ c1)) ∧
      (∀ i, r0 ≤ i → i ≤ r1 → Y i j = α * X i a + β * X i b) ∧
      (j = p → α = c ∧ β = s ∧ a = p ∧ b = q) ∧ (j = q → α = -s ∧ β = c ∧ a = p ∧ b = q) ∧
      (j ≠ p → j ≠ q → α = 1 ∧ β = 0 ∧ a = j ∧ b = j) := by
    intro j hj1 hj2
    by_cases h1 : j = p
    · refine ⟨c, s, p, q, fun _ _ => ⟨hp, hq⟩, fun i hi1 hi2 => ?_, fun _ => ⟨rfl, rfl, rfl, rfl⟩,
        fun h => absurd (h1.symm.trans h) hpq, fun h => absurd h1 h⟩
      rw [h1, hYp i hi1 hi2]; ring
    · by_cases h2 : j = q
      · refine ⟨-s, c, p, q, fun _ _ => ⟨hp, hq⟩, fun i hi1 hi2 => ?_, fun h => absurd h h1,
          fun _ => ⟨rfl, rfl, rfl, rfl⟩, fun _ h => absurd h2 h⟩
        rw [h2, hYq i hi1 hi2]; ring
      · refine ⟨1, 0, j, j, fun a b => ⟨⟨a, b⟩, ⟨a, b⟩⟩, fun i hi1 hi2 => ?_, fun h => absurd h h1,
          fun h => absurd h h2, fun _ _ => ⟨rfl, rfl, rfl, rfl⟩⟩
        rw [hY i j hi1 hi2 hj1 hj2 h1 h2]; ring
  intro a b ha1 ha2 hb1 hb2
  obtain ⟨α, β, a1, a2, hA, hYa, hap, haq, han⟩ := col a ha1 ha2
  obtain ⟨γ, δ, b1, b2, hB, hYb, hbp, hbq, hbn⟩ := col b hb1 hb2
  have e : ∑ i ∈ Finset.Icc r0 r1, Y i a * Y i b =
      ∑ i ∈ Finset.Icc r0 r1, (α * X i a1 + β * X i a2) * (γ * X i b1 + δ * X i b2) := by
    apply Finset.sum_congr rfl
    intro i hi
    rw [Finset.mem_Icc] at hi
    rw [hYa i hi.1 hi.2, hYb i hi.1 hi.2]
  rw [e, gram_lin]
  have gpp := hX p p hp.1 hp.2 hp.1 hp.2
  have gqq := hX q q hq.1 hq.2 hq.1 hq.2
  have gpq := hX p q hp.1 hp.2 hq.1 hq.2
  have gqp := hX q p hq.1 hq.2 hp.1 hp.2
  rw [if_pos rfl] at gpp gqq
  rw [if_neg hpq] at gpq
  rw [if_neg (Ne.symm hpq)] at gqp
  by_cases h1 : a = p
  · obtain ⟨e11, e21, e31, e41⟩ := hap h1
    rw [e11, e21, e31, e41]
    by_cases h3 : b = p
    · obtain ⟨e12, e22, e32, e42⟩ := hbp h3
      rw [e12, e22, e32, e42]
      rw [gpp, gqq, gpq, gqp, if_pos (h1.trans h3.symm)]
      linear_combination hcs
    · by_cases h4 : b = q
      · obtain ⟨e13, e23, e33, e43⟩ := hbq h4
        rw [e13, e23, e33, e43]
        rw [gpp, gqq, gpq, gqp, if_neg (by rw [h1, h4]; exact hpq)]
        ring
      · obtain ⟨e14, e24, e34, e44⟩ := hbn h3 h4
        rw [e14, e24, e34, e44]
        rw [hX _ _ hp.1 hp.2 hb1 hb2, hX _ _ hq.1 hq.2 hb1 hb2, if_neg (Ne.symm h3),
          if_neg (Ne.symm h4), if_neg (by rw [h1]; exact Ne.symm h3)]
        ring
  · by_cases h2 : a = q
    · obtain ⟨e15, e25, e35, e45⟩ := haq h2
      rw [e15, e25, e35, e45]
      by_cases h3 : b = p
      · obtain ⟨e16, e26, e36, e46⟩ := hbp h3
        rw [e16, e26, e36, e46]
        rw [gpp, gqq, gpq, gqp, if_neg (by rw [h2, h3]; exact Ne.symm hpq)]
        ring
      · by_cases h4 : b = q
        · obtain ⟨e17, e27, e37, e47⟩ := hbq h4
          rw [e17, e27, e37, e47]
          rw [gpp, gqq, gpq, gqp, if_pos (h2.trans h4.symm)]
          linear_combination hcs
        · obtain ⟨e18, e28, e38, e48⟩ := hbn h3 h4
          rw [e18, e28, e38, e48]
          rw [hX _ _ hp.1 hp.2 hb1 hb2, hX _ _ hq.1 hq.2 hb1 hb2, if_neg (Ne.symm h3),
            if_neg (Ne.symm h4), if_neg (by rw [h2]; exact Ne.symm h4)]
          ring
    · obtain ⟨e19, e29, e39, e49⟩ := han h1 h2
      rw [e19, e29, e39, e49]
      by_cases h3 : b = p
      · obtain ⟨e110, e210, e310, e410⟩ := hbp h3
        rw [e110, e210, e310, e410]
        rw [hX _ _ ha1 ha2 hp.1 hp.2, hX _ _ ha1 ha2 hq.1 hq.2, if_neg h1, if_neg h2,
          if_neg (by rw [h3]; exact h1)]
        ring
      · by_cases h4 : b = q
        · obtain ⟨e111, e211, e311, e411⟩ := hbq h4
          rw [e111, e211, e311, e411]
          rw [hX _ _ ha1 ha2 hp.1 hp.2, hX _ _ ha1 ha2 hq.1 hq.2, if_neg h1, if_neg h2,
            if_neg (by rw [h4]; exact h2)]
          ring
        · obtain ⟨e112, e212, e312, e412⟩ := hbn h3 h4
          rw [e112, e212, e312, e412]
          rw [hX _ _ ha1 ha2 hb1 hb2]
          split_ifs <;> ring

end Rot

/-! ## Rotation of two columns of an array -/

section RotCols

variable {K : Type} [LinearOrderedField K]

theorem rotCols_spec (nm rows p q : Nat) (c s : K) (u : Buf K)
    (hp : 1 ≤ p ∧ p ≤ nm) (hq : 1 ≤ q ∧ q ≤ nm) (hpq : p ≠ q) :
    (∀ j, 1 ≤ j → j ≤ rows →
      M nm (rotCols nm rows p q c s u) j p = M nm u j p * c + M nm u j q * s) ∧
    (∀ j, 1 ≤ j → j ≤ rows →
      M nm (rotCols nm rows p q c s u) j q = -M nm u j p * s + M nm u j q * c) ∧
    (∀ x, (∀ j, 1 ≤ j → j ≤ rows → x ≠ MINDX j p nm ∧ x ≠ MINDX j q nm) →
      (rotCols nm rows p q c s u).get x = u.get x) := by
  have hne : ∀ j j', 1 ≤ j → 1 ≤ j' → MINDX j p nm ≠ MINDX j' q nm := fun j j' h1 h2 =>
    MINDX_ne h1 h2 hp.1 hq.1 hp.2 hq.2 (Or.inr hpq)
  have key := forRange_region
    (fun j u =>
      (u.set (MINDX j p nm) (u.get (MINDX j p nm) * c + u.get (MINDX j q nm) * s)).set
        (MINDX j q nm) (-u.get (MINDX j p nm) * s + u.get (MINDX j q nm) * c))
    (fun j x => x = MINDX j p nm ∨ x = MINDX j q nm)
    (fun j t x => if x = MINDX j q nm then -t.get (MINDX j p nm) * s + t.get (MINDX j q nm) * c
      else t.get (MINDX j p nm) * c + t.get (MINDX j q nm) * s) 1 rows u
    (fun j t x h1 h2 hR => by
      simp only [Buf.get_set]
      rcases hR with hR | hR
      · have hxq : ¬ x = MINDX j q nm := by rw [hR]; exact hne j j h1 h1
        simp only [if_neg hxq, if_pos hR]
      · simp only [if_pos hR])
    (fun j t x h1 h2 hR => by
      simp only [Buf.get_set]
      rw [if_neg (fun h => hR (Or.inr h)), if_neg (fun h => hR (Or.inl h))])
    (fun j j' x h1 h2 h3 h4 hR hR' => by
      rcases hR with hR | hR <;> rcases hR' with hR' | hR'
      · exact (MINDX_inj h1 h3 hp.1 hp.1 hp.2 hp.2 (hR.symm.trans hR')).1
      · exact absurd (hR.symm.trans hR') (hne j j' h1 h3)
      · exact absurd (hR'.symm.trans hR) (hne j' j h3 h1)
      · exact (MINDX_inj h1 h3 hq.1 hq.1 hq.2 hq.2 (hR.symm.trans hR')).1)
    (fun j t x h1 h2 hR ht => by
      have e1 : t.get (MINDX j p nm) = u.get (MINDX j p nm) := ht _ (fun j' h3 h4 h5 => by
        rcases h5 with h5 | h5
        · have := (MINDX_inj h1 (by omega) hp.1 hp.1 hp.2 hp.2 h5).1; omega
        · exact hne j j' h1 (by omega) h5)
      have e2 : t.get (MINDX j q nm) = u.get (MINDX j q nm) := ht _ (fun j' h3 h4 h5 => by
        rcases h5 with h5 | h5
        · exact hne j' j (by omega) h1 h5.symm
        · have := (MINDX_inj h1 (by omega) hq.1 hq.1 hq.2 hq.2 h5).1; omega)
      simp only [e1, e2])
  refine ⟨fun j h1 h2 => ?_, fun j h1 h2 => ?_, fun x hx => ?_⟩
  · have := key.1 j (MINDX j p nm) h1 h2 (Or.inl rfl)
    beta_reduce at this
    rw [if_neg (hne j j h1 h1)] at this
    exact this
  · have := key.1 j (MINDX j q nm) h1 h2 (Or.inr rfl)
    beta_reduce at this
    rw [if_pos rfl] at this
    exact this
  · exact key.2 x (fun j h1 h2 h => by
      rcases h with h | h
      · exact (hx j h1 h2).1 h
      · exact (hx j h1 h2).2 h)

/-- A rotation of two columns of the `rows` x `cols` matrix keeps its columns
orthonormal. -/
theorem rotCols_ColsON (nm rows cols p q : Nat) (c s : K) (u : Buf K)
    (hcols : cols ≤ nm) (hp : 1 ≤ p ∧ p ≤ cols) (hq : 1 ≤ q ∧ q ≤ cols) (hpq : p ≠ q)
    (hcs : c * c + s * s = 1) (h : ColsON (M nm u) 1 rows 1 cols) :
    ColsON (M nm (rotCols nm rows p q c s u)) 1 rows 1 cols := by
  have sp := rotCols_spec nm rows p q c s u ⟨hp.1, by omega⟩ ⟨hq.1, by omega⟩ hpq
  refine ColsON_rot (M nm u) _ 1 rows 1 cols p q c s hpq hp hq hcs sp.1 sp.2.1 ?_ h
  intro i j hi1 hi2 hj1 hj2 hjp hjq
  exact sp.2.2 _ (fun j' h1 h2 =>
    ⟨MINDX_ne hi1 h1 hj1 hp.1 (by omega) (by omega) (Or.inr hjp),
     MINDX_ne hi1 h1 hj1 hq.1 (by omega) (by omega) (Or.inr hjq)⟩)

end RotCols

/-! ## The split test and the cancellation in exact arithmetic -/

section Split

variable {K : Type} [LinearOrderedField K]

/-- Over a field the negligibility test `fabs(x) + anorm == anorm` says `x == 0`. -/
theorem anorm_test (x anorm : K) : |x| + anorm = anorm ↔ x = 0 := by
  constructor
  · intro h
    have : |x| = 0 := by linarith
    exact abs_eq_zero.mp this
  · intro h
    rw [h, abs_zero, zero_add]

theorem splitScan_post (anorm : K) (w rv1 : Buf K) (k : Nat) :
    (∀ i, (splitScan anorm w rv1 k).1 < i → i ≤ k →
      rv1.get (VINDX i) ≠ 0 ∧ w.get (VINDX (i - 1)) ≠ 0) ∧
    ((splitScan anorm w rv1 k).2 = true → rv1.get (VINDX (splitScan anorm w rv1 k).1) = 0) ∧
    ((splitScan anorm w rv1 k).2 = false → 1 ≤ (splitScan anorm w rv1 k).1 →
      rv1.get (VINDX (splitScan anorm w rv1 k).1) ≠ 0 ∧
      w.get (VINDX ((splitScan anorm w rv1 k).1 - 1)) = 0) := by
  induction k with
  | zero =>
    rw [splitScan]
    exact ⟨fun i h1 h2 => by omega, fun h => by simp at h, fun _ h => by simp at h⟩
  | succ k ih =>
    rw [splitScan]
    split_ifs with h1 h2
    · exact ⟨fun i h3 h4 => by simp at h3; omega, fun _ => (anorm_test _ _).mp h1,
        fun h => by simp at h⟩
    · refine ⟨fun i h3 h4 => by simp at h3; omega, fun h => by simp at h, fun _ _ => ?_⟩
      exact ⟨fun h => h1 ((anorm_test _ _).mpr h), (anorm_test _ _).mp h2⟩
    · refine ⟨fun i h3 h4 => ?_, ih.2.1, ih.2.2⟩
      by_cases hi : i = k + 1
      · subst hi
        exact ⟨fun h => h1 ((anorm_test _ _).mpr h), fun h => h2 ((anorm_test _ _).mpr h)⟩
      · exact ih.1 i h3 (by omega)

theorem cancelLoop_rv1_frame (nm m : Nat) (matu : Int) (anorm : K) (sqrt : K → K) (L1 : Nat)
    (x : Int) (cnt i : Nat) (c s : K) (st : St K)
    (hx : ∀ j, i ≤ j → j < i + cnt → VINDX j ≠ x) :
    (cancelLoop nm m matu anorm sqrt L1 cnt i c s st).rv1.get x = st.rv1.get x := by
  induction cnt generalizing i c s st with
  | zero => rfl
  | succ cnt ih =>
    rw [cancelLoop]
    simp only []
    have e : (st.rv1.set (VINDX i) (st.rv1.get (VINDX i) * c)).get x = st.rv1.get x :=
      Buf.get_set_ne _ _ (fun h => hx i (le_refl _) (by omega) h.symm)
    split_ifs with h1 h2
    · exact e
    · rw [ih _ _ _ _ (fun j h3 h4 => hx j (by omega) (by omega))]
      exact e
    · rw [ih _ _ _ _ (fun j h3 h4 => hx j (by omega) (by omega))]
      exact e

theorem cancelLoop_v (nm m : Nat) (matu : Int) (anorm : K) (sqrt : K → K) (L1 : Nat)
    (cnt i : Nat) (c s : K) (st : St K) :
    (cancelLoop nm m matu anorm sqrt L1 cnt i c s st).v = st.v := by
  induction cnt generalizing i c s st with
  | zero => rfl
  | succ cnt ih =>
    rw [cancelLoop]
    simp only []
    split_ifs with h1 h2
    · rfl
    · rw [ih]
    · rw [ih]

theorem splitCancel_v (nm m : Nat) (matu : Int) (anorm : K) (sqrt : K → K) (k : Nat)
    (st : St K) : (splitCancel nm m matu anorm sqrt k st).1.v = st.v := by
  unfold splitCancel
  simp only []
  split_ifs
  · rfl
  · exact cancelLoop_v _ _ _ _ _ _ _ _ _ _ _

end Split

section SplitR

theorem sqrt_sq_pos (f g : ℝ) (hf : f ≠ 0) : 0 < Real.sqrt (f * f + g * g) := by
  apply Real.sqrt_pos.mpr
  have := mul_self_pos.mpr hf
  nlinarith [mul_self_nonneg g]

theorem sqrt_sq_pos' (f g : ℝ) (hg : g ≠ 0) : 0 < Real.sqrt (f * f + g * g) := by
  apply Real.sqrt_pos.mpr
  have := mul_self_pos.mpr hg
  nlinarith [mul_self_nonneg f]

/-- The pair `(f/z, h/z)` with `z = sqrt(f*f + h*h)`, `z != 0`, is a rotation. -/
theorem rot_unit (f h : ℝ) (hz : Real.sqrt (f * f + h * h) ≠ 0) :
    (f / Real.sqrt (f * f + h * h)) * (f / Real.sqrt (f * f + h * h)) +
      (h / Real.sqrt (f * f + h * h)) * (h / Real.sqrt (f * f + h * h)) = 1 := by
  have h0 : 0 ≤ f * f + h * h := by nlinarith [mul_self_nonneg f, mul_self_nonneg h]
  have h1 := Real.mul_self_sqrt h0
  rw [div_mul_div_comm, div_mul_div_comm, ← add_div, h1]
  exact div_self (by rw [← h1]; exact mul_ne_zero hz hz)

/-- In exact arithmetic the cancellation loop never leaves through its `goto`:
it leaves `w[i..k]` non-zero and `rv1[i+1..k]` non-zero. -/
theorem cancelLoop_nonvanish (nm m : Nat) (matu : Int) (anorm : ℝ) (L1 : Nat)
    (cnt i : Nat) (c s : ℝ) (st : St ℝ) (hi : 1 ≤ i) (hs : s ≠ 0)
    (hr : ∀ j, i ≤ j → j < i + cnt → st.rv1.get (VINDX j) ≠ 0)
    (hw : ∀ j, i ≤ j → j + 1 < i + cnt → st.w.get (VINDX j) ≠ 0) :
    (1 ≤ cnt → (cancelLoop nm m matu anorm Real.sqrt L1 cnt i c s st).rv1.get (VINDX i) =
      st.rv1.get (VINDX i) * c) ∧
    (∀ j, i < j → j < i + cnt →
      (cancelLoop nm m matu anorm Real.sqrt L1 cnt i c s st).rv1.get (VINDX j) ≠ 0) ∧
    (∀ j, i ≤ j → j < i + cnt →
      (cancelLoop nm m matu anorm Real.sqrt L1 cnt i c s st).w.get (VINDX j) ≠ 0) := by
  induction cnt generalizing i c s st with
  | zero => exact ⟨fun h => by omega, fun j h1 h2 => by omega, fun j h1 h2 => by omega⟩
  | succ cnt ih =>
    have hf : s * st.rv1.get (VINDX i) ≠ 0 := mul_ne_zero hs (hr i (le_refl _) (by omega))
    have hbr : ¬ (|s * st.rv1.get (VINDX i)| + anorm = anorm) :=
      fun h => hf ((anorm_test _ _).mp h)
    have hh := sqrt_sq_pos (s * st.rv1.get (VINDX i)) (st.w.get (VINDX i)) hf
    have hs' : -(s * st.rv1.get (VINDX i)) /
        Real.sqrt (s * st.rv1.get (VINDX i) * (s * st.rv1.get (VINDX i)) +
          st.w.get (VINDX i) * st.w.get (VINDX i)) ≠ 0 :=
      div_ne_zero (neg_ne_zero.mpr hf) (ne_of_gt hh)
    have vne : ∀ j, i + 1 ≤ j → VINDX j ≠ VINDX i := fun j hj h => by
      have := VINDX_inj h; omega
    rw [cancelLoop]
    simp only []
    rw [if_neg hbr]
    have key : ∀ (c' s' : ℝ) (st' : St ℝ), s' ≠ 0 → (1 ≤ cnt → c' ≠ 0) →
        st'.rv1 = st.rv1.set (VINDX i) (st.rv1.get (VINDX i) * c) →
        (∀ j, i + 1 ≤ j → st'.w.get (VINDX j) = st.w.get (VINDX j)) →
        st'.w.get (VINDX i) ≠ 0 →
        (1 ≤ cnt + 1 → (cancelLoop nm m matu anorm Real.sqrt L1 cnt (i + 1) c' s' st').rv1.get
          (VINDX i) = st.rv1.get (VINDX i) * c) ∧
        (∀ j, i < j → j < i + (cnt + 1) →
          (cancelLoop nm m matu anorm Real.sqrt L1 cnt (i + 1) c' s' st').rv1.get (VINDX j) ≠ 0) ∧
        (∀ j, i ≤ j → j < i + (cnt + 1) →
          (cancelLoop nm m matu anorm Real.sqrt L1 cnt (i + 1) c' s' st').w.get (VINDX j) ≠ 0) := by
      intro c' s' st' hs2 hc2 e1 w1 hwi
      have r1 : ∀ j, i + 1 ≤ j → st'.rv1.get (VINDX j) = st.rv1.get (VINDX j) := fun j hj => by
        rw [e1]; exact Buf.get_set_ne _ _ (vne j hj)
      have rec := ih (i + 1) c' s' st' (by omega) hs2
        (fun j h1 h2 => by rw [r1 j h1]; exact hr j (by omega) (by omega))
        (fun j h1 h2 => by rw [w1 j h1]; exact hw j (by omega) (by omega))
      refine ⟨fun _ => ?_, fun j h1 h2 => ?_, fun j h1 h2 => ?_⟩
      · rw [cancelLoop_rv1_frame _ _ _ _ _ _ _ _ _ _ _ _
          (fun j h3 h4 => vne j h3), e1, Buf.get_set_same]
      · by_cases hj : j = i + 1
        · subst hj
          rw [rec.1 (by omega), r1 _ (le_refl _)]
          exact mul_ne_zero (hr _ (by omega) (by omega)) (hc2 (by omega))
        · exact rec.2.1 j (by omega) (by omega)
      · by_cases hj : j = i
        · subst hj
          rw [cancelLoop_w_frame _ _ _ _ _ _ _ _ _ _ _ _
            (fun j' h3 h4 => vne j' h3)]
          exact hwi
        · exact rec.2.2 j (by omega) (by omega)
    have hc' : 1 ≤ cnt → st.w.get (VINDX i) /
        Real.sqrt (s * st.rv1.get (VINDX i) * (s * st.rv1.get (VINDX i)) +
          st.w.get (VINDX i) * st.w.get (VINDX i)) ≠ 0 := fun h =>
      div_ne_zero (hw i (le_refl _) (by omega)) (ne_of_gt hh)
    split_ifs with hmu
    · exact key _ _ _ hs' hc' rfl (fun j hj => Buf.get_set_ne _ _ (vne j hj))
        (by
          show (st.w.set _ _).get (VINDX i) ≠ 0
          rw [Buf.get_set_same]; exact ne_of_gt hh)
    · exact key _ _ _ hs' hc' rfl (fun j hj => Buf.get_set_ne _ _ (vne j hj))
        (by
          show (st.w.set _ _).get (VINDX i) ≠ 0
          rw [Buf.get_set_same]; exact ne_of_gt hh)

end SplitR

/-! ## The array v through a QR sweep -/

section SweepV

theorem splitCancel_pre (nm m : Nat) (matu : Int) (anorm : ℝ) (k : Nat) (st : St ℝ)
    (h0 : st.rv1.get 0 = 0) (hk : 1 ≤ k)
    (hL : (splitCancel nm m matu anorm Real.sqrt k st).2 ≠ k) :
    SweepPre (splitCancel nm m matu anorm Real.sqrt k st).1
      (splitCancel nm m matu anorm Real.sqrt k st).2 k := by
  have post := splitScan_post anorm st.w st.rv1 k
  have hle := splitScan_le anorm st.w st.rv1 k
  have hpos := splitScan_pos anorm st.w st.rv1 k h0 hk
  unfold splitCancel at hL ⊢
  simp only [] at hL ⊢
  have e1 : ∀ i : Nat, VINDX (i + 1 - 1) = VINDX i := fun i => by unfold VINDX; omega
  split_ifs at hL ⊢ with hf
  · refine ⟨hpos.1, by omega, post.2.1 hf, fun i h1 h2 => (post.1 i h1 h2).1,
      fun i h1 h2 => ?_⟩
    have := (post.1 (i + 1) (by omega) (by omega)).2
    rwa [e1] at this
  · dsimp only at hL ⊢
    simp only [Bool.not_eq_true] at hf
    have hr : ∀ j, (splitScan anorm st.w st.rv1 k).1 ≤ j →
        j < (splitScan anorm st.w st.rv1 k).1 + (k + 1 - (splitScan anorm st.w st.rv1 k).1) →
        st.rv1.get (VINDX j) ≠ 0 := fun j h1 h2 => by
      by_cases hj : j = (splitScan anorm st.w st.rv1 k).1
      · rw [hj]; exact (post.2.2 hf hpos.1).1
      · exact (post.1 j (by omega) (by omega)).1
    have hw : ∀ j, (splitScan anorm st.w st.rv1 k).1 ≤ j →
        j + 1 < (splitScan anorm st.w st.rv1 k).1 + (k + 1 - (splitScan anorm st.w st.rv1 k).1) →
        st.w.get (VINDX j) ≠ 0 := fun j h1 h2 => by
      have := (post.1 (j + 1) (by omega) (by omega)).2
      rwa [e1] at this
    have nv := cancelLoop_nonvanish nm m matu anorm ((splitScan anorm st.w st.rv1 k).1 - 1)
      (k + 1 - (splitScan anorm st.w st.rv1 k).1) (splitScan anorm st.w st.rv1 k).1 0 1 st
      hpos.1 one_ne_zero hr hw
    refine ⟨hpos.1, by omega, ?_, fun i h1 h2 => nv.2.1 i h1 (by omega),
      fun i h1 h2 => nv.2.2 i h1 (by omega)⟩
    show (cancelLoop _ _ _ _ _ _ _ _ _ _ _).rv1.get _ = 0
    rw [nv.1 (by omega), mul_zero]

theorem qrStep_v_ColsON (nm m n : Nat) (matu matv : Int) (i1 : Nat) (q : QSt ℝ)
    (h1 : 1 ≤ i1) (hn : i1 + 1 ≤ n) (hnm : n ≤ nm) (hs : q.s ≠ 0)
    (hr : q.st.rv1.get (VINDX (i1 + 1)) ≠ 0) (hV : ColsON (M nm q.st.v) 1 n 1 n) :
    ColsON (M nm (qrStep nm m n matu matv Real.sqrt i1 q).st.v) 1 n 1 n := by
  unfold qrStep
  simp only []
  split_ifs with hmv
  · apply rotCols_ColsON nm n n i1 (i1 + 1) _ _ _ hnm ⟨h1, by omega⟩ ⟨by omega, hn⟩ (by omega) _ hV
    apply rot_unit
    exact ne_of_gt (sqrt_sq_pos' _ _ (mul_ne_zero hs hr))
  · exact hV

theorem qrStep_s_ne (nm m n : Nat) (matu matv : Int) (i1 : Nat) (q : QSt ℝ) (hs : q.s ≠ 0)
    (hr : q.st.rv1.get (VINDX (i1 + 1)) ≠ 0) (hw : q.st.w.get (VINDX (i1 + 1)) ≠ 0) :
    (qrStep nm m n matu matv Real.sqrt i1 q).s ≠ 0 := by
  unfold qrStep
  simp only []
  have hz := sqrt_sq_pos' q.f (q.s * q.st.rv1.get (VINDX (i1 + 1))) (mul_ne_zero hs hr)
  have hs1 : q.s * q.st.rv1.get (VINDX (i1 + 1)) /
      Real.sqrt (q.f * q.f + q.s * q.st.rv1.get (VINDX (i1 + 1)) *
        (q.s * q.st.rv1.get (VINDX (i1 + 1)))) ≠ 0 :=
    div_ne_zero (mul_ne_zero hs hr) (ne_of_gt hz)
  split_ifs with hz2
  · exact div_ne_zero (mul_ne_zero hw hs1) hz2
  · exact hs1

theorem qrStep_v_id (nm m n : Nat) (matu : Int) (i1 : Nat) (q : QSt ℝ) :
    (qrStep nm m n matu 0 Real.sqrt i1 q).st.v = q.st.v := by
  unfold qrStep
  simp

/-- A QR sweep keeps the columns of `v` orthonormal. -/
theorem qrSweep_v_ColsON (nm m n : Nat) (matu matv : Int) (k L : Nat) (z : ℝ) (st : St ℝ)
    (hpre : SweepPre st L k) (hk : k ≤ n) (hnm : n ≤ nm)
    (hV : ColsON (M nm st.v) 1 n 1 n) :
    ColsON (M nm (qrSweep nm m n matu matv Real.sqrt k L z st).v) 1 n 1 n := by
  obtain ⟨hL1, hLk, _, hr, hw⟩ := hpre
  unfold qrSweep
  simp only []
  have := forRange_induct (qrStep nm m n matu matv Real.sqrt)
    (fun i1 q => (i1 < k → q.s ≠ 0) ∧
      (∀ x, VINDX i1 ≤ x → q.st.rv1.get x = st.rv1.get x) ∧
      (∀ x, VINDX i1 ≤ x → q.st.w.get x = st.w.get x) ∧
      ColsON (M nm q.st.v) 1 n 1 n) L (k - 1)
    { st := st, c := 1, s := 1,
      f := ((st.w.get (VINDX L) - z) * (st.w.get (VINDX L) + z) +
        st.rv1.get (VINDX k) * (st.w.get (VINDX (k - 1)) /
          ((((st.w.get (VINDX (k - 1)) - z) * (st.w.get (VINDX (k - 1)) + z) +
            (st.rv1.get (VINDX (k - 1)) - st.rv1.get (VINDX k)) *
              (st.rv1.get (VINDX (k - 1)) + st.rv1.get (VINDX k))) /
            (2 * st.rv1.get (VINDX k) * st.w.get (VINDX (k - 1)))) +
            SIGN (Real.sqrt ((((st.w.get (VINDX (k - 1)) - z) * (st.w.get (VINDX (k - 1)) + z) +
              (st.rv1.get (VINDX (k - 1)) - st.rv1.get (VINDX k)) *
                (st.rv1.get (VINDX (k - 1)) + st.rv1.get (VINDX k))) /
              (2 * st.rv1.get (VINDX k) * st.w.get (VINDX (k - 1)))) *
              (((st.w.get (VINDX (k - 1)) - z) * (st.w.get (VINDX (k - 1)) + z) +
              (st.rv1.get (VINDX (k - 1)) - st.rv1.get (VINDX k)) *
                (st.rv1.get (VINDX (k - 1)) + st.rv1.get (VINDX k))) /
              (2 * st.rv1.get (VINDX k) * st.w.get (VINDX (k - 1)))) + 1))
              (((st.w.get (VINDX (k - 1)) - z) * (st.w.get (VINDX (k - 1)) + z) +
              (st.rv1.get (VINDX (k - 1)) - st.rv1.get (VINDX k)) *
                (st.rv1.get (VINDX (k - 1)) + st.rv1.get (VINDX k))) /
              (2 * st.rv1.get (VINDX k) * st.w.get (VINDX (k - 1))))) -
          st.rv1.get (VINDX k))) / st.w.get (VINDX L),
      x := st.w.get (VINDX L) } (by omega)
    ⟨fun _ => one_ne_zero, fun _ _ => rfl, fun _ _ => rfl, hV⟩
    (fun i1 q h1 h2 hp => by
      obtain ⟨p1, p2, p3, p4⟩ := hp
      have hri : q.st.rv1.get (VINDX (i1 + 1)) ≠ 0 := by
        rw [p2 _ (by unfold VINDX; omega)]
        exact hr (i1 + 1) (by omega) (by omega)
      have hsq := p1 (by omega)
      refine ⟨fun h3 => ?_, fun x hx => ?_, fun x hx => ?_, ?_⟩
      · apply qrStep_s_ne _ _ _ _ _ _ _ hsq hri
        rw [p3 _ (by unfold VINDX; omega)]
        exact hw (i1 + 1) (by omega) h3
      · rw [qrStep_rv1_frame _ _ _ _ _ _ _ _ _ (by unfold VINDX at hx ⊢; omega)]
        exact p2 x (by unfold VINDX at hx ⊢; omega)
      · rw [qrStep_w_frame _ _ _ _ _ _ _ _ _ (by unfold VINDX at hx ⊢; omega)]
        exact p3 x (by unfold VINDX at hx ⊢; omega)
      · exact qrStep_v_ColsON nm m n matu matv i1 q (by omega) (by omega) hnm hsq hri p4)
  exact this.2.2.2

end SweepV

/-! ## The array v through the diagonalization -/

section DiagV

theorem ColsON_neg {K : Type} [LinearOrderedField K] (X Y : Nat → Nat → K)
    (r0 r1 c0 c1 k : Nat)
    (hYk : ∀ i, r0 ≤ i → i ≤ r1 → Y i k = -X i k)
    (hY : ∀ i j, r0 ≤ i → i ≤ r1 → c0 ≤ j → j ≤ c1 → j ≠ k → Y i j = X i j)
    (hX : ColsON X r0 r1 c0 c1) : ColsON Y r0 r1 c0 c1 := by
  intro a b ha1 ha2 hb1 hb2
  have col : ∀ j, c0 ≤ j → j ≤ c1 →
      ∀ i, r0 ≤ i → i ≤ r1 → Y i j = (if j = k then -1 else 1) * X i j := by
    intro j hj1 hj2 i h1 h2
    by_cases h : j = k
    · rw [if_pos h, h, hYk i h1 h2]; ring
    · rw [if_neg h, hY i j h1 h2 hj1 hj2 h]; ring
  have e : ∑ i ∈ Finset.Icc r0 r1, Y i a * Y i b =
      (if a = k then -1 else 1) * (if b = k then -1 else 1) *
        ∑ i ∈ Finset.Icc r0 r1, X i a * X i b := by
    rw [Finset.mul_sum]
    apply Finset.sum_congr rfl
    intro i hi
    rw [Finset.mem_Icc] at hi
    rw [col a ha1 ha2 i hi.1 hi.2, col b hb1 hb2 i hi.1 hi.2]
    ring
  rw [e, hX a b ha1 ha2 hb1 hb2]
  by_cases hab : a = b
  · subst hab
    rw [if_pos rfl]
    split_ifs <;> ring
  · rw [if_neg hab, mul_zero]

theorem converge_v_ColsON {K : Type} [LinearOrderedField K] (nm n : Nat) (matv : Int)
    (k : Nat) (st : St K) (hk : 1 ≤ k ∧ k ≤ n) (hnm : n ≤ nm)
    (hV : ColsON (M nm st.v) 1 n 1 n) :
    ColsON (M nm (converge nm n matv k st).v) 1 n 1 n := by
  unfold converge
  simp only []
  split_ifs with h1 h2
  · have sp := forRange_set (fun j => MINDX j k nm)
      (fun j (v : Buf K) => -(v.get (MINDX j k nm))) 1 n st.v
      (fun j j' h3 h4 h5 h6 he => (MINDX_inj h3 h5 hk.1 hk.1 (by omega) (by omega) he).1)
      (fun j t h3 h4 ht => by
        show -(t.get (MINDX j k nm)) = -(st.v.get (MINDX j k nm))
        rw [ht _ (fun j' h5 h6 he => by
          have := (MINDX_inj h3 (by omega) hk.1 hk.1 (by omega) (by omega) he).1
          omega)])
    refine ColsON_neg (M nm st.v) _ 1 n 1 n k (fun i hi1 hi2 => sp.1 i hi1 hi2)
      (fun i j hi1 hi2 hj1 hj2 hjk => sp.2 _ (fun j' h3 h4 =>
        MINDX_ne hi1 h3 hj1 hk.1 (by omega) (by omega) (Or.inr hjk))) hV
  · exact hV
  · exact hV

/-- The REPEAT loop for one `k` keeps the columns of `v` orthonormal. -/
theorem repeatK_v_ColsON (nm m n : Nat) (matu matv : Int) (anorm : ℝ) (k : Nat)
    (hk : 1 ≤ k ∧ k ≤ n) (hnm : n ≤ nm) (rem : Nat) (st : St ℝ) (h0 : st.rv1.get 0 = 0)
    (hV : ColsON (M nm st.v) 1 n 1 n) :
    ColsON (M nm (repeatK nm m n matu matv anorm Real.sqrt k rem st).1.v) 1 n 1 n := by
  have hLpos := splitCancel_pos nm m matu anorm Real.sqrt k st h0 hk.1
  have hLle := splitCancel_le nm m matu anorm Real.sqrt k st
  have hr0 := splitCancel_rv1_zero nm m matu anorm Real.sqrt k st 0 h0
  have hv1 : ColsON (M nm (splitCancel nm m matu anorm Real.sqrt k st).1.v) 1 n 1 n := by
    rw [splitCancel_v]; exact hV
  induction rem generalizing st with
  | zero =>
    rw [repeatK]
    split_ifs with hL
    · exact hv1
    · exact converge_v_ColsON nm n matv k _ hk hnm hv1
  | succ rem ih =>
    rw [repeatK]
    split_ifs with hL
    · have hpre := splitCancel_pre nm m matu anorm k st h0 hk.1 hL
      have hq0 := qrSweep_rv1_zero nm m n matu matv Real.sqrt k
        (splitCancel nm m matu anorm Real.sqrt k st).2
        ((splitCancel nm m matu anorm Real.sqrt k st).1.w.get (VINDX k))
        (splitCancel nm m matu anorm Real.sqrt k st).1 hr0 hLpos (by omega)
      have hV2 := qrSweep_v_ColsON nm m n matu matv k
        (splitCancel nm m matu anorm Real.sqrt k st).2
        ((splitCancel nm m matu anorm Real.sqrt k st).1.w.get (VINDX k))
        (splitCancel nm m matu anorm Real.sqrt k st).1 hpre hk.2 hnm hv1
      exact ih _ hq0 hV2 (splitCancel_pos nm m matu anorm Real.sqrt k _ hq0 hk.1)
        (splitCancel_le nm m matu anorm Real.sqrt k _)
        (splitCancel_rv1_zero nm m matu anorm Real.sqrt k _ 0 hq0)
        (by rw [splitCancel_v]; exact hV2)
    · exact converge_v_ColsON nm n matv k _ hk hnm hv1

/-- The diagonalization keeps the columns of `v` orthonormal. -/
theorem diagonalize_v_ColsON (nm m n : Nat) (matu matv : Int) (anorm : ℝ) (hnm : n ≤ nm)
    (k0 : Nat) (hk0 : k0 ≤ n) (st : St ℝ) (h0 : st.rv1.get 0 = 0)
    (hV : ColsON (M nm st.v) 1 n 1 n) :
    ColsON (M nm (diagonalize nm m n matu matv anorm Real.sqrt k0 st).1.v) 1 n 1 n := by
  induction k0 generalizing st with
  | zero => rw [diagonalize]; exact hV
  | succ k0 ih =>
    rw [diagonalize]
    have hV2 := repeatK_v_ColsON nm m n matu matv anorm (k0 + 1) ⟨by omega, hk0⟩ hnm 30 st h0 hV
    split_ifs with hr
    · exact ih (by omega) _
        (repeatK_spec nm m n matu matv anorm Real.sqrt (k0 + 1) (by omega) 30 st h0).1 hV2
    · exact hV2

end DiagV

/-! ## What the single loops of the bidiagonalization compute -/

section LoopSpecs

variable {K : Type} [LinearOrderedField K]

/-- A loop that accumulates `g k (u[idx k])` and stores `h k (u[idx k])`. -/
theorem forRange_acc_set (idx : Nat → Int) (g h : Nat → K → K) (lo hi : Nat) (u : Buf K)
    (hinj : ∀ k k', lo ≤ k → k ≤ hi → lo ≤ k' → k' ≤ hi → idx k = idx k' → k = k') :
    (forRange lo hi (fun k (su : K × Buf K) =>
        (su.1 + g k (su.2.get (idx k)), su.2.set (idx k) (h k (su.2.get (idx k))))) (0, u)).1 =
      ∑ k ∈ Finset.Icc lo hi, g k (u.get (idx k)) ∧
    (∀ k, lo ≤ k → k ≤ hi →
      (forRange lo hi (fun k (su : K × Buf K) =>
        (su.1 + g k (su.2.get (idx k)), su.2.set (idx k) (h k (su.2.get (idx k))))) (0, u)).2.get
          (idx k) = h k (u.get (idx k))) ∧
    (∀ x, (∀ k, lo ≤ k → k ≤ hi → x ≠ idx k) →
      (forRange lo hi (fun k (su : K × Buf K) =>
        (su.1 + g k (su.2.get (idx k)), su.2.set (idx k) (h k (su.2.get (idx k))))) (0, u)).2.get
          x = u.get x) := by
  by_cases hle : lo ≤ hi + 1
  · have := forRange_induct (fun k (su : K × Buf K) =>
        (su.1 + g k (su.2.get (idx k)), su.2.set (idx k) (h k (su.2.get (idx k)))))
      (fun j su => su.1 = ∑ k ∈ Finset.Ico lo j, g k (u.get (idx k)) ∧
        (∀ k, lo ≤ k → k < j → su.2.get (idx k) = h k (u.get (idx k))) ∧
        (∀ x, (∀ k, lo ≤ k → k < j → x ≠ idx k) → su.2.get x = u.get x)) lo hi (0, u) hle
      ⟨by simp, fun k h1 h2 => by omega, fun x _ => rfl⟩
      (fun j su h1 h2 hp => by
        obtain ⟨p1, p2, p3⟩ := hp
        have e : su.2.get (idx j) = u.get (idx j) := p3 _ (fun k h3 h4 he => by
          have := hinj j k h1 h2 h3 (by omega) he; omega)
        refine ⟨?_, fun k h3 h4 => ?_, fun x hx => ?_⟩
        · show su.1 + g j (su.2.get (idx j)) = _
          rw [Finset.sum_Ico_succ_top h1, p1, e]
        · show (su.2.set (idx j) (h j (su.2.get (idx j)))).get (idx k) = _
          by_cases hk : k = j
          · rw [hk, Buf.get_set_same, e]
          · rw [Buf.get_set_ne _ _ (fun he => hk (hinj k j h3 (by omega) h1 h2 he))]
            exact p2 k h3 (by omega)
        · show (su.2.set (idx j) (h j (su.2.get (idx j)))).get x = _
          rw [Buf.get_set_ne _ _ (hx j h1 (by omega))]
          exact p3 x (fun k h3 h4 => hx k h3 (by omega)))
    refine ⟨?_, fun k h1 h2 => this.2.1 k h1 (by omega), fun x hx => this.2.2 x
      (fun k h1 h2 => hx k h1 (by omega))⟩
    rw [this.1, Nat.Ico_succ_right]
  · rw [forRange_empty _ _ _ _ (by omega)]
    refine ⟨?_, fun k h1 h2 => by omega, fun x _ => rfl⟩
    rw [Finset.Icc_eq_empty (by omega)]
    simp

theorem rowNormalize_spec (nm n i : Nat) (scale : K) (u : Buf K) (hi : 1 ≤ i) (hn : n ≤ nm) :
    (rowNormalize nm n i scale u).1 =
      ∑ k ∈ Finset.Icc (i + 1) n, (M nm u i k / scale) * (M nm u i k / scale) ∧
    (∀ k, i + 1 ≤ k → k ≤ n → M nm (rowNormalize nm n i scale u).2 i k = M nm u i k / scale) ∧
    (∀ x, (∀ k, i + 1 ≤ k → k ≤ n → x ≠ MINDX i k nm) →
      (rowNormalize nm n i scale u).2.get x = u.get x) :=
  forRange_acc_set (fun k => MINDX i k nm) (fun _ a => a / scale * (a / scale))
    (fun _ a => a / scale) (i + 1) n u
    (fun k k' h1 h2 h3 h4 he => (MINDX_inj hi hi (by omega) (by omega) (by omega) (by omega) he).2)

theorem colNormalize_spec (nm m i : Nat) (scale : K) (u : Buf K) (hi : 1 ≤ i) (hn : i ≤ nm) :
    (colNormalize nm m i scale u).1 =
      ∑ k ∈ Finset.Icc i m, (M nm u k i / scale) * (M nm u k i / scale) ∧
    (∀ k, i ≤ k → k ≤ m → M nm (colNormalize nm m i scale u).2 k i = M nm u k i / scale) ∧
    (∀ x, (∀ k, i ≤ k → k ≤ m → x ≠ MINDX k i nm) →
      (colNormalize nm m i scale u).2.get x = u.get x) :=
  forRange_acc_set (fun k => MINDX k i nm) (fun _ a => a / scale * (a / scale))
    (fun _ a => a / scale) i m u
    (fun k k' h1 h2 h3 h4 he => (MINDX_inj (by omega) (by omega) hi hi hn hn he).1)

theorem rowRescale_spec (nm n i : Nat) (scale : K) (u : Buf K) (hi : 1 ≤ i) (hn : n ≤ nm) :
    (∀ k, i + 1 ≤ k → k ≤ n → M nm (rowRescale nm n i scale u) i k = M nm u i k * scale) ∧
    (∀ x, (∀ k, i + 1 ≤ k → k ≤ n → x ≠ MINDX i k nm) →
      (rowRescale nm n i scale u).get x = u.get x) :=
  forRange_set (fun k => MINDX i k nm) (fun k (t : Buf K) => t.get (MINDX i k nm) * scale)
    (i + 1) n u
    (fun k k' h1 h2 h3 h4 he => (MINDX_inj hi hi (by omega) (by omega) (by omega) (by omega) he).2)
    (fun k t h1 h2 ht => by
      show t.get (MINDX i k nm) * scale = u.get (MINDX i k nm) * scale
      rw [ht _ (fun k' h3 h4 he => by
        have := (MINDX_inj hi hi (by omega) (by omega) (by omega) (by omega) he).2; omega)])

theorem colRescale_spec (nm m i : Nat) (scale : K) (u : Buf K) (hi : 1 ≤ i) (hn : i ≤ nm) :
    (∀ k, i ≤ k → k ≤ m → M nm (colRescale nm m i scale u) k i = M nm u k i * scale) ∧
    (∀ x, (∀ k, i ≤ k → k ≤ m → x ≠ MINDX k i nm) →
      (colRescale nm m i scale u).get x = u.get x) :=
  forRange_set (fun k => MINDX k i nm) (fun k (t : Buf K) => t.get (MINDX k i nm) * scale)
    i m u
    (fun k k' h1 h2 h3 h4 he => (MINDX_inj (by omega) (by omega) hi hi hn hn he).1)
    (fun k t h1 h2 ht => by
      show t.get (MINDX k i nm) * scale = u.get (MINDX k i nm) * scale
      rw [ht _ (fun k' h3 h4 he => by
        have := (MINDX_inj (by omega) (by omega) hi hi hn hn he).1; omega)])

theorem rowRv1_spec (nm n i : Nat) (h : K) (u rv1 : Buf K) :
    (∀ k, i + 1 ≤ k → k ≤ n → (rowRv1 nm n i h u rv1).get (VINDX k) = M nm u i k / h) ∧
    (∀ x, (∀ k, i + 1 ≤ k → k ≤ n → x ≠ VINDX k) → (rowRv1 nm n i h u rv1).get x = rv1.get x) :=
  forRange_set (fun k => VINDX k) (fun k (_ : Buf K) => u.get (MINDX i k nm) / h) (i + 1) n rv1
    (fun k k' _ _ _ _ he => VINDX_inj he) (fun k t _ _ _ => rfl)

end LoopSpecs

/-! ## The reflection applied to the rows below row i -/

section ApplySpecs

variable {K : Type} [LinearOrderedField K]

/-- The update `u[cell k] += coef * u[other k]` over `k = lo..hi`, the cells
`other k` not being written. -/
theorem forRange_axpy (cell other : Nat → Int) (coef : K) (lo hi : Nat) (u : Buf K)
    (hinj : ∀ k k', lo ≤ k → k ≤ hi → lo ≤ k' → k' ≤ hi → cell k = cell k' → k = k')
    (hoth : ∀ k k', lo ≤ k → k ≤ hi → lo ≤ k' → k' ≤ hi → other k ≠ cell k') :
    (∀ k, lo ≤ k → k ≤ hi →
      (forRange lo hi (fun k (t : Buf K) =>
        t.set (cell k) (t.get (cell k) + coef * t.get (other k))) u).get (cell k) =
        u.get (cell k) + coef * u.get (other k)) ∧
    (∀ x, (∀ k, lo ≤ k → k ≤ hi → x ≠ cell k) →
      (forRange lo hi (fun k (t : Buf K) =>
        t.set (cell k) (t.get (cell k) + coef * t.get (other k))) u).get x = u.get x) :=
  forRange_set cell (fun k (t : Buf K) => t.get (cell k) + coef * t.get (other k)) lo hi u hinj
    (fun k t h1 h2 ht => by
      show t.get (cell k) + coef * t.get (other k) = u.get (cell k) + coef * u.get (other k)
      rw [ht _ (fun k' h3 h4 he => by have := hinj k k' h1 h2 h3 (by omega) he; omega),
        ht _ (fun k' h3 h4 => hoth k k' h1 h2 h3 (by omega))])

theorem rowApply_spec (nm m n i : Nat) (rv1 u : Buf K) (hi : 1 ≤ i) (hn : n ≤ nm) :
    (∀ j k, i + 1 ≤ j → j ≤ m → i + 1 ≤ k → k ≤ n →
      M nm (rowApply nm m n i rv1 u) j k =
        M nm u j k + (∑ r ∈ Finset.Icc (i + 1) n, M nm u j r * M nm u i r) * rv1.get (VINDX k)) ∧
    (∀ x, (∀ j k, i + 1 ≤ j → j ≤ m → i + 1 ≤ k → k ≤ n → x ≠ MINDX j k nm) →
      (rowApply nm m n i rv1 u).get x = u.get x) := by
  have inner : ∀ (j : Nat) (t : Buf K), i + 1 ≤ j →
      (∀ k, i + 1 ≤ k → k ≤ n →
        (forRange (i + 1) n (fun k (t' : Buf K) => t'.set (MINDX j k nm) (t'.get (MINDX j k nm) +
          (∑ r ∈ Finset.Icc (i + 1) n, M nm t j r * M nm t i r) * rv1.get (VINDX k))) t).get
          (MINDX j k nm) = t.get (MINDX j k nm) +
            (∑ r ∈ Finset.Icc (i + 1) n, M nm t j r * M nm t i r) * rv1.get (VINDX k)) ∧
      (∀ x, (∀ k, i + 1 ≤ k → k ≤ n → x ≠ MINDX j k nm) →
        (forRange (i + 1) n (fun k (t' : Buf K) => t'.set (MINDX j k nm) (t'.get (MINDX j k nm) +
          (∑ r ∈ Finset.Icc (i + 1) n, M nm t j r * M nm t i r) * rv1.get (VINDX k))) t).get x =
          t.get x) := fun j t hj =>
    forRange_set (fun k => MINDX j k nm)
      (fun k (t' : Buf K) => t'.get (MINDX j k nm) +
        (∑ r ∈ Finset.Icc (i + 1) n, M nm t j r * M nm t i r) * rv1.get (VINDX k)) (i + 1) n t
      (fun k k' h1 h2 h3 h4 he =>
        (MINDX_inj (by omega) (by omega) (by omega) (by omega) (by omega) (by omega) he).2)
      (fun k t' h1 h2 ht => by
        show t'.get (MINDX j k nm) + _ = t.get (MINDX j k nm) + _
        rw [ht _ (fun k' h3 h4 he => by
          have := (@MINDX_inj _ j _ j _ (by omega) (by omega) (by omega) (by omega)
            (by omega) (by omega) he).2
          omega)])
  have key := forRange_region
    (fun j (u : Buf K) =>
      forRange (i + 1) n (fun k (t' : Buf K) => t'.set (MINDX j k nm) (t'.get (MINDX j k nm) +
        (forRange (i + 1) n (fun k s => s + u.get (MINDX j k nm) * u.get (MINDX i k nm)) 0) *
          rv1.get (VINDX k))) u)
    (fun j x => ∃ k, i + 1 ≤ k ∧ k ≤ n ∧ x = MINDX j k nm)
    (fun j t x => t.get x + (∑ r ∈ Finset.Icc (i + 1) n, M nm t j r * M nm t i r) *
      rv1.get (x - ((j : Int) - 1) * nm))
    (i + 1) m u
    (fun j t x h1 h2 hR => by
      obtain ⟨k, hk1, hk2, rfl⟩ := hR
      simp only [forRange_sum]
      have := (inner j t h1).1 k hk1 hk2
      simp only [M] at this ⊢
      rw [this]
      congr 2
      unfold MINDX VINDX
      ring_nf)
    (fun j t x h1 h2 hR => by
      simp only [forRange_sum]
      have := (inner j t h1).2 x (fun k hk1 hk2 he => hR ⟨k, hk1, hk2, he⟩)
      simp only [M] at this ⊢
      exact this)
    (fun j j' x h1 h2 h3 h4 hR hR' => by
      obtain ⟨k, hk1, hk2, rfl⟩ := hR
      obtain ⟨k', hk1', hk2', he⟩ := hR'
      exact (MINDX_inj (by omega) (by omega) (by omega) (by omega) (by omega) (by omega) he).1)
    (fun j t x h1 h2 hR ht => by
      obtain ⟨k, hk1, hk2, rfl⟩ := hR
      have e : ∀ a b, (a = j ∨ a = i) → i + 1 ≤ b → b ≤ n →
          t.get (MINDX a b nm) = u.get (MINDX a b nm) := fun a b ha hb1 hb2 =>
        ht _ (fun j' h3 h4 hR' => by
          obtain ⟨k', hk1', hk2', he⟩ := hR'
          have := (@MINDX_inj _ a _ j' _ (by omega) (by omega) (by omega) (by omega)
            (by omega) (by omega) he).1
          omega)
      simp only [M]
      rw [e j k (Or.inl rfl) hk1 hk2]
      congr 2
      apply Finset.sum_congr rfl
      intro r hr
      rw [Finset.mem_Icc] at hr
      rw [e j r (Or.inl rfl) hr.1 hr.2, e i r (Or.inr rfl) hr.1 hr.2])
  constructor
  · intro j k hj1 hj2 hk1 hk2
    have e2 := key.1 j (MINDX j k nm) hj1 hj2 ⟨k, hk1, hk2, rfl⟩
    beta_reduce at e2
    refine Eq.trans e2 ?_
    simp only [M]
    congr 2
    unfold MINDX VINDX
    ring_nf
  · intro x hx
    exact key.2 x (fun j h1 h2 hR => by
      obtain ⟨k, hk1, hk2, he⟩ := hR
      exact hx j k h1 h2 hk1 hk2 he)

end ApplySpecs

/-! ## Doubly nested update loops -/

section ApplyGen

variable {K : Type} [LinearOrderedField K]

/-- A doubly nested update `u[cell j k] += coef j u * og j k u`, where `coef j`
is computed before the inner loop from cells that earlier outer iterations do
not write, and `og` reads only cells that the whole loop does not write. -/
theorem forRange_apply2 (cell : Nat → Nat → Int) (coef : Nat → Buf K → K)
    (og : Nat → Nat → Buf K → K) (lo hi lo2 hi2 : Nat) (u0 : Buf K)
    (hinj : ∀ j k j' k', lo ≤ j → j ≤ hi → lo2 ≤ k → k ≤ hi2 → lo ≤ j' → j' ≤ hi → lo2 ≤ k' →
      k' ≤ hi2 → cell j k = cell j' k' → j = j' ∧ k = k')
    (hcoef : ∀ j t, lo ≤ j → j ≤ hi →
      (∀ y, (∀ j' k', lo ≤ j' → j' < j → lo2 ≤ k' → k' ≤ hi2 → y ≠ cell j' k') →
        t.get y = u0.get y) → coef j t = coef j u0)
    (hog : ∀ j k t, lo ≤ j → j ≤ hi → lo2 ≤ k → k ≤ hi2 →
      (∀ y, (∀ j' k', lo ≤ j' → j' ≤ hi → lo2 ≤ k' → k' ≤ hi2 → y ≠ cell j' k') →
        t.get y = u0.get y) → og j k t = og j k u0) :
    (∀ j k, lo ≤ j → j ≤ hi → lo2 ≤ k → k ≤ hi2 →
      (forRange lo hi (fun j u => forRange lo2 hi2 (fun k (t' : Buf K) =>
        t'.set (cell j k) (t'.get (cell j k) + coef j u * og j k t')) u) u0).get (cell j k) =
        u0.get (cell j k) + coef j u0 * og j k u0) ∧
    (∀ x, (∀ j k, lo ≤ j → j ≤ hi → lo2 ≤ k → k ≤ hi2 → x ≠ cell j k) →
      (forRange lo hi (fun j u => forRange lo2 hi2 (fun k (t' : Buf K) =>
        t'.set (cell j k) (t'.get (cell j k) + coef j u * og j k t')) u) u0).get x =
        u0.get x) := by
  -- the loop invariant: rows before `j` are final, everything else is untouched
  by_cases hle : lo ≤ hi + 1
  · have := forRange_induct
      (fun j u => forRange lo2 hi2 (fun k (t' : Buf K) =>
        t'.set (cell j k) (t'.get (cell j k) + coef j u * og j k t')) u)
      (fun j0 t => (∀ j k, lo ≤ j → j < j0 → lo2 ≤ k → k ≤ hi2 →
          t.get (cell j k) = u0.get (cell j k) + coef j u0 * og j k u0) ∧
        (∀ x, (∀ j k, lo ≤ j → j < j0 → lo2 ≤ k → k ≤ hi2 → x ≠ cell j k) →
          t.get x = u0.get x)) lo hi u0 hle
      ⟨fun j k h1 h2 => by omega, fun x _ => rfl⟩
      (fun j0 t h1 h2 hp => by
        obtain ⟨p1, p2⟩ := hp
        have hc : coef j0 t = coef j0 u0 := hcoef j0 t h1 h2 p2
        -- the inner loop, by its own invariant
        have inner : ∀ k0, lo2 ≤ k0 → k0 ≤ hi2 + 1 → ∀ t', (t' = forUp (fun k (t' : Buf K) =>
            t'.set (cell j0 k) (t'.get (cell j0 k) + coef j0 t * og j0 k t')) (k0 - lo2) lo2 t) →
            (∀ k, lo2 ≤ k → k < k0 →
              t'.get (cell j0 k) = u0.get (cell j0 k) + coef j0 u0 * og j0 k u0) ∧
            (∀ x, (∀ k, lo2 ≤ k → k < k0 → x ≠ cell j0 k) → t'.get x = t.get x) := by
          intro k0 hk1 hk2
          induction k0 with
          | zero =>
            intro t' ht'
            have : 0 - lo2 = 0 := by omega
            rw [this] at ht'
            exact ⟨fun k h3 h4 => by omega, fun x _ => by rw [ht']; rfl⟩
          | succ k0 ih =>
            intro t' ht'
            by_cases hk0 : k0 + 1 = lo2
            · have : k0 + 1 - lo2 = 0 := by omega
              rw [this] at ht'
              exact ⟨fun k h3 h4 => by omega, fun x _ => by rw [ht']; rfl⟩
            · have e : k0 + 1 - lo2 = (k0 - lo2) + 1 := by omega
              rw [e, forUp_succ_last] at ht'
              have e2 : lo2 + (k0 - lo2) = k0 := by omega
              rw [e2] at ht'
              obtain ⟨q1, q2⟩ := ih (by omega) (by omega) _ rfl
              rw [ht']
              refine ⟨fun k h3 h4 => ?_, fun x hx => ?_⟩
              · by_cases hk : k = k0
                · subst hk
                  rw [Buf.get_set_same]
                  have a1 : ∀ y, (∀ j' k', lo ≤ j' → j' ≤ hi → lo2 ≤ k' → k' ≤ hi2 →
                      y ≠ cell j' k') →
                      (forUp (fun k (t' : Buf K) => t'.set (cell j0 k)
                        (t'.get (cell j0 k) + coef j0 t * og j0 k t')) (k - lo2) lo2 t).get y =
                      u0.get y := fun y hy => by
                    rw [q2 y (fun k' h5 h6 => hy j0 k' h1 h2 h5 (by omega))]
                    exact p2 y (fun j' k' h5 h6 h7 h8 => hy j' k' h5 (by omega) h7 h8)
                  rw [q2 _ (fun k' h5 h6 he => by
                    have := (hinj j0 k j0 k' h1 h2 h3 (by omega) h1 h2 h5 (by omega) he).2
                    omega)]
                  rw [p2 _ (fun j' k' h5 h6 h7 h8 he => by
                    have := (hinj j0 k j' k' h1 h2 h3 (by omega) h5 (by omega) h7 h8 he).1
                    omega)]
                  rw [hog j0 k _ h1 h2 h3 (by omega) a1, hc]
                · rw [Buf.get_set_ne _ _ (fun he => hk
                    (hinj j0 k j0 k0 h1 h2 h3 (by omega) h1 h2 (by omega) (by omega) he).2)]
                  exact q1 k h3 (by omega)
              · rw [Buf.get_set_ne _ _ (hx k0 (by omega) (by omega))]
                exact q2 x (fun k h3 h4 => hx k h3 (by omega))
        by_cases hle2 : lo2 ≤ hi2 + 1
        · obtain ⟨q1, q2⟩ := inner (hi2 + 1) hle2 (le_refl _) _ rfl
          refine ⟨fun j k h3 h4 h5 h6 => ?_, fun x hx => ?_⟩
          · by_cases hj : j = j0
            · subst hj
              exact q1 k h5 (by omega)
            · show (forRange lo2 hi2 _ t).get _ = _
              unfold forRange
              rw [q2 _ (fun k' h7 h8 he => hj
                (hinj j k j0 k' h3 (by omega) h5 h6 h1 h2 h7 (by omega) he).1)]
              exact p1 j k h3 (by omega) h5 h6
          · show (forRange lo2 hi2 _ t).get _ = _
            unfold forRange
            rw [q2 x (fun k h3 h4 => hx j0 k h1 (by omega) h3 (by omega))]
            exact p2 x (fun j k h3 h4 h5 h6 => hx j k h3 (by omega) h5 h6)
        · have e : forRange lo2 hi2 (fun k (t' : Buf K) =>
              t'.set (cell j0 k) (t'.get (cell j0 k) + coef j0 t * og j0 k t')) t = t :=
            forRange_empty _ _ _ _ (by omega)
          refine ⟨fun j k h3 h4 h5 h6 => by omega, fun x hx => ?_⟩
          show (forRange lo2 hi2 _ t).get _ = _
          rw [e]
          exact p2 x (fun j k h3 h4 h5 h6 => by omega))
    exact ⟨fun j k h1 h2 h3 h4 => this.1 j k h1 (by omega) h3 h4,
      fun x hx => this.2 x (fun j k h1 h2 h3 h4 => hx j k h1 (by omega) h3 h4)⟩
  · rw [forRange_empty _ _ _ _ (by omega)]
    exact ⟨fun j k h1 h2 => by omega, fun x _ => rfl⟩

end ApplyGen

/-! ## The reflections applied to columns -/

section ApplyInst

variable {K : Type} [LinearOrderedField K]

theorem colApply_spec (nm m n i : Nat) (h : K) (u : Buf K) (hi : 1 ≤ i) (hn : n ≤ nm) :
    (∀ j k, i + 1 ≤ j → j ≤ n → i ≤ k → k ≤ m →
      M nm (colApply nm m n i h u) k j =
        M nm u k j + (∑ r ∈ Finset.Icc i m, M nm u r i * M nm u r j) / h * M nm u k i) ∧
    (∀ x, (∀ j k, i + 1 ≤ j → j ≤ n → i ≤ k → k ≤ m → x ≠ MINDX k j nm) →
      (colApply nm m n i h u).get x = u.get x) := by
  have key := forRange_apply2 (fun j k => MINDX k j nm)
    (fun j (t : Buf K) => (∑ r ∈ Finset.Icc i m, M nm t r i * M nm t r j) / h)
    (fun _ k (t : Buf K) => M nm t k i) (i + 1) n i m u
    (fun j k j' k' h1 h2 h3 h4 h5 h6 h7 h8 he => by
      have := @MINDX_inj _ k j k' j' (by omega) (by omega) (by omega)
        (by omega) (by omega) (by omega) he
      exact ⟨this.2, this.1⟩)
    (fun j t h1 h2 ht => by
      have e : ∀ r c, (c = i ∨ c = j) → 1 ≤ r → t.get (MINDX r c nm) = u.get (MINDX r c nm) :=
        fun r c hc hr => ht _ (fun j' k' h3 h4 h5 h6 he => by
          have := (@MINDX_inj _ r c k' j' hr (by omega) (by omega)
            (by omega) (by omega) (by omega) he).2
          omega)
      show (∑ r ∈ Finset.Icc i m, M nm t r i * M nm t r j) / h = _
      congr 1
      apply Finset.sum_congr rfl
      intro r hr
      rw [Finset.mem_Icc] at hr
      simp only [M]
      rw [e r i (Or.inl rfl) (by omega), e r j (Or.inr rfl) (by omega)])
    (fun j k t h1 h2 h3 h4 ht => ht _ (fun j' k' h5 h6 h7 h8 he => by
      have := (@MINDX_inj _ k i k' j' (by omega) (by omega) (by omega)
        (by omega) (by omega) (by omega) he).2
      omega))
  have e : colApply nm m n i h u = forRange (i + 1) n (fun j u => forRange i m
      (fun k (t' : Buf K) => t'.set (MINDX k j nm) (t'.get (MINDX k j nm) +
        (∑ r ∈ Finset.Icc i m, M nm u r i * M nm u r j) / h * M nm t' k i)) u) u := by
    unfold colApply
    simp only [forRange_sum, M]
  rw [e]
  exact ⟨fun j k h1 h2 h3 h4 => key.1 j k h1 h2 h3 h4, key.2⟩

theorem accVApply_spec (nm n i L : Nat) (u v : Buf K) (hi : 1 ≤ i) (hL : i < L) (hn : n ≤ nm) :
    (∀ j k, L ≤ j → j ≤ n → L ≤ k → k ≤ n →
      M nm (accVApply nm n i L u v) k j =
        M nm v k j + (∑ r ∈ Finset.Icc L n, M nm u i r * M nm v r j) * M nm v k i) ∧
    (∀ x, (∀ j k, L ≤ j → j ≤ n → L ≤ k → k ≤ n → x ≠ MINDX k j nm) →
      (accVApply nm n i L u v).get x = v.get x) := by
  have key := forRange_apply2 (fun j k => MINDX k j nm)
    (fun j (t : Buf K) => ∑ r ∈ Finset.Icc L n, M nm u i r * M nm t r j)
    (fun _ k (t : Buf K) => M nm t k i) L n L n v
    (fun j k j' k' h1 h2 h3 h4 h5 h6 h7 h8 he => by
      have := @MINDX_inj _ k j k' j' (by omega) (by omega) (by omega)
        (by omega) (by omega) (by omega) he
      exact ⟨this.2, this.1⟩)
    (fun j t h1 h2 ht => by
      show ∑ r ∈ Finset.Icc L n, M nm u i r * M nm t r j = _
      apply Finset.sum_congr rfl
      intro r hr
      rw [Finset.mem_Icc] at hr
      simp only [M]
      rw [ht _ (fun j' k' h3 h4 h5 h6 he => by
        have := (@MINDX_inj _ r j k' j' (by omega) (by omega)
          (by omega) (by omega) (by omega) (by omega) he).2
        omega)])
    (fun j k t h1 h2 h3 h4 ht => ht _ (fun j' k' h5 h6 h7 h8 he => by
      have := (@MINDX_inj _ k i k' j' (by omega) (by omega) (by omega)
        (by omega) (by omega) (by omega) he).2
      omega))
  have e : accVApply nm n i L u v = forRange L n (fun j v => forRange L n
      (fun k (t' : Buf K) => t'.set (MINDX k j nm) (t'.get (MINDX k j nm) +
        (∑ r ∈ Finset.Icc L n, M nm u i r * M nm v r j) * M nm t' k i)) v) v := by
    unfold accVApply
    simp only [forRange_sum, M]
  rw [e]
  exact ⟨fun j k h1 h2 h3 h4 => key.1 j k h1 h2 h3 h4, key.2⟩

theorem accUApply_spec (nm m n i : Nat) (g : K) (u : Buf K) (hi : 1 ≤ i) (hn : n ≤ nm) :
    (∀ j k, i + 1 ≤ j → j ≤ n → i ≤ k → k ≤ m →
      M nm (accUApply nm m n i g u) k j =
        M nm u k j +
          (∑ r ∈ Finset.Icc (i + 1) m, M nm u r i * M nm u r j) / M nm u i i / g * M nm u k i) ∧
    (∀ x, (∀ j k, i + 1 ≤ j → j ≤ n → i ≤ k → k ≤ m → x ≠ MINDX k j nm) →
      (accUApply nm m n i g u).get x = u.get x) := by
  have key := forRange_apply2 (fun j k => MINDX k j nm)
    (fun j (t : Buf K) =>
      (∑ r ∈ Finset.Icc (i + 1) m, M nm t r i * M nm t r j) / M nm t i i / g)
    (fun _ k (t : Buf K) => M nm t k i) (i + 1) n i m u
    (fun j k j' k' h1 h2 h3 h4 h5 h6 h7 h8 he => by
      have := @MINDX_inj _ k j k' j' (by omega) (by omega) (by omega)
        (by omega) (by omega) (by omega) he
      exact ⟨this.2, this.1⟩)
    (fun j t h1 h2 ht => by
      have e : ∀ r c, (c = i ∨ c = j) → 1 ≤ r → t.get (MINDX r c nm) = u.get (MINDX r c nm) :=
        fun r c hc hr => ht _ (fun j' k' h3 h4 h5 h6 he => by
          have := (@MINDX_inj _ r c k' j' hr (by omega) (by omega)
            (by omega) (by omega) (by omega) he).2
          omega)
      show (∑ r ∈ Finset.Icc (i + 1) m, M nm t r i * M nm t r j) / M nm t i i / g = _
      have e1 : M nm t i i = M nm u i i := e i i (Or.inl rfl) hi
      rw [e1]
      congr 2
      apply Finset.sum_congr rfl
      intro r hr
      rw [Finset.mem_Icc] at hr
      simp only [M]
      rw [e r i (Or.inl rfl) (by omega), e r j (Or.inr rfl) (by omega)])
    (fun j k t h1 h2 h3 h4 ht => ht _ (fun j' k' h5 h6 h7 h8 he => by
      have := (@MINDX_inj _ k i k' j' (by omega) (by omega) (by omega)
        (by omega) (by omega) (by omega) he).2
      omega))
  have e : accUApply nm m n i g u = forRange (i + 1) n (fun j u => forRange i m
      (fun k (t' : Buf K) => t'.set (MINDX k j nm) (t'.get (MINDX k j nm) +
        (∑ r ∈ Finset.Icc (i + 1) m, M nm u r i * M nm u r j) / M nm u i i / g *
          M nm t' k i)) u) u := by
    unfold accUApply
    simp only [forRange_sum, M]
  rw [e]
  exact ⟨fun j k h1 h2 h3 h4 => key.1 j k h1 h2 h3 h4, key.2⟩

end ApplyInst

/-! ## The store loops of the accumulations and the copy -/

section SimpleSpecs

variable {K : Type} [LinearOrderedField K]

theorem accVCol_spec (nm n i L : Nat) (u : Buf K) (g : K) (v : Buf K) (hi : 1 ≤ i)
    (hin : i ≤ nm) (hL : 1 ≤ L) :
    (∀ j, L ≤ j → j ≤ n → M nm (accVCol nm n i L u g v) j i = M nm u i j / M nm u i L / g) ∧
    (∀ x, (∀ j, L ≤ j → j ≤ n → x ≠ MINDX j i nm) → (accVCol nm n i L u g v).get x = v.get x) :=
  forRange_set (fun j => MINDX j i nm)
    (fun j (_ : Buf K) => u.get (MINDX i j nm) / u.get (MINDX i L nm) / g) L n v
    (fun k k' h1 h2 h3 h4 he => (MINDX_inj (by omega) (by omega) hi hi hin hin he).1)
    (fun k t _ _ _ => rfl)

theorem accVClear_spec (nm n i L : Nat) (v : Buf K) (hi : 1 ≤ i) (hL : i < L) (hn : n ≤ nm) :
    (∀ j, L ≤ j → j ≤ n → M nm (accVClear nm n i L v) i j = 0 ∧
      M nm (accVClear nm n i L v) j i = 0) ∧
    (∀ x, (∀ j, L ≤ j → j ≤ n → x ≠ MINDX i j nm ∧ x ≠ MINDX j i nm) →
      (accVClear nm n i L v).get x = v.get x) := by
  have key := forRange_region
    (fun j (v : Buf K) => (v.set (MINDX i j nm) 0).set (MINDX j i nm) 0)
    (fun j x => x = MINDX i j nm ∨ x = MINDX j i nm) (fun _ _ _ => 0) L n v
    (fun j t x h1 h2 hR => by
      simp only [Buf.get_set]
      rcases hR with hR | hR
      · simp [hR]
      · simp [hR])
    (fun j t x h1 h2 hR => by
      simp only [Buf.get_set]
      rw [if_neg (fun h => hR (Or.inr h)), if_neg (fun h => hR (Or.inl h))])
    (fun j j' x h1 h2 h3 h4 hR hR' => by
      rcases hR with hR | hR <;> rcases hR' with hR' | hR'
      · exact (MINDX_inj (by omega) (by omega) (by omega) (by omega) (by omega) (by omega)
          (hR.symm.trans hR')).2
      · have := (@MINDX_inj _ i j j' i (by omega) (by omega)
          (by omega) (by omega) (by omega) (by omega) (hR.symm.trans hR')).1
        omega
      · have := (@MINDX_inj _ j i i j' (by omega) (by omega)
          (by omega) (by omega) (by omega) (by omega) (hR.symm.trans hR')).1
        omega
      · exact (MINDX_inj (by omega) (by omega) (by omega) (by omega) (by omega) (by omega)
          (hR.symm.trans hR')).1)
    (fun j t x _ _ _ _ => rfl)
  refine ⟨fun j h1 h2 => ⟨key.1 j _ h1 h2 (Or.inl rfl), key.1 j _ h1 h2 (Or.inr rfl)⟩,
    fun x hx => key.2 x (fun j h1 h2 hR => ?_)⟩
  rcases hR with hR | hR
  · exact (hx j h1 h2).1 hR
  · exact (hx j h1 h2).2 hR

theorem accUClearRow_spec (nm n i : Nat) (u : Buf K) (hi : 1 ≤ i) (hn : n ≤ nm) :
    (∀ j, i + 1 ≤ j → j ≤ n → M nm (accUClearRow nm n i u) i j = 0) ∧
    (∀ x, (∀ j, i + 1 ≤ j → j ≤ n → x ≠ MINDX i j nm) →
      (accUClearRow nm n i u).get x = u.get x) :=
  forRange_set (fun j => MINDX i j nm) (fun _ (_ : Buf K) => (0 : K)) (i + 1) n u
    (fun k k' h1 h2 h3 h4 he =>
      (MINDX_inj hi hi (by omega) (by omega) (by omega) (by omega) he).2)
    (fun k t _ _ _ => rfl)

theorem accUScale_spec (nm m i : Nat) (g : K) (u : Buf K) (hi : 1 ≤ i) (hin : i ≤ nm) :
    (∀ j, i ≤ j → j ≤ m → M nm (accUScale nm m i g u) j i = M nm u j i / g) ∧
    (∀ x, (∀ j, i ≤ j → j ≤ m → x ≠ MINDX j i nm) → (accUScale nm m i g u).get x = u.get x) :=
  forRange_set (fun j => MINDX j i nm) (fun j (t : Buf K) => t.get (MINDX j i nm) / g) i m u
    (fun k k' h1 h2 h3 h4 he => (MINDX_inj (by omega) (by omega) hi hi hin hin he).1)
    (fun k t h1 h2 ht => by
      show t.get (MINDX k i nm) / g = u.get (MINDX k i nm) / g
      rw [ht _ (fun k' h3 h4 he => by
        have := (@MINDX_inj _ k _ k' _ (by omega) (by omega) hi hi hin hin he).1
        omega)])

theorem accUZero_spec (nm m i : Nat) (u : Buf K) (hi : 1 ≤ i) (hin : i ≤ nm) :
    (∀ j, i ≤ j → j ≤ m → M nm (accUZero nm m i u) j i = 0) ∧
    (∀ x, (∀ j, i ≤ j → j ≤ m → x ≠ MINDX j i nm) → (accUZero nm m i u).get x = u.get x) :=
  forRange_set (fun j => MINDX j i nm) (fun _ (_ : Buf K) => (0 : K)) i m u
    (fun k k' h1 h2 h3 h4 he => (MINDX_inj (by omega) (by omega) hi hi hin hin he).1)
    (fun k t _ _ _ => rfl)

theorem copyAU_spec (nm m n : Nat) (a u : Buf K) (hn : n ≤ nm) :
    (∀ i j, 1 ≤ i → i ≤ m → 1 ≤ j → j ≤ n → M nm (copyAU nm m n a u) i j = M nm a i j) ∧
    (∀ x, (∀ i j, 1 ≤ i → i ≤ m → 1 ≤ j → j ≤ n → x ≠ MINDX i j nm) →
      (copyAU nm m n a u).get x = u.get x) := by
  have inner : ∀ (i : Nat) (t : Buf K), 1 ≤ i →
      (∀ j, 1 ≤ j → j ≤ n → (forRange 1 n (fun j (u : Buf K) =>
        u.set (MINDX i j nm) (a.get (MINDX i j nm))) t).get (MINDX i j nm) =
          a.get (MINDX i j nm)) ∧
      (∀ x, (∀ j, 1 ≤ j → j ≤ n → x ≠ MINDX i j nm) → (forRange 1 n (fun j (u : Buf K) =>
        u.set (MINDX i j nm) (a.get (MINDX i j nm))) t).get x = t.get x) := fun i t hi =>
    forRange_set (fun j => MINDX i j nm) (fun j (_ : Buf K) => a.get (MINDX i j nm)) 1 n t
      (fun k k' h1 h2 h3 h4 he =>
        (MINDX_inj hi hi (by omega) (by omega) (by omega) (by omega) he).2)
      (fun k t _ _ _ => rfl)
  have key := forRange_region
    (fun i (u : Buf K) => forRange 1 n (fun j (u : Buf K) =>
        u.set (MINDX i j nm) (a.get (MINDX i j nm))) u)
    (fun i x => ∃ j, 1 ≤ j ∧ j ≤ n ∧ x = MINDX i j nm) (fun _ _ x => a.get x) 1 m u
    (fun i t x h1 h2 hR => by
      obtain ⟨j, hj1, hj2, rfl⟩ := hR
      exact (inner i t h1).1 j hj1 hj2)
    (fun i t x h1 h2 hR => (inner i t h1).2 x (fun j hj1 hj2 he => hR ⟨j, hj1, hj2, he⟩))
    (fun i i' x h1 h2 h3 h4 hR hR' => by
      obtain ⟨j, hj1, hj2, rfl⟩ := hR
      obtain ⟨j', hj1', hj2', he⟩ := hR'
      exact (MINDX_inj h1 h3 hj1 hj1' (by omega) (by omega) he).1)
    (fun _ _ _ _ _ _ _ => rfl)
  exact ⟨fun i j h1 h2 h3 h4 => key.1 i _ h1 h2 ⟨j, h3, h4, rfl⟩,
    fun x hx => key.2 x (fun i h1 h2 hR => by
      obtain ⟨j, hj1, hj2, he⟩ := hR
      exact hx i j h1 h2 hj1 hj2 he)⟩

end SimpleSpecs

/-! ## The Householder vector left by the row step -/

section House

/-- The sign choice `g = -SIGN(sqrt(s), f)`: `g * g = s`, and `h = f*g - s` is
negative and equals `(f - g) * g`. -/
theorem house_scalar (f s : ℝ) (hs : 0 < s) :
    (-(SIGN (Real.sqrt s) f)) * (-(SIGN (Real.sqrt s) f)) = s ∧
    f * (-(SIGN (Real.sqrt s) f)) - s < 0 ∧
    f * (-(SIGN (Real.sqrt s) f)) - s = (f - (-(SIGN (Real.sqrt s) f))) * (-(SIGN (Real.sqrt s) f)) ∧
    -(SIGN (Real.sqrt s) f) ≠ 0 := by
  have h1 : 0 < Real.sqrt s := Real.sqrt_pos.mpr hs
  have h2 : Real.sqrt s * Real.sqrt s = s := Real.mul_self_sqrt (le_of_lt hs)
  have h3 : |Real.sqrt s| = Real.sqrt s := abs_of_pos h1
  unfold SIGN
  rw [h3]
  split_ifs with hf
  · refine ⟨by linarith, by nlinarith, by linarith, by linarith⟩
  · have hf' : f < 0 := not_le.mp hf
    refine ⟨by linarith, by nlinarith, by linarith, by linarith⟩

/-- A non-zero L1 norm gives a positive sum of squares of the scaled entries. -/
theorem scaled_sq_pos (F : Nat → ℝ) (lo hi : Nat)
    (h : ∑ k ∈ Finset.Icc lo hi, |F k| ≠ 0) :
    0 < ∑ k ∈ Finset.Icc lo hi,
      (F k / ∑ k ∈ Finset.Icc lo hi, |F k|) * (F k / ∑ k ∈ Finset.Icc lo hi, |F k|) := by
  have hex : ∃ k ∈ Finset.Icc lo hi, F k ≠ 0 := by
    by_contra hc
    push_neg at hc
    apply h
    apply Finset.sum_eq_zero
    intro k hk
    rw [hc k hk, abs_zero]
  obtain ⟨k, hk, hFk⟩ := hex
  apply Finset.sum_pos'
  · intro j _
    exact mul_self_nonneg _
  · exact ⟨k, hk, mul_self_pos.mpr (div_ne_zero hFk h)⟩

theorem sum_replace_one (F : Nat → ℝ) (lo hi : Nat) (a : ℝ) (hle : lo ≤ hi) :
    ∑ k ∈ Finset.Icc lo hi, (if k = lo then a else F k) * (if k = lo then a else F k) =
      (∑ k ∈ Finset.Icc lo hi, F k * F k) + (a * a - F lo * F lo) := by
  have e : ∀ k ∈ Finset.Icc lo hi, (if k = lo then a else F k) * (if k = lo then a else F k) =
      F k * F k + (if k = lo then a * a - F lo * F lo else 0) := by
    intro k _
    split_ifs with h
    · rw [h]; ring
    · ring
  rw [Finset.sum_congr rfl e, Finset.sum_add_distrib, Finset.sum_ite_eq' (Finset.Icc lo hi) lo,
    if_pos (Finset.mem_Icc.mpr ⟨le_refl _, hle⟩)]

theorem rowScale_eq (nm n i : Nat) (u : Buf ℝ) :
    rowScale nm n i u = ∑ k ∈ Finset.Icc (i + 1) n, |M nm u i k| := by
  unfold rowScale
  exact forRange_sum _ _ _

theorem colScale_eq (nm m i : Nat) (u : Buf ℝ) :
    colScale nm m i u = ∑ k ∈ Finset.Icc i m, |M nm u k i| := by
  unfold colScale
  exact forRange_sum _ _ _

/-- Row `i` of `u` after the branch `scale != 0` of the row step. -/
theorem rowHouse_row (nm m n i : Nat) (scale : ℝ) (u rv1 : Buf ℝ) (hi : 1 ≤ i) (hin : i < n)
    (hn : n ≤ nm) (k : Nat) (hk1 : i + 1 ≤ k) (hk2 : k ≤ n) :
    M nm (rowHouse Real.sqrt nm m n i scale u rv1).1 i k =
      (if k = i + 1 then
        M nm u i (i + 1) / scale - (rowHouse Real.sqrt nm m n i scale u rv1).2.2
       else M nm u i k / scale) * scale := by
  have ns := rowNormalize_spec nm n i scale u hi hn
  unfold rowHouse
  simp only []
  rw [(rowRescale_spec nm n i scale _ hi hn).1 k hk1 hk2]
  congr 1
  have e1 : ∀ t : Buf ℝ, M nm (if i ≠ m then rowApply nm m n i
      (rowRv1 nm n i (M nm (rowNormalize nm n i scale u).2 i (i + 1) *
        -SIGN (Real.sqrt (rowNormalize nm n i scale u).1)
          (M nm (rowNormalize nm n i scale u).2 i (i + 1)) - (rowNormalize nm n i scale u).1)
        t rv1) t else t) i k = M nm t i k := by
    intro t
    split_ifs with h
    · exact (rowApply_spec nm m n i _ t hi hn).2 _ (fun j k' h1 h2 h3 h4 =>
        MINDX_ne hi (by omega) (by omega) (by omega) (by omega) (by omega) (Or.inl (by omega)))
    · rfl
  simp only [M] at e1 ⊢
  rw [e1]
  rw [Buf.get_set]
  have ns1 := ns.2.1
  simp only [M] at ns1
  split_ifs with h1 h2 h2
  · rw [ns1 (i + 1) (le_refl _) (by omega)]
  · have := (MINDX_inj hi hi (by omega) (by omega) (by omega) (by omega) h1).2
    exact absurd this h2
  · exact absurd (by rw [h2]) h1
  · exact ns1 k hk1 hk2

theorem rowHouse_g (nm m n i : Nat) (scale : ℝ) (u rv1 : Buf ℝ) (hi : 1 ≤ i) (hin : i < n)
    (hn : n ≤ nm) :
    (rowHouse Real.sqrt nm m n i scale u rv1).2.2 =
      -(SIGN (Real.sqrt (∑ k ∈ Finset.Icc (i + 1) n, (M nm u i k / scale) * (M nm u i k / scale)))
        (M nm u i (i + 1) / scale)) := by
  have ns := rowNormalize_spec nm n i scale u hi hn
  unfold rowHouse
  simp only []
  have ns1 := ns.2.1 (i + 1) (le_refl _) (by omega)
  simp only [M] at ns1 ⊢
  rw [ns.1, ns1]
  simp only [M]

/-- The row step with `scale != 0` leaves a Householder vector in row `i`. -/
theorem rowHouse_RowOK (nm m n i : Nat) (u rv1 : Buf ℝ) (hi : 1 ≤ i) (hin : i < n)
    (hn : n ≤ nm) (hne : rowScale nm n i u ≠ 0) :
    RowOK nm n (rowHouse Real.sqrt nm m n i (rowScale nm n i u) u rv1).1 i
      (rowScale nm n i u * (rowHouse Real.sqrt nm m n i (rowScale nm n i u) u rv1).2.2) := by
  have hg := rowHouse_g nm m n i (rowScale nm n i u) u rv1 hi hin hn
  have hrow := rowHouse_row nm m n i (rowScale nm n i u) u rv1 hi hin hn
  have hs0 : 0 < ∑ k ∈ Finset.Icc (i + 1) n,
      (M nm u i k / rowScale nm n i u) * (M nm u i k / rowScale nm n i u) := by
    have := scaled_sq_pos (fun k => M nm u i k) (i + 1) n (by rw [← rowScale_eq]; exact hne)
    rw [← rowScale_eq] at this
    exact this
  obtain ⟨g1, g2, g3, g4⟩ := house_scalar (M nm u i (i + 1) / rowScale nm n i u) _ hs0
  rw [← hg] at g1 g2 g3 g4
  right
  constructor
  · rw [hrow (i + 1) (le_refl _) (by omega), if_pos rfl]
    have : (M nm u i (i + 1) / rowScale nm n i u -
        (rowHouse Real.sqrt nm m n i (rowScale nm n i u) u rv1).2.2) *
        (rowHouse Real.sqrt nm m n i (rowScale nm n i u) u rv1).2.2 ≠ 0 := by
      rw [← g3]; exact ne_of_lt g2
    intro h0
    apply this
    have h1 : (M nm u i (i + 1) / rowScale nm n i u -
        (rowHouse Real.sqrt nm m n i (rowScale nm n i u) u rv1).2.2) *
        (rowHouse Real.sqrt nm m n i (rowScale nm n i u) u rv1).2.2 *
        (rowScale nm n i u * rowScale nm n i u) = 0 := by
      linear_combination h0
    rcases mul_eq_zero.mp h1 with h2 | h2
    · exact h2
    · exact absurd (mul_self_eq_zero.mp h2) hne
  · have e : ∀ k ∈ Finset.Icc (i + 1) n,
        M nm (rowHouse Real.sqrt nm m n i (rowScale nm n i u) u rv1).1 i k *
          M nm (rowHouse Real.sqrt nm m n i (rowScale nm n i u) u rv1).1 i k =
        (rowScale nm n i u * rowScale nm n i u) *
          ((if k = i + 1 then M nm u i (i + 1) / rowScale nm n i u -
            (rowHouse Real.sqrt nm m n i (rowScale nm n i u) u rv1).2.2
           else M nm u i k / rowScale nm n i u) *
          (if k = i + 1 then M nm u i (i + 1) / rowScale nm n i u -
            (rowHouse Real.sqrt nm m n i (rowScale nm n i u) u rv1).2.2
           else M nm u i k / rowScale nm n i u)) := by
      intro k hk
      rw [Finset.mem_Icc] at hk
      rw [hrow k hk.1 hk.2]
      ring
    rw [Finset.sum_congr rfl e, ← Finset.mul_sum,
      sum_replace_one (fun k => M nm u i k / rowScale nm n i u) (i + 1) n _ (by omega),
      hrow (i + 1) (le_refl _) (by omega), if_pos rfl]
    linear_combination (rowScale nm n i u * rowScale nm n i u) * g1 -
      2 * (rowScale nm n i u * rowScale nm n i u) * g3

theorem rowStep_RowOK (nm m n i : Nat) (u rv1 : Buf ℝ) (hi : 1 ≤ i) (hin : i ≤ n)
    (hn : n ≤ nm) :
    RowOK nm n (rowStep Real.sqrt nm m n i u rv1).1 i
      ((rowStep Real.sqrt nm m n i u rv1).2.2.2 * (rowStep Real.sqrt nm m n i u rv1).2.2.1) := by
  unfold rowStep
  simp only []
  split_ifs with h1 h2
  · exact rowHouse_RowOK nm m n i u rv1 hi (by omega) hn h2
  · left; simp
  · left; simp

end House

/-! ## Cells left alone by the bidiagonalization -/

section BidiagFrames

variable {K : Type} [LinearOrderedField K]

theorem rowHouse_frame_u (sqrt : K → K) (nm m n i : Nat) (scale : K) (u rv1 : Buf K)
    (hi : 1 ≤ i) (hin : i < n) (hn : n ≤ nm) (x : Int)
    (hx : ∀ j k, i ≤ j → i + 1 ≤ k → k ≤ n → x ≠ MINDX j k nm) :
    (rowHouse sqrt nm m n i scale u rv1).1.get x = u.get x := by
  unfold rowHouse
  simp only []
  rw [(rowRescale_spec nm n i scale _ hi hn).2 x (fun k h1 h2 => hx i k (le_refl _) h1 h2)]
  have e1 : ∀ (r t : Buf K), (if i ≠ m then rowApply nm m n i r t else t).get x = t.get x := by
    intro r t
    split_ifs with h
    · exact (rowApply_spec nm m n i r t hi hn).2 x
        (fun j k h1 h2 h3 h4 => hx j k (by omega) h3 h4)
    · rfl
  rw [e1, Buf.get_set_ne _ _ (hx i (i + 1) (le_refl _) (le_refl _) (by omega))]
  exact (rowNormalize_spec nm n i scale u hi hn).2.2 x
    (fun k h1 h2 => hx i k (le_refl _) h1 h2)

theorem rowStep_frame_u (sqrt : K → K) (nm m n i : Nat) (u rv1 : Buf K)
    (hi : 1 ≤ i) (hin : i ≤ n) (hn : n ≤ nm) (x : Int)
    (hx : ∀ j k, i ≤ j → i + 1 ≤ k → k ≤ n → x ≠ MINDX j k nm) :
    (rowStep sqrt nm m n i u rv1).1.get x = u.get x := by
  unfold rowStep
  simp only []
  split_ifs with h1 h2
  · exact rowHouse_frame_u sqrt nm m n i _ u rv1 hi (by omega) hn x hx
  · rfl
  · rfl

theorem colHouse_frame_u (sqrt : K → K) (nm m n i : Nat) (scale : K) (u : Buf K)
    (hi : 1 ≤ i) (hin : i ≤ n) (hn : n ≤ nm) (x : Int)
    (hx : ∀ j k, i ≤ j → i ≤ k → k ≤ n → x ≠ MINDX j k nm) :
    (colHouse sqrt nm m n i scale u).1.get x = u.get x := by
  unfold colHouse
  simp only []
  rw [(colRescale_spec nm m i scale _ hi (by omega)).2 x
    (fun k h1 h2 => hx k i h1 (le_refl _) hin)]
  have e1 : ∀ (h : K) (t : Buf K), (if i ≠ n then colApply nm m n i h t else t).get x =
      t.get x := by
    intro h t
    split_ifs with h'
    · exact (colApply_spec nm m n i h t hi hn).2 x
        (fun j k h1 h2 h3 h4 => hx k j h3 (by omega) h2)
    · rfl
  rw [e1, Buf.get_set_ne _ _ (hx i i (le_refl _) (le_refl _) hin)]
  exact (colNormalize_spec nm m i scale u hi (by omega)).2.2 x
    (fun k h1 h2 => hx k i h1 (le_refl _) hin)

theorem colStep_frame_u (sqrt : K → K) (nm m n i : Nat) (u : Buf K)
    (hi : 1 ≤ i) (hin : i ≤ n) (hn : n ≤ nm) (x : Int)
    (hx : ∀ j k, i ≤ j → i ≤ k → k ≤ n → x ≠ MINDX j k nm) :
    (colStep sqrt nm m n i u).1.get x = u.get x := by
  unfold colStep
  simp only []
  split_ifs with h1 h2
  · exact colHouse_frame_u sqrt nm m n i _ u hi hin hn x hx
  · rfl
  · rfl

/-- The bidiagonalization step `i` writes `u` only in rows `>= i`, columns `i..n`. -/
theorem bidiagStep_frame_u (sqrt : K → K) (nm m n i : Nat) (b : BSt K)
    (hi : 1 ≤ i) (hin : i ≤ n) (hn : n ≤ nm) (x : Int)
    (hx : ∀ j k, i ≤ j → i ≤ k → k ≤ n → x ≠ MINDX j k nm) :
    (bidiagStep sqrt nm m n i b).u.get x = b.u.get x := by
  unfold bidiagStep
  simp only []
  rw [rowStep_frame_u sqrt nm m n i _ _ hi hin hn x (fun j k h1 h2 h3 => hx j k h1 (by omega) h3)]
  exact colStep_frame_u sqrt nm m n i _ hi hin hn x hx

theorem bidiagStep_frame_rv1 (sqrt : K → K) (nm m n i : Nat) (b : BSt K) (x : Int)
    (hx : x < VINDX i) : (bidiagStep sqrt nm m n i b).rv1.get x = b.rv1.get x := by
  unfold bidiagStep
  simp only []
  rw [rowStep_rv1_frame sqrt nm m n i _ _ x (le_of_lt hx)]
  exact Buf.get_set_ne _ _ (ne_of_lt hx)

theorem bidiagStep_rv1_i (sqrt : K → K) (nm m n i : Nat) (b : BSt K) :
    (bidiagStep sqrt nm m n i b).rv1.get (VINDX i) = b.scale * b.g := by
  unfold bidiagStep
  simp only []
  rw [rowStep_rv1_frame sqrt nm m n i _ _ _ (le_refl _)]
  exact Buf.get_set_same _ _ _

theorem RowOK_congr (nm n : Nat) (u u' : Buf K) (i : Nat) (g : K)
    (h : ∀ k, i + 1 ≤ k → k ≤ n → M nm u' i k = M nm u i k) (hi : i < n)
    (hr : RowOK nm n u i g) : RowOK nm n u' i g := by
  rcases hr with h0 | ⟨h1, h2⟩
  · left; exact h0
  · right
    rw [h (i + 1) (le_refl _) (by omega)]
    refine ⟨h1, ?_⟩
    rw [← h2]
    apply Finset.sum_congr rfl
    intro k hk
    rw [Finset.mem_Icc] at hk
    rw [h k hk.1 hk.2]

end BidiagFrames

section BidiagRow

/-- After the bidiagonalization every row `i < n` of `u` holds the Householder
vector of its row step, with `g = rv1[i+1]`. -/
theorem bidiag_RowOK (nm m n : Nat) (u w rv1 : Buf ℝ) (hn : n ≤ nm) (i : Nat) (hi : 1 ≤ i)
    (hin : i < n) :
    RowOK nm n (bidiag Real.sqrt nm m n u w rv1).u i
      ((bidiag Real.sqrt nm m n u w rv1).rv1.get (VINDX (i + 1))) := by
  unfold bidiag
  have := forRange_induct (bidiagStep Real.sqrt nm m n)
    (fun i0 b => (∀ i, 1 ≤ i → i + 1 < i0 → RowOK nm n b.u i (b.rv1.get (VINDX (i + 1)))) ∧
      (2 ≤ i0 → RowOK nm n b.u (i0 - 1) (b.scale * b.g))) 1 n
    { u := u, w := w, rv1 := rv1, g := 0, scale := 0, anorm := 0 } (by omega)
    ⟨fun i h1 h2 => by omega, fun h => by omega⟩
    (fun i0 b h1 h2 hp => by
      obtain ⟨p1, p2⟩ := hp
      have fr : ∀ i k, 1 ≤ i → i < i0 → 1 ≤ k → k ≤ n →
          M nm (bidiagStep Real.sqrt nm m n i0 b).u i k = M nm b.u i k := fun i k h3 h4 h5 h6 =>
        bidiagStep_frame_u Real.sqrt nm m n i0 b h1 h2 hn _ (fun j k' h7 h8 h9 =>
          MINDX_ne h3 (by omega) h5 (by omega) (by omega) (by omega) (Or.inl (by omega)))
      refine ⟨fun i h3 h4 => ?_, fun _ => ?_⟩
      · apply RowOK_congr nm n b.u _ i _ (fun k h5 h6 => fr i k h3 (by omega) (by omega) h6)
          (by omega)
        by_cases h5 : i + 1 = i0
        · rw [h5, bidiagStep_rv1_i]
          have := p2 (by omega)
          have e : i0 - 1 = i := by omega
          rw [e] at this
          exact this
        · rw [bidiagStep_frame_rv1 _ _ _ _ _ _ _ (by unfold VINDX; omega)]
          exact p1 i h3 (by omega)
      · show RowOK nm n (rowStep Real.sqrt nm m n i0 _ _).1 (i0 + 1 - 1)
          ((rowStep Real.sqrt nm m n i0 _ _).2.2.2 * (rowStep Real.sqrt nm m n i0 _ _).2.2.1)
        have e : i0 + 1 - 1 = i0 := by omega
        rw [e]
        exact rowStep_RowOK nm m n i0 _ _ h1 h2 hn)
  exact this.1 i hi (by omega)

end BidiagRow

/-! ## Reflections and orthonormal columns -/

section HouseON

variable {K : Type} [LinearOrderedField K]

theorem sum_Icc_succ_left (f : Nat → K) (i n : Nat) (h : i ≤ n) :
    ∑ r ∈ Finset.Icc i n, f r = f i + ∑ r ∈ Finset.Icc (i + 1) n, f r := by
  rw [← Nat.Icc_insert_succ_left h, Finset.sum_insert]
  simp

/-- A Householder reflection `I + p p^T / hh`, `p . p = -2 hh`, applied to the
rows keeps the columns orthonormal. -/
theorem ColsON_house (X Y : Nat → Nat → K) (r0 r1 c0 c1 : Nat) (p : Nat → K) (hh : K)
    (hh0 : hh ≠ 0) (hp : ∑ k ∈ Finset.Icc r0 r1, p k * p k = -2 * hh)
    (hY : ∀ k j, r0 ≤ k → k ≤ r1 → c0 ≤ j → j ≤ c1 →
      Y k j = X k j + (∑ r ∈ Finset.Icc r0 r1, p r * X r j) * (p k / hh))
    (hX : ColsON X r0 r1 c0 c1) : ColsON Y r0 r1 c0 c1 := by
  intro a b ha1 ha2 hb1 hb2
  have e : ∀ k ∈ Finset.Icc r0 r1, Y k a * Y k b =
      X k a * X k b +
      (∑ r ∈ Finset.Icc r0 r1, p r * X r b) / hh * (p k * X k a) +
      (∑ r ∈ Finset.Icc r0 r1, p r * X r a) / hh * (p k * X k b) +
      (∑ r ∈ Finset.Icc r0 r1, p r * X r a) * (∑ r ∈ Finset.Icc r0 r1, p r * X r b) /
        (hh * hh) * (p k * p k) := by
    intro k hk
    rw [Finset.mem_Icc] at hk
    rw [hY k a hk.1 hk.2 ha1 ha2, hY k b hk.1 hk.2 hb1 hb2]
    field_simp
    ring
  rw [Finset.sum_congr rfl e]
  simp only [Finset.sum_add_distrib, ← Finset.mul_sum]
  rw [hp, hX a b ha1 ha2 hb1 hb2]
  split_ifs <;> (field_simp; ring)

/-- A block with orthonormal columns, bordered by a unit row and column. -/
theorem ColsON_extend (X : Nat → Nat → K) (i r1 c1 : Nat) (hir : i ≤ r1)
    (h1 : X i i = 1) (h2 : ∀ j, i < j → j ≤ c1 → X i j = 0)
    (h3 : ∀ j, i < j → j ≤ r1 → X j i = 0)
    (hX : ColsON X (i + 1) r1 (i + 1) c1) : ColsON X i r1 i c1 := by
  intro a b ha1 ha2 hb1 hb2
  rw [sum_Icc_succ_left _ _ _ hir]
  by_cases ha : a = i
  · by_cases hb : b = i
    · rw [ha, hb, h1, if_pos rfl]
      have : ∑ r ∈ Finset.Icc (i + 1) r1, X r i * X r i = 0 := by
        apply Finset.sum_eq_zero
        intro r hr
        rw [Finset.mem_Icc] at hr
        rw [h3 r (by omega) hr.2, mul_zero]
      rw [this]; ring
    · rw [ha, h2 b (by omega) hb2, if_neg (fun h => hb h.symm)]
      have : ∑ r ∈ Finset.Icc (i + 1) r1, X r i * X r b = 0 := by
        apply Finset.sum_eq_zero
        intro r hr
        rw [Finset.mem_Icc] at hr
        rw [h3 r (by omega) hr.2, zero_mul]
      rw [this]; ring
  · by_cases hb : b = i
    · rw [hb, h2 a (by omega) ha2, if_neg ha]
      have : ∑ r ∈ Finset.Icc (i + 1) r1, X r a * X r i = 0 := by
        apply Finset.sum_eq_zero
        intro r hr
        rw [Finset.mem_Icc] at hr
        rw [h3 r (by omega) hr.2, mul_zero]
      rw [this]; ring
    · rw [h2 a (by omega) ha2, hX a b (by omega) ha2 (by omega) hb2]
      ring

theorem ColsON_congr (X Y : Nat → Nat → K) (r0 r1 c0 c1 : Nat)
    (h : ∀ k j, r0 ≤ k → k ≤ r1 → c0 ≤ j → j ≤ c1 → Y k j = X k j)
    (hX : ColsON X r0 r1 c0 c1) : ColsON Y r0 r1 c0 c1 := by
  intro a b ha1 ha2 hb1 hb2
  rw [← hX a b ha1 ha2 hb1 hb2]
  apply Finset.sum_congr rfl
  intro k hk
  rw [Finset.mem_Icc] at hk
  rw [h k a hk.1 hk.2 ha1 ha2, h k b hk.1 hk.2 hb1 hb2]

/-- Invariant rule for `forDown`: `P i` holds before the iteration for `i`. -/
theorem forDown_induct {σ : Type} (body : Nat → σ → σ) (P : Nat → σ → Prop) (n : Nat) (s : σ)
    (h0 : P n s) (hstep : ∀ i t, 1 ≤ i → i ≤ n → P i t → P (i - 1) (body i t)) :
    P 0 (forDown body n s) := by
  induction n generalizing s with
  | zero => simpa [forDown] using h0
  | succ k ih =>
    rw [forDown]
    exact ih _ (hstep (k + 1) s (by omega) (le_refl _) h0)
      (fun i t h1 h2 hp => hstep i t h1 (by omega) hp)

end HouseON

/-! ## The accumulation of the right-hand transformations -/

section AccV

variable {K : Type} [LinearOrderedField K]

theorem accVStep_ColsON (nm n : Nat) (u rv1 v : Buf K) (i : Nat) (g : K)
    (hi : 1 ≤ i) (hin : i < n) (hn : n ≤ nm) (hr : RowOK nm n u i g)
    (hV : ColsON (M nm v) (i + 1) n (i + 1) n) :
    ColsON (M nm (accVStep nm n u rv1 i (v, g, i + 1)).1) i n i n := by
  have h2 : ColsON (M nm (if g ≠ 0 then accVApply nm n i (i + 1) u (accVCol nm n i (i + 1) u g v)
      else v)) (i + 1) n (i + 1) n := by
    split_ifs with hg
    · rcases hr with h0 | ⟨hh0, hp⟩
      · exact absurd h0 hg
      · have c := accVCol_spec nm n i (i + 1) u g v hi (by omega) (by omega)
        have a := accVApply_spec nm n i (i + 1) u (accVCol nm n i (i + 1) u g v) hi (by omega) hn
        have cj : ∀ k j, i + 1 ≤ k → k ≤ n → i + 1 ≤ j → j ≤ n →
            M nm (accVCol nm n i (i + 1) u g v) k j = M nm v k j := fun k j h1 h2 h3 h4 =>
          c.2 _ (fun j' h5 h6 => MINDX_ne (by omega) (by omega) (by omega) hi (by omega)
            (by omega) (Or.inr (by omega)))
        apply ColsON_house (M nm v) _ (i + 1) n (i + 1) n (fun k => M nm u i k)
          (M nm u i (i + 1) * g) hh0 hp _ hV
        intro k j h1 h2 h3 h4
        rw [a.1 j k h3 h4 h1 h2, cj k j h1 h2 h3 h4, c.1 k h1 h2, div_div]
        congr 2
        apply Finset.sum_congr rfl
        intro r hr'
        rw [Finset.mem_Icc] at hr'
        rw [cj r j hr'.1 hr'.2 h3 h4]
    · exact hV
  have cl := accVClear_spec nm n i (i + 1) (if g ≠ 0 then
    accVApply nm n i (i + 1) u (accVCol nm n i (i + 1) u g v) else v) hi (by omega) hn
  have e : (accVStep nm n u rv1 i (v, g, i + 1)).1 =
      (accVClear nm n i (i + 1) (if g ≠ 0 then
        accVApply nm n i (i + 1) u (accVCol nm n i (i + 1) u g v) else v)).set
        (MINDX i i nm) 1 := by
    unfold accVStep
    simp only []
    rw [if_pos (by omega)]
  rw [e]
  have off : ∀ k j, 1 ≤ k → 1 ≤ j → j ≤ n → (k ≠ i ∨ j ≠ i) →
      M nm ((accVClear nm n i (i + 1) (if g ≠ 0 then
        accVApply nm n i (i + 1) u (accVCol nm n i (i + 1) u g v) else v)).set
        (MINDX i i nm) 1) k j =
      M nm (accVClear nm n i (i + 1) (if g ≠ 0 then
        accVApply nm n i (i + 1) u (accVCol nm n i (i + 1) u g v) else v)) k j :=
    fun k j h3 h4 h5 h6 => Buf.get_set_ne _ _
      (MINDX_ne h3 hi h4 hi (by omega) (by omega) h6)
  apply ColsON_extend _ i n n (by omega)
  · exact Buf.get_set_same _ _ _
  · intro j h3 h4
    rw [off i j hi (by omega) h4 (Or.inr (by omega))]
    exact (cl.1 j (by omega) h4).1
  · intro j h3 h4
    rw [off j i (by omega) hi (by omega) (Or.inl (by omega))]
    exact (cl.1 j (by omega) h4).2
  · apply ColsON_congr _ _ _ _ _ _ _ h2
    intro k j h3 h4 h5 h6
    rw [off k j (by omega) (by omega) h6 (Or.inl (by omega))]
    exact cl.2 _ (fun j' h7 h8 =>
      ⟨MINDX_ne (by omega) hi (by omega) (by omega) (by omega) (by omega) (Or.inl (by omega)),
       MINDX_ne (by omega) (by omega) (by omega) hi (by omega) (by omega) (Or.inr (by omega))⟩)

/-- The accumulation of the right-hand transformations gives an orthogonal `v`. -/
theorem accV_ColsON (nm n : Nat) (u rv1 v : Buf K) (g : K) (L : Nat) (hn1 : 1 ≤ n)
    (hn : n ≤ nm)
    (hrow : ∀ i, 1 ≤ i → i < n → RowOK nm n u i (rv1.get (VINDX (i + 1)))) :
    ColsON (M nm (accV nm n u rv1 v g L)) 1 n 1 n := by
  unfold accV
  have := forDown_induct (accVStep nm n u rv1)
    (fun i t => i < n → ColsON (M nm t.1) (i + 1) n (i + 1) n ∧
      t.2.1 = rv1.get (VINDX (i + 1)) ∧ t.2.2 = i + 1) n (v, g, L)
    (fun h => by omega)
    (fun i t h1 h2 hp h3 => by
      have e0 : i - 1 + 1 = i := by omega
      rw [e0]
      refine ⟨?_, rfl, rfl⟩
      by_cases hin : i = n
      · subst hin
        have e : (accVStep nm i u rv1 i t).1 = t.1.set (MINDX i i nm) 1 := by
          unfold accVStep
          simp
        rw [e]
        intro a b ha1 ha2 hb1 hb2
        have ha : a = i := by omega
        have hb : b = i := by omega
        subst ha
        subst hb
        simp [M, Buf.get_set]
      · obtain ⟨p1, p2, p3⟩ := hp (by omega)
        have e : t = (t.1, rv1.get (VINDX (i + 1)), i + 1) := by
          rw [← p2, ← p3]
        rw [e]
        exact accVStep_ColsON nm n u rv1 t.1 i _ h1 (by omega) hn (hrow i h1 (by omega)) p1)
  exact (this (by omega)).1

end AccV

/-! ## The array u through the diagonalization -/

section DiagU

theorem rot_unit' (f g : ℝ) (hz : Real.sqrt (f * f + g * g) ≠ 0) :
    (g / Real.sqrt (f * f + g * g)) * (g / Real.sqrt (f * f + g * g)) +
      (-f / Real.sqrt (f * f + g * g)) * (-f / Real.sqrt (f * f + g * g)) = 1 := by
  have h0 : 0 ≤ f * f + g * g := by nlinarith [mul_self_nonneg f, mul_self_nonneg g]
  have h1 := Real.mul_self_sqrt h0
  rw [div_mul_div_comm, div_mul_div_comm, ← add_div, h1]
  have : g * g + -f * -f = f * f + g * g := by ring
  rw [this]
  exact div_self (by rw [← h1]; exact mul_ne_zero hz hz)

/-- The cancellation loop keeps the columns of `u` orthonormal. -/
theorem cancelLoop_u_ColsON (nm m n : Nat) (matu : Int) (anorm : ℝ) (L1 : Nat)
    (cnt i : Nat) (c s : ℝ) (st : St ℝ) (hL1 : 1 ≤ L1) (hLi : L1 < i) (hin : i + cnt ≤ n + 1)
    (hn : n ≤ nm) (hU : ColsON (M nm st.u) 1 m 1 n) :
    ColsON (M nm (cancelLoop nm m matu anorm Real.sqrt L1 cnt i c s st).u) 1 m 1 n := by
  induction cnt generalizing i c s st with
  | zero => exact hU
  | succ cnt ih =>
    rw [cancelLoop]
    simp only []
    split_ifs with h1 h2
    · exact hU
    · apply ih (i + 1) _ _ _ (by omega) (by omega)
      have hf : s * st.rv1.get (VINDX i) ≠ 0 := fun h => h1 ((anorm_test _ _).mpr h)
      exact rotCols_ColsON nm m n L1 i _ _ st.u hn ⟨hL1, by omega⟩ ⟨by omega, by omega⟩
        (by omega) (rot_unit' _ _ (ne_of_gt (sqrt_sq_pos _ _ hf))) hU
    · exact ih (i + 1) _ _ _ (by omega) (by omega) hU

theorem splitScan_false_two (anorm : ℝ) (w rv1 : Buf ℝ) (k : Nat) (h0 : rv1.get 0 = 0)
    (hk : 1 ≤ k) (hf : (splitScan anorm w rv1 k).2 = false) :
    2 ≤ (splitScan anorm w rv1 k).1 := by
  have := splitScan_pos anorm w rv1 k h0 hk
  by_contra hc
  have h1 : (splitScan anorm w rv1 k).1 = 1 := by omega
  rw [this.2 h1] at hf
  exact Bool.noConfusion hf

theorem splitCancel_u_ColsON (nm m n : Nat) (matu : Int) (anorm : ℝ) (k : Nat) (st : St ℝ)
    (h0 : st.rv1.get 0 = 0) (hk : 1 ≤ k ∧ k ≤ n) (hn : n ≤ nm)
    (hU : ColsON (M nm st.u) 1 m 1 n) :
    ColsON (M nm (splitCancel nm m matu anorm Real.sqrt k st).1.u) 1 m 1 n := by
  unfold splitCancel
  simp only []
  split_ifs with hf
  · exact hU
  · simp only [Bool.not_eq_true] at hf
    have h2 := splitScan_false_two anorm st.w st.rv1 k h0 hk.1 hf
    have hle := splitScan_le anorm st.w st.rv1 k
    exact cancelLoop_u_ColsON nm m n matu anorm _ _ _ 0 1 st (by omega) (by omega) (by omega)
      hn hU

theorem qrStep_u_ColsON (nm m n : Nat) (matu matv : Int) (i1 : Nat) (q : QSt ℝ)
    (h1 : 1 ≤ i1) (hin : i1 + 1 ≤ n) (hnm : n ≤ nm) (hs : q.s ≠ 0)
    (hr : q.st.rv1.get (VINDX (i1 + 1)) ≠ 0) (hU : ColsON (M nm q.st.u) 1 m 1 n) :
    ColsON (M nm (qrStep nm m n matu matv Real.sqrt i1 q).st.u) 1 m 1 n := by
  unfold qrStep
  simp only []
  split_ifs with hmu hz2
  · exact rotCols_ColsON nm m n i1 (i1 + 1) _ _ _ hnm ⟨h1, by omega⟩ ⟨by omega, hin⟩ (by omega)
      (rot_unit _ _ hz2) hU
  · exact rotCols_ColsON nm m n i1 (i1 + 1) _ _ _ hnm ⟨h1, by omega⟩ ⟨by omega, hin⟩ (by omega)
      (rot_unit _ _ (ne_of_gt (sqrt_sq_pos' _ _ (mul_ne_zero hs hr)))) hU
  · exact hU

/-- Invariant rule for the loop of a QR sweep, whatever the shift. -/
theorem qrSweep_induct {K : Type} [LinearOrderedField K] (nm m n : Nat) (matu matv : Int)
    (sqrt : K → K) (k L : Nat) (z : K) (st : St K) (P : Nat → QSt K → Prop) (hle : L ≤ k)
    (hinit : ∀ f, P L { st := st, c := 1, s := 1, f := f, x := st.w.get (VINDX L) })
    (hstep : ∀ i1 q, L ≤ i1 → i1 ≤ k - 1 → P i1 q →
      P (i1 + 1) (qrStep nm m n matu matv sqrt i1 q)) :
    ∃ q, P (k - 1 + 1) q ∧
      qrSweep nm m n matu matv sqrt k L z st =
        { q.st with w := q.st.w.set (VINDX k) q.x,
                    rv1 := (q.st.rv1.set (VINDX L) 0).set (VINDX k) q.f } := by
  unfold qrSweep
  simp only []
  exact ⟨_, forRange_induct (qrStep nm m n matu matv sqrt) P L (k - 1) _ (by omega)
    (hinit _) hstep, rfl⟩

/-- A QR sweep keeps the columns of `u` orthonormal. -/
theorem qrSweep_u_ColsON (nm m n : Nat) (matu matv : Int) (k L : Nat) (z : ℝ) (st : St ℝ)
    (hpre : SweepPre st L k) (hk : k ≤ n) (hnm : n ≤ nm)
    (hU : ColsON (M nm st.u) 1 m 1 n) :
    ColsON (M nm (qrSweep nm m n matu matv Real.sqrt k L z st).u) 1 m 1 n := by
  obtain ⟨hL1, hLk, _, hr, hw⟩ := hpre
  obtain ⟨q, hq, e⟩ := qrSweep_induct nm m n matu matv Real.sqrt k L z st
    (fun i1 q => (i1 < k → q.s ≠ 0) ∧
      (∀ x, VINDX i1 ≤ x → q.st.rv1.get x = st.rv1.get x) ∧
      (∀ x, VINDX i1 ≤ x → q.st.w.get x = st.w.get x) ∧
      ColsON (M nm q.st.u) 1 m 1 n) (by omega)
    (fun _ => ⟨fun _ => one_ne_zero, fun _ _ => rfl, fun _ _ => rfl, hU⟩)
    (fun i1 q h1 h2 hp => by
      obtain ⟨p1, p2, p3, p4⟩ := hp
      have hri : q.st.rv1.get (VINDX (i1 + 1)) ≠ 0 := by
        rw [p2 _ (by unfold VINDX; omega)]
        exact hr (i1 + 1) (by omega) (by omega)
      have hsq := p1 (by omega)
      refine ⟨fun h3 => ?_, fun x hx => ?_, fun x hx => ?_, ?_⟩
      · apply qrStep_s_ne _ _ _ _ _ _ _ hsq hri
        rw [p3 _ (by unfold VINDX; omega)]
        exact hw (i1 + 1) (by omega) h3
      · rw [qrStep_rv1_frame _ _ _ _ _ _ _ _ _ (by unfold VINDX at hx ⊢; omega)]
        exact p2 x (by unfold VINDX at hx ⊢; omega)
      · rw [qrStep_w_frame _ _ _ _ _ _ _ _ _ (by unfold VINDX at hx ⊢; omega)]
        exact p3 x (by unfold VINDX at hx ⊢; omega)
      · exact qrStep_u_ColsON nm m n matu matv i1 q (by omega) (by omega) hnm hsq hri p4)
  rw [e]
  exact hq.2.2.2

theorem converge_u {K : Type} [LinearOrderedField K] (nm n : Nat) (matv : Int) (k : Nat)
    (st : St K) : (converge nm n matv k st).u = st.u := by
  unfold converge
  simp only []
  split_ifs <;> rfl

/-- The REPEAT loop for one `k` keeps the columns of `u` orthonormal. -/
theorem repeatK_u_ColsON (nm m n : Nat) (matu matv : Int) (anorm : ℝ) (k : Nat)
    (hk : 1 ≤ k ∧ k ≤ n) (hnm : n ≤ nm) (rem : Nat) (st : St ℝ) (h0 : st.rv1.get 0 = 0)
    (hU : ColsON (M nm st.u) 1 m 1 n) :
    ColsON (M nm (repeatK nm m n matu matv anorm Real.sqrt k rem st).1.u) 1 m 1 n := by
  induction rem generalizing st with
  | zero =>
    have hu1 := splitCancel_u_ColsON nm m n matu anorm k st h0 hk hnm hU
    rw [repeatK]
    split_ifs with hL
    · exact hu1
    · rw [converge_u]; exact hu1
  | succ rem ih =>
    have hu1 := splitCancel_u_ColsON nm m n matu anorm k st h0 hk hnm hU
    have hLpos := splitCancel_pos nm m matu anorm Real.sqrt k st h0 hk.1
    have hLle := splitCancel_le nm m matu anorm Real.sqrt k st
    have hr0 := splitCancel_rv1_zero nm m matu anorm Real.sqrt k st 0 h0
    rw [repeatK]
    split_ifs with hL
    · have hpre := splitCancel_pre nm m matu anorm k st h0 hk.1 hL
      have hq0 := qrSweep_rv1_zero nm m n matu matv Real.sqrt k
        (splitCancel nm m matu anorm Real.sqrt k st).2
        ((splitCancel nm m matu anorm Real.sqrt k st).1.w.get (VINDX k))
        (splitCancel nm m matu anorm Real.sqrt k st).1 hr0 hLpos (by omega)
      exact ih _ hq0 (qrSweep_u_ColsON nm m n matu matv k _ _ _ hpre hk.2 hnm hu1)
    · rw [converge_u]; exact hu1

/-- The diagonalization keeps the columns of `u` orthonormal. -/
theorem diagonalize_u_ColsON (nm m n : Nat) (matu matv : Int) (anorm : ℝ) (hnm : n ≤ nm)
    (k0 : Nat) (hk0 : k0 ≤ n) (st : St ℝ) (h0 : st.rv1.get 0 = 0)
    (hU : ColsON (M nm st.u) 1 m 1 n) :
    ColsON (M nm (diagonalize nm m n matu matv anorm Real.sqrt k0 st).1.u) 1 m 1 n := by
  induction k0 generalizing st with
  | zero => rw [diagonalize]; exact hU
  | succ k0 ih =>
    rw [diagonalize]
    have hU2 := repeatK_u_ColsON nm m n matu matv anorm (k0 + 1) ⟨by omega, hk0⟩ hnm 30 st h0 hU
    split_ifs with hr
    · exact ih (by omega) _
        (repeatK_spec nm m n matu matv anorm Real.sqrt (k0 + 1) (by omega) 30 st h0).1 hU2
    · exact hU2

end DiagU

/-! ## The column step leaves a Householder vector -/

section ColHouse

/-- Column `i` of `u` after the branch `scale != 0` of the column step. -/
theorem colHouse_col (nm m n i : Nat) (scale : ℝ) (u : Buf ℝ) (hi : 1 ≤ i) (hin : i ≤ n)
    (hn : n ≤ nm) (k : Nat) (hk1 : i ≤ k) (hk2 : k ≤ m) :
    M nm (colHouse Real.sqrt nm m n i scale u).1 k i =
      (if k = i then M nm u i i / scale - (colHouse Real.sqrt nm m n i scale u).2
       else M nm u k i / scale) * scale := by
  have ns := colNormalize_spec nm m i scale u hi (by omega)
  unfold colHouse
  simp only []
  rw [(colRescale_spec nm m i scale _ hi (by omega)).1 k hk1 hk2]
  congr 1
  have e1 : ∀ (h : ℝ) (t : Buf ℝ), M nm (if i ≠ n then colApply nm m n i h t else t) k i =
      M nm t k i := by
    intro h t
    split_ifs with h'
    · exact (colApply_spec nm m n i h t hi hn).2 _ (fun j k' h1 h2 h3 h4 =>
        MINDX_ne (by omega) (by omega) hi (by omega) (by omega) (by omega) (Or.inr (by omega)))
    · rfl
  rw [e1]
  simp only [M]
  rw [Buf.get_set]
  have ns1 := ns.2.1
  simp only [M] at ns1
  split_ifs with h1 h2 h2
  · rw [ns1 i (le_refl _) (by omega)]
  · have := (MINDX_inj (by omega) hi hi hi (by omega) (by omega) h1).1
    exact absurd this h2
  · exact absurd (by rw [h2]) h1
  · exact ns1 k hk1 hk2

theorem colHouse_g (nm m n i : Nat) (scale : ℝ) (u : Buf ℝ) (hi : 1 ≤ i) (hin : i ≤ n)
    (hn : n ≤ nm) (him : i ≤ m) :
    (colHouse Real.sqrt nm m n i scale u).2 =
      -(SIGN (Real.sqrt (∑ k ∈ Finset.Icc i m, (M nm u k i / scale) * (M nm u k i / scale)))
        (M nm u i i / scale)) := by
  have ns := colNormalize_spec nm m i scale u hi (by omega)
  unfold colHouse
  simp only []
  have ns1 := ns.2.1 i (le_refl _) him
  simp only [M] at ns1 ⊢
  rw [ns.1, ns1]
  simp only [M]

/-- The column step with `scale != 0` leaves a Householder vector in column `i`. -/
theorem colHouse_ColOK (nm m n i : Nat) (u : Buf ℝ) (hi : 1 ≤ i) (hin : i ≤ n)
    (hn : n ≤ nm) (him : i ≤ m) (hne : colScale nm m i u ≠ 0) :
    ColOK nm m (colHouse Real.sqrt nm m n i (colScale nm m i u) u).1 i
      (colScale nm m i u * (colHouse Real.sqrt nm m n i (colScale nm m i u) u).2) := by
  have hg := colHouse_g nm m n i (colScale nm m i u) u hi hin hn him
  have hcol := colHouse_col nm m n i (colScale nm m i u) u hi hin hn
  have hs0 : 0 < ∑ k ∈ Finset.Icc i m,
      (M nm u k i / colScale nm m i u) * (M nm u k i / colScale nm m i u) := by
    have := scaled_sq_pos (fun k => M nm u k i) i m (by rw [← colScale_eq]; exact hne)
    rw [← colScale_eq] at this
    exact this
  obtain ⟨g1, g2, g3, g4⟩ := house_scalar (M nm u i i / colScale nm m i u) _ hs0
  rw [← hg] at g1 g2 g3 g4
  right
  constructor
  · rw [hcol i (le_refl _) him, if_pos rfl]
    have : (M nm u i i / colScale nm m i u -
        (colHouse Real.sqrt nm m n i (colScale nm m i u) u).2) *
        (colHouse Real.sqrt nm m n i (colScale nm m i u) u).2 ≠ 0 := by
      rw [← g3]; exact ne_of_lt g2
    intro h0
    apply this
    have h1 : (M nm u i i / colScale nm m i u -
        (colHouse Real.sqrt nm m n i (colScale nm m i u) u).2) *
        (colHouse Real.sqrt nm m n i (colScale nm m i u) u).2 *
        (colScale nm m i u * colScale nm m i u) = 0 := by
      linear_combination h0
    rcases mul_eq_zero.mp h1 with h2 | h2
    · exact h2
    · exact absurd (mul_self_eq_zero.mp h2) hne
  · have e : ∀ k ∈ Finset.Icc i m,
        M nm (colHouse Real.sqrt nm m n i (colScale nm m i u) u).1 k i *
          M nm (colHouse Real.sqrt nm m n i (colScale nm m i u) u).1 k i =
        (colScale nm m i u * colScale nm m i u) *
          ((if k = i then M nm u i i / colScale nm m i u -
            (colHouse Real.sqrt nm m n i (colScale nm m i u) u).2
           else M nm u k i / colScale nm m i u) *
          (if k = i then M nm u i i / colScale nm m i u -
            (colHouse Real.sqrt nm m n i (colScale nm m i u) u).2
           else M nm u k i / colScale nm m i u)) := by
      intro k hk
      rw [Finset.mem_Icc] at hk
      rw [hcol k hk.1 hk.2]
      ring
    rw [Finset.sum_congr rfl e, ← Finset.mul_sum,
      sum_replace_one (fun k => M nm u k i / colScale nm m i u) i m _ him,
      hcol i (le_refl _) him, if_pos rfl]
    linear_combination (colScale nm m i u * colScale nm m i u) * g1 -
      2 * (colScale nm m i u * colScale nm m i u) * g3

theorem colStep_ColOK (nm m n i : Nat) (u : Buf ℝ) (hi : 1 ≤ i) (hin : i ≤ n)
    (hn : n ≤ nm) :
    ColOK nm m (colStep Real.sqrt nm m n i u).1 i
      ((colStep Real.sqrt nm m n i u).2.2 * (colStep Real.sqrt nm m n i u).2.1) := by
  unfold colStep
  simp only []
  split_ifs with h1 h2
  · exact colHouse_ColOK nm m n i u hi hin hn h1 h2
  · left; simp
  · left; simp

theorem ColOK_congr {K : Type} [LinearOrderedField K] (nm m : Nat) (u u' : Buf K) (i : Nat)
    (g : K) (h : ∀ k, i ≤ k → k ≤ m → M nm u' k i = M nm u k i) (hi : i ≤ m)
    (hr : ColOK nm m u i g) : ColOK nm m u' i g := by
  rcases hr with h0 | ⟨h1, h2⟩
  · left; exact h0
  · right
    rw [h i (le_refl _) hi]
    refine ⟨h1, ?_⟩
    rw [← h2]
    apply Finset.sum_congr rfl
    intro k hk
    rw [Finset.mem_Icc] at hk
    rw [h k hk.1 hk.2]

theorem bidiagStep_w_i {K : Type} [LinearOrderedField K] (sqrt : K → K) (nm m n i : Nat)
    (b : BSt K) :
    (bidiagStep sqrt nm m n i b).w.get (VINDX i) =
      (colStep sqrt nm m n i b.u).2.2 * (colStep sqrt nm m n i b.u).2.1 := by
  unfold bidiagStep
  exact Buf.get_set_same _ _ _

theorem bidiagStep_frame_w {K : Type} [LinearOrderedField K] (sqrt : K → K) (nm m n i : Nat)
    (b : BSt K) (x : Int) (hx : x ≠ VINDX i) :
    (bidiagStep sqrt nm m n i b).w.get x = b.w.get x := by
  unfold bidiagStep
  exact Buf.get_set_ne _ _ hx

/-- After the bidiagonalization every column `i <= min(m, n)` of `u` holds the
Householder vector of its column step, with `g = w[i]`. -/
theorem bidiag_ColOK (nm m n : Nat) (u w rv1 : Buf ℝ) (hn : n ≤ nm) (i : Nat) (hi : 1 ≤ i)
    (hin : i ≤ n) (him : i ≤ m) :
    ColOK nm m (bidiag Real.sqrt nm m n u w rv1).u i
      ((bidiag Real.sqrt nm m n u w rv1).w.get (VINDX i)) := by
  unfold bidiag
  have := forRange_induct (bidiagStep Real.sqrt nm m n)
    (fun i0 b => ∀ i, 1 ≤ i → i < i0 → i ≤ m → ColOK nm m b.u i (b.w.get (VINDX i))) 1 n
    { u := u, w := w, rv1 := rv1, g := 0, scale := 0, anorm := 0 } (by omega)
    (fun i h1 h2 => by omega)
    (fun i0 b h1 h2 hp i h3 h4 h5 => by
      by_cases hi0 : i = i0
      · subst hi0
        rw [bidiagStep_w_i]
        apply ColOK_congr nm m (colStep Real.sqrt nm m n i b.u).1 _ i _ _ h5
          (colStep_ColOK nm m n i b.u h1 h2 hn)
        intro k hk1 hk2
        show (rowStep Real.sqrt nm m n i _ _).1.get _ = _
        exact rowStep_frame_u Real.sqrt nm m n i _ _ h1 h2 hn _ (fun j k' h7 h8 h9 =>
          MINDX_ne (by omega) (by omega) (by omega) (by omega) (by omega) (by omega)
            (Or.inr (by omega)))
      · rw [bidiagStep_frame_w _ _ _ _ _ _ _ (fun h => hi0 (VINDX_inj h))]
        apply ColOK_congr nm m b.u _ i _ _ h5 (hp i h3 (by omega) h5)
        intro k hk1 hk2
        exact bidiagStep_frame_u Real.sqrt nm m n i0 b h1 h2 hn _ (fun j k' h7 h8 h9 =>
          MINDX_ne (by omega) (by omega) (by omega) (by omega) (by omega) (by omega)
            (Or.inr (by omega))))
  exact this i hi (by omega) him

end ColHouse

/-! ## The accumulation of the left-hand transformations -/

section AccU

variable {K : Type} [LinearOrderedField K]

/-- With `mn = n` the two guards `i != n` only skip empty loops. -/
theorem accUStep_eq (nm m n : Nat) (w t : Buf K) (i : Nat) :
    accUStep nm m n n w i t =
      (if w.get (VINDX i) ≠ 0 then
        accUScale nm m i (w.get (VINDX i))
          (accUApply nm m n i (w.get (VINDX i)) (accUClearRow nm n i t))
       else accUZero nm m i (accUClearRow nm n i t)).set (MINDX i i nm)
      ((if w.get (VINDX i) ≠ 0 then
        accUScale nm m i (w.get (VINDX i))
          (accUApply nm m n i (w.get (VINDX i)) (accUClearRow nm n i t))
       else accUZero nm m i (accUClearRow nm n i t)).get (MINDX i i nm) + 1) := by
  have e1 : (if i ≠ n then accUClearRow nm n i t else t) = accUClearRow nm n i t := by
    split_ifs with h
    · rfl
    · have h' : i = n := by omega
      subst h'
      unfold accUClearRow
      rw [forRange_empty _ _ _ _ (by omega)]
  have e2 : ∀ (g : K) (s : Buf K), (if i ≠ n then accUApply nm m n i g s else s) =
      accUApply nm m n i g s := by
    intro g s
    split_ifs with h
    · rfl
    · have h' : i = n := by omega
      subst h'
      unfold accUApply
      rw [forRange_empty _ _ _ _ (by omega)]
  unfold accUStep
  simp only []
  rw [e1, e2]

theorem accUStep_ColsON (nm m n : Nat) (w t : Buf K) (i : Nat)
    (hi : 1 ≤ i) (hin : i ≤ n) (hnm : n ≤ m) (hn : n ≤ nm)
    (hc : ColOK nm m t i (w.get (VINDX i)))
    (hT : ColsON (M nm t) (i + 1) m (i + 1) n) :
    ColsON (M nm (accUStep nm m n n w i t)) i m i n := by
  rw [accUStep_eq]
  have c := accUClearRow_spec nm n i t hi hn
  obtain ⟨X, X1, X2⟩ : ∃ X : Nat → Nat → K, (∀ k, X k i = if k = i then 1 else 0) ∧
      (∀ k j, j ≠ i → X k j = if k = i then 0 else M nm t k j) :=
    ⟨fun k j => if j = i then (if k = i then (1 : K) else 0)
      else if k = i then 0 else M nm t k j, fun k => by simp, fun k j hj => by simp [hj]⟩
  have hX : ColsON X i m i n := by
    apply ColsON_extend _ i m n (by omega)
    · rw [X1, if_pos rfl]
    · intro j h1 h2
      rw [X2 i j (by omega), if_pos rfl]
    · intro j h1 h2
      rw [X1, if_neg (by omega)]
    · apply ColsON_congr _ _ _ _ _ _ _ hT
      intro k j h1 h2 h3 h4
      rw [X2 k j (by omega), if_neg (by omega)]
  have c1 : ∀ k j, i ≤ k → k ≤ m → i + 1 ≤ j → j ≤ n →
      (accUClearRow nm n i t).get (MINDX k j nm) = X k j := by
    intro k j h1 h2 h3 h4
    rw [X2 k j (by omega)]
    split_ifs with hk
    · rw [hk]; exact c.1 j h3 h4
    · exact c.2 _ (fun j' h5 h6 => MINDX_ne (by omega) hi (by omega) (by omega) (by omega)
        (by omega) (Or.inl hk))
  have c2 : ∀ k, 1 ≤ k → (accUClearRow nm n i t).get (MINDX k i nm) = M nm t k i := by
    intro k h1
    exact c.2 _ (fun j' h5 h6 => MINDX_ne h1 hi hi (by omega) (by omega)
        (by omega) (Or.inr (by omega)))
  have hsum1 : ∑ r ∈ Finset.Icc i m, M nm t r i * X r i = M nm t i i := by
    rw [sum_Icc_succ_left _ _ _ (by omega), X1, if_pos rfl]
    have : ∑ r ∈ Finset.Icc (i + 1) m, M nm t r i * X r i = 0 := by
      apply Finset.sum_eq_zero
      intro r hr
      rw [Finset.mem_Icc] at hr
      rw [X1, if_neg (by omega), mul_zero]
    rw [this]
    ring
  have hsum2 : ∀ j, i + 1 ≤ j → j ≤ n → ∑ r ∈ Finset.Icc i m, M nm t r i * X r j =
      ∑ r ∈ Finset.Icc (i + 1) m, (accUClearRow nm n i t).get (MINDX r i nm) *
        (accUClearRow nm n i t).get (MINDX r j nm) := by
    intro j h1 h2
    rw [sum_Icc_succ_left _ _ _ (by omega), X2 i j (by omega), if_pos rfl, mul_zero, zero_add]
    apply Finset.sum_congr rfl
    intro r hr
    rw [Finset.mem_Icc] at hr
    rw [c1 r j (by omega) hr.2 h1 h2, c2 r (by omega)]
  split_ifs with hg
  · rcases hc with h0 | ⟨hh0, hp⟩
    · exact absurd h0 hg
    · have a := accUApply_spec nm m n i (w.get (VINDX i)) (accUClearRow nm n i t) hi hn
      have s := accUScale_spec nm m i (w.get (VINDX i))
        (accUApply nm m n i (w.get (VINDX i)) (accUClearRow nm n i t)) hi (by omega)
      have a2 : ∀ k, 1 ≤ k →
          (accUApply nm m n i (w.get (VINDX i)) (accUClearRow nm n i t)).get (MINDX k i nm) =
            M nm t k i := by
        intro k h1
        rw [← c2 k h1]
        exact a.2 _ (fun j' k' h5 h6 h7 h8 => MINDX_ne h1 (by omega) hi (by omega) (by omega)
          (by omega) (Or.inr (by omega)))
      have hpi : M nm t i i ≠ 0 := left_ne_zero_of_mul hh0
      apply ColsON_house X _ i m i n (fun k => M nm t k i) (M nm t i i * w.get (VINDX i))
        hh0 hp _ hX
      intro k j h1 h2 h3 h4
      show (_ : Buf K).get _ = _
      by_cases hj : j = i
      · rw [hj, hsum1, X1]
        by_cases hk : k = i
        · rw [hk, Buf.get_set_same]
          have := s.1 i (le_refl _) (by omega)
          simp only [M] at this
          rw [this, a2 i hi, if_pos rfl]
          field_simp
          ring
        · rw [Buf.get_set_ne _ _ (MINDX_ne (by omega) hi hi hi (by omega) (by omega)
            (Or.inl hk))]
          have := s.1 k h1 h2
          simp only [M] at this
          rw [this, a2 k (by omega), if_neg hk]
          field_simp
          ring
      · have hj1 : i + 1 ≤ j := by omega
        rw [Buf.get_set_ne _ _ (MINDX_ne (by omega) hi (by omega) hi (by omega) (by omega)
            (Or.inr hj))]
        rw [s.2 _ (fun k' h5 h6 => MINDX_ne (by omega) (by omega) (by omega) hi (by omega)
          (by omega) (Or.inr hj))]
        have := a.1 j k hj1 h4 h1 h2
        simp only [M] at this
        rw [this, c1 k j h1 h2 hj1 h4, c2 k (by omega), c2 i hi, hsum2 j hj1 h4]
        simp only [M]
        field_simp
  · have z := accUZero_spec nm m i (accUClearRow nm n i t) hi (by omega)
    apply ColsON_congr _ _ _ _ _ _ _ hX
    intro k j h1 h2 h3 h4
    show (_ : Buf K).get _ = _
    by_cases hj : j = i
    · rw [hj, X1]
      by_cases hk : k = i
      · rw [hk, Buf.get_set_same]
        have := z.1 i (le_refl _) (by omega)
        simp only [M] at this
        rw [this, if_pos rfl, zero_add]
      · rw [Buf.get_set_ne _ _ (MINDX_ne (by omega) hi hi hi (by omega) (by omega)
            (Or.inl hk))]
        have := z.1 k h1 h2
        simp only [M] at this
        rw [this, if_neg hk]
    · rw [Buf.get_set_ne _ _ (MINDX_ne (by omega) hi (by omega) hi (by omega) (by omega)
            (Or.inr hj))]
      rw [z.2 _ (fun k' h5 h6 => MINDX_ne (by omega) (by omega) (by omega) hi (by omega)
          (by omega) (Or.inr hj))]
      exact c1 k j h1 h2 (by omega) h4

/-- Step `i` of the accumulation only writes the block of rows `i..m` and
columns `i..n`. -/
theorem accUStep_frame (nm m n : Nat) (w t : Buf K) (i : Nat)
    (hi : 1 ≤ i) (hin : i ≤ n) (him : i ≤ m) (hn : n ≤ nm) (x : Int)
    (hx : ∀ k j, i ≤ k → k ≤ m → i ≤ j → j ≤ n → x ≠ MINDX k j nm) :
    (accUStep nm m n n w i t).get x = t.get x := by
  rw [accUStep_eq]
  have c := accUClearRow_spec nm n i t hi hn
  have hc : (accUClearRow nm n i t).get x = t.get x :=
    c.2 _ (fun j h1 h2 => hx i j (le_refl _) him (by omega) h2)
  rw [Buf.get_set_ne _ _ (hx i i (le_refl _) him (le_refl _) hin)]
  split_ifs with hg
  · rw [(accUScale_spec nm m i _ _ hi (by omega)).2 _
      (fun j h1 h2 => hx j i h1 h2 (le_refl _) hin),
      (accUApply_spec nm m n i _ _ hi hn).2 _
      (fun j k h1 h2 h3 h4 => hx k j h3 h4 (by omega) h2), hc]
  · rw [(accUZero_spec nm m i _ hi (by omega)).2 _
      (fun j h1 h2 => hx j i h1 h2 (le_refl _) hin), hc]

/-- For `m >= n` the accumulation of the left-hand transformations leaves `n`
orthonormal columns in `u`. -/
theorem accU_ColsON (nm m n : Nat) (w u : Buf K) (hnm : n ≤ m) (hn : n ≤ nm)
    (hcol : ∀ i, 1 ≤ i → i ≤ n → ColOK nm m u i (w.get (VINDX i))) :
    ColsON (M nm (accU nm m n w u)) 1 m 1 n := by
  unfold accU
  have hmn : MIN m n = n := by
    unfold MIN
    rw [if_neg (by omega)]
  simp only [hmn]
  have := forDown_induct (accUStep nm m n n w)
    (fun i t => ColsON (M nm t) (i + 1) m (i + 1) n ∧
      ∀ k j, 1 ≤ k → 1 ≤ j → j ≤ i → M nm t k j = M nm u k j) n u
    ⟨fun a b h1 h2 h3 h4 => by omega, fun k j _ _ _ => rfl⟩
    (fun i t h1 h2 hp => by
      have e0 : i - 1 + 1 = i := by omega
      simp only [] at hp ⊢
      rw [e0]
      constructor
      · apply accUStep_ColsON nm m n w t i h1 h2 hnm hn _ hp.1
        exact ColOK_congr nm m u t i _ (fun k h3 h4 => hp.2 k i (by omega) h1 (le_refl _))
          (by omega) (hcol i h1 h2)
      · intro k j h3 h4 h5
        rw [← hp.2 k j h3 h4 (by omega)]
        exact accUStep_frame nm m n w t i h1 h2 (by omega) hn _ (fun k' j' h6 h7 h8 h9 =>
          MINDX_ne h3 (by omega) h4 (by omega) (by omega) (by omega) (Or.inr (by omega))))
  exact this.1

end AccU

/-! ## Plane rotations and the product U B V^T -/

section ProdRot

variable {K : Type} [LinearOrderedField K]

/-- Two summands may be replaced by two others with the same sum. -/
theorem sum_pair (lo hi p q : Nat) (F G : Nat → K) (hpq : p ≠ q)
    (hp : lo ≤ p ∧ p ≤ hi) (hq : lo ≤ q ∧ q ≤ hi)
    (h : ∀ r, lo ≤ r → r ≤ hi → r ≠ p → r ≠ q → G r = F r)
    (hs : G p + G q = F p + F q) :
    ∑ r ∈ Finset.Icc lo hi, G r = ∑ r ∈ Finset.Icc lo hi, F r := by
  have hp' : p ∈ Finset.Icc lo hi := Finset.mem_Icc.mpr hp
  have hq' : q ∈ (Finset.Icc lo hi).erase p :=
    Finset.mem_erase.mpr ⟨fun e => hpq e.symm, Finset.mem_Icc.mpr hq⟩
  rw [← Finset.add_sum_erase _ G hp', ← Finset.add_sum_erase _ F hp',
    ← Finset.add_sum_erase _ G hq', ← Finset.add_sum_erase _ F hq', ← add_assoc, ← add_assoc, hs]
  congr 1
  apply Finset.sum_congr rfl
  intro r hr
  rw [Finset.mem_erase, Finset.mem_erase, Finset.mem_Icc] at hr
  exact h r hr.2.2.1 hr.2.2.2 hr.2.1 hr.1

/-- A plane rotation of the columns `p`, `q` of `U` together with the same
rotation of the rows `p`, `q` of `B` leaves `U B V^T` as it is. -/
theorem Prod3_left (n p q : Nat) (c s : K) (uu uu' vv : Nat → K) (B B' : Nat → Nat → K)
    (hpq : p ≠ q) (hp : 1 ≤ p ∧ p ≤ n) (hq : 1 ≤ q ∧ q ≤ n) (hcs : c * c + s * s = 1)
    (hup : uu' p = uu p * c + uu q * s) (huq : uu' q = -uu p * s + uu q * c)
    (hu : ∀ r, 1 ≤ r → r ≤ n → r ≠ p → r ≠ q → uu' r = uu r)
    (hBp : ∀ t, 1 ≤ t → t ≤ n → B' p t = c * B p t + s * B q t)
    (hBq : ∀ t, 1 ≤ t → t ≤ n → B' q t = -s * B p t + c * B q t)
    (hB : ∀ r t, 1 ≤ r → r ≤ n → 1 ≤ t → t ≤ n → r ≠ p → r ≠ q → B' r t = B r t) :
    Prod3 n uu' B' vv = Prod3 n uu B vv := by
  unfold Prod3
  apply sum_pair 1 n p q _ _ hpq hp hq
  · intro r h1 h2 h3 h4
    apply Finset.sum_congr rfl
    intro t ht
    rw [Finset.mem_Icc] at ht
    rw [hu r h1 h2 h3 h4, hB r t h1 h2 ht.1 ht.2 h3 h4]
  · rw [← Finset.sum_add_distrib, ← Finset.sum_add_distrib]
    apply Finset.sum_congr rfl
    intro t ht
    rw [Finset.mem_Icc] at ht
    rw [hup, huq, hBp t ht.1 ht.2, hBq t ht.1 ht.2]
    linear_combination (uu p * B p t * vv t + uu q * B q t * vv t) * hcs

/-- A plane rotation of the columns `p`, `q` of `V` together with the same
rotation of the columns `p`, `q` of `B` leaves `U B V^T` as it is. -/
theorem Prod3_right (n p q : Nat) (c s : K) (uu vv vv' : Nat → K) (B B' : Nat → Nat → K)
    (hpq : p ≠ q) (hp : 1 ≤ p ∧ p ≤ n) (hq : 1 ≤ q ∧ q ≤ n) (hcs : c * c + s * s = 1)
    (hvp : vv' p = vv p * c + vv q * s) (hvq : vv' q = -vv p * s + vv q * c)
    (hv : ∀ t, 1 ≤ t → t ≤ n → t ≠ p → t ≠ q → vv' t = vv t)
    (hBp : ∀ r, 1 ≤ r → r ≤ n → B' r p = B r p * c + B r q * s)
    (hBq : ∀ r, 1 ≤ r → r ≤ n → B' r q = -B r p * s + B r q * c)
    (hB : ∀ r t, 1 ≤ r → r ≤ n → 1 ≤ t → t ≤ n → t ≠ p → t ≠ q → B' r t = B r t) :
    Prod3 n uu B' vv' = Prod3 n uu B vv := by
  unfold Prod3
  apply Finset.sum_congr rfl
  intro r hr
  rw [Finset.mem_Icc] at hr
  apply sum_pair 1 n p q _ _ hpq hp hq
  · intro t h1 h2 h3 h4
    rw [hv t h1 h2 h3 h4, hB r t hr.1 hr.2 h1 h2 h3 h4]
  · rw [hvp, hvq, hBp r hr.1 hr.2, hBq r hr.1 hr.2]
    linear_combination (uu r * B r p * vv p + uu r * B r q * vv q) * hcs

theorem Prod3_congr (n : Nat) (uu uu' vv vv' : Nat → K) (B B' : Nat → Nat → K)
    (hu : ∀ r, 1 ≤ r → r ≤ n → uu' r = uu r) (hv : ∀ t, 1 ≤ t → t ≤ n → vv' t = vv t)
    (hB : ∀ r t, 1 ≤ r → r ≤ n → 1 ≤ t → t ≤ n → B' r t = B r t) :
    Prod3 n uu' B' vv' = Prod3 n uu B vv := by
  unfold Prod3
  apply Finset.sum_congr rfl
  intro r hr
  rw [Finset.mem_Icc] at hr
  apply Finset.sum_congr rfl
  intro t ht
  rw [Finset.mem_Icc] at ht
  rw [hu r hr.1 hr.2, hv t ht.1 ht.2, hB r t hr.1 hr.2 ht.1 ht.2]

/-- With a zero superdiagonal the product is `sum_r uu[r] * w[r] * vv[r]`. -/
theorem Prod3_diag (n : Nat) (uu vv : Nat → K) (w rv1 : Buf K)
    (h : ∀ t, 1 ≤ t → t ≤ n → rv1.get (VINDX t) = 0) :
    Prod3 n uu (Bmat w rv1) vv = ∑ r ∈ Finset.Icc 1 n, uu r * w.get (VINDX r) * vv r := by
  unfold Prod3
  apply Finset.sum_congr rfl
  intro r hr
  rw [Finset.mem_Icc] at hr
  rw [Finset.sum_eq_single r]
  · simp [Bmat]
  · intro t ht htr
    rw [Finset.mem_Icc] at ht
    unfold Bmat
    rw [if_neg htr]
    split_ifs with h1
    · show uu r * rv1.get (VINDX t) * vv t = 0
      rw [h t ht.1 ht.2]; ring
    · ring
  · intro hr'
    exact absurd (Finset.mem_Icc.mpr hr) hr'

theorem VINDX_eq (a b : Nat) : VINDX a = VINDX b ↔ a = b :=
  ⟨fun h => VINDX_inj h, fun h => by rw [h]⟩

end ProdRot

/-! ## The cancellation keeps the product -/

section CancelRecon

theorem rot_kill (f g : ℝ) (hf : f ≠ 0) :
    g / Real.sqrt (f * f + g * g) * f + -f / Real.sqrt (f * f + g * g) * g = 0 ∧
    -(-f / Real.sqrt (f * f + g * g)) * f + g / Real.sqrt (f * f + g * g) * g =
      Real.sqrt (f * f + g * g) := by
  have hz := ne_of_gt (sqrt_sq_pos f g hf)
  have h2 : Real.sqrt (f * f + g * g) * Real.sqrt (f * f + g * g) = f * f + g * g :=
    Real.mul_self_sqrt (add_nonneg (mul_self_nonneg _) (mul_self_nonneg _))
  constructor
  · field_simp
    ring
  · field_simp

/-- One rotation of the cancellation loop, on the entries of the matrix. -/
theorem Bc_step (L1 i : Nat) (c s c' s' h : ℝ) (st st3 : St ℝ) (hLi : L1 < i)
    (hw3 : st3.w = st.w.set (VINDX i) h)
    (hr3 : st3.rv1 = st.rv1.set (VINDX i) (st.rv1.get (VINDX i) * c))
    (hw : st.w.get (VINDX L1) = 0)
    (hc : (i = L1 + 1 ∧ c = 0) ∨ (L1 + 1 < i ∧ st.rv1.get (VINDX (L1 + 1)) = 0))
    (hk1 : c' * (s * st.rv1.get (VINDX i)) + s' * st.w.get (VINDX i) = 0)
    (hk2 : -s' * (s * st.rv1.get (VINDX i)) + c' * st.w.get (VINDX i) = h) :
    (∀ t, Bc L1 (i + 1) c' s' st3 L1 t =
      c' * Bc L1 i c s st L1 t + s' * Bc L1 i c s st i t) ∧
    (∀ t, Bc L1 (i + 1) c' s' st3 i t =
      -s' * Bc L1 i c s st L1 t + c' * Bc L1 i c s st i t) ∧
    (∀ r t, r ≠ L1 → r ≠ i → Bc L1 (i + 1) c' s' st3 r t = Bc L1 i c s st r t) := by
  have gw : ∀ x, st3.w.get x = if x = VINDX i then h else st.w.get x := by
    intro x; rw [hw3, Buf.get_set]
  have gr : ∀ x, st3.rv1.get x =
      if x = VINDX i then st.rv1.get (VINDX i) * c else st.rv1.get x := by
    intro x; rw [hr3, Buf.get_set]
  have ew : ∀ r, st3.w (VINDX r) = if r = i then h else st.w.get (VINDX r) := by
    intro r
    show st3.w.get _ = _
    rw [gw]
    simp only [VINDX_eq]
  have er : ∀ r, st3.rv1 (VINDX r) =
      if r = i then st.rv1.get (VINDX i) * c else st.rv1.get (VINDX r) := by
    intro r
    show st3.rv1.get _ = _
    rw [gr]
    simp only [VINDX_eq]
  have ew0 : ∀ r, st.w (VINDX r) = st.w.get (VINDX r) := fun _ => rfl
  have er0 : ∀ r, st.rv1 (VINDX r) = st.rv1.get (VINDX r) := fun _ => rfl
  refine ⟨?_, ?_, ?_⟩
  · intro t
    unfold Bc
    simp only [ew, er, ew0, er0, true_and]
    rcases hc with ⟨hc1, hc2⟩ | ⟨hc1, hc2⟩ <;> split_ifs <;>
      first
      | (exfalso; omega)
      | (subst_vars; (try simp only [hw]); (try simp only [hc2]);
          (try first | ring1 | linear_combination hk1 | linear_combination -hk1))
  · intro t
    unfold Bc
    simp only [ew, er, ew0, er0, true_and]
    rcases hc with ⟨hc1, hc2⟩ | ⟨hc1, hc2⟩ <;> split_ifs <;>
      first
      | (exfalso; omega)
      | (subst_vars; (try simp only [hw]); (try simp only [hc2]); (try ring1))
  · intro r t h1 h2
    unfold Bc
    simp only [ew, er, ew0, er0]
    rcases hc with ⟨hc1, hc2⟩ | ⟨hc1, hc2⟩ <;> split_ifs <;>
      first
      | (exfalso; omega)
      | (subst_vars; (try simp only [hw]); (try ring1))

/-- The cancellation loop keeps `U B`: at the top of the iteration `i` the matrix
is `Bc`, at the end it is the stored bidiagonal. -/
theorem cancelLoop_Prod3 (nm m n : Nat) (matu : Int) (hmatu : matu ≠ 0) (anorm : ℝ)
    (L1 k : Nat) (hL1 : 1 ≤ L1) (hk : k ≤ n) (hn : n ≤ nm) (ρ : Nat) (hρ : 1 ≤ ρ ∧ ρ ≤ m)
    (vv : Nat → ℝ) (cnt i : Nat) (c s : ℝ) (st : St ℝ) (hLi : L1 < i)
    (hcnt : i + cnt = k + 1) (hw : st.w.get (VINDX L1) = 0)
    (hk1 : k < n → st.rv1.get (VINDX (k + 1)) = 0)
    (hc : (i = L1 + 1 ∧ c = 0) ∨ (L1 + 1 < i ∧ st.rv1.get (VINDX (L1 + 1)) = 0)) :
    Prod3 n (fun r => M nm (cancelLoop nm m matu anorm Real.sqrt L1 cnt i c s st).u ρ r)
      (Bmat (cancelLoop nm m matu anorm Real.sqrt L1 cnt i c s st).w
        (cancelLoop nm m matu anorm Real.sqrt L1 cnt i c s st).rv1) vv =
    Prod3 n (fun r => M nm st.u ρ r) (Bc L1 i c s st) vv := by
  induction cnt generalizing i c s st with
  | zero =>
    rw [cancelLoop]
    apply Prod3_congr n _ _ vv vv _ _ (fun _ _ _ => rfl) (fun _ _ _ => rfl)
    intro r t h1 h2 h3 h4
    have hi : i = k + 1 := by omega
    subst hi
    unfold Bmat Bc
    by_cases ht : t = k + 1
    · have hz := hk1 (by omega)
      subst ht
      have e1 : ¬ (k + 1 = r) ∨ True := Or.inr trivial
      simp only [if_true]
      show _ = (if k + 1 = r then st.w.get (VINDX r)
        else if k + 1 = r + 1 then c * st.rv1.get (VINDX (k + 1)) else 0) +
        (if r = L1 ∧ True then s * st.rv1.get (VINDX (k + 1)) else 0)
      rw [hz]
      split_ifs <;> simp
    · have e1 : ¬ (r = L1 ∧ t = k + 1) := fun h => ht h.2
      rw [if_neg ht, if_neg e1, add_zero]
  | succ cnt ih =>
    rw [cancelLoop]
    simp only []
    have hik : i ≤ k := by omega
    split_ifs with h1
    · have hf : s * st.rv1.get (VINDX i) = 0 := (anorm_test _ _).mp h1
      apply Prod3_congr n _ _ vv vv _ _ (fun _ _ _ => rfl) (fun _ _ _ => rfl)
      intro r t h2 h3 h4 h5
      unfold Bmat Bc
      simp only []
      show _ = (if t = r then st.w.get (VINDX r)
        else if t = r + 1 then (if t = i then c * st.rv1.get (VINDX t)
          else st.rv1.get (VINDX t)) else 0) +
        (if r = L1 ∧ t = i then s * st.rv1.get (VINDX t) else 0)
      by_cases ht : t = i
      · subst ht
        rw [hf]
        simp only [if_true, ite_self, add_zero]
        show (if t = r then st.w.get (VINDX r)
          else if t = r + 1 then (st.rv1.set (VINDX t) (st.rv1.get (VINDX t) * c)).get (VINDX t)
          else 0) = _
        rw [Buf.get_set_same, mul_comm]
      · have e1 : ¬ (r = L1 ∧ t = i) := fun h => ht h.2
        rw [if_neg e1, add_zero, if_neg ht]
        show (if t = r then st.w.get (VINDX r)
          else if t = r + 1 then (st.rv1.set (VINDX i) (st.rv1.get (VINDX i) * c)).get (VINDX t)
          else 0) = _
        rw [Buf.get_set_ne _ _ (fun h => ht (VINDX_inj h))]
    · have hf : s * st.rv1.get (VINDX i) ≠ 0 := fun h => h1 ((anorm_test _ _).mpr h)
      have hz := ne_of_gt (sqrt_sq_pos _ (st.w.get (VINDX i)) hf)
      have hcs := rot_unit' _ (st.w.get (VINDX i)) hz
      have hkill := rot_kill _ (st.w.get (VINDX i)) hf
      refine (ih (i + 1) _ _ _ (by omega) (by omega) ?_ ?_ ?_).trans ?_
      · show (st.w.set (VINDX i) _).get (VINDX L1) = 0
        rw [Buf.get_set_ne _ _ (fun h => by have := VINDX_inj h; omega)]
        exact hw
      · intro hkn
        show (st.rv1.set (VINDX i) _).get (VINDX (k + 1)) = 0
        rw [Buf.get_set_ne _ _ (fun h => by have := VINDX_inj h; omega)]
        exact hk1 hkn
      · right
        refine ⟨by omega, ?_⟩
        show (st.rv1.set (VINDX i) _).get (VINDX (L1 + 1)) = 0
        rcases hc with ⟨h2, h3⟩ | ⟨h2, h3⟩
        · rw [h2, Buf.get_set_same, h3, mul_zero]
        · rw [Buf.get_set_ne _ _ (fun h => by have := VINDX_inj h; omega)]
          exact h3
      · have rc := rotCols_spec nm m L1 i
          (st.w.get (VINDX i) / Real.sqrt (s * st.rv1.get (VINDX i) * (s * st.rv1.get (VINDX i)) +
            st.w.get (VINDX i) * st.w.get (VINDX i)))
          (-(s * st.rv1.get (VINDX i)) / Real.sqrt (s * st.rv1.get (VINDX i) *
            (s * st.rv1.get (VINDX i)) + st.w.get (VINDX i) * st.w.get (VINDX i)))
          st.u ⟨hL1, by omega⟩ ⟨by omega, by omega⟩ (by omega)
        have bs := Bc_step L1 i c s _ _ _ st
          { u := rotCols nm m L1 i
              (st.w.get (VINDX i) / Real.sqrt (s * st.rv1.get (VINDX i) *
                (s * st.rv1.get (VINDX i)) + st.w.get (VINDX i) * st.w.get (VINDX i)))
              (-(s * st.rv1.get (VINDX i)) / Real.sqrt (s * st.rv1.get (VINDX i) *
                (s * st.rv1.get (VINDX i)) + st.w.get (VINDX i) * st.w.get (VINDX i))) st.u,
            w := st.w.set (VINDX i) (Real.sqrt (s * st.rv1.get (VINDX i) *
                (s * st.rv1.get (VINDX i)) + st.w.get (VINDX i) * st.w.get (VINDX i))),
            v := st.v,
            rv1 := st.rv1.set (VINDX i) (st.rv1.get (VINDX i) * c) }
          hLi rfl rfl hw hc hkill.1 hkill.2
        apply Prod3_left n L1 i _ _ _ _ vv _ _ (by omega) ⟨hL1, by omega⟩ ⟨by omega, by omega⟩ hcs
        · exact rc.1 ρ hρ.1 hρ.2
        · exact rc.2.1 ρ hρ.1 hρ.2
        · intro r h2 h3 h4 h5
          exact rc.2.2 _ (fun j h6 h7 =>
            ⟨MINDX_ne hρ.1 h6 h2 hL1 (by omega) (by omega) (Or.inr h4),
             MINDX_ne hρ.1 h6 h2 (by omega) (by omega) (by omega) (Or.inr h5)⟩)
        · intro t h2 h3
          exact bs.1 t
        · intro t h2 h3
          exact bs.2.1 t
        · intro r t h2 h3 h4 h5 h6 h7
          exact bs.2.2 r t h6 h7

/-- The split test and the cancellation keep `A = U B V^T`. -/
theorem splitCancel_Recon (nm m n : Nat) (matu : Int) (hmatu : matu ≠ 0) (anorm : ℝ)
    (k : Nat) (a : Buf ℝ) (st : St ℝ) (h0 : st.rv1.get 0 = 0) (hk : 1 ≤ k ∧ k ≤ n)
    (hn : n ≤ nm) (hk1 : k < n → st.rv1.get (VINDX (k + 1)) = 0)
    (hR : Recon nm m n a st) :
    Recon nm m n a (splitCancel nm m matu anorm Real.sqrt k st).1 := by
  unfold splitCancel
  simp only []
  split_ifs with hf
  · exact hR
  · simp only [Bool.not_eq_true] at hf
    have h2 := splitScan_false_two anorm st.w st.rv1 k h0 hk.1 hf
    have hle := splitScan_le anorm st.w st.rv1 k
    have hp := (splitScan_post anorm st.w st.rv1 k).2.2 hf (by omega)
    intro i j hi1 hi2 hj1 hj2
    rw [cancelLoop_v, hR i j hi1 hi2 hj1 hj2]
    rw [cancelLoop_Prod3 nm m n matu hmatu anorm _ k (by omega) hk.2 hn i ⟨hi1, hi2⟩ _ _ _ 0 1 st
      (by omega) (by omega) hp.2 hk1 (Or.inl ⟨by omega, rfl⟩)]
    apply Prod3_congr n _ _ _ _ _ _ (fun _ _ _ => rfl) (fun _ _ _ => rfl)
    intro r t h3 h4 h5 h6
    unfold Bc Bmat
    split_ifs <;> first | (exfalso; omega) | ring1

end CancelRecon

/-! ## A QR step keeps the product -/

section QRRecon

/-- One step of the QR loop on the entries of the matrix: the columns `i1`,
`i1+1` are rotated by `(c1, s1)`, then the rows `i1`, `i1+1` by the new `(c, s)`. -/
theorem Bq_step (L i1 : Nat) (q q' : QSt ℝ) (c1 s1 z1 z2 f' g'' h' y' : ℝ)
    (hL : 1 ≤ L) (hLi : L ≤ i1)
    (hw' : q'.st.w = q.st.w.set (VINDX i1) z2)
    (hr' : q'.st.rv1 = q.st.rv1.set (VINDX i1) z1)
    (hf' : f' = q.x * c1 + q.c * q.st.rv1.get (VINDX (i1 + 1)) * s1)
    (hg'' : g'' = -q.x * s1 + q.c * q.st.rv1.get (VINDX (i1 + 1)) * c1)
    (hh' : h' = q.st.w.get (VINDX (i1 + 1)) * s1)
    (hy' : y' = q.st.w.get (VINDX (i1 + 1)) * c1)
    (hfn : q'.f = q'.c * g'' + q'.s * y')
    (hxn : q'.x = -q'.s * g'' + q'.c * y')
    (hz2a : q'.c * f' + q'.s * h' = z2)
    (hz2b : -q'.s * f' + q'.c * h' = 0)
    (hz1a : L < i1 → q.f * c1 + q.s * q.st.rv1.get (VINDX (i1 + 1)) * s1 = z1)
    (hz1b : L < i1 → -q.f * s1 + q.s * q.st.rv1.get (VINDX (i1 + 1)) * c1 = 0)
    (B1 : Nat → Nat → ℝ)
    (hB1 : ∀ r t, B1 r t =
      if t = i1 then Bq L i1 q r i1 * c1 + Bq L i1 q r (i1 + 1) * s1
      else if t = i1 + 1 then -Bq L i1 q r i1 * s1 + Bq L i1 q r (i1 + 1) * c1
      else Bq L i1 q r t) :
    (∀ t, Bq L (i1 + 1) q' i1 t = q'.c * B1 i1 t + q'.s * B1 (i1 + 1) t) ∧
    (∀ t, Bq L (i1 + 1) q' (i1 + 1) t = -q'.s * B1 i1 t + q'.c * B1 (i1 + 1) t) ∧
    (∀ r t, r ≠ i1 → r ≠ i1 + 1 → Bq L (i1 + 1) q' r t = B1 r t) := by
  have ew : ∀ r, q'.st.w (VINDX r) = if r = i1 then z2 else q.st.w.get (VINDX r) := by
    intro r
    show q'.st.w.get _ = _
    rw [hw', Buf.get_set]
    simp only [VINDX_eq]
  have er : ∀ r, q'.st.rv1 (VINDX r) = if r = i1 then z1 else q.st.rv1.get (VINDX r) := by
    intro r
    show q'.st.rv1.get _ = _
    rw [hr', Buf.get_set]
    simp only [VINDX_eq]
  have ew0 : ∀ r, q.st.w (VINDX r) = q.st.w.get (VINDX r) := fun _ => rfl
  have er0 : ∀ r, q.st.rv1 (VINDX r) = q.st.rv1.get (VINDX r) := fun _ => rfl
  subst hf' hg'' hh' hy' hz2a
  refine ⟨?_, ?_, ?_⟩
  · intro t
    rw [hB1, hB1]
    unfold Bq
    simp only [ew, er, ew0, er0, hfn, hxn]
    by_cases h1 : t = i1
    · subst h1
      simp (disch := omega) only [if_pos, if_neg, if_true, if_false, true_and, and_true]
      ring1
    · by_cases h2 : t = i1 + 1
      · subst h2
        simp (disch := omega) only [if_pos, if_neg, if_true, if_false, true_and, and_true]
        ring1
      · by_cases h3 : t = i1 + 2
        · subst h3
          simp (disch := omega) only [if_pos, if_neg, if_true, if_false, true_and, and_true]
          ring1
        · simp (disch := omega) only [if_pos, if_neg, if_true, if_false, true_and, and_true]
          ring1
  · intro t
    rw [hB1, hB1]
    unfold Bq
    simp only [ew, er, ew0, er0, hfn, hxn]
    by_cases h1 : t = i1
    · subst h1
      simp (disch := omega) only [if_pos, if_neg, if_true, if_false, true_and, and_true]
      linear_combination -hz2b
    · by_cases h2 : t = i1 + 1
      · subst h2
        simp (disch := omega) only [if_pos, if_neg, if_true, if_false, true_and, and_true]
        ring1
      · by_cases h3 : t = i1 + 2
        · subst h3
          simp (disch := omega) only [if_pos, if_neg, if_true, if_false, true_and, and_true]
          ring1
        · simp (disch := omega) only [if_pos, if_neg, if_true, if_false, true_and, and_true]
          ring1
  · intro r t h1 h2
    rw [hB1]
    unfold Bq
    simp only [ew, er, ew0, er0, hfn, hxn]
    by_cases hL1 : L < i1
    · have za := hz1a hL1
      have zb := hz1b hL1
      by_cases h3 : t = i1
      · subst h3
        by_cases h4 : r + 1 = t
        · subst h4
          simp (disch := omega) only [if_pos, if_neg, if_true, if_false, true_and, and_true]
          linear_combination -za
        · simp (disch := omega) only [if_pos, if_neg, if_true, if_false, true_and, and_true]
          ring1
      · by_cases h5 : t = i1 + 1
        · subst h5
          by_cases h4 : r + 1 = i1
          · subst h4
            simp (disch := omega) only [if_pos, if_neg, if_true, if_false, true_and, and_true]
            linear_combination -zb
          · simp (disch := omega) only [if_pos, if_neg, if_true, if_false, true_and, and_true]
            ring1
        · simp (disch := omega) only [if_pos, if_neg, if_true, if_false, true_and, and_true]
    · have hLe : L = i1 := by omega
      subst hLe
      by_cases h3 : t = L
      · subst h3
        simp (disch := omega) only [if_pos, if_neg, if_true, if_false, true_and, and_true]
        split_ifs <;> ring1
      · by_cases h5 : t = L + 1
        · subst h5
          simp (disch := omega) only [if_pos, if_neg, if_true, if_false, true_and, and_true]
          try (split_ifs <;> first | (exfalso; omega) | ring1)
        · simp (disch := omega) only [if_pos, if_neg, if_true, if_false, true_and, and_true]

theorem sqrt_sq_zero (f h : ℝ) (hz : Real.sqrt (f * f + h * h) = 0) : f = 0 ∧ h = 0 := by
  have h1 : f * f + h * h = 0 :=
    (Real.sqrt_eq_zero (add_nonneg (mul_self_nonneg _) (mul_self_nonneg _))).mp hz
  have h2 : f * f = 0 := by nlinarith [mul_self_nonneg f, mul_self_nonneg h]
  have h3 : h * h = 0 := by nlinarith [mul_self_nonneg f, mul_self_nonneg h]
  exact ⟨mul_self_eq_zero.mp h2, mul_self_eq_zero.mp h3⟩

theorem rot_make (f h : ℝ) (hz : Real.sqrt (f * f + h * h) ≠ 0) :
    f * (f / Real.sqrt (f * f + h * h)) + h * (h / Real.sqrt (f * f + h * h)) =
      Real.sqrt (f * f + h * h) ∧
    -f * (h / Real.sqrt (f * f + h * h)) + h * (f / Real.sqrt (f * f + h * h)) = 0 := by
  have h2 : Real.sqrt (f * f + h * h) * Real.sqrt (f * f + h * h) = f * f + h * h :=
    Real.mul_self_sqrt (add_nonneg (mul_self_nonneg _) (mul_self_nonneg _))
  constructor
  · field_simp
  · field_simp
    ring

/-- What one pass of the QR loop body computes, in terms of the two rotations. -/
theorem qrStep_fields (nm m n : Nat) (matu matv : Int) (hmatu : matu ≠ 0) (hmatv : matv ≠ 0)
    (i1 : Nat) (q : QSt ℝ) (hs : q.s ≠ 0) (hr : q.st.rv1.get (VINDX (i1 + 1)) ≠ 0) :
    ∃ c1 s1 z1 z2 f' g'' h' y' : ℝ,
      (qrStep nm m n matu matv Real.sqrt i1 q).st.w = q.st.w.set (VINDX i1) z2 ∧
      (qrStep nm m n matu matv Real.sqrt i1 q).st.rv1 = q.st.rv1.set (VINDX i1) z1 ∧
      f' = q.x * c1 + q.c * q.st.rv1.get (VINDX (i1 + 1)) * s1 ∧
      g'' = -q.x * s1 + q.c * q.st.rv1.get (VINDX (i1 + 1)) * c1 ∧
      h' = q.st.w.get (VINDX (i1 + 1)) * s1 ∧
      y' = q.st.w.get (VINDX (i1 + 1)) * c1 ∧
      (qrStep nm m n matu matv Real.sqrt i1 q).f =
        (qrStep nm m n matu matv Real.sqrt i1 q).c * g'' +
        (qrStep nm m n matu matv Real.sqrt i1 q).s * y' ∧
      (qrStep nm m n matu matv Real.sqrt i1 q).x =
        -(qrStep nm m n matu matv Real.sqrt i1 q).s * g'' +
        (qrStep nm m n matu matv Real.sqrt i1 q).c * y' ∧
      (qrStep nm m n matu matv Real.sqrt i1 q).c * f' +
        (qrStep nm m n matu matv Real.sqrt i1 q).s * h' = z2 ∧
      -(qrStep nm m n matu matv Real.sqrt i1 q).s * f' +
        (qrStep nm m n matu matv Real.sqrt i1 q).c * h' = 0 ∧
      q.f * c1 + q.s * q.st.rv1.get (VINDX (i1 + 1)) * s1 = z1 ∧
      -q.f * s1 + q.s * q.st.rv1.get (VINDX (i1 + 1)) * c1 = 0 ∧
      c1 * c1 + s1 * s1 = 1 ∧
      (qrStep nm m n matu matv Real.sqrt i1 q).c * (qrStep nm m n matu matv Real.sqrt i1 q).c +
        (qrStep nm m n matu matv Real.sqrt i1 q).s *
          (qrStep nm m n matu matv Real.sqrt i1 q).s = 1 ∧
      (qrStep nm m n matu matv Real.sqrt i1 q).st.u = rotCols nm m i1 (i1 + 1)
        (qrStep nm m n matu matv Real.sqrt i1 q).c (qrStep nm m n matu matv Real.sqrt i1 q).s
        q.st.u ∧
      (qrStep nm m n matu matv Real.sqrt i1 q).st.v = rotCols nm n i1 (i1 + 1) c1 s1 q.st.v := by
  have hz1 : Real.sqrt (q.f * q.f + q.s * q.st.rv1.get (VINDX (i1 + 1)) *
      (q.s * q.st.rv1.get (VINDX (i1 + 1)))) ≠ 0 :=
    ne_of_gt (sqrt_sq_pos' _ _ (mul_ne_zero hs hr))
  have hu1 := rot_unit _ _ hz1
  have hm1 := rot_make _ _ hz1
  refine ⟨q.f / Real.sqrt (q.f * q.f + q.s * q.st.rv1.get (VINDX (i1 + 1)) *
      (q.s * q.st.rv1.get (VINDX (i1 + 1)))),
    q.s * q.st.rv1.get (VINDX (i1 + 1)) / Real.sqrt (q.f * q.f +
      q.s * q.st.rv1.get (VINDX (i1 + 1)) * (q.s * q.st.rv1.get (VINDX (i1 + 1)))),
    Real.sqrt (q.f * q.f + q.s * q.st.rv1.get (VINDX (i1 + 1)) *
      (q.s * q.st.rv1.get (VINDX (i1 + 1)))),
    _, _, _, _, _, rfl, rfl, rfl, rfl, rfl, rfl, ?_, ?_, ?_, ?_, hm1.1, hm1.2, hu1, ?_, ?_, ?_⟩
  · rfl
  · rfl
  · unfold qrStep
    simp only []
    split_ifs with hz2
    · have := (rot_make _ _ hz2).1
      linear_combination this
    · have h0 := sqrt_sq_zero _ _ (not_not.mp hz2)
      rw [not_not.mp hz2, h0.1, h0.2]
      ring
  · unfold qrStep
    simp only []
    split_ifs with hz2
    · have := (rot_make _ _ hz2).2
      linear_combination this
    · have h0 := sqrt_sq_zero _ _ (not_not.mp hz2)
      rw [h0.1, h0.2]
      ring
  · unfold qrStep
    simp only []
    split_ifs with hz2
    · exact rot_unit _ _ hz2
    · exact hu1
  · unfold qrStep
    simp only []
    rw [if_pos hmatu]
  · unfold qrStep
    simp only []
    rw [if_pos hmatv]

/-- One pass of the QR loop body keeps `U B V^T`. -/
theorem qrStep_Prod3 (nm m n : Nat) (matu matv : Int) (hmatu : matu ≠ 0) (hmatv : matv ≠ 0)
    (L i1 : Nat) (q : QSt ℝ) (hL : 1 ≤ L) (hLi : L ≤ i1) (hin : i1 + 1 ≤ n) (hnm : n ≤ nm)
    (hs : q.s ≠ 0) (hr : q.st.rv1.get (VINDX (i1 + 1)) ≠ 0) (ρ j : Nat)
    (hρ : 1 ≤ ρ ∧ ρ ≤ m) (hj : 1 ≤ j ∧ j ≤ n) :
    Prod3 n (fun r => M nm (qrStep nm m n matu matv Real.sqrt i1 q).st.u ρ r)
      (Bq L (i1 + 1) (qrStep nm m n matu matv Real.sqrt i1 q))
      (fun t => M nm (qrStep nm m n matu matv Real.sqrt i1 q).st.v j t) =
    Prod3 n (fun r => M nm q.st.u ρ r) (Bq L i1 q) (fun t => M nm q.st.v j t) := by
  obtain ⟨c1, s1, z1, z2, f', g'', h', y', e1, e2, e3, e4, e5, e6, e7, e8, e9, e10, e11, e12,
    e13, e14, e15, e16⟩ := qrStep_fields nm m n matu matv hmatu hmatv i1 q hs hr
  have bs := Bq_step L i1 q (qrStep nm m n matu matv Real.sqrt i1 q) c1 s1 z1 z2 f' g'' h' y'
    hL hLi e1 e2 e3 e4 e5 e6 e7 e8 e9 e10 (fun _ => e11) (fun _ => e12)
    (fun r t => if t = i1 then Bq L i1 q r i1 * c1 + Bq L i1 q r (i1 + 1) * s1
      else if t = i1 + 1 then -Bq L i1 q r i1 * s1 + Bq L i1 q r (i1 + 1) * c1
      else Bq L i1 q r t) (fun _ _ => rfl)
  have ru := rotCols_spec nm m i1 (i1 + 1) (qrStep nm m n matu matv Real.sqrt i1 q).c
    (qrStep nm m n matu matv Real.sqrt i1 q).s q.st.u ⟨by omega, by omega⟩
    ⟨by omega, by omega⟩ (by omega)
  have rv := rotCols_spec nm n i1 (i1 + 1) c1 s1 q.st.v ⟨by omega, by omega⟩
    ⟨by omega, by omega⟩ (by omega)
  rw [e15, e16]
  refine (Prod3_left n i1 (i1 + 1) _ _ (fun r => M nm q.st.u ρ r) _ _ _ _ (by omega)
    ⟨by omega, by omega⟩ ⟨by omega, hin⟩ e14 (ru.1 ρ hρ.1 hρ.2) (ru.2.1 ρ hρ.1 hρ.2)
    (fun r h2 h3 h4 h5 => ru.2.2 _ (fun j' h6 h7 =>
      ⟨MINDX_ne hρ.1 h6 h2 (by omega) (by omega) (by omega) (Or.inr h4),
       MINDX_ne hρ.1 h6 h2 (by omega) (by omega) (by omega) (Or.inr h5)⟩))
    (fun t _ _ => bs.1 t) (fun t _ _ => bs.2.1 t)
    (fun r t _ _ _ _ h6 h7 => bs.2.2 r t h6 h7)).trans ?_
  apply Prod3_right n i1 (i1 + 1) c1 s1 _ _ _ _ _ (by omega) ⟨by omega, by omega⟩
    ⟨by omega, hin⟩ e13 (rv.1 j hj.1 hj.2) (rv.2.1 j hj.1 hj.2)
    (fun t h2 h3 h4 h5 => rv.2.2 _ (fun j' h6 h7 =>
      ⟨MINDX_ne hj.1 h6 h2 (by omega) (by omega) (by omega) (Or.inr h4),
       MINDX_ne hj.1 h6 h2 (by omega) (by omega) (by omega) (Or.inr h5)⟩))
  · intro r _ _
    simp only [if_true]
  · intro r _ _
    have : ¬ (i1 + 1 = i1) := by omega
    simp only [if_neg this, if_true]
  · intro r t _ _ _ _ h6 h7
    simp only [if_neg h6, if_neg h7]

end QRRecon

/-! ## The diagonalization keeps the product -/

section DiagRecon

/-- A QR sweep keeps `A = U B V^T` and leaves `rv1` beyond `k` alone. -/
theorem qrSweep_Recon (nm m n : Nat) (matu matv : Int) (hmatu : matu ≠ 0) (hmatv : matv ≠ 0)
    (k L : Nat) (z : ℝ) (a : Buf ℝ) (st : St ℝ) (hpre : SweepPre st L k) (hk : k ≤ n)
    (hnm : n ≤ nm) (hk1 : k < n → st.rv1.get (VINDX (k + 1)) = 0) (hR : Recon nm m n a st) :
    Recon nm m n a (qrSweep nm m n matu matv Real.sqrt k L z st) ∧
    (∀ x, VINDX k < x →
      (qrSweep nm m n matu matv Real.sqrt k L z st).rv1.get x = st.rv1.get x) := by
  obtain ⟨hL1, hLk, hrL, hr, hw⟩ := hpre
  obtain ⟨q, hq, e⟩ := qrSweep_induct nm m n matu matv Real.sqrt k L z st
    (fun i1 q => (i1 < k → q.s ≠ 0) ∧
      (∀ x, VINDX i1 ≤ x → q.st.rv1.get x = st.rv1.get x) ∧
      (∀ x, VINDX i1 ≤ x → q.st.w.get x = st.w.get x) ∧
      (∀ i j, 1 ≤ i → i ≤ m → 1 ≤ j → j ≤ n →
        M nm a i j = Prod3 n (fun r => M nm q.st.u i r) (Bq L i1 q)
          (fun t => M nm q.st.v j t))) (by omega)
    (fun f => ⟨fun _ => one_ne_zero, fun _ _ => rfl, fun _ _ => rfl,
      fun i j hi1 hi2 hj1 hj2 => by
        rw [hR i j hi1 hi2 hj1 hj2]
        apply Prod3_congr n _ _ _ _ _ _ (fun _ _ _ => rfl) (fun _ _ _ => rfl)
        intro r t h3 h4 h5 h6
        unfold Bq Bmat
        simp only [one_mul]
        split_ifs <;>
          (first
            | (exfalso; omega)
            | rfl
            | (subst_vars; first | rfl | exact hrL))⟩)
    (fun i1 q h1 h2 hp => by
      obtain ⟨p1, p2, p3, p4⟩ := hp
      have hri : q.st.rv1.get (VINDX (i1 + 1)) ≠ 0 := by
        rw [p2 _ (by unfold VINDX; omega)]
        exact hr (i1 + 1) (by omega) (by omega)
      have hsq := p1 (by omega)
      refine ⟨fun h3 => ?_, fun x hx => ?_, fun x hx => ?_, ?_⟩
      · apply qrStep_s_ne _ _ _ _ _ _ _ hsq hri
        rw [p3 _ (by unfold VINDX; omega)]
        exact hw (i1 + 1) (by omega) h3
      · rw [qrStep_rv1_frame _ _ _ _ _ _ _ _ _ (by unfold VINDX at hx ⊢; omega)]
        exact p2 x (by unfold VINDX at hx ⊢; omega)
      · rw [qrStep_w_frame _ _ _ _ _ _ _ _ _ (by unfold VINDX at hx ⊢; omega)]
        exact p3 x (by unfold VINDX at hx ⊢; omega)
      · intro i j hi1 hi2 hj1 hj2
        rw [p4 i j hi1 hi2 hj1 hj2]
        exact (qrStep_Prod3 nm m n matu matv hmatu hmatv L i1 q hL1 h1 (by omega) hnm hsq hri
          i j ⟨hi1, hi2⟩ ⟨hj1, hj2⟩).symm)
  have ek : k - 1 + 1 = k := by omega
  rw [ek] at hq
  obtain ⟨_, q2, _, q4⟩ := hq
  rw [e]
  constructor
  · intro i j hi1 hi2 hj1 hj2
    rw [q4 i j hi1 hi2 hj1 hj2]
    apply Prod3_congr n _ _ _ _ _ _ (fun _ _ _ => rfl) (fun _ _ _ => rfl)
    intro r t h3 h4 h5 h6
    have hz : t = k + 1 → q.st.rv1.get (VINDX t) = 0 := by
      intro ht
      rw [ht, q2 _ (by unfold VINDX; omega)]
      exact hk1 (by omega)
    unfold Bq Bmat
    simp only []
    show (if t = r then (if r = k then q.x else q.st.w.get (VINDX r))
      else if t = r + 1 then
        (if t = L then 0 else if t = k then q.f
          else if t = k + 1 then q.c * q.st.rv1.get (VINDX t)
          else q.st.rv1.get (VINDX t))
      else if t = r + 2 ∧ t = k + 1 ∧ L < k then q.s * q.st.rv1.get (VINDX t)
      else 0) =
      (if t = r then (q.st.w.set (VINDX k) q.x).get (VINDX r)
      else if t = r + 1 then ((q.st.rv1.set (VINDX L) 0).set (VINDX k) q.f).get (VINDX t)
      else 0)
    simp only [Buf.get_set, VINDX_eq]
    split_ifs <;> first | (exfalso; omega) | rfl | (rw [hz (by omega)]; ring1)
  · intro x hx
    show ((q.st.rv1.set (VINDX L) 0).set (VINDX k) q.f).get x = _
    rw [Buf.get_set_ne _ _ (by omega), Buf.get_set_ne _ _ (by unfold VINDX at hx ⊢; omega)]
    exact q2 x (by omega)

/-- The sign change of a converged `w[k]` keeps `A = U B V^T` when `rv1[k] = 0`. -/
theorem converge_Recon (nm m n : Nat) (matv : Int) (hmatv : matv ≠ 0) (k : Nat) (a : Buf ℝ)
    (st : St ℝ) (hk : 1 ≤ k ∧ k ≤ n) (hnm : n ≤ nm) (hz : st.rv1.get (VINDX k) = 0)
    (hR : Recon nm m n a st) : Recon nm m n a (converge nm n matv k st) := by
  unfold converge
  simp only []
  split_ifs with h1
  · have sp := forRange_set (fun j => MINDX j k nm)
      (fun j (v : Buf ℝ) => -(v.get (MINDX j k nm))) 1 n st.v
      (fun j j' h3 h4 h5 h6 he => (MINDX_inj h3 h5 hk.1 hk.1 (by omega) (by omega) he).1)
      (fun j t h3 h4 ht => by
        show -(t.get (MINDX j k nm)) = -(st.v.get (MINDX j k nm))
        rw [ht _ (fun j' h5 h6 he => by
          have := (MINDX_inj h3 (by omega) hk.1 hk.1 (by omega) (by omega) he).1
          omega)])
    intro i j hi1 hi2 hj1 hj2
    rw [hR i j hi1 hi2 hj1 hj2]
    unfold Prod3
    apply Finset.sum_congr rfl
    intro r hr
    apply Finset.sum_congr rfl
    intro t ht
    rw [Finset.mem_Icc] at hr ht
    by_cases htk : t = k
    · subst htk
      have e1 : M nm (forRange 1 n (fun j v => v.set (MINDX j t nm) (-v.get (MINDX j t nm)))
          st.v) j t = -M nm st.v j t := sp.1 j hj1 hj2
      show _ = _ * _ * M nm (forRange 1 n (fun j v => v.set (MINDX j t nm)
        (-v.get (MINDX j t nm))) st.v) j t
      rw [e1]
      unfold Bmat
      show _ * (if t = r then st.w.get (VINDX r) else if t = r + 1 then st.rv1.get (VINDX t)
        else 0) * _ = _ * (if t = r then (st.w.set (VINDX t) (-st.w.get (VINDX t))).get (VINDX r)
        else if t = r + 1 then st.rv1.get (VINDX t) else 0) * _
      rw [hz]
      split_ifs with h2
      · subst h2
        rw [Buf.get_set_same]
        ring
      · ring
      · ring
    · have e1 : M nm (forRange 1 n (fun j v => v.set (MINDX j k nm) (-v.get (MINDX j k nm)))
          st.v) j t = M nm st.v j t :=
        sp.2 _ (fun j' h3 h4 => MINDX_ne hj1 h3 ht.1 hk.1 (by omega) (by omega) (Or.inr htk))
      show _ = _ * _ * M nm (forRange 1 n (fun j v => v.set (MINDX j k nm)
        (-v.get (MINDX j k nm))) st.v) j t
      rw [e1]
      congr 2
      unfold Bmat
      show (if t = r then st.w.get (VINDX r) else if t = r + 1 then st.rv1.get (VINDX t)
        else 0) = (if t = r then (st.w.set (VINDX k) (-st.w.get (VINDX k))).get (VINDX r)
        else if t = r + 1 then st.rv1.get (VINDX t) else 0)
      split_ifs with h2
      · rw [Buf.get_set_ne _ _ (fun h => by have := VINDX_inj h; omega)]
      · rfl
      · rfl
  · exact hR

theorem cancelLoop_rv1_first {K : Type} [LinearOrderedField K] (nm m : Nat) (matu : Int)
    (anorm : K) (sqrt : K → K) (L1 : Nat) (cnt i : Nat) (c s : K) (st : St K) :
    (cancelLoop nm m matu anorm sqrt L1 (cnt + 1) i c s st).rv1.get (VINDX i) =
      st.rv1.get (VINDX i) * c := by
  rw [cancelLoop]
  simp only []
  split_ifs with h1 h2
  · exact Buf.get_set_same _ _ _
  · rw [cancelLoop_rv1_frame _ _ _ _ _ _ _ _ _ _ _ _
      (fun j h3 h4 h => by have := VINDX_inj h; omega)]
    exact Buf.get_set_same _ _ _
  · rw [cancelLoop_rv1_frame _ _ _ _ _ _ _ _ _ _ _ _
      (fun j h3 h4 h => by have := VINDX_inj h; omega)]
    exact Buf.get_set_same _ _ _

/-- After the split test and the cancellation `rv1[L]` is zero. -/
theorem splitCancel_rv1_L {K : Type} [LinearOrderedField K] (nm m : Nat) (matu : Int)
    (anorm : K) (sqrt : K → K) (k : Nat) (st : St K) :
    (splitCancel nm m matu anorm sqrt k st).1.rv1.get
      (VINDX (splitCancel nm m matu anorm sqrt k st).2) = 0 := by
  have post := splitScan_post anorm st.w st.rv1 k
  have hle := splitScan_le anorm st.w st.rv1 k
  unfold splitCancel
  simp only []
  split_ifs with hf
  · exact post.2.1 hf
  · obtain ⟨cnt, hc⟩ : ∃ cnt, k + 1 - (splitScan anorm st.w st.rv1 k).1 = cnt + 1 :=
      ⟨k - (splitScan anorm st.w st.rv1 k).1, by omega⟩
    show (cancelLoop _ _ _ _ _ _ _ _ _ _ _).rv1.get _ = 0
    rw [hc, cancelLoop_rv1_first, mul_zero]

/-- The REPEAT loop for one `k` keeps `A = U B V^T`; when it converges,
`rv1[k]` is zero. -/
theorem repeatK_Recon (nm m n : Nat) (matu matv : Int) (hmatu : matu ≠ 0) (hmatv : matv ≠ 0)
    (anorm : ℝ) (k : Nat) (a : Buf ℝ) (hk : 1 ≤ k ∧ k ≤ n) (hnm : n ≤ nm) (rem : Nat)
    (st : St ℝ) (h0 : st.rv1.get 0 = 0)
    (hz : ∀ t, k < t → t ≤ n → st.rv1.get (VINDX t) = 0) (hR : Recon nm m n a st) :
    Recon nm m n a (repeatK nm m n matu matv anorm Real.sqrt k rem st).1 ∧
    (∀ t, k < t → t ≤ n →
      (repeatK nm m n matu matv anorm Real.sqrt k rem st).1.rv1.get (VINDX t) = 0) ∧
    ((repeatK nm m n matu matv anorm Real.sqrt k rem st).2 = true →
      (repeatK nm m n matu matv anorm Real.sqrt k rem st).1.rv1.get (VINDX k) = 0) := by
  induction rem generalizing st with
  | zero =>
    have hLpos := splitCancel_pos nm m matu anorm Real.sqrt k st h0 hk.1
    have hr0 := splitCancel_rv1_zero nm m matu anorm Real.sqrt k st 0 h0
    have hR1 := splitCancel_Recon nm m n matu hmatu anorm k a st h0 hk hnm
      (fun h => hz (k + 1) (by omega) (by omega)) hR
    have hz1 : ∀ t, k < t → t ≤ n →
        (splitCancel nm m matu anorm Real.sqrt k st).1.rv1.get (VINDX t) = 0 :=
      fun t h1 h2 => splitCancel_rv1_zero nm m matu anorm Real.sqrt k st _ (hz t h1 h2)
    have hzL := splitCancel_rv1_L nm m matu anorm Real.sqrt k st
    rw [repeatK]
    split_ifs with hL
    · exact ⟨hR1, hz1, fun h => by simp at h⟩
    · rw [not_not] at hL
      rw [hL] at hzL
      refine ⟨converge_Recon nm m n matv hmatv k a _ hk hnm hzL hR1, ?_, fun _ => ?_⟩
      · intro t h1 h2
        show (converge nm n matv k _).rv1.get _ = 0
        rw [converge_rv1]
        exact hz1 t h1 h2
      · show (converge nm n matv k _).rv1.get _ = 0
        rw [converge_rv1]
        exact hzL
  | succ rem ih =>
    have hLpos := splitCancel_pos nm m matu anorm Real.sqrt k st h0 hk.1
    have hr0 := splitCancel_rv1_zero nm m matu anorm Real.sqrt k st 0 h0
    have hR1 := splitCancel_Recon nm m n matu hmatu anorm k a st h0 hk hnm
      (fun h => hz (k + 1) (by omega) (by omega)) hR
    have hz1 : ∀ t, k < t → t ≤ n →
        (splitCancel nm m matu anorm Real.sqrt k st).1.rv1.get (VINDX t) = 0 :=
      fun t h1 h2 => splitCancel_rv1_zero nm m matu anorm Real.sqrt k st _ (hz t h1 h2)
    have hzL := splitCancel_rv1_L nm m matu anorm Real.sqrt k st
    rw [repeatK]
    split_ifs with hL
    · have hLle := splitCancel_le nm m matu anorm Real.sqrt k st
      have hpre := splitCancel_pre nm m matu anorm k st h0 hk.1 hL
      have hq0 := qrSweep_rv1_zero nm m n matu matv Real.sqrt k
        (splitCancel nm m matu anorm Real.sqrt k st).2
        ((splitCancel nm m matu anorm Real.sqrt k st).1.w.get (VINDX k))
        (splitCancel nm m matu anorm Real.sqrt k st).1 hr0 hLpos (by omega)
      have hq := qrSweep_Recon nm m n matu matv hmatu hmatv k
        (splitCancel nm m matu anorm Real.sqrt k st).2
        ((splitCancel nm m matu anorm Real.sqrt k st).1.w.get (VINDX k)) a
        (splitCancel nm m matu anorm Real.sqrt k st).1 hpre hk.2 hnm
        (fun h => hz1 (k + 1) (by omega) (by omega)) hR1
      exact ih _ hq0 (fun t h1 h2 => by
        rw [hq.2 _ (by unfold VINDX; omega)]
        exact hz1 t h1 h2) hq.1
    · rw [not_not] at hL
      rw [hL] at hzL
      refine ⟨converge_Recon nm m n matv hmatv k a _ hk hnm hzL hR1, ?_, fun _ => ?_⟩
      · intro t h1 h2
        show (converge nm n matv k _).rv1.get _ = 0
        rw [converge_rv1]
        exact hz1 t h1 h2
      · show (converge nm n matv k _).rv1.get _ = 0
        rw [converge_rv1]
        exact hzL

/-- When the diagonalization ends with `ierr = 0`, `A = U diag(w) V^T`. -/
theorem diagonalize_Recon (nm m n : Nat) (matu matv : Int) (hmatu : matu ≠ 0)
    (hmatv : matv ≠ 0) (anorm : ℝ) (a : Buf ℝ) (hnm : n ≤ nm) (k0 : Nat) (hk0 : k0 ≤ n)
    (st : St ℝ) (h0 : st.rv1.get 0 = 0)
    (hz : ∀ t, k0 < t → t ≤ n → st.rv1.get (VINDX t) = 0) (hR : Recon nm m n a st)
    (hierr : (diagonalize nm m n matu matv anorm Real.sqrt k0 st).2 = 0) :
    Recon nm m n a (diagonalize nm m n matu matv anorm Real.sqrt k0 st).1 ∧
    ∀ t, 1 ≤ t → t ≤ n →
      (diagonalize nm m n matu matv anorm Real.sqrt k0 st).1.rv1.get (VINDX t) = 0 := by
  induction k0 generalizing st with
  | zero =>
    rw [diagonalize]
    exact ⟨hR, fun t h1 h2 => hz t (by omega) h2⟩
  | succ k0 ih =>
    rw [diagonalize] at hierr ⊢
    have hr := repeatK_Recon nm m n matu matv hmatu hmatv anorm (k0 + 1) a ⟨by omega, hk0⟩ hnm
      30 st h0 hz hR
    split_ifs at hierr ⊢ with hc
    · refine ih (by omega) _
        (repeatK_spec nm m n matu matv anorm Real.sqrt (k0 + 1) (by omega) 30 st h0).1
        (fun t h1 h2 => ?_) hr.1 hierr
      by_cases ht : t = k0 + 1
      · rw [ht]; exact hr.2.2 hc
      · exact hr.2.1 t (by omega) h2
    · exfalso
      simp only [] at hierr
      omega

end DiagRecon

/-! ## Reflections and the two Householder steps -/

section ReflAlgebra

variable {K : Type} [LinearOrderedField K]

/-- A reflection `I + γ p p^T` applied to the rows of `X` commutes with a
product on the right. -/
theorem refl_sum (S R : Finset Nat) (X : Nat → Nat → K) (ρ : Nat) (p : Nat → K) (γ P : K)
    (z : Nat → K) :
    ∑ s ∈ S, (X ρ s + P * (∑ r ∈ R, p r * X r s) * γ) * z s =
      ∑ s ∈ S, X ρ s * z s + P * (∑ r ∈ R, p r * ∑ s ∈ S, X r s * z s) * γ := by
  have e : ∀ s ∈ S, (X ρ s + P * (∑ r ∈ R, p r * X r s) * γ) * z s =
      X ρ s * z s + P * γ * ∑ r ∈ R, p r * (X r s * z s) := by
    intro s _
    rw [Finset.mul_sum, Finset.mul_sum, Finset.sum_mul, add_mul, Finset.sum_mul]
    congr 1
    apply Finset.sum_congr rfl
    intro r _
    ring
  rw [Finset.sum_congr rfl e, Finset.sum_add_distrib, ← Finset.mul_sum, Finset.sum_comm]
  congr 1
  have e2 : ∀ r ∈ R, ∑ s ∈ S, p r * (X r s * z s) = p r * ∑ s ∈ S, X r s * z s := by
    intro r _
    rw [Finset.mul_sum]
  rw [Finset.sum_congr rfl e2]
  ring

/-- A reflection `I + γ p p^T` with `γ = 0`, or `γ = 1 / hh` and `p . p = -2 hh`,
is its own inverse. -/
theorem refl_invol (R : Finset Nat) (p : Nat → K) (hh γ : K) (X Y : Nat → K)
    (hγ : γ = 0 ∨ (hh ≠ 0 ∧ γ = 1 / hh ∧ ∑ r ∈ R, p r * p r = -2 * hh))
    (hY : ∀ k ∈ R, Y k = X k + p k * (∑ r ∈ R, p r * X r) * γ) :
    ∀ k ∈ R, X k = Y k + p k * (∑ r ∈ R, p r * Y r) * γ := by
  intro k hk
  rcases hγ with h0 | ⟨h1, h2, h3⟩
  · rw [h0] at hY ⊢
    rw [hY k hk]
    ring
  · have e : ∑ r ∈ R, p r * Y r =
        ∑ r ∈ R, p r * X r + (∑ r ∈ R, p r * p r) * ((∑ r ∈ R, p r * X r) * γ) := by
      rw [Finset.sum_mul, ← Finset.sum_add_distrib]
      apply Finset.sum_congr rfl
      intro r hr
      rw [hY r hr]
      ring
    rw [e, h3, hY k hk, h2]
    field_simp
    ring

end ReflAlgebra

section StepSpecs

theorem abs_sum_zero (F : Nat → ℝ) (lo hi : Nat) (h : ∑ k ∈ Finset.Icc lo hi, |F k| = 0) :
    ∀ k, lo ≤ k → k ≤ hi → F k = 0 := by
  intro k h1 h2
  have := (Finset.sum_eq_zero_iff_of_nonneg (fun i _ => abs_nonneg (F i))).mp h k
    (Finset.mem_Icc.mpr ⟨h1, h2⟩)
  exact abs_eq_zero.mp this

theorem house_coef (S B h scale : ℝ) (hsc : scale ≠ 0) :
    S * (1 / scale) / h * (B / scale) = B * S * (1 / (scale * scale * h)) := by
  by_cases hh : h = 0
  · rw [hh, div_zero, zero_mul, mul_zero, div_zero, mul_zero]
  · field_simp
    ring

theorem house_coef2 (S B h scale : ℝ) (hsc : scale ≠ 0) :
    S * (1 / scale) * (B / scale / h) = B * S * (1 / (scale * scale * h)) := by
  by_cases hh : h = 0
  · rw [hh, div_zero, mul_zero, mul_zero, div_zero, mul_zero]
  · field_simp
    ring

theorem colHouse_struct (nm m n i : Nat) (scale : ℝ) (u : Buf ℝ) (hi : 1 ≤ i) (hin : i < n)
    (hn : n ≤ nm) (him : i ≤ m) :
    ∃ UN : Buf ℝ,
      (colHouse Real.sqrt nm m n i scale u).1 = colRescale nm m i scale
        (colApply nm m n i (M nm u i i / scale * (colHouse Real.sqrt nm m n i scale u).2 -
          ∑ r ∈ Finset.Icc i m, (M nm u r i / scale) * (M nm u r i / scale)) UN) ∧
      (∀ r, i ≤ r → r ≤ m → M nm UN r i =
        if r = i then M nm u i i / scale - (colHouse Real.sqrt nm m n i scale u).2
        else M nm u r i / scale) ∧
      (∀ x, (∀ r, i ≤ r → r ≤ m → x ≠ MINDX r i nm) → UN.get x = u.get x) := by
  have ns := colNormalize_spec nm m i scale u hi (by omega)
  have ns1 := ns.2.1
  simp only [M] at ns1
  refine ⟨(colNormalize nm m i scale u).2.set (MINDX i i nm)
    ((colNormalize nm m i scale u).2.get (MINDX i i nm) -
      (colHouse Real.sqrt nm m n i scale u).2), ?_, ?_, ?_⟩
  · unfold colHouse
    simp only []
    rw [if_pos (by omega)]
    show colRescale nm m i scale (colApply nm m n i
      ((colNormalize nm m i scale u).2.get (MINDX i i nm) * _ - (colNormalize nm m i scale u).1)
      _) = _
    rw [ns.1, ns1 i (le_refl _) him]
    rfl
  · intro r h1 h2
    simp only [M]
    rw [Buf.get_set]
    split_ifs with h3 h4 h4
    · rw [ns1 i (le_refl _) him]
    · exact absurd (MINDX_inj (by omega) hi hi hi (by omega) (by omega) h3).1 h4
    · exact absurd (by rw [h4]) h3
    · exact ns1 r h1 h2
  · intro x hx
    rw [Buf.get_set_ne _ _ (hx i (le_refl _) him)]
    exact ns.2.2 x hx

/-- The columns `j > i` after the branch `scale != 0` of the column step. -/
theorem colHouse_cols (nm m n i : Nat) (scale : ℝ) (u : Buf ℝ) (hi : 1 ≤ i) (hin : i ≤ n)
    (hn : n ≤ nm) (hsc : scale ≠ 0) (k j : Nat) (hk1 : i ≤ k) (hk2 : k ≤ m)
    (hj1 : i + 1 ≤ j) (hj2 : j ≤ n) :
    M nm (colHouse Real.sqrt nm m n i scale u).1 k j =
      M nm u k j + M nm (colHouse Real.sqrt nm m n i scale u).1 k i *
        (∑ r ∈ Finset.Icc i m, M nm (colHouse Real.sqrt nm m n i scale u).1 r i * M nm u r j) *
        (1 / (scale * scale * (M nm u i i / scale * (colHouse Real.sqrt nm m n i scale u).2 -
          ∑ r ∈ Finset.Icc i m, (M nm u r i / scale) * (M nm u r i / scale)))) := by
  have hc := colHouse_col nm m n i scale u hi hin hn
  obtain ⟨UN, e1, e2, e3⟩ := colHouse_struct nm m n i scale u hi (by omega) hn (by omega)
  have ca := colApply_spec nm m n i (M nm u i i / scale *
    (colHouse Real.sqrt nm m n i scale u).2 -
      ∑ r ∈ Finset.Icc i m, (M nm u r i / scale) * (M nm u r i / scale)) UN hi hn
  have cr := colRescale_spec nm m i scale (colApply nm m n i (M nm u i i / scale *
    (colHouse Real.sqrt nm m n i scale u).2 -
      ∑ r ∈ Finset.Icc i m, (M nm u r i / scale) * (M nm u r i / scale)) UN) hi (by omega)
  have hrel : ∀ r, i ≤ r → r ≤ m →
      M nm UN r i = M nm (colHouse Real.sqrt nm m n i scale u).1 r i / scale := by
    intro r h1 h2
    rw [hc r h1 h2, e2 r h1 h2]
    field_simp
  have hUN : ∀ r, i ≤ r → r ≤ m → M nm UN r j = M nm u r j := fun r h1 h2 =>
    e3 _ (fun r' h3 h4 => MINDX_ne (by omega) (by omega) (by omega) hi (by omega) (by omega)
      (Or.inr (by omega)))
  have key : M nm (colHouse Real.sqrt nm m n i scale u).1 k j =
      M nm u k j + (∑ r ∈ Finset.Icc i m,
        (M nm (colHouse Real.sqrt nm m n i scale u).1 r i / scale) * M nm u r j) /
        (M nm u i i / scale * (colHouse Real.sqrt nm m n i scale u).2 -
          ∑ r ∈ Finset.Icc i m, (M nm u r i / scale) * (M nm u r i / scale)) *
        (M nm (colHouse Real.sqrt nm m n i scale u).1 k i / scale) := by
    conv_lhs => rw [e1]
    have f1 : M nm (colRescale nm m i scale (colApply nm m n i (M nm u i i / scale *
        (colHouse Real.sqrt nm m n i scale u).2 -
        ∑ r ∈ Finset.Icc i m, (M nm u r i / scale) * (M nm u r i / scale)) UN)) k j =
        M nm (colApply nm m n i (M nm u i i / scale *
        (colHouse Real.sqrt nm m n i scale u).2 -
        ∑ r ∈ Finset.Icc i m, (M nm u r i / scale) * (M nm u r i / scale)) UN) k j :=
      cr.2 _ (fun r' h3 h4 => MINDX_ne (by omega) (by omega) (by omega) hi (by omega)
        (by omega) (Or.inr (by omega)))
    rw [f1, ca.1 j k hj1 hj2 hk1 hk2, hUN k hk1 hk2, hrel k hk1 hk2]
    congr 3
    apply Finset.sum_congr rfl
    intro r hr
    rw [Finset.mem_Icc] at hr
    rw [hrel r hr.1 hr.2, hUN r hr.1 hr.2]
  rw [key]
  congr 1
  have e : ∀ r ∈ Finset.Icc i m,
      M nm (colHouse Real.sqrt nm m n i scale u).1 r i / scale * M nm u r j =
      (M nm (colHouse Real.sqrt nm m n i scale u).1 r i * M nm u r j) * (1 / scale) := by
    intro r _
    ring
  rw [Finset.sum_congr rfl e, ← Finset.sum_mul]
  exact house_coef _ _ _ _ hsc

/-- The column step `i`: the old column is `p + w e_i` with `p` the stored
vector and `w = scale * g`; the columns `j > i` are reflected by
`I + p p^T / (p_i w)`. -/
theorem colStep_spec (nm m n i : Nat) (u : Buf ℝ) (hi : 1 ≤ i) (hin : i ≤ n) (hn : n ≤ nm)
    (him : i ≤ m) :
    (∀ k, i ≤ k → k ≤ m → M nm u k i = M nm (colStep Real.sqrt nm m n i u).1 k i +
      (if k = i then (colStep Real.sqrt nm m n i u).2.2 * (colStep Real.sqrt nm m n i u).2.1
       else 0)) ∧
    ((colStep Real.sqrt nm m n i u).2.2 * (colStep Real.sqrt nm m n i u).2.1 = 0 →
      ∀ k, i ≤ k → k ≤ m → M nm (colStep Real.sqrt nm m n i u).1 k i = 0) ∧
    (∀ k j, i ≤ k → k ≤ m → i + 1 ≤ j → j ≤ n →
      M nm (colStep Real.sqrt nm m n i u).1 k j =
        M nm u k j + M nm (colStep Real.sqrt nm m n i u).1 k i *
          (∑ r ∈ Finset.Icc i m, M nm (colStep Real.sqrt nm m n i u).1 r i * M nm u r j) *
          (if (colStep Real.sqrt nm m n i u).2.2 * (colStep Real.sqrt nm m n i u).2.1 = 0
           then 0
           else 1 / (M nm (colStep Real.sqrt nm m n i u).1 i i *
            ((colStep Real.sqrt nm m n i u).2.2 * (colStep Real.sqrt nm m n i u).2.1)))) := by
  by_cases hsc : colScale nm m i u = 0
  · have e : colStep Real.sqrt nm m n i u = (u, 0, colScale nm m i u) := by
      unfold colStep
      rw [if_pos him]
      simp only []
      rw [if_neg (not_not.mpr hsc)]
    rw [e]
    simp only [mul_zero, if_true, ite_self, add_zero, true_implies]
    rw [colScale_eq] at hsc
    exact ⟨fun _ _ _ => trivial, fun k h1 h2 => abs_sum_zero (fun k => M nm u k i) i m hsc k h1 h2,
      fun _ _ _ _ _ _ => trivial⟩
  · have e : colStep Real.sqrt nm m n i u =
        ((colHouse Real.sqrt nm m n i (colScale nm m i u) u).1,
         (colHouse Real.sqrt nm m n i (colScale nm m i u) u).2, colScale nm m i u) := by
      unfold colStep
      rw [if_pos him]
      simp only []
      rw [if_pos hsc]
    rw [e]
    simp only []
    have hg := colHouse_g nm m n i (colScale nm m i u) u hi hin hn him
    have hcol := colHouse_col nm m n i (colScale nm m i u) u hi hin hn
    have hs0 : 0 < ∑ k ∈ Finset.Icc i m,
        (M nm u k i / colScale nm m i u) * (M nm u k i / colScale nm m i u) := by
      have := scaled_sq_pos (fun k => M nm u k i) i m (by rw [← colScale_eq]; exact hsc)
      rw [← colScale_eq] at this
      exact this
    obtain ⟨g1, g2, g3, g4⟩ := house_scalar (M nm u i i / colScale nm m i u) _ hs0
    rw [← hg] at g1 g2 g3 g4
    have hW : colScale nm m i u * (colHouse Real.sqrt nm m n i (colScale nm m i u) u).2 ≠ 0 :=
      mul_ne_zero hsc g4
    refine ⟨fun k h1 h2 => ?_, fun h => absurd h hW, fun k j h1 h2 h3 h4 => ?_⟩
    · rw [hcol k h1 h2]
      split_ifs with hk
      · rw [hk]
        field_simp
      · field_simp
    · rw [colHouse_cols nm m n i _ u hi hin hn hsc k j h1 h2 h3 h4, if_neg hW]
      congr 3
      rw [hcol i (le_refl _) him, if_pos rfl, g3]
      ring

theorem rowHouse_struct (nm m n i : Nat) (scale : ℝ) (u rv1 : Buf ℝ) (hi : 1 ≤ i)
    (hin : i < n) (hn : n ≤ nm) (him : i < m) :
    ∃ UN RV : Buf ℝ,
      (rowHouse Real.sqrt nm m n i scale u rv1).1 =
        rowRescale nm n i scale (rowApply nm m n i RV UN) ∧
      (∀ c, i + 1 ≤ c → c ≤ n → M nm UN i c =
        if c = i + 1 then M nm u i (i + 1) / scale - (rowHouse Real.sqrt nm m n i scale u rv1).2.2
        else M nm u i c / scale) ∧
      (∀ x, (∀ c, i + 1 ≤ c → c ≤ n → x ≠ MINDX i c nm) → UN.get x = u.get x) ∧
      (∀ c, i + 1 ≤ c → c ≤ n → RV.get (VINDX c) = M nm UN i c /
        (M nm u i (i + 1) / scale * (rowHouse Real.sqrt nm m n i scale u rv1).2.2 -
          ∑ r ∈ Finset.Icc (i + 1) n, (M nm u i r / scale) * (M nm u i r / scale))) := by
  have ns := rowNormalize_spec nm n i scale u hi hn
  have ns1 := ns.2.1
  simp only [M] at ns1
  refine ⟨(rowNormalize nm n i scale u).2.set (MINDX i (i + 1) nm)
    ((rowNormalize nm n i scale u).2.get (MINDX i (i + 1) nm) -
      (rowHouse Real.sqrt nm m n i scale u rv1).2.2),
    rowRv1 nm n i ((rowNormalize nm n i scale u).2.get (MINDX i (i + 1) nm) *
      (rowHouse Real.sqrt nm m n i scale u rv1).2.2 - (rowNormalize nm n i scale u).1)
      ((rowNormalize nm n i scale u).2.set (MINDX i (i + 1) nm)
        ((rowNormalize nm n i scale u).2.get (MINDX i (i + 1) nm) -
          (rowHouse Real.sqrt nm m n i scale u rv1).2.2)) rv1, ?_, ?_, ?_, ?_⟩
  · unfold rowHouse
    simp only []
    rw [if_pos (by omega)]
  · intro c h1 h2
    simp only [M]
    rw [Buf.get_set]
    split_ifs with h3 h4 h4
    · rw [ns1 (i + 1) (le_refl _) (by omega)]
    · exact absurd (MINDX_inj hi hi (by omega) (by omega) (by omega) (by omega) h3).2 h4
    · exact absurd (by rw [h4]) h3
    · exact ns1 c h1 h2
  · intro x hx
    rw [Buf.get_set_ne _ _ (hx (i + 1) (le_refl _) (by omega))]
    exact ns.2.2 x hx
  · intro c h1 h2
    rw [(rowRv1_spec nm n i _ _ rv1).1 c h1 h2, ns.1, ns1 (i + 1) (le_refl _) (by omega)]
    rfl

/-- The rows `k > i` after the branch `scale != 0` of the row step. -/
theorem rowHouse_rows (nm m n i : Nat) (scale : ℝ) (u rv1 : Buf ℝ) (hi : 1 ≤ i) (hin : i < n)
    (hn : n ≤ nm) (hsc : scale ≠ 0) (k c : Nat) (hk1 : i + 1 ≤ k) (hk2 : k ≤ m)
    (hc1 : i + 1 ≤ c) (hc2 : c ≤ n) :
    M nm (rowHouse Real.sqrt nm m n i scale u rv1).1 k c =
      M nm u k c + M nm (rowHouse Real.sqrt nm m n i scale u rv1).1 i c *
        (∑ r ∈ Finset.Icc (i + 1) n,
          M nm (rowHouse Real.sqrt nm m n i scale u rv1).1 i r * M nm u k r) *
        (1 / (scale * scale * (M nm u i (i + 1) / scale *
          (rowHouse Real.sqrt nm m n i scale u rv1).2.2 -
          ∑ r ∈ Finset.Icc (i + 1) n, (M nm u i r / scale) * (M nm u i r / scale)))) := by
  have hc := rowHouse_row nm m n i scale u rv1 hi hin hn
  obtain ⟨UN, RV, e1, e2, e3, e4⟩ := rowHouse_struct nm m n i scale u rv1 hi hin hn (by omega)
  have ra := rowApply_spec nm m n i RV UN hi hn
  have rr := rowRescale_spec nm n i scale (rowApply nm m n i RV UN) hi hn
  have hrel : ∀ r, i + 1 ≤ r → r ≤ n →
      M nm UN i r = M nm (rowHouse Real.sqrt nm m n i scale u rv1).1 i r / scale := by
    intro r h1 h2
    rw [hc r h1 h2, e2 r h1 h2]
    field_simp
  have hUN : ∀ r, i + 1 ≤ r → r ≤ n → M nm UN k r = M nm u k r := fun r h1 h2 =>
    e3 _ (fun r' h3 h4 => MINDX_ne (by omega) (by omega) (by omega) (by omega) (by omega)
      (by omega) (Or.inl (by omega)))
  have key : M nm (rowHouse Real.sqrt nm m n i scale u rv1).1 k c =
      M nm u k c + (∑ r ∈ Finset.Icc (i + 1) n,
        M nm u k r * (M nm (rowHouse Real.sqrt nm m n i scale u rv1).1 i r / scale)) *
        (M nm (rowHouse Real.sqrt nm m n i scale u rv1).1 i c / scale /
        (M nm u i (i + 1) / scale * (rowHouse Real.sqrt nm m n i scale u rv1).2.2 -
          ∑ r ∈ Finset.Icc (i + 1) n, (M nm u i r / scale) * (M nm u i r / scale))) := by
    conv_lhs => rw [e1]
    have f1 : M nm (rowRescale nm n i scale (rowApply nm m n i RV UN)) k c =
        M nm (rowApply nm m n i RV UN) k c :=
      rr.2 _ (fun r' h3 h4 => MINDX_ne (by omega) (by omega) (by omega) (by omega) (by omega)
        (by omega) (Or.inl (by omega)))
    rw [f1, ra.1 k c hk1 hk2 hc1 hc2, hUN c hc1 hc2, e4 c hc1 hc2, hrel c hc1 hc2]
    congr 2
    apply Finset.sum_congr rfl
    intro r hr
    rw [Finset.mem_Icc] at hr
    rw [hrel r hr.1 hr.2, hUN r hr.1 hr.2]
  rw [key]
  congr 1
  have e : ∀ r ∈ Finset.Icc (i + 1) n,
      M nm u k r * (M nm (rowHouse Real.sqrt nm m n i scale u rv1).1 i r / scale) =
      (M nm (rowHouse Real.sqrt nm m n i scale u rv1).1 i r * M nm u k r) * (1 / scale) := by
    intro r _
    ring
  rw [Finset.sum_congr rfl e, ← Finset.sum_mul]
  exact house_coef2 _ _ _ _ hsc

/-- The row step `i`: the old row is `q + e e_{i+1}` with `q` the stored vector
and `e = scale * g`; the rows `k > i` are reflected by `I + q q^T / (q_{i+1} e)`. -/
theorem rowStep_spec (nm m n i : Nat) (u rv1 : Buf ℝ) (hi : 1 ≤ i) (hin : i ≤ n)
    (hn : n ≤ nm) (him : i ≤ m) :
    (∀ c, i + 1 ≤ c → c ≤ n → M nm u i c = M nm (rowStep Real.sqrt nm m n i u rv1).1 i c +
      (if c = i + 1 then (rowStep Real.sqrt nm m n i u rv1).2.2.2 *
        (rowStep Real.sqrt nm m n i u rv1).2.2.1 else 0)) ∧
    ((rowStep Real.sqrt nm m n i u rv1).2.2.2 * (rowStep Real.sqrt nm m n i u rv1).2.2.1 = 0 →
      ∀ c, i + 1 ≤ c → c ≤ n → M nm (rowStep Real.sqrt nm m n i u rv1).1 i c = 0) ∧
    (∀ k c, i + 1 ≤ k → k ≤ m → i + 1 ≤ c → c ≤ n →
      M nm (rowStep Real.sqrt nm m n i u rv1).1 k c =
        M nm u k c + M nm (rowStep Real.sqrt nm m n i u rv1).1 i c *
          (∑ r ∈ Finset.Icc (i + 1) n,
            M nm (rowStep Real.sqrt nm m n i u rv1).1 i r * M nm u k r) *
          (if (rowStep Real.sqrt nm m n i u rv1).2.2.2 *
              (rowStep Real.sqrt nm m n i u rv1).2.2.1 = 0 then 0
           else 1 / (M nm (rowStep Real.sqrt nm m n i u rv1).1 i (i + 1) *
            ((rowStep Real.sqrt nm m n i u rv1).2.2.2 *
              (rowStep Real.sqrt nm m n i u rv1).2.2.1)))) := by
  by_cases hin' : i = n
  · exact ⟨fun c h1 h2 => by omega, fun _ c h1 h2 => by omega,
      fun k c _ _ h1 h2 => by omega⟩
  have hlt : i < n := by omega
  by_cases hsc : rowScale nm n i u = 0
  · have e : rowStep Real.sqrt nm m n i u rv1 = (u, rv1, 0, rowScale nm n i u) := by
      unfold rowStep
      rw [if_pos ⟨him, hin'⟩]
      simp only []
      rw [if_neg (not_not.mpr hsc)]
    rw [e]
    simp only [mul_zero, if_true, ite_self, add_zero, true_implies]
    rw [rowScale_eq] at hsc
    exact ⟨fun _ _ _ => trivial,
      fun c h1 h2 => abs_sum_zero (fun c => M nm u i c) (i + 1) n hsc c h1 h2,
      fun _ _ _ _ _ _ => trivial⟩
  · have e : rowStep Real.sqrt nm m n i u rv1 =
        ((rowHouse Real.sqrt nm m n i (rowScale nm n i u) u rv1).1,
         (rowHouse Real.sqrt nm m n i (rowScale nm n i u) u rv1).2.1,
         (rowHouse Real.sqrt nm m n i (rowScale nm n i u) u rv1).2.2, rowScale nm n i u) := by
      unfold rowStep
      rw [if_pos ⟨him, hin'⟩]
      simp only []
      rw [if_pos hsc]
    rw [e]
    simp only []
    have hg := rowHouse_g nm m n i (rowScale nm n i u) u rv1 hi hlt hn
    have hrow := rowHouse_row nm m n i (rowScale nm n i u) u rv1 hi hlt hn
    have hs0 : 0 < ∑ k ∈ Finset.Icc (i + 1) n,
        (M nm u i k / rowScale nm n i u) * (M nm u i k / rowScale nm n i u) := by
      have := scaled_sq_pos (fun k => M nm u i k) (i + 1) n (by rw [← rowScale_eq]; exact hsc)
      rw [← rowScale_eq] at this
      exact this
    obtain ⟨g1, g2, g3, g4⟩ := house_scalar (M nm u i (i + 1) / rowScale nm n i u) _ hs0
    rw [← hg] at g1 g2 g3 g4
    have hW : rowScale nm n i u *
        (rowHouse Real.sqrt nm m n i (rowScale nm n i u) u rv1).2.2 ≠ 0 :=
      mul_ne_zero hsc g4
    refine ⟨fun c h1 h2 => ?_, fun h => absurd h hW, fun k c h1 h2 h3 h4 => ?_⟩
    · rw [hrow c h1 h2]
      split_ifs with hk
      · rw [hk]
        field_simp
      · field_simp
    · rw [rowHouse_rows nm m n i _ u rv1 hi hlt hn hsc k c h1 h2 h3 h4, if_neg hW]
      congr 3
      rw [hrow (i + 1) (le_refl _) (by omega), if_pos rfl, g3]
      ring

end StepSpecs

/-! ## The induction step for the accumulated factors -/

section ReconStep

variable {K : Type} [LinearOrderedField K]

/-- The product `X B Vt` of a bordered `X = 1 (+) U`, an upper bidiagonal `B` and a
bordered `Vt = 1 (+) V` whose inner block has first column `e_1`. -/
theorem border_prod (i m n : Nat) (hin : i ≤ n) (a' U V B : Nat → Nat → K) (wi e : K)
    (hB1 : B i i = wi) (hB2 : i < n → B i (i + 1) = e)
    (hB3 : ∀ t, i + 2 ≤ t → t ≤ n → B i t = 0)
    (hB4 : ∀ s, i + 1 ≤ s → s ≤ n → B s i = 0)
    (hVS : ∀ c, i + 1 ≤ c → c ≤ n → V c (i + 1) = if c = i + 1 then 1 else 0)
    (ih : ∀ ρ c, i + 1 ≤ ρ → ρ ≤ m → i + 1 ≤ c → c ≤ n →
      a' ρ c = ∑ s ∈ Finset.Icc (i + 1) n, ∑ t ∈ Finset.Icc (i + 1) n, U ρ s * B s t * V c t)
    (X Vt : Nat → Nat → K)
    (hX1 : ∀ s, X i s = if s = i then 1 else 0)
    (hX2 : ∀ r s, r ≠ i → X r s = if s = i then 0 else U r s)
    (hV1 : ∀ t, Vt i t = if t = i then 1 else 0)
    (hV2 : ∀ c t, c ≠ i → Vt c t = if t = i then 0 else V c t)
    (r c : Nat) (hr1 : i ≤ r) (hr2 : r ≤ m) (hc1 : i ≤ c) (hc2 : c ≤ n) :
    ∑ t ∈ Finset.Icc i n, Vt c t * ∑ s ∈ Finset.Icc i n, X r s * B s t =
      if r = i then (if c = i then wi else if c = i + 1 then e else 0)
      else (if c = i then 0 else a' r c) := by
  have hy : ∀ t, ∑ s ∈ Finset.Icc i n, X r s * B s t =
      if r = i then B i t else ∑ s ∈ Finset.Icc (i + 1) n, U r s * B s t := by
    intro t
    rw [sum_Icc_succ_left _ _ _ hin]
    split_ifs with h
    · subst h
      rw [hX1, if_pos rfl, one_mul]
      have : ∑ s ∈ Finset.Icc (r + 1) n, X r s * B s t = 0 := by
        apply Finset.sum_eq_zero
        intro s hs
        rw [Finset.mem_Icc] at hs
        rw [hX1, if_neg (by omega), zero_mul]
      rw [this, add_zero]
    · rw [hX2 r i h, if_pos rfl, zero_mul, zero_add]
      apply Finset.sum_congr rfl
      intro s hs
      rw [Finset.mem_Icc] at hs
      rw [hX2 r s h, if_neg (by omega)]
  simp only [hy]
  rw [sum_Icc_succ_left _ _ _ hin]
  by_cases hc : c = i
  · subst hc
    rw [hV1, if_pos rfl, one_mul]
    have : ∑ t ∈ Finset.Icc (c + 1) n, Vt c t *
        (if r = c then B c t else ∑ s ∈ Finset.Icc (c + 1) n, U r s * B s t) = 0 := by
      apply Finset.sum_eq_zero
      intro t ht
      rw [Finset.mem_Icc] at ht
      rw [hV1, if_neg (by omega), zero_mul]
    rw [this, add_zero]
    simp only [if_true]
    by_cases h : r = c
    · rw [if_pos h, if_pos h]; exact hB1
    · rw [if_neg h, if_neg h]
      apply Finset.sum_eq_zero
      intro s hs
      rw [Finset.mem_Icc] at hs
      rw [hB4 s hs.1 hs.2, mul_zero]
  · rw [hV2 c i hc, if_pos rfl, zero_mul, zero_add]
    have hci : i + 1 ≤ c := by omega
    have e1 : ∀ t ∈ Finset.Icc (i + 1) n, Vt c t *
        (if r = i then B i t else ∑ s ∈ Finset.Icc (i + 1) n, U r s * B s t) =
        V c t * (if r = i then B i t else ∑ s ∈ Finset.Icc (i + 1) n, U r s * B s t) := by
      intro t ht
      rw [Finset.mem_Icc] at ht
      rw [hV2 c t hc, if_neg (by omega)]
    rw [Finset.sum_congr rfl e1]
    simp only [if_neg hc]
    by_cases h : r = i
    · simp only [if_pos h]
      rw [sum_Icc_succ_left _ _ _ (by omega), hB2 (by omega), hVS c hci hc2]
      have : ∑ t ∈ Finset.Icc (i + 1 + 1) n, V c t * B i t = 0 := by
        apply Finset.sum_eq_zero
        intro t ht
        rw [Finset.mem_Icc] at ht
        rw [hB3 t (by omega) ht.2, mul_zero]
      rw [this, add_zero]
      split_ifs <;> ring
    · simp only [if_neg h]
      rw [ih r c (by omega) hr2 hci hc2]
      simp only [Finset.mul_sum]
      rw [Finset.sum_comm]
      apply Finset.sum_congr rfl
      intro s _
      apply Finset.sum_congr rfl
      intro t _
      ring

theorem sum_Icc_single (f : Nat → K) (lo hi a : Nat) (h1 : lo ≤ a) (h2 : a ≤ hi) (v : K) :
    ∑ r ∈ Finset.Icc lo hi, f r * (if r = a then v else 0) = f a * v := by
  rw [Finset.sum_eq_single a]
  · rw [if_pos rfl]
  · intro b _ hb
    rw [if_neg hb, mul_zero]
  · intro h
    exact absurd (Finset.mem_Icc.mpr ⟨h1, h2⟩) h

/-- One step of the induction for `A = U B V^T` after the accumulations: from the
blocks with index `> i` to the blocks with index `>= i`. -/
theorem recon_step (i m n : Nat) (him : i ≤ m) (hin : i ≤ n)
    (a a' a1 U U' V V' B : Nat → Nat → K) (p q : Nat → K) (wi e γu γv : K)
    (hB1 : B i i = wi) (hB2 : i < n → B i (i + 1) = e)
    (hB3 : ∀ t, i + 2 ≤ t → t ≤ n → B i t = 0)
    (hB4 : ∀ s, i + 1 ≤ s → s ≤ n → B s i = 0)
    (h1 : ∀ k, i ≤ k → k ≤ m → a k i = p k + (if k = i then wi else 0))
    (h1' : ∀ k, i ≤ k → k ≤ m → p k * (p i * wi * γu) = p k)
    (h2 : ∀ k j, i ≤ k → k ≤ m → i + 1 ≤ j → j ≤ n →
      a k j = a1 k j + p k * (∑ r ∈ Finset.Icc i m, p r * a1 r j) * γu)
    (h3 : ∀ c, i + 1 ≤ c → c ≤ n → a1 i c = q c + (if c = i + 1 then e else 0))
    (h3' : ∀ c, i + 1 ≤ c → c ≤ n → q c * (q (i + 1) * e * γv) = q c)
    (h4 : ∀ k c, i + 1 ≤ k → k ≤ m → i + 1 ≤ c → c ≤ n →
      a1 k c = a' k c + q c * (∑ r ∈ Finset.Icc (i + 1) n, q r * a' k r) * γv)
    (hU : ∀ k s, i ≤ k → k ≤ m → i ≤ s → s ≤ n →
      U' k s = (if s = i then (if k = i then 1 else 0) else if k = i then 0 else U k s) +
        p k * (∑ r ∈ Finset.Icc i m, p r *
          (if s = i then (if r = i then 1 else 0) else if r = i then 0 else U r s)) * γu)
    (hV1 : V' i i = 1) (hV2 : ∀ c, i + 1 ≤ c → c ≤ n → V' i c = 0 ∧ V' c i = 0)
    (hV3 : ∀ c t, i + 1 ≤ c → c ≤ n → i + 1 ≤ t → t ≤ n →
      V' c t = V c t + q c * (∑ r ∈ Finset.Icc (i + 1) n, q r * V r t) * γv)
    (hVS : ∀ c, i + 1 ≤ c → c ≤ n → V c (i + 1) = if c = i + 1 then 1 else 0)
    (ih : ∀ ρ c, i + 1 ≤ ρ → ρ ≤ m → i + 1 ≤ c → c ≤ n →
      a' ρ c = ∑ s ∈ Finset.Icc (i + 1) n, ∑ t ∈ Finset.Icc (i + 1) n, U ρ s * B s t * V c t) :
    ∀ ρ c, i ≤ ρ → ρ ≤ m → i ≤ c → c ≤ n →
      a ρ c = ∑ s ∈ Finset.Icc i n, ∑ t ∈ Finset.Icc i n, U' ρ s * B s t * V' c t := by
  obtain ⟨X, hXd, hX1, hX2⟩ : ∃ X : Nat → Nat → K,
      (∀ k s, X k s = if s = i then (if k = i then 1 else 0) else if k = i then 0 else U k s) ∧
      (∀ s, X i s = if s = i then 1 else 0) ∧
      (∀ r s, r ≠ i → X r s = if s = i then 0 else U r s) :=
    ⟨fun k s => if s = i then (if k = i then 1 else 0) else if k = i then 0 else U k s,
      fun _ _ => rfl, fun s => by simp, fun r s hr => by simp [hr]⟩
  obtain ⟨Vt, hVt1, hVt2⟩ : ∃ Vt : Nat → Nat → K,
      (∀ t, Vt i t = if t = i then 1 else 0) ∧
      (∀ c t, c ≠ i → Vt c t = if t = i then 0 else V c t) :=
    ⟨fun c t => if t = i then (if c = i then 1 else 0) else if c = i then 0 else V c t,
      fun s => by simp, fun r s hr => by simp [hr]⟩
  obtain ⟨qt, hqt1, hqt2⟩ : ∃ qt : Nat → K, qt i = 0 ∧ ∀ c, c ≠ i → qt c = q c :=
    ⟨fun c => if c = i then 0 else q c, by simp, fun c hc => by simp [hc]⟩
  have hqsum : ∀ F : Nat → K, ∑ c ∈ Finset.Icc i n, qt c * F c =
      ∑ c ∈ Finset.Icc (i + 1) n, q c * F c := by
    intro F
    rw [sum_Icc_succ_left _ _ _ hin, hqt1, zero_mul, zero_add]
    apply Finset.sum_congr rfl
    intro c hc
    rw [Finset.mem_Icc] at hc
    rw [hqt2 c (by omega)]
  have hV' : ∀ c t, i ≤ c → c ≤ n → i ≤ t → t ≤ n →
      V' c t = Vt c t + qt c * (∑ r ∈ Finset.Icc i n, qt r * Vt r t) * γv := by
    intro c t hc1 hc2 ht1 ht2
    by_cases hc : c = i
    · subst hc
      rw [hqt1, zero_mul, zero_mul, add_zero, hVt1]
      split_ifs with h
      · rw [h]; exact hV1
      · exact (hV2 t (by omega) ht2).1
    · rw [hqsum, hVt2 c t hc, hqt2 c hc]
      by_cases ht : t = i
      · subst ht
        rw [if_pos rfl]
        have : ∑ r ∈ Finset.Icc (t + 1) n, q r * Vt r t = 0 := by
          apply Finset.sum_eq_zero
          intro r hr
          rw [Finset.mem_Icc] at hr
          rw [hVt2 r t (by omega), if_pos rfl, mul_zero]
        rw [this, mul_zero, zero_mul, add_zero]
        exact (hV2 c (by omega) hc2).2
      · rw [if_neg ht, hV3 c t (by omega) hc2 (by omega) ht2]
        congr 3
        apply Finset.sum_congr rfl
        intro r hr
        rw [Finset.mem_Icc] at hr
        rw [hVt2 r t (by omega), if_neg ht]
  intro ρ c hρ1 hρ2 hc1 hc2
  have hG1 : ∀ r, i ≤ r → r ≤ m →
      ∑ s ∈ Finset.Icc i n, X r s * ∑ t ∈ Finset.Icc i n, B s t * V' c t =
        if c = i then (if r = i then wi else 0) else a1 r c := by
    intro r hr1 hr2
    have e1 : ∑ s ∈ Finset.Icc i n, X r s * ∑ t ∈ Finset.Icc i n, B s t * V' c t =
        ∑ t ∈ Finset.Icc i n, (Vt c t + qt c * (∑ r' ∈ Finset.Icc i n, qt r' * Vt r' t) * γv) *
          ∑ s ∈ Finset.Icc i n, X r s * B s t := by
      have e5 : ∀ s ∈ Finset.Icc i n, X r s * ∑ t ∈ Finset.Icc i n, B s t * V' c t =
          ∑ t ∈ Finset.Icc i n, X r s * (B s t * V' c t) := fun s _ => Finset.mul_sum _ _ _
      rw [Finset.sum_congr rfl e5, Finset.sum_comm]
      apply Finset.sum_congr rfl
      intro t ht
      rw [Finset.mem_Icc] at ht
      rw [Finset.mul_sum]
      apply Finset.sum_congr rfl
      intro s _
      rw [hV' c t hc1 hc2 ht.1 ht.2]
      ring
    rw [e1, refl_sum]
    have bp := border_prod i m n hin a' U V B wi e hB1 hB2 hB3 hB4 hVS ih X Vt hX1 hX2 hVt1 hVt2 r
    rw [bp c hr1 hr2 hc1 hc2]
    have e2 : ∀ c' ∈ Finset.Icc i n, qt c' * ∑ t ∈ Finset.Icc i n, Vt c' t *
        ∑ s ∈ Finset.Icc i n, X r s * B s t =
        qt c' * (if r = i then (if c' = i then wi else if c' = i + 1 then e else 0)
          else (if c' = i then 0 else a' r c')) := by
      intro c' hc'
      rw [Finset.mem_Icc] at hc'
      rw [bp c' hr1 hr2 hc'.1 hc'.2]
    rw [Finset.sum_congr rfl e2, hqsum]
    by_cases hc : c = i
    · subst hc
      simp only [if_true]
      rw [hqt1, zero_mul, zero_mul, add_zero]
    · rw [if_neg hc, hqt2 c hc]
      by_cases hr : r = i
      · subst hr
        simp only [if_true, if_neg hc]
        have e3 : ∀ c' ∈ Finset.Icc (r + 1) n,
            q c' * (if c' = r then wi else if c' = r + 1 then e else 0) =
            q c' * (if c' = r + 1 then e else 0) := by
          intro c' hc'
          rw [Finset.mem_Icc] at hc'
          rw [if_neg (by omega)]
        rw [Finset.sum_congr rfl e3, sum_Icc_single _ _ _ _ (le_refl _) (by omega),
          h3 c (by omega) hc2]
        have := h3' c (by omega) hc2
        linear_combination this
      · simp only [if_neg hr, if_neg hc]
        have e3 : ∀ c' ∈ Finset.Icc (i + 1) n,
            q c' * (if c' = i then 0 else a' r c') = q c' * a' r c' := by
          intro c' hc'
          rw [Finset.mem_Icc] at hc'
          rw [if_neg (by omega)]
        rw [Finset.sum_congr rfl e3, h4 r c (by omega) hr2 (by omega) hc2]
  have e0 : ∑ s ∈ Finset.Icc i n, ∑ t ∈ Finset.Icc i n, U' ρ s * B s t * V' c t =
      ∑ s ∈ Finset.Icc i n, (X ρ s + p ρ * (∑ r ∈ Finset.Icc i m, p r * X r s) * γu) *
        ∑ t ∈ Finset.Icc i n, B s t * V' c t := by
    apply Finset.sum_congr rfl
    intro s hs
    rw [Finset.mem_Icc] at hs
    rw [Finset.mul_sum]
    apply Finset.sum_congr rfl
    intro t _
    rw [hU ρ s hρ1 hρ2 hs.1 hs.2]
    simp only [hXd]
    ring
  rw [e0, refl_sum, hG1 ρ hρ1 hρ2]
  have e4 : ∀ r ∈ Finset.Icc i m, p r * ∑ s ∈ Finset.Icc i n, X r s *
      ∑ t ∈ Finset.Icc i n, B s t * V' c t =
      p r * (if c = i then (if r = i then wi else 0) else a1 r c) := by
    intro r hr
    rw [Finset.mem_Icc] at hr
    rw [hG1 r hr.1 hr.2]
  rw [Finset.sum_congr rfl e4]
  by_cases hc : c = i
  · simp only [if_pos hc]
    rw [sum_Icc_single _ _ _ _ (le_refl _) him, hc, h1 ρ hρ1 hρ2]
    have := h1' ρ hρ1 hρ2
    split_ifs <;> linear_combination -this
  · simp only [if_neg hc]
    exact h2 ρ c hρ1 hρ2 (by omega) hc2

end ReconStep

/-! ## Partial states of the three loops before the diagonalization -/

section Partial

variable {K : Type} [LinearOrderedField K]

theorem forDown_downFrom {σ : Type} (body : Nat → σ → σ) (n : Nat) (s : σ) (j cnt : Nat)
    (h : j + cnt = n) :
    forDown body j (downFrom body n cnt s) = downFrom body n n s := by
  induction j generalizing cnt with
  | zero =>
    have : cnt = n := by omega
    rw [this]
    rfl
  | succ j ih =>
    rw [forDown]
    have e : n - cnt = j + 1 := by omega
    have := ih (cnt + 1) (by omega)
    rw [downFrom, e] at this
    exact this

theorem forDown_eq_downFrom {σ : Type} (body : Nat → σ → σ) (n : Nat) (s : σ) :
    forDown body n s = downFrom body n n s :=
  forDown_downFrom body n s n 0 (by omega)

theorem bidiag_eq_bidiagAt (sqrt : K → K) (nm m n : Nat) (u w rv1 : Buf K) :
    bidiag sqrt nm m n u w rv1 = bidiagAt sqrt nm m n u w rv1 n := by
  unfold bidiag bidiagAt forRange
  have : n + 1 - 1 = n := by omega
  rw [this]

theorem bidiagAt_zero (sqrt : K → K) (nm m n : Nat) (u w rv1 : Buf K) :
    bidiagAt sqrt nm m n u w rv1 0 =
      { u := u, w := w, rv1 := rv1, g := 0, scale := 0, anorm := 0 } := rfl

theorem bidiagAt_succ (sqrt : K → K) (nm m n : Nat) (u w rv1 : Buf K) (i : Nat) :
    bidiagAt sqrt nm m n u w rv1 (i + 1) =
      bidiagStep sqrt nm m n (i + 1) (bidiagAt sqrt nm m n u w rv1 i) := by
  unfold bidiagAt
  rw [forUp_succ_last]
  have : 1 + i = i + 1 := by omega
  rw [this]

theorem accV_eq_accVAt (nm n : Nat) (u rv1 v : Buf K) (g : K) (L : Nat) :
    accV nm n u rv1 v g L = (accVAt nm n u rv1 v g L 1).1 := by
  unfold accV accVAt
  rw [forDown_eq_downFrom]
  have : n + 1 - 1 = n := by omega
  rw [this]

theorem accVAt_step (nm n : Nat) (u rv1 v : Buf K) (g : K) (L : Nat) (i : Nat)
    (h1 : 1 ≤ i) (h2 : i ≤ n) :
    accVAt nm n u rv1 v g L i = accVStep nm n u rv1 i (accVAt nm n u rv1 v g L (i + 1)) := by
  unfold accVAt
  obtain ⟨cnt, hc⟩ : ∃ cnt, n + 1 - i = cnt + 1 := ⟨n - i, by omega⟩
  have e1 : n + 1 - (i + 1) = cnt := by omega
  have e2 : n - cnt = i := by omega
  rw [hc, e1, downFrom, e2]

theorem accU_eq_accUAt (nm m n : Nat) (w u : Buf K) :
    accU nm m n w u = accUAt nm m n w u 1 := by
  unfold accU accUAt
  simp only []
  rw [forDown_eq_downFrom]
  have : MIN m n + 1 - 1 = MIN m n := by omega
  rw [this]

theorem accUAt_step (nm m n : Nat) (w u : Buf K) (i : Nat) (h1 : 1 ≤ i) (h2 : i ≤ MIN m n) :
    accUAt nm m n w u i = accUStep nm m n (MIN m n) w i (accUAt nm m n w u (i + 1)) := by
  unfold accUAt
  obtain ⟨cnt, hc⟩ : ∃ cnt, MIN m n + 1 - i = cnt + 1 := ⟨MIN m n - i, by omega⟩
  have e1 : MIN m n + 1 - (i + 1) = cnt := by omega
  have e2 : MIN m n - cnt = i := by omega
  rw [hc, e1, downFrom, e2]

theorem accUAt_top (nm m n : Nat) (w u : Buf K) :
    accUAt nm m n w u (MIN m n + 1) = u := by
  unfold accUAt
  have : MIN m n + 1 - (MIN m n + 1) = 0 := by omega
  rw [this]
  rfl

/-- The steps after `i` leave the columns `<= i` and the rows `<= i` of `u`. -/
theorem bidiagAt_frame_u (sqrt : K → K) (nm m n : Nat) (u w rv1 : Buf K) (hn : n ≤ nm)
    (i : Nat) (x : Int) (hx : ∀ j k, i + 1 ≤ j → i + 1 ≤ k → k ≤ n → x ≠ MINDX j k nm)
    (d : Nat) (hd : i + d ≤ n) :
    (bidiagAt sqrt nm m n u w rv1 (i + d)).u.get x = (bidiagAt sqrt nm m n u w rv1 i).u.get x := by
  induction d with
  | zero => rfl
  | succ d ih =>
    have e : i + (d + 1) = (i + d) + 1 := by omega
    rw [e, bidiagAt_succ, bidiagStep_frame_u sqrt nm m n _ _ (by omega) (by omega) hn x
      (fun j k h1 h2 h3 => hx j k (by omega) (by omega) h3)]
    exact ih (by omega)

theorem bidiagAt_frame_w (sqrt : K → K) (nm m n : Nat) (u w rv1 : Buf K)
    (i : Nat) (x : Int) (hx : x < VINDX (i + 1)) (d : Nat) :
    (bidiagAt sqrt nm m n u w rv1 (i + d)).w.get x = (bidiagAt sqrt nm m n u w rv1 i).w.get x := by
  induction d with
  | zero => rfl
  | succ d ih =>
    have e : i + (d + 1) = (i + d) + 1 := by omega
    rw [e, bidiagAt_succ, bidiagStep_frame_w _ _ _ _ _ _ _ (by unfold VINDX at hx ⊢; omega)]
    exact ih

theorem bidiagAt_frame_rv1 (sqrt : K → K) (nm m n : Nat) (u w rv1 : Buf K)
    (i : Nat) (x : Int) (hx : x < VINDX (i + 1)) (d : Nat) :
    (bidiagAt sqrt nm m n u w rv1 (i + d)).rv1.get x =
      (bidiagAt sqrt nm m n u w rv1 i).rv1.get x := by
  induction d with
  | zero => rfl
  | succ d ih =>
    have e : i + (d + 1) = (i + d) + 1 := by omega
    rw [e, bidiagAt_succ, bidiagStep_frame_rv1 _ _ _ _ _ _ _ (by unfold VINDX at hx ⊢; omega)]
    exact ih

theorem bidiagAt_u_final (sqrt : K → K) (nm m n : Nat) (u w rv1 : Buf K) (hn : n ≤ nm)
    (i : Nat) (hi : i ≤ n) (x : Int)
    (hx : ∀ j k, i + 1 ≤ j → i + 1 ≤ k → k ≤ n → x ≠ MINDX j k nm) :
    (bidiagAt sqrt nm m n u w rv1 n).u.get x = (bidiagAt sqrt nm m n u w rv1 i).u.get x := by
  have e : n = i + (n - i) := by omega
  have := bidiagAt_frame_u sqrt nm m n u w rv1 hn i x hx (n - i) (by omega)
  rwa [← e] at this

theorem bidiagAt_w_final (sqrt : K → K) (nm m n : Nat) (u w rv1 : Buf K)
    (i : Nat) (hi : i ≤ n) (x : Int) (hx : x < VINDX (i + 1)) :
    (bidiagAt sqrt nm m n u w rv1 n).w.get x = (bidiagAt sqrt nm m n u w rv1 i).w.get x := by
  have e : n = i + (n - i) := by omega
  have := bidiagAt_frame_w sqrt nm m n u w rv1 i x hx (n - i)
  rwa [← e] at this

theorem bidiagAt_rv1_final (sqrt : K → K) (nm m n : Nat) (u w rv1 : Buf K)
    (i : Nat) (hi : i ≤ n) (x : Int) (hx : x < VINDX (i + 1)) :
    (bidiagAt sqrt nm m n u w rv1 n).rv1.get x = (bidiagAt sqrt nm m n u w rv1 i).rv1.get x := by
  have e : n = i + (n - i) := by omega
  have := bidiagAt_frame_rv1 sqrt nm m n u w rv1 i x hx (n - i)
  rwa [← e] at this

end Partial

/-! ## A bidiagonalization step in terms of the final arrays -/

section BidiagFacts

theorem gamma_cases (W P : ℝ) (S : ℝ) (h : W = 0 ∨ (P * W ≠ 0 ∧ S = -2 * (P * W))) :
    (if W = 0 then (0 : ℝ) else 1 / (P * W)) = 0 ∨
      (P * W ≠ 0 ∧ (if W = 0 then (0 : ℝ) else 1 / (P * W)) = 1 / (P * W) ∧
        S = -2 * (P * W)) := by
  by_cases hW : W = 0
  · left; rw [if_pos hW]
  · right
    rcases h with h | h
    · exact absurd h hW
    · exact ⟨h.1, by rw [if_neg hW], h.2⟩

/-- Step `i0 + 1` of the bidiagonalization, in terms of the arrays it leaves at
the end: with `p` the column `i` and `q` the row `i` of the final `u`, the block
before the step is `H a1`, and `a1` is `[w_i, e; 0, a'] K`. -/
theorem bidiag_step_facts (nm m n : Nat) (u w rv1 : Buf ℝ) (hn : n ≤ nm) (i0 : Nat)
    (hin : i0 + 1 ≤ n) (him : i0 + 1 ≤ m) :
    ∃ a1 : Nat → Nat → ℝ,
      (∀ k, i0 + 1 ≤ k → k ≤ m →
        M nm (bidiagAt Real.sqrt nm m n u w rv1 i0).u k (i0 + 1) =
          M nm (bidiagAt Real.sqrt nm m n u w rv1 n).u k (i0 + 1) +
          (if k = i0 + 1 then (bidiagAt Real.sqrt nm m n u w rv1 n).w.get (VINDX (i0 + 1))
           else 0)) ∧
      (∀ k, i0 + 1 ≤ k → k ≤ m →
        M nm (bidiagAt Real.sqrt nm m n u w rv1 n).u k (i0 + 1) *
          (M nm (bidiagAt Real.sqrt nm m n u w rv1 n).u (i0 + 1) (i0 + 1) *
            (bidiagAt Real.sqrt nm m n u w rv1 n).w.get (VINDX (i0 + 1)) *
            (if (bidiagAt Real.sqrt nm m n u w rv1 n).w.get (VINDX (i0 + 1)) = 0 then 0
             else 1 / (M nm (bidiagAt Real.sqrt nm m n u w rv1 n).u (i0 + 1) (i0 + 1) *
              (bidiagAt Real.sqrt nm m n u w rv1 n).w.get (VINDX (i0 + 1))))) =
          M nm (bidiagAt Real.sqrt nm m n u w rv1 n).u k (i0 + 1)) ∧
      (∀ k j, i0 + 1 ≤ k → k ≤ m → i0 + 1 + 1 ≤ j → j ≤ n →
        M nm (bidiagAt Real.sqrt nm m n u w rv1 i0).u k j =
          a1 k j + M nm (bidiagAt Real.sqrt nm m n u w rv1 n).u k (i0 + 1) *
            (∑ r ∈ Finset.Icc (i0 + 1) m,
              M nm (bidiagAt Real.sqrt nm m n u w rv1 n).u r (i0 + 1) * a1 r j) *
            (if (bidiagAt Real.sqrt nm m n u w rv1 n).w.get (VINDX (i0 + 1)) = 0 then 0
             else 1 / (M nm (bidiagAt Real.sqrt nm m n u w rv1 n).u (i0 + 1) (i0 + 1) *
              (bidiagAt Real.sqrt nm m n u w rv1 n).w.get (VINDX (i0 + 1))))) ∧
      (∀ c, i0 + 1 + 1 ≤ c → c ≤ n →
        a1 (i0 + 1) c = M nm (bidiagAt Real.sqrt nm m n u w rv1 n).u (i0 + 1) c +
          (if c = i0 + 1 + 1 then
            (bidiagAt Real.sqrt nm m n u w rv1 n).rv1.get (VINDX (i0 + 1 + 1)) else 0)) ∧
      (∀ c, i0 + 1 + 1 ≤ c → c ≤ n →
        M nm (bidiagAt Real.sqrt nm m n u w rv1 n).u (i0 + 1) c *
          (M nm (bidiagAt Real.sqrt nm m n u w rv1 n).u (i0 + 1) (i0 + 1 + 1) *
            (bidiagAt Real.sqrt nm m n u w rv1 n).rv1.get (VINDX (i0 + 1 + 1)) *
            (if (bidiagAt Real.sqrt nm m n u w rv1 n).rv1.get (VINDX (i0 + 1 + 1)) = 0 then 0
             else 1 / (M nm (bidiagAt Real.sqrt nm m n u w rv1 n).u (i0 + 1) (i0 + 1 + 1) *
              (bidiagAt Real.sqrt nm m n u w rv1 n).rv1.get (VINDX (i0 + 1 + 1))))) =
          M nm (bidiagAt Real.sqrt nm m n u w rv1 n).u (i0 + 1) c) ∧
      (∀ k c, i0 + 1 + 1 ≤ k → k ≤ m → i0 + 1 + 1 ≤ c → c ≤ n →
        a1 k c = M nm (bidiagAt Real.sqrt nm m n u w rv1 (i0 + 1)).u k c +
          M nm (bidiagAt Real.sqrt nm m n u w rv1 n).u (i0 + 1) c *
            (∑ r ∈ Finset.Icc (i0 + 1 + 1) n,
              M nm (bidiagAt Real.sqrt nm m n u w rv1 n).u (i0 + 1) r *
                M nm (bidiagAt Real.sqrt nm m n u w rv1 (i0 + 1)).u k r) *
            (if (bidiagAt Real.sqrt nm m n u w rv1 n).rv1.get (VINDX (i0 + 1 + 1)) = 0 then 0
             else 1 / (M nm (bidiagAt Real.sqrt nm m n u w rv1 n).u (i0 + 1) (i0 + 1 + 1) *
              (bidiagAt Real.sqrt nm m n u w rv1 n).rv1.get (VINDX (i0 + 1 + 1))))) := by
  -- the pieces of the step
  have hS' : bidiagAt Real.sqrt nm m n u w rv1 (i0 + 1) =
      bidiagStep Real.sqrt nm m n (i0 + 1) (bidiagAt Real.sqrt nm m n u w rv1 i0) :=
    bidiagAt_succ _ _ _ _ _ _ _ _
  obtain ⟨S, hSd⟩ : ∃ S, S = bidiagAt Real.sqrt nm m n u w rv1 i0 := ⟨_, rfl⟩
  obtain ⟨F, hFd⟩ : ∃ F, F = bidiagAt Real.sqrt nm m n u w rv1 n := ⟨_, rfl⟩
  rw [← hSd] at hS'
  rw [← hSd, ← hFd, hS']
  have cs := colStep_spec nm m n (i0 + 1) S.u (by omega) hin hn him
  have cok := colStep_ColOK nm m n (i0 + 1) S.u (by omega) hin hn
  have rs := rowStep_spec nm m n (i0 + 1) (colStep Real.sqrt nm m n (i0 + 1) S.u).1
    (S.rv1.set (VINDX (i0 + 1)) (S.scale * S.g)) (by omega) hin hn him
  have rok := rowStep_RowOK nm m n (i0 + 1) (colStep Real.sqrt nm m n (i0 + 1) S.u).1
    (S.rv1.set (VINDX (i0 + 1)) (S.scale * S.g)) (by omega) hin hn
  have eu : (bidiagStep Real.sqrt nm m n (i0 + 1) S).u =
      (rowStep Real.sqrt nm m n (i0 + 1) (colStep Real.sqrt nm m n (i0 + 1) S.u).1
        (S.rv1.set (VINDX (i0 + 1)) (S.scale * S.g))).1 := rfl
  -- transfers to the final arrays
  have hFu : ∀ x, (∀ j k, i0 + 1 + 1 ≤ j → i0 + 1 + 1 ≤ k → k ≤ n → x ≠ MINDX j k nm) →
      F.u.get x = (bidiagStep Real.sqrt nm m n (i0 + 1) S).u.get x := by
    intro x hx
    rw [hFd, ← hS']
    exact bidiagAt_u_final Real.sqrt nm m n u w rv1 hn (i0 + 1) hin x hx
  have hp : ∀ k, i0 + 1 ≤ k → k ≤ m →
      M nm (colStep Real.sqrt nm m n (i0 + 1) S.u).1 k (i0 + 1) = M nm F.u k (i0 + 1) := by
    intro k h1 h2
    have e1 : M nm F.u k (i0 + 1) = M nm (bidiagStep Real.sqrt nm m n (i0 + 1) S).u k (i0 + 1) :=
      hFu _ (fun j k' h3 h4 h5 => MINDX_ne (by omega) (by omega) (by omega) (by omega)
        (by omega) (by omega) (Or.inr (by omega)))
    rw [e1, eu]
    exact (rowStep_frame_u Real.sqrt nm m n (i0 + 1) _ _ (by omega) hin hn _
      (fun j k' h3 h4 h5 => MINDX_ne (by omega) (by omega) (by omega) (by omega)
        (by omega) (by omega) (Or.inr (by omega)))).symm
  have hq : ∀ c, i0 + 1 + 1 ≤ c → c ≤ n →
      M nm (bidiagStep Real.sqrt nm m n (i0 + 1) S).u (i0 + 1) c = M nm F.u (i0 + 1) c := by
    intro c h1 h2
    exact (hFu _ (fun j k' h3 h4 h5 => MINDX_ne (by omega) (by omega) (by omega) (by omega)
        (by omega) (by omega) (Or.inl (by omega)))).symm
  have hW : (colStep Real.sqrt nm m n (i0 + 1) S.u).2.2 *
      (colStep Real.sqrt nm m n (i0 + 1) S.u).2.1 = F.w.get (VINDX (i0 + 1)) := by
    rw [hFd, bidiagAt_w_final Real.sqrt nm m n u w rv1 (i0 + 1) hin _
      (by unfold VINDX; omega), bidiagAt_succ, ← hSd, bidiagStep_w_i]
  have hE : i0 + 1 < n → (rowStep Real.sqrt nm m n (i0 + 1)
      (colStep Real.sqrt nm m n (i0 + 1) S.u).1
        (S.rv1.set (VINDX (i0 + 1)) (S.scale * S.g))).2.2.2 *
      (rowStep Real.sqrt nm m n (i0 + 1) (colStep Real.sqrt nm m n (i0 + 1) S.u).1
        (S.rv1.set (VINDX (i0 + 1)) (S.scale * S.g))).2.2.1 =
      F.rv1.get (VINDX (i0 + 1 + 1)) := by
    intro hlt
    rw [hFd, bidiagAt_rv1_final Real.sqrt nm m n u w rv1 (i0 + 1 + 1) (by omega) _
      (by unfold VINDX; omega), bidiagAt_succ, bidiagStep_rv1_i, bidiagAt_succ, ← hSd]
    rfl
  have hcok : ColOK nm m F.u (i0 + 1) (F.w.get (VINDX (i0 + 1))) := by
    rw [hFd, ← bidiag_eq_bidiagAt]
    exact bidiag_ColOK nm m n u w rv1 hn (i0 + 1) (by omega) hin him
  have hrok : i0 + 1 < n → RowOK nm n F.u (i0 + 1) (F.rv1.get (VINDX (i0 + 1 + 1))) := by
    intro hlt
    rw [hFd, ← bidiag_eq_bidiagAt]
    exact bidiag_RowOK nm m n u w rv1 hn (i0 + 1) (by omega) hlt
  rw [eu] at hq ⊢
  generalize colStep Real.sqrt nm m n (i0 + 1) S.u = cst at *
  generalize rowStep Real.sqrt nm m n (i0 + 1) cst.1
    (S.rv1.set (VINDX (i0 + 1)) (S.scale * S.g)) = rst at *
  have hgu := gamma_cases (F.w.get (VINDX (i0 + 1))) (M nm F.u (i0 + 1) (i0 + 1)) _ hcok
  refine ⟨M nm cst.1, ?_, ?_, ?_, ?_, ?_, ?_⟩
  · intro k h1 h2
    rw [cs.1 k h1 h2, hp k h1 h2, hW]
  · intro k h1 h2
    by_cases h0 : F.w.get (VINDX (i0 + 1)) = 0
    · rw [← hp k h1 h2, cs.2.1 (by rw [hW]; exact h0) k h1 h2, zero_mul]
    · rcases hcok with h | h
      · exact absurd h h0
      · rw [if_neg h0, mul_one_div, div_self h.1, mul_one]
  · intro k j h1 h2 h3 h4
    refine refl_invol (Finset.Icc (i0 + 1) m) (fun k => M nm F.u k (i0 + 1))
      (M nm F.u (i0 + 1) (i0 + 1) * F.w.get (VINDX (i0 + 1))) _
      (fun k => M nm S.u k j) (fun k => M nm cst.1 k j) hgu ?_ k
      (Finset.mem_Icc.mpr ⟨h1, h2⟩)
    intro k' hk'
    rw [Finset.mem_Icc] at hk'
    simp only []
    rw [cs.2.2 k' j hk'.1 hk'.2 h3 h4, hp k' hk'.1 hk'.2, hW, hp (i0 + 1) (le_refl _) him]
    congr 3
    apply Finset.sum_congr rfl
    intro r hr
    rw [Finset.mem_Icc] at hr
    rw [hp r hr.1 hr.2]
  · intro c h1 h2
    rw [rs.1 c h1 h2, hq c h1 h2, hE (by omega)]
  · intro c h1 h2
    by_cases h0 : F.rv1.get (VINDX (i0 + 1 + 1)) = 0
    · rw [← hq c h1 h2, rs.2.1 (by rw [hE (by omega)]; exact h0) c h1 h2, zero_mul]
    · rcases hrok (by omega) with h | h
      · exact absurd h h0
      · rw [if_neg h0, mul_one_div, div_self h.1, mul_one]
  · intro k c h1 h2 h3 h4
    have hgv := gamma_cases (F.rv1.get (VINDX (i0 + 1 + 1))) (M nm F.u (i0 + 1) (i0 + 1 + 1)) _
      (hrok (by omega))
    refine refl_invol (Finset.Icc (i0 + 1 + 1) n) (fun c => M nm F.u (i0 + 1) c)
      (M nm F.u (i0 + 1) (i0 + 1 + 1) * F.rv1.get (VINDX (i0 + 1 + 1))) _
      (fun c => M nm cst.1 k c) (fun c => M nm rst.1 k c) hgv ?_ c
      (Finset.mem_Icc.mpr ⟨h3, h4⟩)
    intro c' hc'
    rw [Finset.mem_Icc] at hc'
    simp only []
    rw [rs.2.2 k c' h1 h2 hc'.1 hc'.2, hq c' hc'.1 hc'.2, hE (by omega),
      hq (i0 + 1 + 1) (le_refl _) (by omega)]
    congr 3
    apply Finset.sum_congr rfl
    intro r hr
    rw [Finset.mem_Icc] at hr
    rw [hq r hr.1 hr.2]

end BidiagFacts

/-! ## The accumulation steps as reflections -/

section AccSpecs

variable {K : Type} [LinearOrderedField K]

/-- Step `i` of the accumulation of `v` on the block of rows and columns
`i..n`: row and column `i` become `e_i`, the inner block is reflected by
`I + q q^T / (q_{i+1} g)` with `q` the row `i` of `u`. -/
theorem accVStep_spec (nm n : Nat) (u rv1 v : Buf K) (i : Nat) (g : K) (L : Nat)
    (hi : 1 ≤ i) (hin : i ≤ n) (hn : n ≤ nm) (hL : i < n → L = i + 1) :
    M nm (accVStep nm n u rv1 i (v, g, L)).1 i i = 1 ∧
    (∀ c, i + 1 ≤ c → c ≤ n → M nm (accVStep nm n u rv1 i (v, g, L)).1 i c = 0 ∧
      M nm (accVStep nm n u rv1 i (v, g, L)).1 c i = 0) ∧
    (∀ c t, i + 1 ≤ c → c ≤ n → i + 1 ≤ t → t ≤ n →
      M nm (accVStep nm n u rv1 i (v, g, L)).1 c t =
        M nm v c t + M nm u i c * (∑ r ∈ Finset.Icc (i + 1) n, M nm u i r * M nm v r t) *
          (if g = 0 then 0 else 1 / (M nm u i (i + 1) * g))) := by
  by_cases hlt : i = n
  · refine ⟨?_, fun c h1 h2 => by omega, fun c t h1 h2 _ _ => by omega⟩
    unfold accVStep
    simp only []
    rw [if_neg (not_not.mpr hlt)]
    exact Buf.get_set_same _ _ _
  have hL' := hL (by omega)
  subst hL'
  have h2 : ∀ c t, i + 1 ≤ c → c ≤ n → i + 1 ≤ t → t ≤ n →
      M nm (if g ≠ 0 then accVApply nm n i (i + 1) u (accVCol nm n i (i + 1) u g v) else v) c t =
        M nm v c t + M nm u i c * (∑ r ∈ Finset.Icc (i + 1) n, M nm u i r * M nm v r t) *
          (if g = 0 then 0 else 1 / (M nm u i (i + 1) * g)) := by
    intro c t hc1 hc2 ht1 ht2
    by_cases hg : g = 0
    · rw [if_neg (not_not.mpr hg), if_pos hg, mul_zero, add_zero]
    · rw [if_pos hg, if_neg hg]
      have cc := accVCol_spec nm n i (i + 1) u g v hi (by omega) (by omega)
      have a := accVApply_spec nm n i (i + 1) u (accVCol nm n i (i + 1) u g v) hi (by omega) hn
      have cj : ∀ k j, i + 1 ≤ k → k ≤ n → i + 1 ≤ j → j ≤ n →
          M nm (accVCol nm n i (i + 1) u g v) k j = M nm v k j := fun k j h1 h2 h3 h4 =>
        cc.2 _ (fun j' h5 h6 => MINDX_ne (by omega) (by omega) (by omega) hi (by omega)
          (by omega) (Or.inr (by omega)))
      rw [a.1 t c ht1 ht2 hc1 hc2, cj c t hc1 hc2 ht1 ht2, cc.1 c hc1 hc2]
      have e : ∑ r ∈ Finset.Icc (i + 1) n, M nm u i r * M nm (accVCol nm n i (i + 1) u g v) r t =
          ∑ r ∈ Finset.Icc (i + 1) n, M nm u i r * M nm v r t := by
        apply Finset.sum_congr rfl
        intro r hr
        rw [Finset.mem_Icc] at hr
        rw [cj r t hr.1 hr.2 ht1 ht2]
      rw [e, div_div]
      ring
  have cl := accVClear_spec nm n i (i + 1) (if g ≠ 0 then
    accVApply nm n i (i + 1) u (accVCol nm n i (i + 1) u g v) else v) hi (by omega) hn
  have e : (accVStep nm n u rv1 i (v, g, i + 1)).1 =
      (accVClear nm n i (i + 1) (if g ≠ 0 then
        accVApply nm n i (i + 1) u (accVCol nm n i (i + 1) u g v) else v)).set
        (MINDX i i nm) 1 := by
    unfold accVStep
    simp only []
    rw [if_pos (by omega)]
  rw [e]
  have off : ∀ k j, 1 ≤ k → 1 ≤ j → j ≤ n → (k ≠ i ∨ j ≠ i) →
      M nm ((accVClear nm n i (i + 1) (if g ≠ 0 then
        accVApply nm n i (i + 1) u (accVCol nm n i (i + 1) u g v) else v)).set
        (MINDX i i nm) 1) k j =
      M nm (accVClear nm n i (i + 1) (if g ≠ 0 then
        accVApply nm n i (i + 1) u (accVCol nm n i (i + 1) u g v) else v)) k j :=
    fun k j h3 h4 h5 h6 => Buf.get_set_ne _ _
      (MINDX_ne h3 hi h4 hi (by omega) (by omega) h6)
  refine ⟨Buf.get_set_same _ _ _, fun c h3 h4 => ⟨?_, ?_⟩, fun c t h3 h4 h5 h6 => ?_⟩
  · rw [off i c hi (by omega) h4 (Or.inr (by omega))]
    exact (cl.1 c h3 h4).1
  · rw [off c i (by omega) hi (by omega) (Or.inl (by omega))]
    exact (cl.1 c h3 h4).2
  · rw [off c t (by omega) (by omega) h6 (Or.inl (by omega)), ← h2 c t h3 h4 h5 h6]
    exact cl.2 _ (fun j' h7 h8 =>
      ⟨MINDX_ne (by omega) hi (by omega) (by omega) (by omega) (by omega) (Or.inl (by omega)),
       MINDX_ne (by omega) (by omega) (by omega) hi (by omega) (by omega) (Or.inr (by omega))⟩)

theorem accVStep_state (nm n : Nat) (u rv1 : Buf K) (i : Nat) (s : Buf K × K × Nat) :
    (accVStep nm n u rv1 i s).2 = (rv1.get (VINDX i), i) := rfl

theorem MIN_le (m n : Nat) : MIN m n ≤ m ∧ MIN m n ≤ n ∧ (MIN m n = m ∨ MIN m n = n) := by
  unfold MIN
  split_ifs with h
  · exact ⟨le_refl _, by omega, Or.inl rfl⟩
  · exact ⟨by omega, le_refl _, Or.inr rfl⟩

/-- The guards `i != n` and `i != mn` of the accumulation of `u` only skip loops
that change nothing. -/
theorem accUStep_always (nm m n : Nat) (w t : Buf K) (i : Nat) (hi : 1 ≤ i)
    (hin : i ≤ MIN m n) (hn : n ≤ nm) :
    accUStep nm m n (MIN m n) w i t =
      (if w.get (VINDX i) ≠ 0 then
        accUScale nm m i (w.get (VINDX i))
          (accUApply nm m n i (w.get (VINDX i)) (accUClearRow nm n i t))
       else accUZero nm m i (accUClearRow nm n i t)).set (MINDX i i nm)
      ((if w.get (VINDX i) ≠ 0 then
        accUScale nm m i (w.get (VINDX i))
          (accUApply nm m n i (w.get (VINDX i)) (accUClearRow nm n i t))
       else accUZero nm m i (accUClearRow nm n i t)).get (MINDX i i nm) + 1) := by
  obtain ⟨hm1, hm2, hm3⟩ := MIN_le m n
  have e1 : (if i ≠ n then accUClearRow nm n i t else t) = accUClearRow nm n i t := by
    split_ifs with h
    · rfl
    · have h' : i = n := by omega
      subst h'
      unfold accUClearRow
      rw [forRange_empty _ _ _ _ (by omega)]
  have e2 : ∀ (g : K) (s : Buf K), (if i ≠ MIN m n then accUApply nm m n i g s else s) =
      accUApply nm m n i g s := by
    intro g s
    split_ifs with h
    · rfl
    · have h' : i = MIN m n := by omega
      by_cases hin' : i = n
      · subst hin'
        unfold accUApply
        rw [forRange_empty _ _ _ _ (by omega)]
      · have him : i = m := by omega
        have sp := accUApply_spec nm m n i g s hi hn
        apply Buf.ext_get
        intro x
        by_cases hx : ∃ j k, i + 1 ≤ j ∧ j ≤ n ∧ i ≤ k ∧ k ≤ m ∧ x = MINDX k j nm
        · obtain ⟨j, k, h1, h2, h3, h4, rfl⟩ := hx
          have := sp.1 j k h1 h2 h3 h4
          simp only [M] at this
          rw [this, Finset.Icc_eq_empty (by omega), Finset.sum_empty, zero_div, zero_div,
            zero_mul, add_zero]
        · exact (sp.2 x (fun j k h1 h2 h3 h4 he => hx ⟨j, k, h1, h2, h3, h4, he⟩)).symm
  unfold accUStep
  simp only []
  rw [e1, e2]

/-- Step `i` of the accumulation of `u` on the block of rows `i..m` and columns
`i..n`: the bordered block `1 (+) U` is reflected by `I + p p^T / (p_i w_i)`
with `p` the column `i` of `u`. -/
theorem accUStep_spec (nm m n : Nat) (w t : Buf K) (i : Nat) (hi : 1 ≤ i)
    (hin : i ≤ MIN m n) (hn : n ≤ nm) (hc : ColOK nm m t i (w.get (VINDX i))) :
    ∀ k s, i ≤ k → k ≤ m → i ≤ s → s ≤ n →
      M nm (accUStep nm m n (MIN m n) w i t) k s =
        (if s = i then (if k = i then 1 else 0) else if k = i then 0 else M nm t k s) +
          M nm t k i * (∑ r ∈ Finset.Icc i m, M nm t r i *
            (if s = i then (if r = i then 1 else 0) else if r = i then 0 else M nm t r s)) *
          (if w.get (VINDX i) = 0 then 0 else 1 / (M nm t i i * w.get (VINDX i))) := by
  obtain ⟨hm1, hm2, hm3⟩ := MIN_le m n
  have him : i ≤ m := by omega
  have hinn : i ≤ n := by omega
  intro k s hk1 hk2 hs1 hs2
  rw [accUStep_always nm m n w t i hi hin hn]
  have c := accUClearRow_spec nm n i t hi hn
  have c1 : ∀ k j, i ≤ k → k ≤ m → i + 1 ≤ j → j ≤ n →
      (accUClearRow nm n i t).get (MINDX k j nm) = if k = i then 0 else M nm t k j := by
    intro k j h1 h2 h3 h4
    split_ifs with hk
    · rw [hk]; exact c.1 j h3 h4
    · exact c.2 _ (fun j' h5 h6 => MINDX_ne (by omega) hi (by omega) (by omega) (by omega)
        (by omega) (Or.inl hk))
  have c2 : ∀ k, 1 ≤ k → (accUClearRow nm n i t).get (MINDX k i nm) = M nm t k i := by
    intro k h1
    exact c.2 _ (fun j' h5 h6 => MINDX_ne h1 hi hi (by omega) (by omega)
        (by omega) (Or.inr (by omega)))
  have hsum1 : ∑ r ∈ Finset.Icc i m, M nm t r i * (if r = i then (1 : K) else 0) =
      M nm t i i := by
    rw [sum_Icc_single _ _ _ _ (le_refl _) him, mul_one]
  show (_ : Buf K).get _ = _
  by_cases hg : w.get (VINDX i) = 0
  · rw [if_pos hg, mul_zero, add_zero]
    simp only [if_neg (not_not.mpr hg)]
    have z := accUZero_spec nm m i (accUClearRow nm n i t) hi (by omega)
    by_cases hs : s = i
    · rw [hs, if_pos rfl]
      by_cases hk : k = i
      · rw [hk, Buf.get_set_same, if_pos rfl]
        have := z.1 i (le_refl _) him
        simp only [M] at this
        rw [this, zero_add]
      · rw [Buf.get_set_ne _ _ (MINDX_ne (by omega) hi hi hi (by omega) (by omega)
            (Or.inl hk)), if_neg hk]
        exact z.1 k hk1 hk2
    · rw [if_neg hs, Buf.get_set_ne _ _ (MINDX_ne (by omega) hi (by omega) hi (by omega)
        (by omega) (Or.inr hs)),
        z.2 _ (fun k' h5 h6 => MINDX_ne (by omega) (by omega) (by omega) hi (by omega)
          (by omega) (Or.inr hs))]
      exact c1 k s hk1 hk2 (by omega) hs2
  · rw [if_neg hg]
    simp only [if_pos hg]
    have hpi : M nm t i i ≠ 0 := by
      rcases hc with h0 | ⟨hh0, _⟩
      · exact absurd h0 hg
      · exact left_ne_zero_of_mul hh0
    have hpi' : t.get (MINDX i i nm) ≠ 0 := hpi
    have a := accUApply_spec nm m n i (w.get (VINDX i)) (accUClearRow nm n i t) hi hn
    have sc := accUScale_spec nm m i (w.get (VINDX i))
      (accUApply nm m n i (w.get (VINDX i)) (accUClearRow nm n i t)) hi (by omega)
    have a2 : ∀ k, 1 ≤ k →
        (accUApply nm m n i (w.get (VINDX i)) (accUClearRow nm n i t)).get (MINDX k i nm) =
          M nm t k i := by
      intro k h1
      rw [← c2 k h1]
      exact a.2 _ (fun j' k' h5 h6 h7 h8 => MINDX_ne h1 (by omega) hi (by omega) (by omega)
        (by omega) (Or.inr (by omega)))
    by_cases hs : s = i
    · rw [hs]
      simp only [if_true]
      rw [hsum1]
      by_cases hk : k = i
      · rw [hk, Buf.get_set_same, if_pos rfl]
        have := sc.1 i (le_refl _) him
        simp only [M] at this
        rw [this, a2 i hi]
        simp only [M]
        field_simp
        ring
      · rw [Buf.get_set_ne _ _ (MINDX_ne (by omega) hi hi hi (by omega) (by omega)
            (Or.inl hk)), if_neg hk]
        have := sc.1 k hk1 hk2
        simp only [M] at this
        rw [this, a2 k (by omega)]
        simp only [M]
        field_simp
        ring
    · have hs1' : i + 1 ≤ s := by omega
      simp only [if_neg hs]
      rw [Buf.get_set_ne _ _ (MINDX_ne (by omega) hi (by omega) hi (by omega) (by omega)
          (Or.inr hs)),
        sc.2 _ (fun k' h5 h6 => MINDX_ne (by omega) (by omega) (by omega) hi (by omega)
          (by omega) (Or.inr hs))]
      have := a.1 s k hs1' hs2 hk1 hk2
      simp only [M] at this
      rw [this, c1 k s hk1 hk2 hs1' hs2, c2 k (by omega), c2 i hi]
      have hsum2 : ∑ r ∈ Finset.Icc i m, M nm t r i * (if r = i then 0 else M nm t r s) =
          ∑ r ∈ Finset.Icc (i + 1) m, (accUClearRow nm n i t).get (MINDX r i nm) *
            (accUClearRow nm n i t).get (MINDX r s nm) := by
        rw [sum_Icc_succ_left _ _ _ him, if_pos rfl, mul_zero, zero_add]
        apply Finset.sum_congr rfl
        intro r hr
        rw [Finset.mem_Icc] at hr
        rw [c1 r s (by omega) hr.2 hs1' hs2, c2 r (by omega), if_neg (by omega)]
      rw [hsum2]
      simp only [M]
      field_simp
      ring

end AccSpecs

/-! ## The product U B V^T at the start of the diagonalization -/

section PrepRecon

variable {K : Type} [LinearOrderedField K]

/-- Step `i` of the accumulation of `u` only writes the block of rows `i..m` and
columns `i..n`. -/
theorem accUStep_frame_gen (nm m n : Nat) (w t : Buf K) (i : Nat)
    (hi : 1 ≤ i) (hin : i ≤ MIN m n) (hn : n ≤ nm) (x : Int)
    (hx : ∀ k j, i ≤ k → k ≤ m → i ≤ j → j ≤ n → x ≠ MINDX k j nm) :
    (accUStep nm m n (MIN m n) w i t).get x = t.get x := by
  obtain ⟨hm1, hm2, hm3⟩ := MIN_le m n
  have him : i ≤ m := by omega
  have hinn : i ≤ n := by omega
  rw [accUStep_always nm m n w t i hi hin hn]
  have c := accUClearRow_spec nm n i t hi hn
  have hc : (accUClearRow nm n i t).get x = t.get x :=
    c.2 _ (fun j h1 h2 => hx i j (le_refl _) him (by omega) h2)
  rw [Buf.get_set_ne _ _ (hx i i (le_refl _) him (le_refl _) hinn)]
  split_ifs with hg
  · rw [(accUScale_spec nm m i _ _ hi (by omega)).2 _
      (fun j h1 h2 => hx j i h1 h2 (le_refl _) hinn),
      (accUApply_spec nm m n i _ _ hi hn).2 _
      (fun j k h1 h2 h3 h4 => hx k j h3 h4 (by omega) h2), hc]
  · rw [(accUZero_spec nm m i _ hi (by omega)).2 _
      (fun j h1 h2 => hx j i h1 h2 (le_refl _) hinn), hc]

theorem accUAt_frame (nm m n : Nat) (w u : Buf K) (hn : n ≤ nm) (d : Nat) (i : Nat)
    (hi : 1 ≤ i) (hd : i + d = MIN m n + 1) (x : Int)
    (hx : ∀ k j, i ≤ k → k ≤ m → i ≤ j → j ≤ n → x ≠ MINDX k j nm) :
    (accUAt nm m n w u i).get x = u.get x := by
  induction d generalizing i with
  | zero =>
    have : i = MIN m n + 1 := by omega
    rw [this, accUAt_top]
  | succ d ih =>
    rw [accUAt_step nm m n w u i hi (by omega),
      accUStep_frame_gen nm m n w _ i hi (by omega) hn x hx]
    exact ih (i + 1) (by omega) (by omega)
      (fun k j h1 h2 h3 h4 => hx k j (by omega) h2 (by omega) h4)

theorem accVAt_state (nm n : Nat) (u rv1 v : Buf K) (g : K) (L : Nat) (i : Nat)
    (h1 : 1 ≤ i) (h2 : i ≤ n) :
    (accVAt nm n u rv1 v g L i).2 = (rv1.get (VINDX i), i) := by
  rw [accVAt_step nm n u rv1 v g L i h1 h2]
  rfl

/-- The block `i..n` of `v` after the steps `n..i` has first row and column `e_i`. -/
theorem accVAt_border (nm n : Nat) (u rv1 v : Buf K) (g : K) (L : Nat) (hn : n ≤ nm)
    (i : Nat) (h1 : 1 ≤ i) (h2 : i ≤ n) (c : Nat) (hc1 : i ≤ c) (hc2 : c ≤ n) :
    M nm (accVAt nm n u rv1 v g L i).1 c i = if c = i then 1 else 0 := by
  rw [accVAt_step nm n u rv1 v g L i h1 h2]
  have e : accVAt nm n u rv1 v g L (i + 1) =
      ((accVAt nm n u rv1 v g L (i + 1)).1, (accVAt nm n u rv1 v g L (i + 1)).2.1,
        (accVAt nm n u rv1 v g L (i + 1)).2.2) := rfl
  rw [e]
  have sp := accVStep_spec nm n u rv1 (accVAt nm n u rv1 v g L (i + 1)).1 i
    (accVAt nm n u rv1 v g L (i + 1)).2.1 (accVAt nm n u rv1 v g L (i + 1)).2.2 h1 h2 hn
    (fun hlt => by rw [accVAt_state nm n u rv1 v g L (i + 1) (by omega) (by omega)])
  split_ifs with h
  · rw [h]; exact sp.1
  · exact (sp.2.1 c (by omega) hc2).2

/-- After the bidiagonalization and the two accumulations, the block of rows and
columns `>= i0 + 1` of the matrix before step `i0 + 1` is `U B V^T` on that block. -/
theorem prep_block (nm m n : Nat) (u w rv1 v : Buf ℝ) (g : ℝ) (L : Nat) (hn : n ≤ nm)
    (d i0 : Nat) (hd : i0 + 1 + d = MIN m n + 1) :
    ∀ ρ c, i0 + 1 ≤ ρ → ρ ≤ m → i0 + 1 ≤ c → c ≤ n →
      M nm (bidiagAt Real.sqrt nm m n u w rv1 i0).u ρ c =
        ∑ s ∈ Finset.Icc (i0 + 1) n, ∑ t ∈ Finset.Icc (i0 + 1) n,
          M nm (accUAt nm m n (bidiagAt Real.sqrt nm m n u w rv1 n).w
            (bidiagAt Real.sqrt nm m n u w rv1 n).u (i0 + 1)) ρ s *
          Bmat (bidiagAt Real.sqrt nm m n u w rv1 n).w
            (bidiagAt Real.sqrt nm m n u w rv1 n).rv1 s t *
          M nm (accVAt nm n (bidiagAt Real.sqrt nm m n u w rv1 n).u
            (bidiagAt Real.sqrt nm m n u w rv1 n).rv1 v g L (i0 + 1)).1 c t := by
  obtain ⟨hm1, hm2, hm3⟩ := MIN_le m n
  induction d generalizing i0 with
  | zero =>
    intro ρ c h1 h2 h3 h4
    exfalso
    omega
  | succ d ih =>
    have hin : i0 + 1 ≤ n := by omega
    have him : i0 + 1 ≤ m := by omega
    obtain ⟨a1, f1, f1', f2, f3, f3', f4⟩ := bidiag_step_facts nm m n u w rv1 hn i0 hin him
    have IH := ih (i0 + 1) (by omega)
    obtain ⟨F, hFd⟩ : ∃ F, F = bidiagAt Real.sqrt nm m n u w rv1 n := ⟨_, rfl⟩
    rw [← hFd] at f1 f1' f2 f3 f3' f4 IH ⊢
    have hcokF : ColOK nm m F.u (i0 + 1) (F.w.get (VINDX (i0 + 1))) := by
      rw [hFd, ← bidiag_eq_bidiagAt]
      exact bidiag_ColOK nm m n u w rv1 hn (i0 + 1) (by omega) hin him
    have hUcol : ∀ k, 1 ≤ k → M nm (accUAt nm m n F.w F.u (i0 + 1 + 1)) k (i0 + 1) =
        M nm F.u k (i0 + 1) := fun k hk =>
      accUAt_frame nm m n F.w F.u hn d (i0 + 1 + 1) (by omega) (by omega) _
        (fun k' j h1 h2 h3 h4 => MINDX_ne hk (by omega) (by omega) (by omega) (by omega)
          (by omega) (Or.inr (by omega)))
    have hcok : ColOK nm m (accUAt nm m n F.w F.u (i0 + 1 + 1)) (i0 + 1)
        (F.w.get (VINDX (i0 + 1))) :=
      ColOK_congr nm m F.u _ (i0 + 1) _ (fun k h1 h2 => hUcol k (by omega)) him hcokF
    have us := accUStep_spec nm m n F.w (accUAt nm m n F.w F.u (i0 + 1 + 1)) (i0 + 1)
      (by omega) (by omega) hn hcok
    rw [← accUAt_step nm m n F.w F.u (i0 + 1) (by omega) (by omega)] at us
    have eV : accVAt nm n F.u F.rv1 v g L (i0 + 1 + 1) =
        ((accVAt nm n F.u F.rv1 v g L (i0 + 1 + 1)).1,
          (accVAt nm n F.u F.rv1 v g L (i0 + 1 + 1)).2.1,
          (accVAt nm n F.u F.rv1 v g L (i0 + 1 + 1)).2.2) := rfl
    have vs := accVStep_spec nm n F.u F.rv1 (accVAt nm n F.u F.rv1 v g L (i0 + 1 + 1)).1
      (i0 + 1) (accVAt nm n F.u F.rv1 v g L (i0 + 1 + 1)).2.1
      (accVAt nm n F.u F.rv1 v g L (i0 + 1 + 1)).2.2 (by omega) hin hn
      (fun hlt => by rw [accVAt_state nm n F.u F.rv1 v g L (i0 + 1 + 1) (by omega) (by omega)])
    rw [← eV, ← accVAt_step nm n F.u F.rv1 v g L (i0 + 1) (by omega) hin] at vs
    refine recon_step (i0 + 1) m n him hin
      (M nm (bidiagAt Real.sqrt nm m n u w rv1 i0).u)
      (M nm (bidiagAt Real.sqrt nm m n u w rv1 (i0 + 1)).u) a1
      (M nm (accUAt nm m n F.w F.u (i0 + 1 + 1)))
      (M nm (accUAt nm m n F.w F.u (i0 + 1)))
      (M nm (accVAt nm n F.u F.rv1 v g L (i0 + 1 + 1)).1)
      (M nm (accVAt nm n F.u F.rv1 v g L (i0 + 1)).1)
      (Bmat F.w F.rv1) (fun k => M nm F.u k (i0 + 1)) (fun c => M nm F.u (i0 + 1) c)
      (F.w.get (VINDX (i0 + 1))) (F.rv1.get (VINDX (i0 + 1 + 1)))
      (if F.w.get (VINDX (i0 + 1)) = 0 then 0
        else 1 / (M nm F.u (i0 + 1) (i0 + 1) * F.w.get (VINDX (i0 + 1))))
      (if F.rv1.get (VINDX (i0 + 1 + 1)) = 0 then 0
        else 1 / (M nm F.u (i0 + 1) (i0 + 1 + 1) * F.rv1.get (VINDX (i0 + 1 + 1))))
      ?_ ?_ ?_ ?_ f1 f1' f2 f3 f3' f4 ?_ vs.1 vs.2.1 ?_ ?_ IH
    · unfold Bmat
      rw [if_pos rfl]
    · intro _
      unfold Bmat
      rw [if_neg (by omega), if_pos rfl]
    · intro t h1 h2
      unfold Bmat
      rw [if_neg (by omega), if_neg (by omega)]
    · intro s h1 h2
      unfold Bmat
      rw [if_neg (by omega), if_neg (by omega)]
    · intro k s h1 h2 h3 h4
      rw [us k s h1 h2 h3 h4, hUcol k (by omega), hUcol (i0 + 1) (by omega)]
      congr 3
      apply Finset.sum_congr rfl
      intro r hr
      rw [Finset.mem_Icc] at hr
      rw [hUcol r (by omega)]
    · intro c t h1 h2 h3 h4
      rw [vs.2.2 c t h1 h2 h3 h4,
        accVAt_state nm n F.u F.rv1 v g L (i0 + 1 + 1) (by omega) (by omega)]
    · intro c h1 h2
      exact accVAt_border nm n F.u F.rv1 v g L hn (i0 + 1 + 1) (by omega) (by omega) c h1 h2

/-- At the start of the diagonalization `A = U B V^T`, with `B` the bidiagonal
matrix of `w` and `rv1`. -/
theorem svdPrep_Recon (nm m n : Nat) (a w u v rv1 : Buf ℝ) (matu matv : Int)
    (hmatu : matu ≠ 0) (hmatv : matv ≠ 0) (hn : n ≤ nm) (hm1 : 1 ≤ m) (hn1 : 1 ≤ n) :
    Recon nm m n a (svdPrep Real.sqrt nm m n a w matu u matv v rv1).1 := by
  obtain ⟨hm, hm', hm3⟩ := MIN_le m n
  have hpos : 1 ≤ MIN m n := by
    rcases hm3 with h | h <;> omega
  intro i j hi1 hi2 hj1 hj2
  unfold svdPrep
  simp only []
  rw [if_pos hmatu, if_pos hmatv, accU_eq_accUAt, accV_eq_accVAt, bidiag_eq_bidiagAt]
  have pb := prep_block nm m n (copyAU nm m n a u) w rv1 v
    (bidiagAt Real.sqrt nm m n (copyAU nm m n a u) w rv1 n).g (n + 1) hn (MIN m n) 0
    (by omega) i j hi1 hi2 hj1 hj2
  rw [bidiagAt_zero] at pb
  have ca := (copyAU_spec nm m n a u hn).1 i j hi1 hi2 hj1 hj2
  rw [← ca]
  exact pb

end PrepRecon

/-! ## The sign choice of the Householder steps -/

section SignChoice

/-- A normalisation loop `t = u[idx k] / scale; s += t * t; u[idx k] = t` leaves a
positive `s` as soon as one of the cells it visits is non-zero. No assumption is
made on the offsets `idx k`: they may coincide. -/
theorem normalize_pos (idx : Nat → Int) (scale : ℝ) (hs : scale ≠ 0) (lo hi : Nat) (u : Buf ℝ)
    (hex : ∃ k, lo ≤ k ∧ k ≤ hi ∧ u.get (idx k) ≠ 0) :
    0 < (forRange lo hi (fun k (su : ℝ × Buf ℝ) =>
      let t := su.2 (idx k) / scale
      (su.1 + t * t, su.2.set (idx k) t)) (0, u)).1 := by
  obtain ⟨k0, hk1, hk2, hk3⟩ := hex
  have := forRange_induct (fun k (su : ℝ × Buf ℝ) =>
      let t := su.2 (idx k) / scale
      (su.1 + t * t, su.2.set (idx k) t))
    (fun j su => 0 ≤ su.1 ∧ (∀ x, u.get x ≠ 0 → su.2.get x ≠ 0) ∧
      ((∃ k, lo ≤ k ∧ k < j ∧ u.get (idx k) ≠ 0) → 0 < su.1)) lo hi (0, u) (by omega)
    ⟨le_refl _, fun x hx => hx, fun ⟨k, h1, h2, _⟩ => by omega⟩
    (fun j su h1 h2 hp => by
      obtain ⟨p1, p2, p3⟩ := hp
      refine ⟨?_, fun x hx => ?_, fun ⟨k, h3, h4, h5⟩ => ?_⟩
      · show 0 ≤ su.1 + su.2.get (idx j) / scale * (su.2.get (idx j) / scale)
        have := mul_self_nonneg (su.2.get (idx j) / scale)
        linarith
      · show (su.2.set (idx j) (su.2.get (idx j) / scale)).get x ≠ 0
        rw [Buf.get_set]
        split_ifs with hx'
        · exact div_ne_zero (hx' ▸ p2 x hx) hs
        · exact p2 x hx
      · show 0 < su.1 + su.2.get (idx j) / scale * (su.2.get (idx j) / scale)
        by_cases hk : k = j
        · have : su.2.get (idx j) / scale ≠ 0 := div_ne_zero (p2 _ (hk ▸ h5)) hs
          have := mul_self_pos.mpr this
          linarith
        · have := p3 ⟨k, h3, by omega, h5⟩
          have := mul_self_nonneg (su.2.get (idx j) / scale)
          linarith)
  exact this.2.2 ⟨k0, hk1, by omega, hk3⟩

theorem sum_abs_ne_zero (F : Nat → ℝ) (lo hi : Nat)
    (h : ∑ k ∈ Finset.Icc lo hi, |F k| ≠ 0) : ∃ k, lo ≤ k ∧ k ≤ hi ∧ F k ≠ 0 := by
  by_contra hc
  push_neg at hc
  apply h
  apply Finset.sum_eq_zero
  intro k hk
  rw [Finset.mem_Icc] at hk
  rw [hc k hk.1 hk.2, abs_zero]

theorem colNormalize_pos (nm m i : Nat) (u : Buf ℝ) (h : colScale nm m i u ≠ 0) :
    0 < (colNormalize nm m i (colScale nm m i u) u).1 := by
  unfold colNormalize
  apply normalize_pos (fun k => MINDX k i nm) _ h
  rw [colScale_eq] at h
  exact sum_abs_ne_zero (fun k => M nm u k i) i m h

theorem rowNormalize_pos (nm n i : Nat) (u : Buf ℝ) (h : rowScale nm n i u ≠ 0) :
    0 < (rowNormalize nm n i (rowScale nm n i u) u).1 := by
  unfold rowNormalize
  apply normalize_pos (fun k => MINDX i k nm) _ h
  rw [rowScale_eq] at h
  exact sum_abs_ne_zero (fun k => M nm u i k) (i + 1) n h

/-- The sign choice `g = -SIGN(sqrt(s), f)` for `s > 0`: `g` has the sign opposite
to `f`, `h = f*g - s` is at most `-s`, and `f - g` is not zero. -/
theorem sign_choice (f s : ℝ) (hs : 0 < s) :
    (0 ≤ f → -(SIGN (Real.sqrt s) f) < 0) ∧ (f < 0 → 0 < -(SIGN (Real.sqrt s) f)) ∧
    f * (-(SIGN (Real.sqrt s) f)) - s ≤ -s ∧ f * (-(SIGN (Real.sqrt s) f)) - s < 0 ∧
    f * (-(SIGN (Real.sqrt s) f)) - s ≠ 0 ∧ f - (-(SIGN (Real.sqrt s) f)) ≠ 0 := by
  have h1 : 0 < Real.sqrt s := Real.sqrt_pos.mpr hs
  have h3 : |Real.sqrt s| = Real.sqrt s := abs_of_pos h1
  unfold SIGN
  rw [h3]
  split_ifs with hf
  · have hf' : 0 ≤ f := hf
    refine ⟨fun _ => by linarith, fun h => by linarith, by nlinarith, by nlinarith, ?_, ?_⟩
    · exact ne_of_lt (by nlinarith)
    · exact ne_of_gt (by linarith)
  · have hf' : f < 0 := not_le.mp hf
    refine ⟨fun h => by linarith, fun _ => by linarith, by nlinarith, by nlinarith, ?_, ?_⟩
    · exact ne_of_lt (by nlinarith)
    · exact ne_of_lt (by linarith)

end SignChoice

/-! ## The arrays at the split scans -/

section ScanFacts

variable {K : Type} [LinearOrderedField K]

theorem scansK_rv1_zero (nm m n : Nat) (matu matv : Int) (anorm : K) (sqrt : K → K) (k : Nat)
    (hk : 1 ≤ k) (rem : Nat) (st : St K) (h0 : st.rv1.get 0 = 0) :
    ∀ s ∈ scansK nm m n matu matv anorm sqrt k rem st, s.rv1.get 0 = 0 := by
  have hL1 := splitCancel_pos nm m matu anorm sqrt k st h0 hk
  have hL2 := splitCancel_le nm m matu anorm sqrt k st
  have hr0 := splitCancel_rv1_zero nm m matu anorm sqrt k st 0 h0
  induction rem generalizing st with
  | zero =>
    intro s hs
    rw [scansK] at hs
    simp only [List.mem_cons] at hs
    rcases hs with hs | hs
    · rw [hs]; exact h0
    · split_ifs at hs <;> simp at hs
  | succ rem ih =>
    intro s hs
    rw [scansK] at hs
    simp only [List.mem_cons] at hs
    rcases hs with hs | hs
    · rw [hs]; exact h0
    · split_ifs at hs with hL
      · have hq0 := qrSweep_rv1_zero nm m n matu matv sqrt k
          (splitCancel nm m matu anorm sqrt k st).2
          ((splitCancel nm m matu anorm sqrt k st).1.w.get (VINDX k))
          (splitCancel nm m matu anorm sqrt k st).1 hr0 hL1 (by omega)
        exact ih _ hq0 (splitCancel_pos nm m matu anorm sqrt k _ hq0 hk)
          (splitCancel_le nm m matu anorm sqrt k _)
          (splitCancel_rv1_zero nm m matu anorm sqrt k _ 0 hq0) s hs
      · simp at hs

theorem scans_rv1_zero (nm m n : Nat) (matu matv : Int) (anorm : K) (sqrt : K → K) (k0 : Nat)
    (st : St K) (h0 : st.rv1.get 0 = 0) :
    ∀ ks ∈ scans nm m n matu matv anorm sqrt k0 st,
      1 ≤ ks.1 ∧ ks.1 ≤ k0 ∧ ks.2.rv1.get 0 = 0 := by
  induction k0 generalizing st with
  | zero =>
    intro ks hks
    rw [scans] at hks
    simp at hks
  | succ k0 ih =>
    intro ks hks
    rw [scans] at hks
    simp only [List.mem_append, List.mem_map] at hks
    rcases hks with ⟨s, hs, rfl⟩ | hks
    · exact ⟨by simp, le_refl _,
        scansK_rv1_zero nm m n matu matv anorm sqrt (k0 + 1) (by omega) 30 st h0 s hs⟩
    · split_ifs at hks with hr
      · have sp := repeatK_spec nm m n matu matv anorm sqrt (k0 + 1) (by omega) 30 st h0
        have := ih _ sp.1 ks hks
        exact ⟨this.1, by omega, this.2.2⟩
      · simp at hks

/-- A split scan that does not fall out of the bottom of its loop has left it
through the `goto` whose test it reports. -/
theorem splitScan_exit (anorm : K) (w rv1 : Buf K) (k : Nat)
    (hpos : 1 ≤ (splitScan anorm w rv1 k).1) :
    ((splitScan anorm w rv1 k).2 = true →
      |rv1.get (VINDX (splitScan anorm w rv1 k).1)| + anorm = anorm) ∧
    ((splitScan anorm w rv1 k).2 = false →
      |w.get (VINDX ((splitScan anorm w rv1 k).1 - 1))| + anorm = anorm) := by
  induction k with
  | zero => simp [splitScan] at hpos
  | succ k ih =>
    rw [splitScan] at hpos ⊢
    split_ifs at hpos ⊢ with h1 h2
    · exact ⟨fun _ => h1, fun h => by simp at h⟩
    · exact ⟨fun h => by simp at h, fun _ => by simpa using h2⟩
    · exact ih hpos

end ScanFacts

/-! ## The number of QR sweeps -/

section SweepCount

variable {K : Type} [LinearOrderedField K]

theorem sweepsK_le (nm m n : Nat) (matu matv : Int) (anorm : K) (sqrt : K → K) (k rem : Nat)
    (st : St K) : sweepsK nm m n matu matv anorm sqrt k rem st ≤ rem := by
  induction rem generalizing st with
  | zero =>
    rw [sweepsK]
    split_ifs <;> exact le_refl _
  | succ rem ih =>
    rw [sweepsK]
    split_ifs
    · exact Nat.succ_le_succ (ih _)
    · exact Nat.zero_le _

theorem sweepsK_one (nm m n : Nat) (matu matv : Int) (anorm : K) (sqrt : K → K) (rem : Nat)
    (st : St K) (h0 : st.rv1.get 0 = 0) : sweepsK nm m n matu matv anorm sqrt 1 rem st = 0 := by
  have h1 := splitCancel_pos nm m matu anorm sqrt 1 st h0 (le_refl _)
  have h2 := splitCancel_le nm m matu anorm sqrt 1 st
  have hL : (splitCancel nm m matu anorm sqrt 1 st).2 = 1 := by omega
  cases rem with
  | zero =>
    rw [sweepsK]
    split_ifs <;> rfl
  | succ rem =>
    rw [sweepsK]
    exact if_neg (not_not.mpr hL)

theorem sweeps_le (nm m n : Nat) (matu matv : Int) (anorm : K) (sqrt : K → K) (k0 : Nat)
    (st : St K) (h0 : st.rv1.get 0 = 0) :
    sweeps nm m n matu matv anorm sqrt k0 st ≤ 30 * (k0 - 1) := by
  induction k0 generalizing st with
  | zero => exact Nat.zero_le _
  | succ k0 ih =>
    rw [sweeps]
    have sp := repeatK_spec nm m n matu matv anorm sqrt (k0 + 1) (by omega) 30 st h0
    have hK := sweepsK_le nm m n matu matv anorm sqrt (k0 + 1) 30 st
    have hrest : (if (repeatK nm m n matu matv anorm sqrt (k0 + 1) 30 st).2 = true then
        sweeps nm m n matu matv anorm sqrt k0
          (repeatK nm m n matu matv anorm sqrt (k0 + 1) 30 st).1 else 0) ≤ 30 * (k0 - 1) := by
      split_ifs
      · exact ih _ sp.1
      · exact Nat.zero_le _
    by_cases hk : k0 = 0
    · subst hk
      have := sweepsK_one nm m n matu matv anorm sqrt 30 st h0
      simp only [Nat.zero_add] at this hrest ⊢
      omega
    · omega

/-- The only calls of `svd` that do not return are those that store through a
`NULL` pointer `u`, or `v` with `matv` set, after the checks. -/
theorem svd_none_iff (sqrt : K → K) (rv1Alloc : Option (Buf K)) (nm m n : Int)
    (a w : Option (Buf K)) (matu : Int) (u : Option (Buf K)) (matv : Int) (v : Option (Buf K)) :
    svd sqrt rv1Alloc nm m n a w matu u matv v = none ↔
      (¬ (n ≤ 1 ∨ m ≤ 1 ∨ (nm < n ∧ nm < m) ∨ a.isNone ∨ w.isNone) ∧ rv1Alloc.isSome ∧
        (u.isNone ∨ (matv ≠ 0 ∧ v.isNone))) := by
  unfold svd
  by_cases hc : n ≤ 1 ∨ m ≤ 1 ∨ (nm < n ∧ nm < m) ∨ a.isNone ∨ w.isNone
  · rw [if_pos hc]
    constructor
    · intro h; cases h
    · intro h; exact absurd hc h.1
  · rw [if_neg hc]
    cases a with
    | none => exact absurd (Or.inr (Or.inr (Or.inr (Or.inl rfl)))) hc
    | some a =>
      cases w with
      | none => exact absurd (Or.inr (Or.inr (Or.inr (Or.inr rfl)))) hc
      | some w =>
        cases rv1Alloc with
        | none =>
          constructor
          · intro h; cases h
          · intro h; simp at h
        | some rv1 =>
          cases u with
          | none =>
            constructor
            · intro _; exact ⟨hc, rfl, Or.inl rfl⟩
            · intro _; rfl
          | some u =>
            by_cases hv : matv ≠ 0 ∧ v.isNone
            · constructor
              · intro _; exact ⟨hc, rfl, Or.inr hv⟩
              · intro _
                show (if matv ≠ 0 ∧ v.isNone then none else _) = none
                rw [if_pos hv]
            · constructor
              · intro h
                have h' : (if matv ≠ 0 ∧ v.isNone then none else
                    some (_ : SvdOut K)) = none := h
                rw [if_neg hv] at h'
                cases h'
              · rintro ⟨_, _, h | h⟩
                · cases h
                · exact absurd h hv

theorem svd_ret (sqrt : K → K) (rv1Alloc : Option (Buf K)) (nm m n : Int)
    (a w : Option (Buf K)) (matu : Int) (u : Option (Buf K)) (matv : Int) (v : Option (Buf K))
    (out : SvdOut K) (h : svd sqrt rv1Alloc nm m n a w matu u matv v = some out) :
    out.ret = 0 := by
  unfold svd at h
  by_cases hc : n ≤ 1 ∨ m ≤ 1 ∨ (nm < n ∧ nm < m) ∨ a.isNone ∨ w.isNone
  · rw [if_pos hc] at h
    cases h; rfl
  · rw [if_neg hc] at h
    cases a with
    | none => exact absurd (Or.inr (Or.inr (Or.inr (Or.inl rfl)))) hc
    | some a =>
      cases w with
      | none => exact absurd (Or.inr (Or.inr (Or.inr (Or.inr rfl)))) hc
      | some w =>
        cases rv1Alloc with
        | none => cases h; rfl
        | some rv1 =>
          cases u with
          | none => cases h
          | some u =>
            have h' : (if matv ≠ 0 ∧ v.isNone then none else
                some ({ ret := 0, ierr := _, u := _, w := _, v := _ } : SvdOut K)) = some out := h
            split_ifs at h'
            cases h'; rfl

theorem svdsolve_ret (tvAlloc : Option (Buf K)) (nm m n : Int)
    (u w v b x : Option (Buf K)) (tol : K) :
    (svdsolve tvAlloc nm m n u w v b x tol).ret = 0 := by
  unfold svdsolve
  split_ifs
  · rfl
  · split <;> rfl

end SweepCount

/-! ## The arrays of svdsolve -/

section SolveFrame

variable {K : Type} [LinearOrderedField K]

/-- The result of `svdsolve` by cases: rejected input, failed allocation, or the
two loops. -/
theorem svdsolve_cases (tvAlloc : Option (Buf K)) (nm m n : Int)
    (u w v b x : Option (Buf K)) (tol : K) :
    (svdsolve tvAlloc nm m n u w v b x tol = { ret := 0, ierr := -2, x := x } ∧
      (n ≤ 1 ∨ m ≤ 1 ∨ (nm < n ∧ nm < m) ∨ u.isNone ∨ w.isNone ∨
        v.isNone ∨ b.isNone ∨ x.isNone ∨ tol ≤ 0)) ∨
    (svdsolve tvAlloc nm m n u w v b x tol = { ret := 0, ierr := -1, x := x } ∧
      tvAlloc = none ∧
      ¬ (n ≤ 1 ∨ m ≤ 1 ∨ (nm < n ∧ nm < m) ∨ u.isNone ∨ w.isNone ∨
        v.isNone ∨ b.isNone ∨ x.isNone ∨ tol ≤ 0)) ∨
    (∃ tv u0 w0 v0 b0 x0, tvAlloc = some tv ∧ u = some u0 ∧ w = some w0 ∧ v = some v0 ∧
      b = some b0 ∧ x = some x0 ∧
      ¬ (n ≤ 1 ∨ m ≤ 1 ∨ (nm < n ∧ nm < m) ∨ u.isNone ∨ w.isNone ∨
        v.isNone ∨ b.isNone ∨ x.isNone ∨ tol ≤ 0) ∧
      svdsolve tvAlloc nm m n u w v b x tol =
        { ret := 0, ierr := 0,
          x := some (solveX nm.toNat n.toNat v0
            (solveTv nm.toNat m.toNat n.toNat u0 w0 b0 tol tv) x0) }) := by
  by_cases hc : n ≤ 1 ∨ m ≤ 1 ∨ (nm < n ∧ nm < m) ∨ u.isNone ∨ w.isNone ∨
      v.isNone ∨ b.isNone ∨ x.isNone ∨ tol ≤ 0
  · left
    refine ⟨?_, hc⟩
    unfold svdsolve
    rw [if_pos hc]
  · right
    have hc' := hc
    simp only [not_or] at hc'
    obtain ⟨_, _, _, hu, hw, hv, hb, hx, _⟩ := hc'
    cases u with
    | none => simp at hu
    | some u0 =>
    cases w with
    | none => simp at hw
    | some w0 =>
    cases v with
    | none => simp at hv
    | some v0 =>
    cases b with
    | none => simp at hb
    | some b0 =>
    cases x with
    | none => simp at hx
    | some x0 =>
    cases tvAlloc with
    | none =>
      left
      refine ⟨?_, rfl, hc⟩
      unfold svdsolve
      rw [if_neg hc]
    | some tv =>
      right
      refine ⟨tv, u0, w0, v0, b0, x0, rfl, rfl, rfl, rfl, rfl, rfl, hc, ?_⟩
      unfold svdsolve
      rw [if_neg hc]

/-- The second loop of `svdsolve` reads `tv` at the indices `0..n-1` only, and
does not read `x`. -/
theorem solveX_congr (nm n : Nat) (v tv tv' x x' : Buf K)
    (htv : ∀ i : Nat, i < n → tv.get i = tv'.get i)
    (hx : ∀ y : Int, (y < 0 ∨ (n : Int) ≤ y) → x.get y = x'.get y) :
    solveX nm n v tv x = solveX nm n v tv' x' := by
  apply Buf.ext_get
  intro y
  rw [solveX_get, solveX_get]
  split_ifs with h
  · apply Finset.sum_congr rfl
    intro i hi
    rw [Finset.mem_range] at hi
    show v.get _ * tv.get i = v.get _ * tv'.get i
    rw [htv i hi]
  · exact hx y (by omega)

theorem solveTv_congr (nm m n : Nat) (u w b : Buf K) (tol : K) (tv tv' : Buf K) (i : Nat)
    (hi : i < n) :
    (solveTv nm m n u w b tol tv).get i = (solveTv nm m n u w b tol tv').get i := by
  rw [solveTv_get, solveTv_get, if_pos (by omega), if_pos (by omega)]

end SolveFrame

/-! ## The array v when matv is zero -/

section FrameV

variable {K : Type} [LinearOrderedField K]

theorem cancelLoop_setv_aux (nm m : Nat) (matu : Int) (anorm : K) (sqrt : K → K) (L1 : Nat)
    (v v' : Buf K) (cnt i : Nat) (c s : K) (u w rv1 : Buf K) :
    cancelLoop nm m matu anorm sqrt L1 cnt i c s ⟨u, w, v', rv1⟩ =
      { cancelLoop nm m matu anorm sqrt L1 cnt i c s ⟨u, w, v, rv1⟩ with v := v' } := by
  induction cnt generalizing i c s u w rv1 with
  | zero => rfl
  | succ cnt ih =>
    rw [cancelLoop, cancelLoop]
    simp only []
    split_ifs with h1 h2
    · rfl
    · exact ih _ _ _ _ _ _
    · exact ih _ _ _ _ _ _

theorem cancelLoop_setv (nm m : Nat) (matu : Int) (anorm : K) (sqrt : K → K) (L1 : Nat)
    (v' : Buf K) (cnt i : Nat) (c s : K) (st : St K) :
    cancelLoop nm m matu anorm sqrt L1 cnt i c s { st with v := v' } =
      { cancelLoop nm m matu anorm sqrt L1 cnt i c s st with v := v' } :=
  cancelLoop_setv_aux nm m matu anorm sqrt L1 st.v v' cnt i c s st.u st.w st.rv1

theorem splitCancel_setv (nm m : Nat) (matu : Int) (anorm : K) (sqrt : K → K) (k : Nat)
    (v' : Buf K) (st : St K) :
    splitCancel nm m matu anorm sqrt k { st with v := v' } =
      ({ (splitCancel nm m matu anorm sqrt k st).1 with v := v' },
        (splitCancel nm m matu anorm sqrt k st).2) := by
  unfold splitCancel
  simp only []
  split_ifs with h
  · rfl
  · rw [cancelLoop_setv]

theorem qrStep_setv (nm m n : Nat) (matu : Int) (sqrt : K → K) (v' : Buf K) (i1 : Nat)
    (q : QSt K) :
    qrStep nm m n matu 0 sqrt i1 { q with st := { q.st with v := v' } } =
      { qrStep nm m n matu 0 sqrt i1 q with
        st := { (qrStep nm m n matu 0 sqrt i1 q).st with v := v' } } := by
  unfold qrStep
  simp only [ne_eq, not_true_eq_false, if_false]

/-- A loop commutes with a map of the state that commutes with its body. -/
theorem forUp_comm {σ : Type} (φ : σ → σ) (body : Nat → σ → σ)
    (h : ∀ i s, body i (φ s) = φ (body i s)) (cnt lo : Nat) (s : σ) :
    forUp body cnt lo (φ s) = φ (forUp body cnt lo s) := by
  induction cnt generalizing lo s with
  | zero => rfl
  | succ cnt ih => rw [forUp, forUp, h, ih]

theorem qrSweep_setv (nm m n : Nat) (matu : Int) (sqrt : K → K) (k L : Nat) (z : K)
    (v' : Buf K) (st : St K) :
    qrSweep nm m n matu 0 sqrt k L z { st with v := v' } =
      { qrSweep nm m n matu 0 sqrt k L z st with v := v' } := by
  have key := forUp_comm (fun q : QSt K => { q with st := { q.st with v := v' } })
    (qrStep nm m n matu 0 sqrt) (qrStep_setv nm m n matu sqrt v')
  unfold qrSweep forRange
  simp only []
  generalize ((st.w.get (VINDX L) - z) * (st.w.get (VINDX L) + z) + _) / st.w.get (VINDX L) = f0
  have := key (k - 1 + 1 - L) L { st := st, c := 1, s := 1, f := f0, x := st.w.get (VINDX L) }
  simp only [] at this
  rw [this]

theorem converge_setv (nm n : Nat) (k : Nat) (v' : Buf K) (st : St K) :
    converge nm n 0 k { st with v := v' } = { converge nm n 0 k st with v := v' } := by
  unfold converge
  simp only [ne_eq, not_true_eq_false, if_false]
  split_ifs <;> rfl

theorem repeatK_setv (nm m n : Nat) (matu : Int) (anorm : K) (sqrt : K → K) (k : Nat)
    (v' : Buf K) (rem : Nat) (st : St K) :
    repeatK nm m n matu 0 anorm sqrt k rem { st with v := v' } =
      ({ (repeatK nm m n matu 0 anorm sqrt k rem st).1 with v := v' },
        (repeatK nm m n matu 0 anorm sqrt k rem st).2) := by
  induction rem generalizing st with
  | zero =>
    rw [repeatK, repeatK, splitCancel_setv]
    simp only []
    split_ifs
    · rfl
    · rw [converge_setv]
  | succ rem ih =>
    rw [repeatK, repeatK, splitCancel_setv]
    simp only []
    split_ifs
    · rw [qrSweep_setv, ih]
    · rw [converge_setv]

theorem diagonalize_setv (nm m n : Nat) (matu : Int) (anorm : K) (sqrt : K → K)
    (v' : Buf K) (k : Nat) (st : St K) :
    diagonalize nm m n matu 0 anorm sqrt k { st with v := v' } =
      ({ (diagonalize nm m n matu 0 anorm sqrt k st).1 with v := v' },
        (diagonalize nm m n matu 0 anorm sqrt k st).2) := by
  induction k generalizing st with
  | zero => rfl
  | succ k ih =>
    rw [diagonalize, diagonalize, repeatK_setv]
    simp only []
    split_ifs
    · rw [ih]
    · rfl

/-- With `matv = 0` the array `v` is not referenced: it comes back as it was, and
everything else is the same for every `v`. -/
theorem svdCore_setv (sqrt : K → K) (nm m n : Nat) (a w : Buf K) (matu : Int) (u : Buf K)
    (v v' rv1 : Buf K) :
    svdCore sqrt nm m n a w matu u 0 v' rv1 =
      ({ (svdCore sqrt nm m n a w matu u 0 v rv1).1 with v := v' },
        (svdCore sqrt nm m n a w matu u 0 v rv1).2) := by
  unfold svdCore svdPrep
  simp only [ne_eq, not_true_eq_false, if_false]
  exact diagonalize_setv nm m n matu _ sqrt v' n ⟨_, _, v, _⟩

theorem svdCore_v_zero (sqrt : K → K) (nm m n : Nat) (a w : Buf K) (matu : Int) (u : Buf K)
    (v rv1 : Buf K) : (svdCore sqrt nm m n a w matu u 0 v rv1).1.v = v := by
  rw [svdCore_setv sqrt nm m n a w matu u v v rv1]

end FrameV

/-! ## Cells outside the windows are left alone -/

section Frames

variable {K : Type}

/-- A store inside the set `W` leaves the cells outside `W` alone. -/
theorem set_keep (W : Int → Prop) (t : Buf K) (a : Int) (val : K) (ha : W a) (x : Int)
    (hx : ¬ W x) : (t.set a val).get x = t.get x :=
  Buf.get_set_ne _ _ (fun h => hx (h ▸ ha))


theorem Win_mk {nm r c i j : Nat} (h1 : 1 ≤ i) (h2 : i ≤ r) (h3 : 1 ≤ j) (h4 : j ≤ c) :
    Win nm r c (MINDX i j nm) := ⟨i, j, h1, h2, h3, h4, rfl⟩

/-- The window in 0-based flat offsets. -/
theorem Win_iff (nm r c : Nat) (x : Int) :
    Win nm r c x ↔ ∃ i j : Nat, i < r ∧ j < c ∧ x = (i : Int) * nm + j := by
  constructor
  · rintro ⟨i, j, h1, h2, h3, h4, rfl⟩
    refine ⟨i - 1, j - 1, by omega, by omega, ?_⟩
    unfold MINDX
    have e1 : ((i - 1 : Nat) : Int) = (i : Int) - 1 := by omega
    have e2 : ((j - 1 : Nat) : Int) = (j : Int) - 1 := by omega
    rw [e1, e2]; ring
  · rintro ⟨i, j, h1, h2, rfl⟩
    refine ⟨i + 1, j + 1, by omega, by omega, by omega, by omega, ?_⟩
    unfold MINDX
    push_cast; ring

theorem forRange_frame (W : Int → Prop) (body : Nat → Buf K → Buf K) (lo hi : Nat)
    (h : ∀ k t, lo ≤ k → k ≤ hi → ∀ x, ¬ W x → (body k t).get x = t.get x) (u : Buf K)
    (x : Int) (hx : ¬ W x) : (forRange lo hi body u).get x = u.get x :=
  forRange_keep body (fun t => t.get x = u.get x) lo hi u rfl
    (fun k t h1 h2 hp => by
      show (body k t).get x = u.get x
      rw [h k t h1 h2 x hx]; exact hp)

theorem forDown_frame (W : Int → Prop) (body : Nat → Buf K → Buf K) (n : Nat)
    (h : ∀ k t, 1 ≤ k → k ≤ n → ∀ x, ¬ W x → (body k t).get x = t.get x) (u : Buf K)
    (x : Int) (hx : ¬ W x) : (forDown body n u).get x = u.get x :=
  forDown_keep body (fun t => t.get x = u.get x) n u rfl
    (fun k t h1 h2 hp => by
      show (body k t).get x = u.get x
      rw [h k t h1 h2 x hx]; exact hp)

variable [LinearOrderedField K]

theorem copyAU_keep (nm m n : Nat) (a u : Buf K) (x : Int) (hx : ¬ Win nm m n x) :
    (copyAU nm m n a u).get x = u.get x := by
  unfold copyAU
  apply forRange_frame (Win nm m n) _ _ _ _ _ x hx
  intro i t h1 h2
  apply forRange_frame (Win nm m n)
  intro j t' h3 h4
  exact set_keep _ _ _ _ (Win_mk h1 h2 h3 h4)

theorem colNormalize_keep (nm m n i : Nat) (scale : K) (u : Buf K) (hi : 1 ≤ i) (hin : i ≤ n)
    (x : Int) (hx : ¬ Win nm m n x) : (colNormalize nm m i scale u).2.get x = u.get x := by
  unfold colNormalize
  apply forRange_keep _ (fun su : K × Buf K => su.2.get x = u.get x) _ _ _ rfl
  intro k su h1 h2 hp
  show (su.2.set _ _).get x = _
  rw [set_keep _ _ _ _ (Win_mk (by omega) h2 hi hin) x hx]
  exact hp

theorem colApply_keep (nm m n i : Nat) (h : K) (u : Buf K) (hi : 1 ≤ i)
    (x : Int) (hx : ¬ Win nm m n x) : (colApply nm m n i h u).get x = u.get x := by
  unfold colApply
  apply forRange_frame (Win nm m n) _ _ _ _ _ x hx
  intro j t h1 h2
  apply forRange_frame (Win nm m n)
  intro k t' h3 h4
  exact set_keep _ _ _ _ (Win_mk (by omega) h4 (by omega) h2)

theorem colRescale_keep (nm m n i : Nat) (scale : K) (u : Buf K) (hi : 1 ≤ i) (hin : i ≤ n)
    (x : Int) (hx : ¬ Win nm m n x) : (colRescale nm m i scale u).get x = u.get x := by
  unfold colRescale
  apply forRange_frame (Win nm m n) _ _ _ _ _ x hx
  intro k t h1 h2
  exact set_keep _ _ _ _ (Win_mk (by omega) h2 hi hin)

theorem colHouse_keep (sqrt : K → K) (nm m n i : Nat) (scale : K) (u : Buf K) (hi : 1 ≤ i)
    (hin : i ≤ n) (him : i ≤ m) (x : Int) (hx : ¬ Win nm m n x) :
    (colHouse sqrt nm m n i scale u).1.get x = u.get x := by
  unfold colHouse
  simp only []
  rw [colRescale_keep nm m n i _ _ hi hin x hx]
  have e : ∀ (h : K) (t : Buf K), (if i ≠ n then colApply nm m n i h t else t).get x =
      t.get x := by
    intro h t
    split_ifs
    · exact colApply_keep nm m n i h t hi x hx
    · rfl
  rw [e, set_keep _ _ _ _ (Win_mk hi him hi hin) x hx]
  exact colNormalize_keep nm m n i _ u hi hin x hx

theorem colStep_keep (sqrt : K → K) (nm m n i : Nat) (u : Buf K) (hi : 1 ≤ i) (hin : i ≤ n)
    (x : Int) (hx : ¬ Win nm m n x) : (colStep sqrt nm m n i u).1.get x = u.get x := by
  unfold colStep
  simp only []
  split_ifs with h1 h2
  · exact colHouse_keep sqrt nm m n i _ u hi hin h1 x hx
  · rfl
  · rfl

theorem rowNormalize_keep (nm m n i : Nat) (scale : K) (u : Buf K) (hi : 1 ≤ i) (him : i ≤ m)
    (x : Int) (hx : ¬ Win nm m n x) : (rowNormalize nm n i scale u).2.get x = u.get x := by
  unfold rowNormalize
  apply forRange_keep _ (fun su : K × Buf K => su.2.get x = u.get x) _ _ _ rfl
  intro k su h1 h2 hp
  show (su.2.set _ _).get x = _
  rw [set_keep _ _ _ _ (Win_mk hi him (by omega) h2) x hx]
  exact hp

theorem rowApply_keep (nm m n i : Nat) (rv1 u : Buf K)
    (x : Int) (hx : ¬ Win nm m n x) : (rowApply nm m n i rv1 u).get x = u.get x := by
  unfold rowApply
  apply forRange_frame (Win nm m n) _ _ _ _ _ x hx
  intro j t h1 h2
  apply forRange_frame (Win nm m n)
  intro k t' h3 h4
  exact set_keep _ _ _ _ (Win_mk (by omega) h2 (by omega) h4)

theorem rowRescale_keep (nm m n i : Nat) (scale : K) (u : Buf K) (hi : 1 ≤ i) (him : i ≤ m)
    (x : Int) (hx : ¬ Win nm m n x) : (rowRescale nm n i scale u).get x = u.get x := by
  unfold rowRescale
  apply forRange_frame (Win nm m n) _ _ _ _ _ x hx
  intro k t h1 h2
  exact set_keep _ _ _ _ (Win_mk hi him (by omega) h2)

theorem rowHouse_keep (sqrt : K → K) (nm m n i : Nat) (scale : K) (u rv1 : Buf K) (hi : 1 ≤ i)
    (hin : i < n) (him : i ≤ m) (x : Int) (hx : ¬ Win nm m n x) :
    (rowHouse sqrt nm m n i scale u rv1).1.get x = u.get x := by
  unfold rowHouse
  simp only []
  rw [rowRescale_keep nm m n i _ _ hi him x hx]
  have e : ∀ (r t : Buf K), (if i ≠ m then rowApply nm m n i r t else t).get x =
      t.get x := by
    intro r t
    split_ifs
    · exact rowApply_keep nm m n i r t x hx
    · rfl
  rw [e, set_keep _ _ _ _ (Win_mk hi him (by omega) (by omega)) x hx]
  exact rowNormalize_keep nm m n i _ u hi him x hx

theorem rowStep_keep (sqrt : K → K) (nm m n i : Nat) (u rv1 : Buf K) (hi : 1 ≤ i) (hin : i ≤ n)
    (x : Int) (hx : ¬ Win nm m n x) : (rowStep sqrt nm m n i u rv1).1.get x = u.get x := by
  unfold rowStep
  simp only []
  split_ifs with h1 h2
  · exact rowHouse_keep sqrt nm m n i _ u rv1 hi (by omega) h1.1 x hx
  · rfl
  · rfl

theorem bidiagStep_keep_u (sqrt : K → K) (nm m n i : Nat) (b : BSt K) (hi : 1 ≤ i) (hin : i ≤ n)
    (x : Int) (hx : ¬ Win nm m n x) : (bidiagStep sqrt nm m n i b).u.get x = b.u.get x := by
  show (rowStep sqrt nm m n i (colStep sqrt nm m n i b.u).1 _).1.get x = _
  rw [rowStep_keep sqrt nm m n i _ _ hi hin x hx, colStep_keep sqrt nm m n i _ hi hin x hx]

theorem bidiag_keep_u (sqrt : K → K) (nm m n : Nat) (u w rv1 : Buf K)
    (x : Int) (hx : ¬ Win nm m n x) : (bidiag sqrt nm m n u w rv1).u.get x = u.get x := by
  unfold bidiag
  apply forRange_keep _ (fun b : BSt K => b.u.get x = u.get x) _ _ _ rfl
  intro i b h1 h2 hp
  rw [bidiagStep_keep_u sqrt nm m n i b h1 h2 x hx]
  exact hp

theorem bidiag_keep_w (sqrt : K → K) (nm m n : Nat) (u w rv1 : Buf K)
    (x : Int) (hx : x < 0 ∨ (n : Int) ≤ x) : (bidiag sqrt nm m n u w rv1).w.get x = w.get x := by
  unfold bidiag
  apply forRange_keep _ (fun b : BSt K => b.w.get x = w.get x) _ _ _ rfl
  intro i b h1 h2 hp
  rw [bidiagStep_frame_w sqrt nm m n i b x (by unfold VINDX; omega)]
  exact hp

end Frames
section Frames2

variable {K : Type} [LinearOrderedField K]

theorem accUStep_keep (nm m n : Nat) (w u : Buf K) (i : Nat) (hi : 1 ≤ i) (hin : i ≤ n)
    (him : i ≤ m) (mn : Nat) (x : Int) (hx : ¬ Win nm m n x) :
    (accUStep nm m n mn w i u).get x = u.get x := by
  unfold accUStep
  simp only []
  rw [set_keep _ _ _ _ (Win_mk hi him hi hin) x hx]
  have e1 : ∀ t : Buf K, (accUClearRow nm n i t).get x = t.get x := by
    intro t
    unfold accUClearRow
    apply forRange_frame (Win nm m n) _ _ _ _ _ x hx
    intro j t' h1 h2
    exact set_keep _ _ _ _ (Win_mk hi him (by omega) h2)
  have e2 : ∀ (g : K) (t : Buf K), (accUApply nm m n i g t).get x = t.get x := by
    intro g t
    unfold accUApply
    apply forRange_frame (Win nm m n) _ _ _ _ _ x hx
    intro j t' h1 h2
    apply forRange_frame (Win nm m n)
    intro k t2 h3 h4
    exact set_keep _ _ _ _ (Win_mk (by omega) h4 (by omega) h2)
  have e3 : ∀ (g : K) (t : Buf K), (accUScale nm m i g t).get x = t.get x := by
    intro g t
    unfold accUScale
    apply forRange_frame (Win nm m n) _ _ _ _ _ x hx
    intro j t' h1 h2
    exact set_keep _ _ _ _ (Win_mk (by omega) h2 hi hin)
  have e4 : ∀ (t : Buf K), (accUZero nm m i t).get x = t.get x := by
    intro t
    unfold accUZero
    apply forRange_frame (Win nm m n) _ _ _ _ _ x hx
    intro j t' h1 h2
    exact set_keep _ _ _ _ (Win_mk (by omega) h2 hi hin)
  split_ifs <;> simp only [e1, e2, e3, e4]

theorem accU_keep (nm m n : Nat) (w u : Buf K) (x : Int) (hx : ¬ Win nm m n x) :
    (accU nm m n w u).get x = u.get x := by
  unfold accU
  simp only []
  apply forDown_frame (Win nm m n) _ _ _ _ x hx
  intro i t h1 h2
  have := MIN_le m n
  exact accUStep_keep nm m n w t i h1 (by omega) (by omega) _

theorem accVStep_keep (nm n : Nat) (u rv1 : Buf K) (i : Nat) (s : Buf K × K × Nat)
    (hi : 1 ≤ i) (hin : i ≤ n) (hL : 1 ≤ s.2.2) (x : Int) (hx : ¬ Win nm n n x) :
    (accVStep nm n u rv1 i s).1.get x = s.1.get x := by
  unfold accVStep
  simp only []
  rw [set_keep _ _ _ _ (Win_mk hi hin hi hin) x hx]
  have e1 : ∀ t : Buf K, (accVClear nm n i s.2.2 t).get x = t.get x := by
    intro t
    unfold accVClear
    apply forRange_frame (Win nm n n) _ _ _ _ _ x hx
    intro j t' h1 h2 y hy
    rw [set_keep _ _ _ _ (Win_mk (by omega) h2 hi hin) y hy,
      set_keep _ _ _ _ (Win_mk hi hin (by omega) h2) y hy]
  have e2 : ∀ t : Buf K, (accVApply nm n i s.2.2 u t).get x = t.get x := by
    intro t
    unfold accVApply
    apply forRange_frame (Win nm n n) _ _ _ _ _ x hx
    intro j t' h1 h2
    apply forRange_frame (Win nm n n)
    intro k t2 h3 h4
    exact set_keep _ _ _ _ (Win_mk (by omega) h4 (by omega) h2)
  have e3 : ∀ (g : K) (t : Buf K), (accVCol nm n i s.2.2 u g t).get x = t.get x := by
    intro g t
    unfold accVCol
    apply forRange_frame (Win nm n n) _ _ _ _ _ x hx
    intro j t' h1 h2
    exact set_keep _ _ _ _ (Win_mk (by omega) h2 hi hin)
  split_ifs <;> simp only [e1, e2, e3]

theorem accV_keep (nm n : Nat) (u rv1 v : Buf K) (g : K) (L : Nat) (hL : 1 ≤ L)
    (x : Int) (hx : ¬ Win nm n n x) : (accV nm n u rv1 v g L).get x = v.get x := by
  unfold accV
  have := forDown_keep (accVStep nm n u rv1)
    (fun s : Buf K × K × Nat => s.1.get x = v.get x ∧ 1 ≤ s.2.2) n (v, g, L) ⟨rfl, hL⟩
    (fun i s h1 h2 hp => by
      refine ⟨?_, h1⟩
      rw [accVStep_keep nm n u rv1 i s h1 h2 hp.2 x hx]
      exact hp.1)
  exact this.1

theorem rotCols_keep (nm rows cols p q : Nat) (c s : K) (u : Buf K) (hp1 : 1 ≤ p)
    (hp2 : p ≤ cols) (hq1 : 1 ≤ q) (hq2 : q ≤ cols) (x : Int) (hx : ¬ Win nm rows cols x) :
    (rotCols nm rows p q c s u).get x = u.get x := by
  unfold rotCols
  apply forRange_frame (Win nm rows cols) _ _ _ _ _ x hx
  intro j t h1 h2 y hy
  simp only []
  rw [set_keep _ _ _ _ (Win_mk h1 h2 hq1 hq2) y hy, set_keep _ _ _ _ (Win_mk h1 h2 hp1 hp2) y hy]

theorem cancelLoop_keep_u (nm m n : Nat) (matu : Int) (anorm : K) (sqrt : K → K) (L1 : Nat)
    (hL1 : 1 ≤ L1) (hL1n : L1 ≤ n) (x : Int) (hx : ¬ Win nm m n x) (cnt i : Nat) (c s : K)
    (st : St K) (hi : 1 ≤ i) (hcnt : i + cnt ≤ n + 1) :
    (cancelLoop nm m matu anorm sqrt L1 cnt i c s st).u.get x = st.u.get x := by
  induction cnt generalizing i c s st with
  | zero => rfl
  | succ cnt ih =>
    rw [cancelLoop]
    simp only []
    split_ifs with h1 h2
    · rfl
    · rw [ih _ _ _ _ (by omega) (by omega)]
      exact rotCols_keep nm m n L1 i _ _ _ hL1 hL1n hi (by omega) x hx
    · rw [ih _ _ _ _ (by omega) (by omega)]

theorem splitCancel_keep (nm m n : Nat) (matu : Int) (anorm : K) (sqrt : K → K) (k : Nat)
    (st : St K) (h0 : st.rv1.get 0 = 0) (hk1 : 1 ≤ k) (hkn : k ≤ n) :
    (∀ x, ¬ Win nm m n x → (splitCancel nm m matu anorm sqrt k st).1.u.get x = st.u.get x) ∧
    (∀ x, (x < 0 ∨ (n : Int) ≤ x) →
      (splitCancel nm m matu anorm sqrt k st).1.w.get x = st.w.get x) := by
  have hp := splitScan_pos anorm st.w st.rv1 k h0 hk1
  have hle := splitScan_le anorm st.w st.rv1 k
  unfold splitCancel
  simp only []
  split_ifs with hb
  · exact ⟨fun _ _ => rfl, fun _ _ => rfl⟩
  · have h2 : 2 ≤ (splitScan anorm st.w st.rv1 k).1 := by
      by_contra hc
      exact hb (hp.2 (by omega))
    constructor
    · intro x hx
      exact cancelLoop_keep_u nm m n matu anorm sqrt _ (by omega) (by omega) x hx _ _ _ _ _
        (by omega) (by omega)
    · intro x hx
      apply cancelLoop_w_frame
      intro j h3 h4
      unfold VINDX
      omega

theorem qrStep_keep (nm m n : Nat) (matu matv : Int) (sqrt : K → K) (i1 : Nat) (q : QSt K)
    (h1 : 1 ≤ i1) (h2 : i1 + 1 ≤ n) :
    (∀ x, ¬ Win nm m n x → (qrStep nm m n matu matv sqrt i1 q).st.u.get x = q.st.u.get x) ∧
    (∀ x, ¬ Win nm n n x → (qrStep nm m n matu matv sqrt i1 q).st.v.get x = q.st.v.get x) ∧
    (∀ x, (x < 0 ∨ (n : Int) ≤ x) →
      (qrStep nm m n matu matv sqrt i1 q).st.w.get x = q.st.w.get x) := by
  refine ⟨fun x hx => ?_, fun x hx => ?_, fun x hx => ?_⟩
  · unfold qrStep
    simp only []
    split_ifs <;> first | rfl |
      exact rotCols_keep nm m n i1 (i1 + 1) _ _ _ h1 (by omega) (by omega) h2 x hx
  · unfold qrStep
    simp only []
    split_ifs <;> first | rfl |
      exact rotCols_keep nm n n i1 (i1 + 1) _ _ _ h1 (by omega) (by omega) h2 x hx
  · exact qrStep_w_frame nm m n matu matv sqrt i1 q x (by unfold VINDX; omega)

theorem qrSweep_keep (nm m n : Nat) (matu matv : Int) (sqrt : K → K) (k L : Nat) (z : K)
    (st : St K) (hL : 1 ≤ L) (hk1 : 1 ≤ k) (hkn : k ≤ n) :
    (∀ x, ¬ Win nm m n x → (qrSweep nm m n matu matv sqrt k L z st).u.get x = st.u.get x) ∧
    (∀ x, ¬ Win nm n n x → (qrSweep nm m n matu matv sqrt k L z st).v.get x = st.v.get x) ∧
    (∀ x, (x < 0 ∨ (n : Int) ≤ x) →
      (qrSweep nm m n matu matv sqrt k L z st).w.get x = st.w.get x) := by
  unfold qrSweep
  simp only []
  have key := forRange_keep (qrStep nm m n matu matv sqrt)
    (fun q : QSt K => (∀ x, ¬ Win nm m n x → q.st.u.get x = st.u.get x) ∧
      (∀ x, ¬ Win nm n n x → q.st.v.get x = st.v.get x) ∧
      (∀ x, (x < 0 ∨ (n : Int) ≤ x) → q.st.w.get x = st.w.get x)) L (k - 1)
  refine ⟨fun x hx => ?_, fun x hx => ?_, fun x hx => ?_⟩
  · refine (key _ ⟨fun _ _ => rfl, fun _ _ => rfl, fun _ _ => rfl⟩ ?_).1 x hx
    intro i t h1 h2 hp
    have := qrStep_keep nm m n matu matv sqrt i t (by omega) (by omega)
    exact ⟨fun y hy => by rw [this.1 y hy, hp.1 y hy],
      fun y hy => by rw [this.2.1 y hy, hp.2.1 y hy],
      fun y hy => by rw [this.2.2 y hy, hp.2.2 y hy]⟩
  · refine (key _ ⟨fun _ _ => rfl, fun _ _ => rfl, fun _ _ => rfl⟩ ?_).2.1 x hx
    intro i t h1 h2 hp
    have := qrStep_keep nm m n matu matv sqrt i t (by omega) (by omega)
    exact ⟨fun y hy => by rw [this.1 y hy, hp.1 y hy],
      fun y hy => by rw [this.2.1 y hy, hp.2.1 y hy],
      fun y hy => by rw [this.2.2 y hy, hp.2.2 y hy]⟩
  · rw [Buf.get_set_ne _ _ (by unfold VINDX; omega)]
    refine (key _ ⟨fun _ _ => rfl, fun _ _ => rfl, fun _ _ => rfl⟩ ?_).2.2 x hx
    intro i t h1 h2 hp
    have := qrStep_keep nm m n matu matv sqrt i t (by omega) (by omega)
    exact ⟨fun y hy => by rw [this.1 y hy, hp.1 y hy],
      fun y hy => by rw [this.2.1 y hy, hp.2.1 y hy],
      fun y hy => by rw [this.2.2 y hy, hp.2.2 y hy]⟩

theorem converge_keep (nm n : Nat) (matv : Int) (k : Nat) (st : St K) (hk1 : 1 ≤ k)
    (hkn : k ≤ n) :
    (∀ x, ¬ Win nm n n x → (converge nm n matv k st).v.get x = st.v.get x) ∧
    (∀ x, (x < 0 ∨ (n : Int) ≤ x) → (converge nm n matv k st).w.get x = st.w.get x) := by
  refine ⟨fun x hx => ?_, fun x hx => converge_w_frame nm n matv k st x
    (by unfold VINDX; omega)⟩
  unfold converge
  simp only []
  split_ifs
  · show (forRange 1 n _ st.v).get x = _
    apply forRange_frame (Win nm n n) _ _ _ _ _ x hx
    intro j t h1 h2
    exact set_keep _ _ _ _ (Win_mk h1 h2 hk1 hkn)
  · rfl
  · rfl

/-- The cells that a state shares with an earlier one: everything outside the
windows of `u` and `v` and outside the first `n` entries of `w`. -/
theorem repeatK_keep (nm m n : Nat) (matu matv : Int) (anorm : K) (sqrt : K → K) (k : Nat)
    (hk1 : 1 ≤ k) (hkn : k ≤ n) (rem : Nat) (st : St K) (h0 : st.rv1.get 0 = 0) :
    (∀ x, ¬ Win nm m n x →
      (repeatK nm m n matu matv anorm sqrt k rem st).1.u.get x = st.u.get x) ∧
    (∀ x, ¬ Win nm n n x →
      (repeatK nm m n matu matv anorm sqrt k rem st).1.v.get x = st.v.get x) ∧
    (∀ x, (x < 0 ∨ (n : Int) ≤ x) →
      (repeatK nm m n matu matv anorm sqrt k rem st).1.w.get x = st.w.get x) := by
  induction rem generalizing st with
  | zero =>
    have sc := splitCancel_keep nm m n matu anorm sqrt k st h0 hk1 hkn
    have sv := splitCancel_v nm m matu anorm sqrt k st
    rw [repeatK]
    split_ifs with hL
    · exact ⟨sc.1, fun x _ => by rw [sv], sc.2⟩
    · have cv := converge_keep nm n matv k (splitCancel nm m matu anorm sqrt k st).1 hk1 hkn
      refine ⟨fun x hx => ?_, fun x hx => by rw [cv.1 x hx, sv], fun x hx => by
        rw [cv.2 x hx, sc.2 x hx]⟩
      rw [converge_u]
      exact sc.1 x hx
  | succ rem ih =>
    have sc := splitCancel_keep nm m n matu anorm sqrt k st h0 hk1 hkn
    have sv := splitCancel_v nm m matu anorm sqrt k st
    have hL1 := splitCancel_pos nm m matu anorm sqrt k st h0 hk1
    have hL2 := splitCancel_le nm m matu anorm sqrt k st
    have hr0 := splitCancel_rv1_zero nm m matu anorm sqrt k st 0 h0
    rw [repeatK]
    split_ifs with hL
    · have hq0 := qrSweep_rv1_zero nm m n matu matv sqrt k
        (splitCancel nm m matu anorm sqrt k st).2
        ((splitCancel nm m matu anorm sqrt k st).1.w.get (VINDX k))
        (splitCancel nm m matu anorm sqrt k st).1 hr0 hL1 (by omega)
      have qk := qrSweep_keep nm m n matu matv sqrt k (splitCancel nm m matu anorm sqrt k st).2
        ((splitCancel nm m matu anorm sqrt k st).1.w.get (VINDX k))
        (splitCancel nm m matu anorm sqrt k st).1 hL1 hk1 hkn
      have := ih _ hq0
      exact ⟨fun x hx => by rw [this.1 x hx, qk.1 x hx, sc.1 x hx],
        fun x hx => by rw [this.2.1 x hx, qk.2.1 x hx, sv],
        fun x hx => by rw [this.2.2 x hx, qk.2.2 x hx, sc.2 x hx]⟩
    · have cv := converge_keep nm n matv k (splitCancel nm m matu anorm sqrt k st).1 hk1 hkn
      refine ⟨fun x hx => ?_, fun x hx => by rw [cv.1 x hx, sv], fun x hx => by
        rw [cv.2 x hx, sc.2 x hx]⟩
      rw [converge_u]
      exact sc.1 x hx

theorem diagonalize_keep (nm m n : Nat) (matu matv : Int) (anorm : K) (sqrt : K → K) (k0 : Nat)
    (hk : k0 ≤ n) (st : St K) (h0 : st.rv1.get 0 = 0) :
    (∀ x, ¬ Win nm m n x →
      (diagonalize nm m n matu matv anorm sqrt k0 st).1.u.get x = st.u.get x) ∧
    (∀ x, ¬ Win nm n n x →
      (diagonalize nm m n matu matv anorm sqrt k0 st).1.v.get x = st.v.get x) ∧
    (∀ x, (x < 0 ∨ (n : Int) ≤ x) →
      (diagonalize nm m n matu matv anorm sqrt k0 st).1.w.get x = st.w.get x) := by
  induction k0 generalizing st with
  | zero => exact ⟨fun _ _ => rfl, fun _ _ => rfl, fun _ _ => rfl⟩
  | succ k0 ih =>
    have rk := repeatK_keep nm m n matu matv anorm sqrt (k0 + 1) (by omega) hk 30 st h0
    have sp := repeatK_spec nm m n matu matv anorm sqrt (k0 + 1) (by omega) 30 st h0
    rw [diagonalize]
    split_ifs with hr
    · have := ih (by omega) _ sp.1
      exact ⟨fun x hx => by rw [this.1 x hx, rk.1 x hx],
        fun x hx => by rw [this.2.1 x hx, rk.2.1 x hx],
        fun x hx => by rw [this.2.2 x hx, rk.2.2 x hx]⟩
    · exact rk

theorem svdCore_keep (sqrt : K → K) (nm m n : Nat) (a w : Buf K) (matu : Int) (u : Buf K)
    (matv : Int) (v rv1 : Buf K) (hn : 1 ≤ n) :
    (∀ x, ¬ Win nm m n x → (svdCore sqrt nm m n a w matu u matv v rv1).1.u.get x = u.get x) ∧
    (∀ x, ¬ Win nm n n x → (svdCore sqrt nm m n a w matu u matv v rv1).1.v.get x = v.get x) ∧
    (∀ x, (x < 0 ∨ (n : Int) ≤ x) →
      (svdCore sqrt nm m n a w matu u matv v rv1).1.w.get x = w.get x) := by
  have h0 := svdPrep_rv1_zero sqrt nm m n a w matu u matv v rv1 hn
  have dk := diagonalize_keep nm m n matu matv (svdPrep sqrt nm m n a w matu u matv v rv1).2 sqrt
    n (le_refl _) _ h0
  have pu : ∀ x, ¬ Win nm m n x →
      (svdPrep sqrt nm m n a w matu u matv v rv1).1.u.get x = u.get x := by
    intro x hx
    unfold svdPrep
    simp only []
    split_ifs
    · rw [accU_keep nm m n _ _ x hx, bidiag_keep_u sqrt nm m n _ _ _ x hx,
        copyAU_keep nm m n a u x hx]
    · rw [bidiag_keep_u sqrt nm m n _ _ _ x hx, copyAU_keep nm m n a u x hx]
  have pv : ∀ x, ¬ Win nm n n x →
      (svdPrep sqrt nm m n a w matu u matv v rv1).1.v.get x = v.get x := by
    intro x hx
    unfold svdPrep
    simp only []
    split_ifs
    · exact accV_keep nm n _ _ v _ (n + 1) (by omega) x hx
    · rfl
  have pw : ∀ x, (x < 0 ∨ (n : Int) ≤ x) →
      (svdPrep sqrt nm m n a w matu u matv v rv1).1.w.get x = w.get x := by
    intro x hx
    unfold svdPrep
    exact bidiag_keep_w sqrt nm m n _ w rv1 x hx
  unfold svdCore
  exact ⟨fun x hx => by rw [dk.1 x hx, pu x hx], fun x hx => by rw [dk.2.1 x hx, pv x hx],
    fun x hx => by rw [dk.2.2 x hx, pw x hx]⟩

end Frames2

/-! ## Two runs in lockstep -/

section Agree

variable {K : Type}

theorem AgreeOn.set {W : Int → Prop} {u t : Buf K} (h : AgreeOn W u t) (a : Int) {c d : K}
    (hv : c = d) : AgreeOn W (u.set a c) (t.set a d) := by
  intro x hx
  rw [Buf.get_set, Buf.get_set]
  split_ifs
  · exact hv
  · exact h x hx

theorem AgreeOn.refl (W : Int → Prop) (u : Buf K) : AgreeOn W u u := fun _ _ => rfl

/-- Relational invariant rule for two runs of `forUp` in lockstep. -/
theorem forUp_rel {σ τ : Type} (R : Nat → σ → τ → Prop) (f : Nat → σ → σ) (g : Nat → τ → τ)
    (cnt lo : Nat) (s : σ) (t : τ) (h0 : R lo s t)
    (hstep : ∀ i s t, lo ≤ i → i < lo + cnt → R i s t → R (i + 1) (f i s) (g i t)) :
    R (lo + cnt) (forUp f cnt lo s) (forUp g cnt lo t) := by
  induction cnt generalizing lo s t with
  | zero => simpa [forUp] using h0
  | succ c ih =>
    rw [forUp, forUp]
    have h1 := hstep lo s t (le_refl _) (by omega) h0
    have := ih (lo + 1) (f lo s) (g lo t) h1
      (fun i s t hi hi2 hp => hstep i s t (by omega) (by omega) hp)
    have e : lo + 1 + c = lo + (c + 1) := by omega
    rwa [e] at this

/-- Relational invariant rule for two runs of `forRange` in lockstep. -/
theorem forRange_rel {σ τ : Type} (R : Nat → σ → τ → Prop) (lo hi : Nat) (f : Nat → σ → σ)
    (g : Nat → τ → τ) (s : σ) (t : τ) (hle : lo ≤ hi + 1) (h0 : R lo s t)
    (hstep : ∀ i s t, lo ≤ i → i ≤ hi → R i s t → R (i + 1) (f i s) (g i t)) :
    R (hi + 1) (forRange lo hi f s) (forRange lo hi g t) := by
  unfold forRange
  have := forUp_rel R f g (hi + 1 - lo) lo s t h0
    (fun i s t h1 h2 hp => hstep i s t h1 (by omega) hp)
  have e : lo + (hi + 1 - lo) = hi + 1 := by omega
  rwa [e] at this

/-- A relation kept by every pair of bodies is kept by two loops in lockstep. -/
theorem forRange_rel_keep {σ τ : Type} (R : σ → τ → Prop) (lo hi : Nat) (f : Nat → σ → σ)
    (g : Nat → τ → τ) (s : σ) (t : τ) (h0 : R s t)
    (hstep : ∀ i s t, lo ≤ i → i ≤ hi → R s t → R (f i s) (g i t)) :
    R (forRange lo hi f s) (forRange lo hi g t) := by
  by_cases hle : lo ≤ hi + 1
  · exact forRange_rel (fun _ => R) lo hi f g s t hle h0 hstep
  · rw [forRange_empty f lo hi s (by omega), forRange_empty g lo hi t (by omega)]
    exact h0

/-- Relational invariant rule for two runs of `forDown` in lockstep; `R i` holds
before the iteration `i`, `R 0` at the end. -/
theorem forDown_rel {σ τ : Type} (R : Nat → σ → τ → Prop) (f : Nat → σ → σ) (g : Nat → τ → τ)
    (n : Nat) (s : σ) (t : τ) (h0 : R n s t)
    (hstep : ∀ i s t, 1 ≤ i → i ≤ n → R i s t → R (i - 1) (f i s) (g i t)) :
    R 0 (forDown f n s) (forDown g n t) := by
  induction n generalizing s t with
  | zero => simpa [forDown] using h0
  | succ k ih =>
    rw [forDown, forDown]
    exact ih _ _ (hstep (k + 1) s t (by omega) (le_refl _) h0)
      (fun i s t h1 h2 hp => hstep i s t h1 (by omega) hp)

end Agree

section RelBidiag

variable {K : Type} [LinearOrderedField K]

/-- After the copy of `a`, the window of `u` holds `a`, whatever `u` held. -/
theorem copyAU_window (nm m n : Nat) (a u : Buf K) (x : Int) (hx : Win nm m n x) :
    (copyAU nm m n a u).get x = a.get x := by
  obtain ⟨i0, j0, h1, h2, h3, h4, rfl⟩ := hx
  unfold copyAU
  have := forRange_induct (fun i (u : Buf K) =>
      forRange 1 n (fun j u => u.set (MINDX i j nm) (a (MINDX i j nm))) u)
    (fun i t => ∀ i' j', 1 ≤ i' → i' < i → 1 ≤ j' → j' ≤ n →
      t.get (MINDX i' j' nm) = a.get (MINDX i' j' nm)) 1 m u (by omega)
    (fun i' j' h5 h6 => by omega)
    (fun i t hi1 hi2 hp => by
      have := forRange_induct (fun j (u : Buf K) => u.set (MINDX i j nm) (a (MINDX i j nm)))
        (fun j t' => (∀ i' j', 1 ≤ i' → i' < i → 1 ≤ j' → j' ≤ n →
            t'.get (MINDX i' j' nm) = a.get (MINDX i' j' nm)) ∧
          ∀ j', 1 ≤ j' → j' < j → t'.get (MINDX i j' nm) = a.get (MINDX i j' nm)) 1 n t
        (by omega) ⟨hp, fun j' h5 h6 => by omega⟩
        (fun j t' hj1 hj2 hq => by
          have key : ∀ y, t'.get y = a.get y →
              (t'.set (MINDX i j nm) (a (MINDX i j nm))).get y = a.get y := by
            intro y hy
            rw [Buf.get_set]
            split_ifs with e
            · rw [e]
            · exact hy
          refine ⟨fun i' j' h5 h6 h7 h8 => key _ (hq.1 i' j' h5 h6 h7 h8), fun j' h5 h6 => ?_⟩
          by_cases e : j' = j
          · subst e
            exact Buf.get_set_same _ _ _
          · exact key _ (hq.2 j' h5 (by omega)))
      intro i' j' h5 h6 h7 h8
      by_cases e : i' = i
      · subst e
        exact this.2 j' h7 (by omega)
      · exact this.1 i' j' h5 (by omega) h7 h8)
  exact this i0 j0 h1 (by omega) h3 h4

theorem colScale_rel (nm m n i : Nat) (u t : Buf K) (h : AgreeOn (Win nm m n) u t)
    (hi : 1 ≤ i) (hin : i ≤ n) : colScale nm m i u = colScale nm m i t := by
  unfold colScale
  refine forRange_rel_keep (fun a b : K => a = b) _ _ _ _ _ _ rfl ?_
  intro k a b h1 h2 hab
  show a + |u.get _| = b + |t.get _|
  rw [hab, h _ (Win_mk (by omega) h2 hi hin)]

theorem colNormalize_rel (nm m n i : Nat) (scale : K) (u t : Buf K)
    (h : AgreeOn (Win nm m n) u t) (hi : 1 ≤ i) (hin : i ≤ n) :
    (colNormalize nm m i scale u).1 = (colNormalize nm m i scale t).1 ∧
      AgreeOn (Win nm m n) (colNormalize nm m i scale u).2 (colNormalize nm m i scale t).2 := by
  unfold colNormalize
  refine forRange_rel_keep (fun a b : K × Buf K => a.1 = b.1 ∧ AgreeOn (Win nm m n) a.2 b.2)
    _ _ _ _ _ _ ⟨rfl, h⟩ ?_
  intro k a b h1 h2 hab
  have e := hab.2 _ (Win_mk (by omega) h2 hi hin)
  refine ⟨?_, ?_⟩
  · show a.1 + a.2.get _ / scale * (a.2.get _ / scale) = b.1 + b.2.get _ / scale * (b.2.get _ / scale)
    rw [hab.1, e]
  · show AgreeOn _ (a.2.set _ (a.2.get _ / scale)) (b.2.set _ (b.2.get _ / scale))
    exact hab.2.set _ (by rw [e])

theorem dot_col_rel (nm m n i j : Nat) (u t : Buf K) (h : AgreeOn (Win nm m n) u t)
    (lo : Nat) (hlo : 1 ≤ lo) (hi : 1 ≤ i) (hin : i ≤ n) (hj : 1 ≤ j) (hjn : j ≤ n) :
    forRange lo m (fun k (s : K) => s + u (MINDX k i nm) * u (MINDX k j nm)) 0 =
      forRange lo m (fun k (s : K) => s + t (MINDX k i nm) * t (MINDX k j nm)) 0 := by
  refine forRange_rel_keep (fun a b : K => a = b) _ _ _ _ _ _ rfl ?_
  intro k a b h1 h2 hab
  show a + u.get _ * u.get _ = b + t.get _ * t.get _
  rw [hab, h _ (Win_mk (by omega) h2 hi hin), h _ (Win_mk (by omega) h2 hj hjn)]

/-- The update `u[k,j] += f * u[k,i]` for `k = lo..m`, two runs in lockstep. -/
theorem axpy_col_rel (nm m n i j : Nat) (f : K) (u t : Buf K) (h : AgreeOn (Win nm m n) u t)
    (lo : Nat) (hlo : 1 ≤ lo) (hi : 1 ≤ i) (hin : i ≤ n) (hj : 1 ≤ j) (hjn : j ≤ n) :
    AgreeOn (Win nm m n)
      (forRange lo m (fun k (u : Buf K) =>
        u.set (MINDX k j nm) (u (MINDX k j nm) + f * u (MINDX k i nm))) u)
      (forRange lo m (fun k (u : Buf K) =>
        u.set (MINDX k j nm) (u (MINDX k j nm) + f * u (MINDX k i nm))) t) := by
  refine forRange_rel_keep (fun a b : Buf K => AgreeOn (Win nm m n) a b) _ _ _ _ _ _ h ?_
  intro k a b h1 h2 hab
  apply hab.set
  show a.get _ + f * a.get _ = b.get _ + f * b.get _
  rw [hab _ (Win_mk (by omega) h2 hi hin), hab _ (Win_mk (by omega) h2 hj hjn)]

theorem colApply_rel (nm m n i : Nat) (hh : K) (u t : Buf K) (h : AgreeOn (Win nm m n) u t)
    (hi : 1 ≤ i) (hin : i ≤ n) :
    AgreeOn (Win nm m n) (colApply nm m n i hh u) (colApply nm m n i hh t) := by
  unfold colApply
  refine forRange_rel_keep (fun a b : Buf K => AgreeOn (Win nm m n) a b) _ _ _ _ _ _ h ?_
  intro j a b h1 h2 hab
  simp only []
  rw [dot_col_rel nm m n i j a b hab i hi hi hin (by omega) h2]
  exact axpy_col_rel nm m n i j _ a b hab i hi hi hin (by omega) h2

theorem colRescale_rel (nm m n i : Nat) (scale : K) (u t : Buf K)
    (h : AgreeOn (Win nm m n) u t) (hi : 1 ≤ i) (hin : i ≤ n) :
    AgreeOn (Win nm m n) (colRescale nm m i scale u) (colRescale nm m i scale t) := by
  unfold colRescale
  refine forRange_rel_keep (fun a b : Buf K => AgreeOn (Win nm m n) a b) _ _ _ _ _ _ h ?_
  intro k a b h1 h2 hab
  apply hab.set
  show a.get _ * scale = b.get _ * scale
  rw [hab _ (Win_mk (by omega) h2 hi hin)]

theorem colHouse_rel (sqrt : K → K) (nm m n i : Nat) (scale : K) (u t : Buf K)
    (h : AgreeOn (Win nm m n) u t) (hi : 1 ≤ i) (hin : i ≤ n) (him : i ≤ m) :
    AgreeOn (Win nm m n) (colHouse sqrt nm m n i scale u).1 (colHouse sqrt nm m n i scale t).1 ∧
      (colHouse sqrt nm m n i scale u).2 = (colHouse sqrt nm m n i scale t).2 := by
  have cn := colNormalize_rel nm m n i scale u t h hi hin
  have e := cn.2 _ (Win_mk hi him hi hin)
  unfold colHouse
  simp only []
  rw [cn.1, e]
  refine ⟨?_, rfl⟩
  apply colRescale_rel nm m n i scale _ _ _ hi hin
  have hs : AgreeOn (Win nm m n)
      ((colNormalize nm m i scale u).2.set (MINDX i i nm)
        ((colNormalize nm m i scale t).2.get (MINDX i i nm) -
          -SIGN (sqrt (colNormalize nm m i scale t).1)
            ((colNormalize nm m i scale t).2.get (MINDX i i nm))))
      ((colNormalize nm m i scale t).2.set (MINDX i i nm)
        ((colNormalize nm m i scale t).2.get (MINDX i i nm) -
          -SIGN (sqrt (colNormalize nm m i scale t).1)
            ((colNormalize nm m i scale t).2.get (MINDX i i nm)))) := cn.2.set _ rfl
  split_ifs
  · exact colApply_rel nm m n i _ _ _ hs hi hin
  · exact hs

theorem colStep_rel (sqrt : K → K) (nm m n i : Nat) (u t : Buf K)
    (h : AgreeOn (Win nm m n) u t) (hi : 1 ≤ i) (hin : i ≤ n) :
    AgreeOn (Win nm m n) (colStep sqrt nm m n i u).1 (colStep sqrt nm m n i t).1 ∧
      (colStep sqrt nm m n i u).2 = (colStep sqrt nm m n i t).2 := by
  unfold colStep
  simp only []
  rw [colScale_rel nm m n i u t h hi hin]
  split_ifs with h1 h2
  · have := colHouse_rel sqrt nm m n i (colScale nm m i t) u t h hi hin h1
    exact ⟨this.1, by rw [this.2]⟩
  · exact ⟨h, rfl⟩
  · exact ⟨h, rfl⟩

end RelBidiag
section RelBidiag2

variable {K : Type} [LinearOrderedField K]

theorem rowScale_rel (nm m n i : Nat) (u t : Buf K) (h : AgreeOn (Win nm m n) u t)
    (hi : 1 ≤ i) (him : i ≤ m) : rowScale nm n i u = rowScale nm n i t := by
  unfold rowScale
  refine forRange_rel_keep (fun a b : K => a = b) _ _ _ _ _ _ rfl ?_
  intro k a b h1 h2 hab
  show a + |u.get _| = b + |t.get _|
  rw [hab, h _ (Win_mk hi him (by omega) h2)]

theorem rowNormalize_rel (nm m n i : Nat) (scale : K) (u t : Buf K)
    (h : AgreeOn (Win nm m n) u t) (hi : 1 ≤ i) (him : i ≤ m) :
    (rowNormalize nm n i scale u).1 = (rowNormalize nm n i scale t).1 ∧
      AgreeOn (Win nm m n) (rowNormalize nm n i scale u).2 (rowNormalize nm n i scale t).2 := by
  unfold rowNormalize
  refine forRange_rel_keep (fun a b : K × Buf K => a.1 = b.1 ∧ AgreeOn (Win nm m n) a.2 b.2)
    _ _ _ _ _ _ ⟨rfl, h⟩ ?_
  intro k a b h1 h2 hab
  have e := hab.2 _ (Win_mk hi him (by omega) h2)
  refine ⟨?_, ?_⟩
  · show a.1 + a.2.get _ / scale * (a.2.get _ / scale) = b.1 + b.2.get _ / scale * (b.2.get _ / scale)
    rw [hab.1, e]
  · show AgreeOn _ (a.2.set _ (a.2.get _ / scale)) (b.2.set _ (b.2.get _ / scale))
    exact hab.2.set _ (by rw [e])

theorem rowRv1_rel (nm m n i : Nat) (hh : K) (u t rv1 : Buf K) (h : AgreeOn (Win nm m n) u t)
    (hi : 1 ≤ i) (him : i ≤ m) : rowRv1 nm n i hh u rv1 = rowRv1 nm n i hh t rv1 := by
  unfold rowRv1
  refine forRange_rel_keep (fun a b : Buf K => a = b) _ _ _ _ _ _ rfl ?_
  intro k a b h1 h2 hab
  show a.set _ (u.get _ / hh) = b.set _ (t.get _ / hh)
  rw [hab, h _ (Win_mk hi him (by omega) h2)]

theorem rowApply_rel (nm m n i : Nat) (rv1 u t : Buf K) (h : AgreeOn (Win nm m n) u t)
    (hi : 1 ≤ i) (him : i ≤ m) :
    AgreeOn (Win nm m n) (rowApply nm m n i rv1 u) (rowApply nm m n i rv1 t) := by
  unfold rowApply
  refine forRange_rel_keep (fun a b : Buf K => AgreeOn (Win nm m n) a b) _ _ _ _ _ _ h ?_
  intro j a b h1 h2 hab
  simp only []
  have es : forRange (i + 1) n (fun k (s : K) => s + a (MINDX j k nm) * a (MINDX i k nm)) 0 =
      forRange (i + 1) n (fun k (s : K) => s + b (MINDX j k nm) * b (MINDX i k nm)) 0 := by
    refine forRange_rel_keep (fun x y : K => x = y) _ _ _ _ _ _ rfl ?_
    intro k x y h3 h4 hxy
    show x + a.get _ * a.get _ = y + b.get _ * b.get _
    rw [hxy, hab _ (Win_mk (by omega) h2 (by omega) h4),
      hab _ (Win_mk hi him (by omega) h4)]
  rw [es]
  refine forRange_rel_keep (fun a b : Buf K => AgreeOn (Win nm m n) a b) _ _ _ _ _ _ hab ?_
  intro k x y h3 h4 hxy
  apply hxy.set
  show x.get _ + _ = y.get _ + _
  rw [hxy _ (Win_mk (by omega) h2 (by omega) h4)]

theorem rowRescale_rel (nm m n i : Nat) (scale : K) (u t : Buf K)
    (h : AgreeOn (Win nm m n) u t) (hi : 1 ≤ i) (him : i ≤ m) :
    AgreeOn (Win nm m n) (rowRescale nm n i scale u) (rowRescale nm n i scale t) := by
  unfold rowRescale
  refine forRange_rel_keep (fun a b : Buf K => AgreeOn (Win nm m n) a b) _ _ _ _ _ _ h ?_
  intro k a b h1 h2 hab
  apply hab.set
  show a.get _ * scale = b.get _ * scale
  rw [hab _ (Win_mk hi him (by omega) h2)]

theorem rowHouse_rel (sqrt : K → K) (nm m n i : Nat) (scale : K) (u t rv1 : Buf K)
    (h : AgreeOn (Win nm m n) u t) (hi : 1 ≤ i) (hin : i < n) (him : i ≤ m) :
    AgreeOn (Win nm m n) (rowHouse sqrt nm m n i scale u rv1).1
      (rowHouse sqrt nm m n i scale t rv1).1 ∧
    (rowHouse sqrt nm m n i scale u rv1).2 = (rowHouse sqrt nm m n i scale t rv1).2 := by
  have cn := rowNormalize_rel nm m n i scale u t h hi him
  have e := cn.2 _ (Win_mk hi him (Nat.le_add_left 1 i) hin)
  unfold rowHouse
  simp only []
  rw [cn.1, e]
  have hs : AgreeOn (Win nm m n)
      ((rowNormalize nm n i scale u).2.set (MINDX i (i + 1) nm)
        ((rowNormalize nm n i scale t).2.get (MINDX i (i + 1) nm) -
          -SIGN (sqrt (rowNormalize nm n i scale t).1)
            ((rowNormalize nm n i scale t).2.get (MINDX i (i + 1) nm))))
      ((rowNormalize nm n i scale t).2.set (MINDX i (i + 1) nm)
        ((rowNormalize nm n i scale t).2.get (MINDX i (i + 1) nm) -
          -SIGN (sqrt (rowNormalize nm n i scale t).1)
            ((rowNormalize nm n i scale t).2.get (MINDX i (i + 1) nm)))) := cn.2.set _ rfl
  rw [rowRv1_rel nm m n i _ _ _ rv1 hs hi him]
  refine ⟨?_, rfl⟩
  apply rowRescale_rel nm m n i scale _ _ _ hi him
  split_ifs
  · exact rowApply_rel nm m n i _ _ _ hs hi him
  · exact hs

theorem rowStep_rel (sqrt : K → K) (nm m n i : Nat) (u t rv1 : Buf K)
    (h : AgreeOn (Win nm m n) u t) (hi : 1 ≤ i) (hin : i ≤ n) :
    AgreeOn (Win nm m n) (rowStep sqrt nm m n i u rv1).1 (rowStep sqrt nm m n i t rv1).1 ∧
      (rowStep sqrt nm m n i u rv1).2 = (rowStep sqrt nm m n i t rv1).2 := by
  unfold rowStep
  simp only []
  split_ifs with h1 h2 h3 h3
  · have := rowHouse_rel sqrt nm m n i (rowScale nm n i u) u t rv1 h hi (by omega) h1.1
    rw [rowScale_rel nm m n i u t h hi h1.1] at this ⊢
    exact ⟨this.1, by rw [this.2]⟩
  · exact absurd (rowScale_rel nm m n i u t h hi h1.1 ▸ h2) h3
  · exact absurd (rowScale_rel nm m n i u t h hi h1.1 ▸ h3) h2
  · exact ⟨h, by rw [rowScale_rel nm m n i u t h hi h1.1]⟩
  · exact ⟨h, rfl⟩

/-- Two bidiagonalizations in lockstep, on arrays `u` that agree on the window
and arrays `w` of any content, with the same workspace `rv1`. -/
theorem bidiag_rel (sqrt : K → K) (nm m n : Nat) (u t w w2 rv1 : Buf K)
    (h : AgreeOn (Win nm m n) u t) :
    AgreeOn (Win nm m n) (bidiag sqrt nm m n u w rv1).u (bidiag sqrt nm m n t w2 rv1).u ∧
    AgreeOn (Seg n) (bidiag sqrt nm m n u w rv1).w (bidiag sqrt nm m n t w2 rv1).w ∧
    (bidiag sqrt nm m n u w rv1).rv1 = (bidiag sqrt nm m n t w2 rv1).rv1 ∧
    (bidiag sqrt nm m n u w rv1).g = (bidiag sqrt nm m n t w2 rv1).g ∧
    (bidiag sqrt nm m n u w rv1).anorm = (bidiag sqrt nm m n t w2 rv1).anorm := by
  unfold bidiag
  have := forRange_rel (fun i (b c : BSt K) => AgreeOn (Win nm m n) b.u c.u ∧
      (∀ j, 1 ≤ j → j < i → b.w.get (VINDX j) = c.w.get (VINDX j)) ∧
      b.rv1 = c.rv1 ∧ b.g = c.g ∧ b.scale = c.scale ∧ b.anorm = c.anorm) 1 n
    (bidiagStep sqrt nm m n) (bidiagStep sqrt nm m n)
    { u := u, w := w, rv1 := rv1, g := 0, scale := 0, anorm := 0 }
    { u := t, w := w2, rv1 := rv1, g := 0, scale := 0, anorm := 0 } (by omega)
    ⟨h, fun j h1 h2 => by omega, rfl, rfl, rfl, rfl⟩
    (fun i b c h1 h2 hp => by
      obtain ⟨p1, p2, p3, p4, p5, p6⟩ := hp
      have cs := colStep_rel sqrt nm m n i b.u c.u p1 h1 h2
      have rs := rowStep_rel sqrt nm m n i _ _ (c.rv1.set (VINDX i) (c.scale * c.g)) cs.1 h1 h2
      unfold bidiagStep
      simp only []
      rw [p3, p4, p5, p6, cs.2]
      refine ⟨rs.1, fun j h3 h4 => ?_, by rw [rs.2], by rw [rs.2], by rw [rs.2], ?_⟩
      · by_cases e : j = i
        · rw [e, Buf.get_set_same, Buf.get_set_same]
        · rw [Buf.get_set_ne _ _ (by unfold VINDX; omega),
            Buf.get_set_ne _ _ (by unfold VINDX; omega)]
          exact p2 j h3 (by omega)
      · show MAX _ (|(b.w.set _ _).get _| + _) = MAX _ (|(c.w.set _ _).get _| + _)
        rw [Buf.get_set_same, Buf.get_set_same, rs.2])
  refine ⟨this.1, fun x hx => ?_, this.2.2.1, this.2.2.2.1, this.2.2.2.2.2⟩
  have hx1 : 0 ≤ x := hx.1
  have hx2 : x < n := hx.2
  have := this.2.1 (x.toNat + 1) (by omega) (by omega)
  have e : VINDX (x.toNat + 1) = x := by unfold VINDX; omega
  rwa [e] at this

/-- The row step is skipped for `i > m`, so `rv1[VINDX(j)] = 0` for `m+1 < j <= n`. -/
theorem bidiag_rv1_tail (sqrt : K → K) (nm m n : Nat) (u w rv1 : Buf K) (j : Nat)
    (hj1 : m + 1 < j) (hj2 : j ≤ n) : (bidiag sqrt nm m n u w rv1).rv1.get (VINDX j) = 0 := by
  unfold bidiag
  have := forRange_induct (bidiagStep sqrt nm m n)
    (fun i b => (m + 1 < i → b.scale = 0) ∧
      (∀ j, m + 1 < j → j < i → b.rv1.get (VINDX j) = 0)) 1 n
    { u := u, w := w, rv1 := rv1, g := 0, scale := 0, anorm := 0 } (by omega)
    ⟨fun _ => rfl, fun j h1 h2 => by omega⟩
    (fun i b h1 h2 hp => by
      refine ⟨fun h3 => ?_, fun j h3 h4 => ?_⟩
      · show (rowStep sqrt nm m n i _ _).2.2.2 = 0
        unfold rowStep
        simp only []
        rw [if_neg (by omega)]
      · show (rowStep sqrt nm m n i _ _).2.1.get (VINDX j) = 0
        rw [rowStep_rv1_frame _ _ _ _ _ _ _ _ (by unfold VINDX; omega), Buf.get_set]
        split_ifs with h5
        · have e : j = i := VINDX_inj h5
          rw [hp.1 (by omega), zero_mul]
        · exact hp.2 j h3 (by
            have : j ≠ i := fun e => h5 (by rw [e])
            omega))
  exact this.2 j hj1 (by omega)

end RelBidiag2
section RelAcc

variable {K : Type} [LinearOrderedField K]

theorem AgreeOn.mono {K : Type} {W V : Int → Prop} {u t : Buf K} (h : AgreeOn W u t)
    (hs : ∀ x, V x → W x) : AgreeOn V u t := fun x hx => h x (hs x hx)

/-- A store of the same value at the same offset extends the set of agreement. -/
theorem AgreeOn.set_grow {K : Type} {W : Int → Prop} {u t : Buf K} (h : AgreeOn W u t)
    (a : Int) (c : K) : AgreeOn (fun x => W x ∨ x = a) (u.set a c) (t.set a c) := by
  intro x hx
  rw [Buf.get_set, Buf.get_set]
  split_ifs with e
  · rfl
  · rcases hx with hx | hx
    · exact h x hx
    · exact absurd hx e

theorem accUStep_rel (nm m n mn : Nat) (w w2 u t : Buf K) (i : Nat)
    (h : AgreeOn (Win nm m n) u t) (hw : AgreeOn (Seg n) w w2)
    (hi : 1 ≤ i) (hin : i ≤ n) (him : i ≤ m) :
    AgreeOn (Win nm m n) (accUStep nm m n mn w i u) (accUStep nm m n mn w2 i t) := by
  have eg : w.get (VINDX i) = w2.get (VINDX i) := hw _ (by unfold Seg VINDX; omega)
  have c1 : ∀ a b : Buf K, AgreeOn (Win nm m n) a b →
      AgreeOn (Win nm m n) (accUClearRow nm n i a) (accUClearRow nm n i b) := by
    intro a b hab
    unfold accUClearRow
    refine forRange_rel_keep (fun a b : Buf K => AgreeOn (Win nm m n) a b) _ _ _ _ _ _ hab ?_
    intro j x y h1 h2 hxy
    exact hxy.set _ rfl
  have c2 : ∀ (g : K) (a b : Buf K), AgreeOn (Win nm m n) a b →
      AgreeOn (Win nm m n) (accUApply nm m n i g a) (accUApply nm m n i g b) := by
    intro g a b hab
    unfold accUApply
    refine forRange_rel_keep (fun a b : Buf K => AgreeOn (Win nm m n) a b) _ _ _ _ _ _ hab ?_
    intro j x y h1 h2 hxy
    simp only []
    rw [dot_col_rel nm m n i j x y hxy (i + 1) (by omega) hi hin (by omega) h2,
      hxy _ (Win_mk hi him hi hin)]
    exact axpy_col_rel nm m n i j _ x y hxy i hi hi hin (by omega) h2
  have c3 : ∀ (g : K) (a b : Buf K), AgreeOn (Win nm m n) a b →
      AgreeOn (Win nm m n) (accUScale nm m i g a) (accUScale nm m i g b) := by
    intro g a b hab
    unfold accUScale
    refine forRange_rel_keep (fun a b : Buf K => AgreeOn (Win nm m n) a b) _ _ _ _ _ _ hab ?_
    intro j x y h1 h2 hxy
    apply hxy.set
    show x.get _ / g = y.get _ / g
    rw [hxy _ (Win_mk (by omega) h2 hi hin)]
  have c4 : ∀ (a b : Buf K), AgreeOn (Win nm m n) a b →
      AgreeOn (Win nm m n) (accUZero nm m i a) (accUZero nm m i b) := by
    intro a b hab
    unfold accUZero
    refine forRange_rel_keep (fun a b : Buf K => AgreeOn (Win nm m n) a b) _ _ _ _ _ _ hab ?_
    intro j x y h1 h2 hxy
    exact hxy.set _ rfl
  have c5 : ∀ (a b : Buf K), AgreeOn (Win nm m n) a b →
      AgreeOn (Win nm m n) (a.set (MINDX i i nm) (a.get (MINDX i i nm) + 1))
        (b.set (MINDX i i nm) (b.get (MINDX i i nm) + 1)) := by
    intro a b hab
    apply hab.set
    rw [hab _ (Win_mk hi him hi hin)]
  unfold accUStep
  simp only []
  rw [eg]
  apply c5
  split_ifs
  · exact c3 _ _ _ (c2 _ _ _ (c1 _ _ h))
  · exact c3 _ _ _ (c2 _ _ _ h)
  · exact c3 _ _ _ (c1 _ _ h)
  · exact c3 _ _ _ h
  · exact c4 _ _ (c1 _ _ h)
  · exact c4 _ _ h

theorem accU_rel (nm m n : Nat) (w w2 u t : Buf K)
    (h : AgreeOn (Win nm m n) u t) (hw : AgreeOn (Seg n) w w2) :
    AgreeOn (Win nm m n) (accU nm m n w u) (accU nm m n w2 t) := by
  unfold accU
  simp only []
  have hm := MIN_le m n
  exact forDown_rel (fun _ (a b : Buf K) => AgreeOn (Win nm m n) a b) _ _ (MIN m n) u t h
    (fun i a b h1 h2 hab => accUStep_rel nm m n _ w w2 a b i hab hw h1 (by omega) (by omega))

end RelAcc
section RelAccV

variable {K : Type} [LinearOrderedField K]

theorem accVCol_rel (nm m n i L : Nat) (u t : Buf K) (g : K) (v v2 : Buf K) (W : Int → Prop)
    (hu : AgreeOn (Win nm m n) u t) (hv : AgreeOn W v v2) (hi : 1 ≤ i) (him : i ≤ m)
    (hL : 1 ≤ L) (hLn : L ≤ n + 1) :
    AgreeOn (fun x => W x ∨ ∃ j, L ≤ j ∧ j ≤ n ∧ x = MINDX j i nm)
      (accVCol nm n i L u g v) (accVCol nm n i L t g v2) := by
  unfold accVCol
  have := forRange_rel (fun j (a b : Buf K) =>
      AgreeOn (fun x => W x ∨ ∃ j', L ≤ j' ∧ j' < j ∧ x = MINDX j' i nm) a b) L n
    (fun j v => v.set (MINDX j i nm) ((u (MINDX i j nm) / u (MINDX i L nm)) / g))
    (fun j v => v.set (MINDX j i nm) ((t (MINDX i j nm) / t (MINDX i L nm)) / g)) v v2 hLn
    (fun x hx => by
      rcases hx with hx | ⟨j', h1, h2, _⟩
      · exact hv x hx
      · omega)
    (fun j a b h1 h2 hab => by
      have e : (u (MINDX i j nm) / u (MINDX i L nm)) / g =
          (t (MINDX i j nm) / t (MINDX i L nm)) / g := by
        show u.get _ / u.get _ / g = t.get _ / t.get _ / g
        rw [hu _ (Win_mk hi him (by omega) h2), hu _ (Win_mk hi him hL (by omega))]
      simp only []
      rw [e]
      refine (hab.set_grow (MINDX j i nm) _).mono ?_
      intro x hx
      rcases hx with hx | ⟨j', h3, h4, h5⟩
      · exact Or.inl (Or.inl hx)
      · by_cases e' : j' = j
        · right; rw [h5, e']
        · exact Or.inl (Or.inr ⟨j', h3, by omega, h5⟩))
  refine this.mono ?_
  intro x hx
  rcases hx with hx | ⟨j, h1, h2, h3⟩
  · exact Or.inl hx
  · exact Or.inr ⟨j, h1, by omega, h3⟩

theorem accVApply_rel (nm m n i L : Nat) (u t : Buf K) (v v2 : Buf K) (W : Int → Prop)
    (hu : AgreeOn (Win nm m n) u t) (hv : AgreeOn W v v2) (hi : 1 ≤ i) (him : i ≤ m)
    (hL : 1 ≤ L)
    (hW1 : ∀ k j, L ≤ k → k ≤ n → L ≤ j → j ≤ n → W (MINDX k j nm))
    (hW2 : ∀ k, L ≤ k → k ≤ n → W (MINDX k i nm)) :
    AgreeOn W (accVApply nm n i L u v) (accVApply nm n i L t v2) := by
  unfold accVApply
  refine forRange_rel_keep (fun a b : Buf K => AgreeOn W a b) _ _ _ _ _ _ hv ?_
  intro j a b h1 h2 hab
  simp only []
  have es : forRange L n (fun k (s : K) => s + u (MINDX i k nm) * a (MINDX k j nm)) 0 =
      forRange L n (fun k (s : K) => s + t (MINDX i k nm) * b (MINDX k j nm)) 0 := by
    refine forRange_rel_keep (fun x y : K => x = y) _ _ _ _ _ _ rfl ?_
    intro k x y h3 h4 hxy
    show x + u.get _ * a.get _ = y + t.get _ * b.get _
    rw [hxy, hu _ (Win_mk hi him (by omega) h4), hab _ (hW1 k j h3 h4 h1 h2)]
  rw [es]
  refine forRange_rel_keep (fun a b : Buf K => AgreeOn W a b) _ _ _ _ _ _ hab ?_
  intro k x y h3 h4 hxy
  apply hxy.set
  show x.get _ + _ * x.get _ = y.get _ + _ * y.get _
  rw [hxy _ (hW1 k j h3 h4 h1 h2), hxy _ (hW2 k h3 h4)]

theorem accVClear_rel (nm n i L : Nat) (v v2 : Buf K) (W : Int → Prop)
    (hv : AgreeOn W v v2) (hLn : L ≤ n + 1) :
    AgreeOn (fun x => W x ∨ ∃ j, L ≤ j ∧ j ≤ n ∧ (x = MINDX i j nm ∨ x = MINDX j i nm))
      (accVClear nm n i L v) (accVClear nm n i L v2) := by
  unfold accVClear
  have := forRange_rel (fun j (a b : Buf K) =>
      AgreeOn (fun x => W x ∨ ∃ j', L ≤ j' ∧ j' < j ∧
        (x = MINDX i j' nm ∨ x = MINDX j' i nm)) a b) L n
    (fun j (v : Buf K) => (v.set (MINDX i j nm) 0).set (MINDX j i nm) 0)
    (fun j (v : Buf K) => (v.set (MINDX i j nm) 0).set (MINDX j i nm) 0) v v2 hLn
    (fun x hx => by
      rcases hx with hx | ⟨j', h1, h2, _⟩
      · exact hv x hx
      · omega)
    (fun j a b h1 h2 hab => by
      refine ((hab.set_grow (MINDX i j nm) 0).set_grow (MINDX j i nm) 0).mono ?_
      intro x hx
      rcases hx with hx | ⟨j', h3, h4, h5⟩
      · exact Or.inl (Or.inl (Or.inl hx))
      · by_cases e' : j' = j
        · rw [e'] at h5
          rcases h5 with h5 | h5
          · exact Or.inl (Or.inr h5)
          · exact Or.inr h5
        · exact Or.inl (Or.inl (Or.inr ⟨j', h3, by omega, h5⟩)))
  refine this.mono ?_
  intro x hx
  rcases hx with hx | ⟨j, h1, h2, h3⟩
  · exact Or.inl hx
  · exact Or.inr ⟨j, h1, by omega, h3⟩

/-- One step of the accumulation of `v`, two runs in lockstep: agreement on the
block `[i+1, n]^2` before the step gives agreement on `[i, n]^2` after it. -/
theorem accVStep_rel (nm m n : Nat) (u t rv1 : Buf K) (hu : AgreeOn (Win nm m n) u t)
    (i : Nat) (hi : 1 ≤ i) (hin : i ≤ n) (v v2 : Buf K) (g : K) (hg : i ≠ n → g ≠ 0 → i ≤ m)
    (hv : AgreeOn (Blk nm (i + 1) n) v v2) :
    AgreeOn (Blk nm i n) (accVStep nm n u rv1 i (v, g, i + 1)).1
      (accVStep nm n t rv1 i (v2, g, i + 1)).1 := by
  have key : AgreeOn (fun x => Blk nm (i + 1) n x ∨
      ∃ j, i + 1 ≤ j ∧ j ≤ n ∧ (x = MINDX i j nm ∨ x = MINDX j i nm))
      (if i ≠ n then
        accVClear nm n i (i + 1)
          (if g ≠ 0 then accVApply nm n i (i + 1) u (accVCol nm n i (i + 1) u g v) else v)
       else v)
      (if i ≠ n then
        accVClear nm n i (i + 1)
          (if g ≠ 0 then accVApply nm n i (i + 1) t (accVCol nm n i (i + 1) t g v2) else v2)
       else v2) := by
    split_ifs with h1 h2
    · apply accVClear_rel nm n i (i + 1) _ _ (Blk nm (i + 1) n) _ (by omega)
      have him := hg h1 h2
      have c := accVCol_rel nm m n i (i + 1) u t g v v2 _ hu hv hi him (by omega) (by omega)
      have a := accVApply_rel nm m n i (i + 1) u t _ _ _ hu c hi him (by omega)
        (fun k j h3 h4 h5 h6 => Or.inl ⟨k, j, h3, h4, h5, h6, rfl⟩)
        (fun k h3 h4 => Or.inr ⟨k, h3, h4, rfl⟩)
      exact a.mono (fun x hx => Or.inl hx)
    · exact accVClear_rel nm n i (i + 1) _ _ _ hv (by omega)
    · refine hv.mono (fun x hx => ?_)
      rcases hx with hx | ⟨j, h3, h4, _⟩
      · exact hx
      · omega
  unfold accVStep
  simp only []
  refine (key.set_grow (MINDX i i nm) 1).mono ?_
  rintro x ⟨k, j, h1, h2, h3, h4, rfl⟩
  by_cases ek : k = i
  · by_cases ej : j = i
    · right; rw [ek, ej]
    · left; right
      exact ⟨j, by omega, h4, Or.inl (by rw [ek])⟩
  · by_cases ej : j = i
    · left; right
      exact ⟨k, by omega, h2, Or.inr (by rw [ej])⟩
    · left; left
      exact ⟨k, j, by omega, h2, by omega, h4, rfl⟩

theorem accV_rel (nm m n : Nat) (u t rv1 v v2 : Buf K) (g : K)
    (hu : AgreeOn (Win nm m n) u t)
    (hrv : ∀ j, m + 1 < j → j ≤ n → rv1.get (VINDX j) = 0) :
    AgreeOn (Win nm n n) (accV nm n u rv1 v g (n + 1)) (accV nm n t rv1 v2 g (n + 1)) := by
  unfold accV
  have := forDown_rel (fun i (a b : Buf K × K × Nat) =>
      AgreeOn (Blk nm (i + 1) n) a.1 b.1 ∧ a.2 = b.2 ∧ a.2.2 = i + 1 ∧
        (i < n → a.2.1 = rv1.get (VINDX (i + 1))))
    (accVStep nm n u rv1) (accVStep nm n t rv1) n (v, g, n + 1) (v2, g, n + 1)
    ⟨fun x ⟨k, j, h1, h2, _⟩ => by omega, rfl, rfl, fun h => by omega⟩
    (fun i a b h1 h2 hp => by
      obtain ⟨av, ag, aL⟩ := a
      obtain ⟨bv, bg, bL⟩ := b
      obtain ⟨p1, p2, p3, p4⟩ := hp
      simp only [Prod.mk.injEq] at p2 p3 p4
      obtain ⟨rfl, rfl⟩ := p2
      subst p3
      have e : i - 1 + 1 = i := by omega
      rw [e]
      refine ⟨?_, rfl, rfl, fun _ => rfl⟩
      apply accVStep_rel nm m n u t rv1 hu i h1 h2 av bv ag _ p1
      intro hne hg
      by_contra hc
      rw [p4 (by omega)] at hg
      exact hg (hrv (i + 1) (by omega) (by omega)))
  exact this.1.mono (fun x hx => hx)

end RelAccV
section RelDiag

variable {K : Type} [LinearOrderedField K]

theorem Seg_VINDX {n i : Nat} (h1 : 1 ≤ i) (h2 : i ≤ n) : Seg n (VINDX i) := by
  unfold Seg VINDX
  omega

theorem rotCols_rel (nm rows cols p q : Nat) (c s : K) (u t : Buf K)
    (h : AgreeOn (Win nm rows cols) u t) (hp1 : 1 ≤ p) (hp2 : p ≤ cols) (hq1 : 1 ≤ q)
    (hq2 : q ≤ cols) :
    AgreeOn (Win nm rows cols) (rotCols nm rows p q c s u) (rotCols nm rows p q c s t) := by
  unfold rotCols
  refine forRange_rel_keep (fun a b : Buf K => AgreeOn (Win nm rows cols) a b) _ _ _ _ _ _ h ?_
  intro j a b h1 h2 hab
  simp only []
  have e1 := hab _ (Win_mk h1 h2 hp1 hp2)
  have e2 := hab _ (Win_mk h1 h2 hq1 hq2)
  apply AgreeOn.set
  · apply hab.set
    show a.get _ * c + a.get _ * s = b.get _ * c + b.get _ * s
    rw [e1, e2]
  · show -a.get _ * s + a.get _ * c = -b.get _ * s + b.get _ * c
    rw [e1, e2]

theorem splitScan_rel (anorm : K) (n : Nat) (w w2 rv1 : Buf K) (hw : AgreeOn (Seg n) w w2)
    (h0 : rv1.get 0 = 0) (k : Nat) (hk : k ≤ n) :
    splitScan anorm w rv1 k = splitScan anorm w2 rv1 k := by
  induction k with
  | zero => rfl
  | succ k ih =>
    rw [splitScan, splitScan]
    by_cases hk0 : k = 0
    · subst hk0
      have : |rv1.get (VINDX (0 + 1))| + anorm = anorm := by
        simp [VINDX, h0]
      rw [if_pos this, if_pos this]
    · have e : w.get (VINDX k) = w2.get (VINDX k) := hw _ (Seg_VINDX (by omega) (by omega))
      show (if _ then _ else if |w.get (VINDX k)| + anorm = anorm then _ else _) =
        (if _ then _ else if |w2.get (VINDX k)| + anorm = anorm then _ else _)
      rw [e, ih (by omega)]

theorem cancelLoop_rel (nm m n : Nat) (matu mu2 : Int) (anorm : K) (sqrt : K → K) (L1 : Nat)
    (pu pv : Prop) (hpu : pu → (matu ≠ 0 ↔ mu2 ≠ 0)) (hL1 : 1 ≤ L1) (hL1n : L1 ≤ n)
    (cnt i : Nat) (c s : K) (su sw sv tu tw tv rv1 : Buf K)
    (h : StRel nm m n pu pv ⟨su, sw, sv, rv1⟩ ⟨tu, tw, tv, rv1⟩) (hi : 1 ≤ i)
    (hcnt : i + cnt ≤ n + 1) :
    StRel nm m n pu pv (cancelLoop nm m matu anorm sqrt L1 cnt i c s ⟨su, sw, sv, rv1⟩)
      (cancelLoop nm m mu2 anorm sqrt L1 cnt i c s ⟨tu, tw, tv, rv1⟩) := by
  induction cnt generalizing i c s su sw tu tw rv1 with
  | zero => exact h
  | succ cnt ih =>
    obtain ⟨h1, h2, h3, _⟩ := h
    have e : sw.get (VINDX i) = tw.get (VINDX i) := h3 _ (Seg_VINDX hi (by omega))
    rw [cancelLoop, cancelLoop]
    simp only []
    split_ifs with t1 t2 t3 t3
    · exact ⟨h1, h2, h3, rfl⟩
    · rw [e]
      apply ih
      · refine ⟨fun hp => ?_, h2, h3.set _ rfl, rfl⟩
        exact rotCols_rel nm m n L1 i _ _ _ _ (h1 hp) hL1 hL1n hi (by omega)
      · omega
      · omega
    · rw [e]
      apply ih
      · refine ⟨fun hp => ?_, h2, h3.set _ rfl, rfl⟩
        exact absurd ((hpu hp).mp t2) t3
      · omega
      · omega
    · rw [e]
      apply ih
      · refine ⟨fun hp => ?_, h2, h3.set _ rfl, rfl⟩
        exact absurd ((hpu hp).mpr t3) t2
      · omega
      · omega
    · rw [e]
      apply ih
      · exact ⟨h1, h2, h3.set _ rfl, rfl⟩
      · omega
      · omega

end RelDiag
section RelDiag2

variable {K : Type} [LinearOrderedField K]

theorem splitCancel_rel (nm m n : Nat) (matu mu2 : Int) (anorm : K) (sqrt : K → K)
    (pu pv : Prop) (hpu : pu → (matu ≠ 0 ↔ mu2 ≠ 0)) (k : Nat) (hk1 : 1 ≤ k) (hkn : k ≤ n)
    (s t : St K) (h : StRel nm m n pu pv s t) (h0 : s.rv1.get 0 = 0) :
    StRel nm m n pu pv (splitCancel nm m matu anorm sqrt k s).1
      (splitCancel nm m mu2 anorm sqrt k t).1 ∧
    (splitCancel nm m matu anorm sqrt k s).2 = (splitCancel nm m mu2 anorm sqrt k t).2 := by
  obtain ⟨su, sw, sv, srv⟩ := s
  obtain ⟨tu, tw, tv, trv⟩ := t
  have hrv : srv = trv := h.2.2.2
  subst hrv
  have hp := splitScan_pos anorm sw srv k h0 hk1
  have hle := splitScan_le anorm sw srv k
  have e := splitScan_rel anorm n sw tw srv h.2.2.1 h0 k hkn
  unfold splitCancel
  simp only []
  rw [← e]
  split_ifs with hb
  · exact ⟨h, rfl⟩
  · have h2 : 2 ≤ (splitScan anorm sw srv k).1 := by
      by_contra hc
      exact hb (hp.2 (by omega))
    exact ⟨cancelLoop_rel nm m n matu mu2 anorm sqrt _ pu pv hpu (by omega) (by omega) _ _ _ _
      su sw sv tu tw tv srv h (by omega) (by omega), rfl⟩

/-- Two QR steps in lockstep. -/
theorem qrStep_rel (nm m n : Nat) (matu matv mu2 mv2 : Int) (sqrt : K → K)
    (pu pv : Prop) (hpu : pu → (matu ≠ 0 ↔ mu2 ≠ 0)) (hpv : pv → (matv ≠ 0 ↔ mv2 ≠ 0))
    (i1 : Nat) (h1 : 1 ≤ i1) (h2 : i1 + 1 ≤ n) (q r : QSt K)
    (h : StRel nm m n pu pv q.st r.st) (hc : q.c = r.c) (hs : q.s = r.s) (hf : q.f = r.f)
    (hx : q.x = r.x) :
    StRel nm m n pu pv (qrStep nm m n matu matv sqrt i1 q).st
      (qrStep nm m n mu2 mv2 sqrt i1 r).st ∧
    (qrStep nm m n matu matv sqrt i1 q).c = (qrStep nm m n mu2 mv2 sqrt i1 r).c ∧
    (qrStep nm m n matu matv sqrt i1 q).s = (qrStep nm m n mu2 mv2 sqrt i1 r).s ∧
    (qrStep nm m n matu matv sqrt i1 q).f = (qrStep nm m n mu2 mv2 sqrt i1 r).f ∧
    (qrStep nm m n matu matv sqrt i1 q).x = (qrStep nm m n mu2 mv2 sqrt i1 r).x := by
  obtain ⟨⟨qu, qw, qv, qrv⟩, qc, qs, qf, qx⟩ := q
  obtain ⟨⟨ru, rw', rv, rrv⟩, rc, rs, rf, rx⟩ := r
  simp only [] at hc hs hf hx
  subst hc hs hf hx
  obtain ⟨g1, g2, g3, g4⟩ := h
  simp only [] at g1 g2 g3 g4
  subst g4
  have e : qw.get (VINDX (i1 + 1)) = rw'.get (VINDX (i1 + 1)) :=
    g3 _ (Seg_VINDX (by omega) h2)
  unfold qrStep
  simp only []
  rw [e]
  refine ⟨⟨fun hp => ?_, fun hp => ?_, g3.set _ rfl, rfl⟩, rfl, rfl, rfl, rfl⟩
  · show AgreeOn _ (if matu ≠ 0 then _ else _) (if mu2 ≠ 0 then _ else _)
    by_cases t1 : matu ≠ 0
    · rw [if_pos t1, if_pos ((hpu hp).mp t1)]
      exact rotCols_rel nm m n i1 (i1 + 1) _ _ _ _ (g1 hp) h1 (by omega) (by omega) h2
    · rw [if_neg t1, if_neg (fun t2 => t1 ((hpu hp).mpr t2))]
      exact g1 hp
  · show AgreeOn _ (if matv ≠ 0 then _ else _) (if mv2 ≠ 0 then _ else _)
    by_cases t1 : matv ≠ 0
    · rw [if_pos t1, if_pos ((hpv hp).mp t1)]
      exact rotCols_rel nm n n i1 (i1 + 1) _ _ _ _ (g2 hp) h1 (by omega) (by omega) h2
    · rw [if_neg t1, if_neg (fun t2 => t1 ((hpv hp).mpr t2))]
      exact g2 hp

theorem qrSweep_rel (nm m n : Nat) (matu matv mu2 mv2 : Int) (sqrt : K → K)
    (pu pv : Prop) (hpu : pu → (matu ≠ 0 ↔ mu2 ≠ 0)) (hpv : pv → (matv ≠ 0 ↔ mv2 ≠ 0))
    (k L : Nat) (z : K) (hL : 1 ≤ L) (hLk : L < k) (hkn : k ≤ n) (s t : St K)
    (h : StRel nm m n pu pv s t) :
    StRel nm m n pu pv (qrSweep nm m n matu matv sqrt k L z s)
      (qrSweep nm m n mu2 mv2 sqrt k L z t) := by
  obtain ⟨g1, g2, g3, g4⟩ := h
  have eL : s.w.get (VINDX L) = t.w.get (VINDX L) := g3 _ (Seg_VINDX hL (by omega))
  have ek1 : s.w.get (VINDX (k - 1)) = t.w.get (VINDX (k - 1)) :=
    g3 _ (Seg_VINDX (by omega) (by omega))
  unfold qrSweep
  simp only []
  rw [eL, ek1, g4]
  have key := forRange_rel_keep (fun q r : QSt K => StRel nm m n pu pv q.st r.st ∧ q.c = r.c ∧
      q.s = r.s ∧ q.f = r.f ∧ q.x = r.x) L (k - 1)
    (qrStep nm m n matu matv sqrt) (qrStep nm m n mu2 mv2 sqrt)
  generalize ((t.w.get (VINDX L) - z) * (t.w.get (VINDX L) + z) + _) / t.w.get (VINDX L) = f0
  have := key { st := s, c := 1, s := 1, f := f0, x := t.w.get (VINDX L) }
    { st := t, c := 1, s := 1, f := f0, x := t.w.get (VINDX L) }
    ⟨⟨g1, g2, g3, g4⟩, rfl, rfl, rfl, rfl⟩
    (fun i q r h1 h2 hp => qrStep_rel nm m n matu matv mu2 mv2 sqrt pu pv hpu hpv i (by omega)
      (by omega) q r hp.1 hp.2.1 hp.2.2.1 hp.2.2.2.1 hp.2.2.2.2)
  obtain ⟨⟨r1, r2, r3, r4⟩, _, _, r7, r8⟩ := this
  refine ⟨r1, r2, ?_, ?_⟩
  · show AgreeOn _ (Buf.set _ _ _) (Buf.set _ _ _)
    exact r3.set _ r8
  · show Buf.set (Buf.set _ _ _) _ _ = Buf.set (Buf.set _ _ _) _ _
    rw [r4, r7]

theorem converge_rel (nm m n : Nat) (matv mv2 : Int)
    (pu pv : Prop) (hpv : pv → (matv ≠ 0 ↔ mv2 ≠ 0))
    (k : Nat) (hk1 : 1 ≤ k) (hkn : k ≤ n) (s t : St K) (h : StRel nm m n pu pv s t) :
    StRel nm m n pu pv (converge nm n matv k s) (converge nm n mv2 k t) := by
  obtain ⟨g1, g2, g3, g4⟩ := h
  have e : s.w.get (VINDX k) = t.w.get (VINDX k) := g3 _ (Seg_VINDX hk1 hkn)
  have neg : ∀ a b : Buf K, AgreeOn (Win nm n n) a b →
      AgreeOn (Win nm n n)
        (forRange 1 n (fun j (v : Buf K) => v.set (MINDX j k nm) (-(v (MINDX j k nm)))) a)
        (forRange 1 n (fun j (v : Buf K) => v.set (MINDX j k nm) (-(v (MINDX j k nm)))) b) := by
    intro a b hab
    refine forRange_rel_keep (fun a b : Buf K => AgreeOn (Win nm n n) a b) _ _ _ _ _ _ hab ?_
    intro j x y h1 h2 hxy
    apply hxy.set
    show -(x.get _) = -(y.get _)
    rw [hxy _ (Win_mk h1 h2 hk1 hkn)]
  unfold converge
  simp only []
  rw [e]
  by_cases hz : t.w.get (VINDX k) < 0
  · rw [if_pos hz, if_pos hz]
    by_cases t1 : matv ≠ 0
    · by_cases t2 : mv2 ≠ 0
      · rw [if_pos t1, if_pos t2]
        exact ⟨g1, fun hp => neg _ _ (g2 hp), g3.set _ rfl, g4⟩
      · rw [if_pos t1, if_neg t2]
        exact ⟨g1, fun hp => absurd ((hpv hp).mp t1) t2, g3.set _ rfl, g4⟩
    · by_cases t2 : mv2 ≠ 0
      · rw [if_neg t1, if_pos t2]
        exact ⟨g1, fun hp => absurd ((hpv hp).mpr t2) t1, g3.set _ rfl, g4⟩
      · rw [if_neg t1, if_neg t2]
        exact ⟨g1, g2, g3.set _ rfl, g4⟩
  · rw [if_neg hz, if_neg hz]
    exact ⟨g1, g2, g3, g4⟩

theorem repeatK_rel (nm m n : Nat) (matu matv mu2 mv2 : Int) (anorm : K) (sqrt : K → K)
    (pu pv : Prop) (hpu : pu → (matu ≠ 0 ↔ mu2 ≠ 0)) (hpv : pv → (matv ≠ 0 ↔ mv2 ≠ 0))
    (k : Nat) (hk1 : 1 ≤ k) (hkn : k ≤ n) (rem : Nat) (s t : St K)
    (h : StRel nm m n pu pv s t) (h0 : s.rv1.get 0 = 0) :
    StRel nm m n pu pv (repeatK nm m n matu matv anorm sqrt k rem s).1
      (repeatK nm m n mu2 mv2 anorm sqrt k rem t).1 ∧
    (repeatK nm m n matu matv anorm sqrt k rem s).2 =
      (repeatK nm m n mu2 mv2 anorm sqrt k rem t).2 := by
  induction rem generalizing s t with
  | zero =>
    have sc := splitCancel_rel nm m n matu mu2 anorm sqrt pu pv hpu k hk1 hkn s t h h0
    rw [repeatK, repeatK, ← sc.2]
    split_ifs with hL
    · exact ⟨sc.1, rfl⟩
    · exact ⟨converge_rel nm m n matv mv2 pu pv hpv k hk1 hkn _ _ sc.1, rfl⟩
  | succ rem ih =>
    have sc := splitCancel_rel nm m n matu mu2 anorm sqrt pu pv hpu k hk1 hkn s t h h0
    have hL1 := splitCancel_pos nm m matu anorm sqrt k s h0 hk1
    have hL2 := splitCancel_le nm m matu anorm sqrt k s
    have hr0 := splitCancel_rv1_zero nm m matu anorm sqrt k s 0 h0
    have ez : (splitCancel nm m matu anorm sqrt k s).1.w.get (VINDX k) =
        (splitCancel nm m mu2 anorm sqrt k t).1.w.get (VINDX k) :=
      sc.1.2.2.1 _ (Seg_VINDX hk1 hkn)
    rw [repeatK, repeatK, ← sc.2]
    split_ifs with hL
    · have hq0 := qrSweep_rv1_zero nm m n matu matv sqrt k
        (splitCancel nm m matu anorm sqrt k s).2
        ((splitCancel nm m matu anorm sqrt k s).1.w.get (VINDX k))
        (splitCancel nm m matu anorm sqrt k s).1 hr0 hL1 (by omega)
      show StRel nm m n pu pv (repeatK nm m n matu matv anorm sqrt k rem _).1
          (repeatK nm m n mu2 mv2 anorm sqrt k rem
            (qrSweep nm m n mu2 mv2 sqrt k _ ((splitCancel nm m mu2 anorm sqrt k t).1.w.get
              (VINDX k)) _)).1 ∧ _
      rw [← ez]
      exact ih _ _ (qrSweep_rel nm m n matu matv mu2 mv2 sqrt pu pv hpu hpv k _ _ hL1
        (by omega) hkn _ _ sc.1) hq0
    · exact ⟨converge_rel nm m n matv mv2 pu pv hpv k hk1 hkn _ _ sc.1, rfl⟩

theorem diagonalize_rel (nm m n : Nat) (matu matv mu2 mv2 : Int) (anorm : K) (sqrt : K → K)
    (pu pv : Prop) (hpu : pu → (matu ≠ 0 ↔ mu2 ≠ 0)) (hpv : pv → (matv ≠ 0 ↔ mv2 ≠ 0))
    (k0 : Nat) (hk : k0 ≤ n) (s t : St K) (h : StRel nm m n pu pv s t)
    (h0 : s.rv1.get 0 = 0) :
    StRel nm m n pu pv (diagonalize nm m n matu matv anorm sqrt k0 s).1
      (diagonalize nm m n mu2 mv2 anorm sqrt k0 t).1 ∧
    (diagonalize nm m n matu matv anorm sqrt k0 s).2 =
      (diagonalize nm m n mu2 mv2 anorm sqrt k0 t).2 := by
  induction k0 generalizing s t with
  | zero => exact ⟨h, rfl⟩
  | succ k0 ih =>
    have rk := repeatK_rel nm m n matu matv mu2 mv2 anorm sqrt pu pv hpu hpv (k0 + 1)
      (by omega) hk 30 s t h h0
    have sp := repeatK_spec nm m n matu matv anorm sqrt (k0 + 1) (by omega) 30 s h0
    rw [diagonalize, diagonalize, ← rk.2]
    split_ifs with hr
    · exact ih (by omega) _ _ rk.1 sp.1
    · exact ⟨rk.1, rfl⟩

/-- Two runs of lines 155-465 on matrices with the same window and on the same
workspace, with any flags and any initial `u`, `v`, `w`: same `ierr`, same `w[0..n-1]`; same window of `u`
when the two `matu` are both set or both clear; same window of `v` when the two
`matv` are both set. -/
theorem svdCore_rel (sqrt : K → K) (nm m n : Nat) (a a2 rv1 : Buf K)
    (ha : AgreeOn (Win nm m n) a a2) (matu matv mu2 mv2 : Int)
    (u w v u2 w2 v2 : Buf K) (hn : 1 ≤ n) :
    StRel nm m n (matu ≠ 0 ↔ mu2 ≠ 0) (matv ≠ 0 ∧ mv2 ≠ 0)
      (svdCore sqrt nm m n a w matu u matv v rv1).1
      (svdCore sqrt nm m n a2 w2 mu2 u2 mv2 v2 rv1).1 ∧
    (svdCore sqrt nm m n a w matu u matv v rv1).2 =
      (svdCore sqrt nm m n a2 w2 mu2 u2 mv2 v2 rv1).2 := by
  have hc : AgreeOn (Win nm m n) (copyAU nm m n a u) (copyAU nm m n a2 u2) := by
    intro x hx
    rw [copyAU_window nm m n a u x hx, copyAU_window nm m n a2 u2 x hx]
    exact ha x hx
  have hb := bidiag_rel sqrt nm m n _ _ w w2 rv1 hc
  have h0 := svdPrep_rv1_zero sqrt nm m n a w matu u matv v rv1 hn
  have hp : StRel nm m n (matu ≠ 0 ↔ mu2 ≠ 0) (matv ≠ 0 ∧ mv2 ≠ 0)
      (svdPrep sqrt nm m n a w matu u matv v rv1).1
      (svdPrep sqrt nm m n a2 w2 mu2 u2 mv2 v2 rv1).1 ∧
      (svdPrep sqrt nm m n a w matu u matv v rv1).2 =
        (svdPrep sqrt nm m n a2 w2 mu2 u2 mv2 v2 rv1).2 := by
    unfold svdPrep
    simp only []
    refine ⟨⟨fun hp => ?_, fun hp => ?_, hb.2.1, hb.2.2.1⟩, hb.2.2.2.2⟩
    · by_cases t1 : matu ≠ 0
      · rw [if_pos t1, if_pos (hp.mp t1)]
        exact accU_rel nm m n _ _ _ _ hb.1 hb.2.1
      · rw [if_neg t1, if_neg (fun t2 => t1 (hp.mpr t2))]
        exact hb.1
    · rw [if_pos hp.1, if_pos hp.2, ← hb.2.2.1, ← hb.2.2.2.1]
      exact accV_rel nm m n _ _ _ v v2 _ hb.1
        (fun j h1 h2 => bidiag_rv1_tail sqrt nm m n _ w rv1 j h1 h2)
  unfold svdCore
  simp only []
  rw [← hp.2]
  exact diagonalize_rel nm m n matu matv mu2 mv2 _ sqrt _ _ (fun hp => hp)
    (fun hp => ⟨fun _ => hp.2, fun _ => hp.1⟩) n (le_refl _) _ _ hp.1 h0

end RelDiag2

/-! ## The run on diag(2, 3, 4) -/

section EvalDiag

set_option maxHeartbeats 4000000 in
set_option maxRecDepth 100000 in
/-- The run of `svd` on `diag(2, 3, 4)` with both flags set, from arrays of zeros:
no QR sweep is needed, `w = [2, 3, 4]`, `U = V = -I`. -/
theorem svdCore_diag234_zero (rv1 : Buf ℝ) :
    (svdCore Real.sqrt 3 3 3 diag234 zeroBuf 1 zeroBuf 1 zeroBuf rv1).2 = 0 ∧
    (svdCore Real.sqrt 3 3 3 diag234 zeroBuf 1 zeroBuf 1 zeroBuf rv1).1.w.get 0 = 2 ∧
    (svdCore Real.sqrt 3 3 3 diag234 zeroBuf 1 zeroBuf 1 zeroBuf rv1).1.w.get 1 = 3 ∧
    (svdCore Real.sqrt 3 3 3 diag234 zeroBuf 1 zeroBuf 1 zeroBuf rv1).1.w.get 2 = 4 ∧
    (svdCore Real.sqrt 3 3 3 diag234 zeroBuf 1 zeroBuf 1 zeroBuf rv1).1.u.get 0 = -1 ∧
    (svdCore Real.sqrt 3 3 3 diag234 zeroBuf 1 zeroBuf 1 zeroBuf rv1).1.u.get 1 = 0 ∧
    (svdCore Real.sqrt 3 3 3 diag234 zeroBuf 1 zeroBuf 1 zeroBuf rv1).1.u.get 2 = 0 ∧
    (svdCore Real.sqrt 3 3 3 diag234 zeroBuf 1 zeroBuf 1 zeroBuf rv1).1.u.get 3 = 0 ∧
    (svdCore Real.sqrt 3 3 3 diag234 zeroBuf 1 zeroBuf 1 zeroBuf rv1).1.u.get 4 = -1 ∧
    (svdCore Real.sqrt 3 3 3 diag234 zeroBuf 1 zeroBuf 1 zeroBuf rv1).1.u.get 5 = 0 ∧
    (svdCore Real.sqrt 3 3 3 diag234 zeroBuf 1 zeroBuf 1 zeroBuf rv1).1.u.get 6 = 0 ∧
    (svdCore Real.sqrt 3 3 3 diag234 zeroBuf 1 zeroBuf 1 zeroBuf rv1).1.u.get 7 = 0 ∧
    (svdCore Real.sqrt 3 3 3 diag234 zeroBuf 1 zeroBuf 1 zeroBuf rv1).1.u.get 8 = -1 ∧
    (svdCore Real.sqrt 3 3 3 diag234 zeroBuf 1 zeroBuf 1 zeroBuf rv1).1.v.get 0 = -1 ∧
    (svdCore Real.sqrt 3 3 3 diag234 zeroBuf 1 zeroBuf 1 zeroBuf rv1).1.v.get 1 = 0 ∧
    (svdCore Real.sqrt 3 3 3 diag234 zeroBuf 1 zeroBuf 1 zeroBuf rv1).1.v.get 2 = 0 ∧
    (svdCore Real.sqrt 3 3 3 diag234 zeroBuf 1 zeroBuf 1 zeroBuf rv1).1.v.get 3 = 0 ∧
    (svdCore Real.sqrt 3 3 3 diag234 zeroBuf 1 zeroBuf 1 zeroBuf rv1).1.v.get 4 = -1 ∧
    (svdCore Real.sqrt 3 3 3 diag234 zeroBuf 1 zeroBuf 1 zeroBuf rv1).1.v.get 5 = 0 ∧
    (svdCore Real.sqrt 3 3 3 diag234 zeroBuf 1 zeroBuf 1 zeroBuf rv1).1.v.get 6 = 0 ∧
    (svdCore Real.sqrt 3 3 3 diag234 zeroBuf 1 zeroBuf 1 zeroBuf rv1).1.v.get 7 = 0 ∧
    (svdCore Real.sqrt 3 3 3 diag234 zeroBuf 1 zeroBuf 1 zeroBuf rv1).1.v.get 8 = -1 := by
  simp [svdCore, svdPrep, diagonalize, repeatK, splitCancel, splitScan, converge, bidiag,
    bidiagStep, colStep, rowStep, colScale, rowScale, colHouse, colNormalize, colApply,
    colRescale, rowHouse, rowNormalize, rowRv1, rowApply, rowRescale, forRange, forUp, forDown,
    accV, accVStep, accVClear, accVCol, accVApply, accU, accUStep, accUClearRow, accUZero,
    accUApply, accUScale, copyAU, MIN, MAX, SIGN, VINDX, MINDX, Buf.set, zeroBuf, diag234]
  norm_num

theorem Win_3_9 (x : Int) (h0 : 0 ≤ x) (h9 : x < 9) : Win 3 3 3 x := by
  rw [Win_iff]
  refine ⟨(x / 3).toNat, (x % 3).toNat, by omega, by omega, ?_⟩
  push_cast
  omega

theorem Win_3_9_inv (x : Int) (h : Win 3 3 3 x) : 0 ≤ x ∧ x < 9 := by
  rw [Win_iff] at h
  obtain ⟨i, j, h1, h2, rfl⟩ := h
  push_cast
  omega

/-- The run of `svd` on any array that holds `diag(2, 3, 4)` in its first 9 cells,
with any flags and any initial contents of the other arrays. -/
theorem svdCore_diag234 (rv1 a w u v : Buf ℝ) (matu matv : Int)
    (ha : ∀ x : Int, 0 ≤ x → x < 9 → a.get x = diag234.get x) :
    (svdCore Real.sqrt 3 3 3 a w matu u matv v rv1).2 = 0 ∧
    (svdCore Real.sqrt 3 3 3 a w matu u matv v rv1).1.w.get 0 = 2 ∧
    (svdCore Real.sqrt 3 3 3 a w matu u matv v rv1).1.w.get 1 = 3 ∧
    (svdCore Real.sqrt 3 3 3 a w matu u matv v rv1).1.w.get 2 = 4 ∧
    (matu ≠ 0 → ∀ x : Int, 0 ≤ x → x < 9 →
      (svdCore Real.sqrt 3 3 3 a w matu u matv v rv1).1.u.get x =
        if x = 0 ∨ x = 4 ∨ x = 8 then -1 else 0) ∧
    (matv ≠ 0 → ∀ x : Int, 0 ≤ x → x < 9 →
      (svdCore Real.sqrt 3 3 3 a w matu u matv v rv1).1.v.get x =
        if x = 0 ∨ x = 4 ∨ x = 8 then -1 else 0) := by
  have haW : AgreeOn (Win 3 3 3) a diag234 := fun x hx =>
    ha x (Win_3_9_inv x hx).1 (Win_3_9_inv x hx).2
  obtain ⟨⟨r1, r2, r3, _⟩, r5⟩ := svdCore_rel Real.sqrt 3 3 3 a diag234 rv1 haW matu matv 1 1
    u w v zeroBuf zeroBuf zeroBuf (by omega)
  obtain ⟨z0, w0, w1, w2, u0, u1, u2, u3, u4, u5, u6, u7, u8, v0, v1, v2, v3, v4, v5, v6, v7,
    v8⟩ := svdCore_diag234_zero rv1
  refine ⟨by rw [r5, z0], ?_, ?_, ?_, fun hu x h0 h9 => ?_, fun hv x h0 h9 => ?_⟩
  · rw [r3 0 ⟨by omega, by omega⟩, w0]
  · rw [r3 1 ⟨by omega, by omega⟩, w1]
  · rw [r3 2 ⟨by omega, by omega⟩, w2]
  · rw [r1 ⟨fun _ => by decide, fun _ => hu⟩ x (Win_3_9 x h0 h9)]
    have : x = 0 ∨ x = 1 ∨ x = 2 ∨ x = 3 ∨ x = 4 ∨ x = 5 ∨ x = 6 ∨ x = 7 ∨ x = 8 := by omega
    rcases this with rfl | rfl | rfl | rfl | rfl | rfl | rfl | rfl | rfl
    · rw [u0]; simp
    · rw [u1]; simp
    · rw [u2]; simp
    · rw [u3]; simp
    · rw [u4]; simp
    · rw [u5]; simp
    · rw [u6]; simp
    · rw [u7]; simp
    · rw [u8]; simp
  · rw [r2 ⟨hv, by decide⟩ x (Win_3_9 x h0 h9)]
    have : x = 0 ∨ x = 1 ∨ x = 2 ∨ x = 3 ∨ x = 4 ∨ x = 5 ∨ x = 6 ∨ x = 7 ∨ x = 8 := by omega
    rcases this with rfl | rfl | rfl | rfl | rfl | rfl | rfl | rfl | rfl
    · rw [v0]; simp
    · rw [v1]; simp
    · rw [v2]; simp
    · rw [v3]; simp
    · rw [v4]; simp
    · rw [v5]; simp
    · rw [v6]; simp
    · rw [v7]; simp
    · rw [v8]; simp

end EvalDiag

/-! ## The run on the rank-1 matrix [[1, 2], [2, 4]] -/

section EvalRank1

theorem sqrt5_pos : (0 : ℝ) < Real.sqrt 5 := Real.sqrt_pos.mpr (by norm_num)

theorem sqrt5_sq : Real.sqrt 5 * Real.sqrt 5 = 5 := Real.mul_self_sqrt (by norm_num)

theorem sqrt_five_ninths : Real.sqrt (5 / 9) = Real.sqrt 5 / 3 := by
  rw [Real.sqrt_div (by norm_num), show (9 : ℝ) = 3 ^ 2 by norm_num,
    Real.sqrt_sq (by norm_num)]

set_option maxHeartbeats 4000000 in
set_option maxRecDepth 100000 in
theorem rank1_colStep (U : Buf ℝ) (h0 : U.get 0 = 1) (h1 : U.get 1 = 2) (h2 : U.get 2 = 2)
    (h3 : U.get 3 = 4) :
    (colStep Real.sqrt 2 2 2 1 U).2.1 = -(Real.sqrt 5 / 3) ∧
    (colStep Real.sqrt 2 2 2 1 U).2.2 = 3 ∧
    (colStep Real.sqrt 2 2 2 1 U).1.get 1 = -(2 * Real.sqrt 5) ∧
    (colStep Real.sqrt 2 2 2 1 U).1.get 3 = 0 := by
  have hs := sqrt5_pos
  have hss := sqrt5_sq
  have h9 : Real.sqrt 9 = 3 := by
    rw [show (9 : ℝ) = 3 ^ 2 by norm_num]
    exact Real.sqrt_sq (by norm_num)
  have h5a : |Real.sqrt 5| = Real.sqrt 5 := abs_of_pos hs
  norm_num [colStep, colScale, colHouse, colNormalize, colApply, colRescale, forRange, forUp,
    MINDX, Buf.set, SIGN, h0, h1, h2, h3, h9, h5a, abs_div]
  have e6 : ((1 / 3 + Real.sqrt 5 / 3) * 2 + 8 / 3) / (-(1 / 3 * (Real.sqrt 5 / 3)) - 5 / 9) =
      -6 := by
    have hd : (-(1 / 3 * (Real.sqrt 5 / 3)) - 5 / 9) ≠ 0 := by
      apply ne_of_lt
      nlinarith
    rw [div_eq_iff hd]
    ring
  rw [e6]
  constructor <;> ring

set_option maxHeartbeats 4000000 in
set_option maxRecDepth 100000 in
theorem rank1_rowStep (U rv1 : Buf ℝ) (h1 : U.get 1 = -(2 * Real.sqrt 5)) (h3 : U.get 3 = 0) :
    (rowStep Real.sqrt 2 2 2 1 U rv1).2.2.1 = 1 ∧
    (rowStep Real.sqrt 2 2 2 1 U rv1).2.2.2 = 2 * Real.sqrt 5 ∧
    (rowStep Real.sqrt 2 2 2 1 U rv1).2.1.get 0 = rv1.get 0 ∧
    (rowStep Real.sqrt 2 2 2 1 U rv1).1.get 3 = 0 := by
  have hs := sqrt5_pos
  have hss := sqrt5_sq
  have h5a : |Real.sqrt 5| = Real.sqrt 5 := abs_of_pos hs
  have hne : Real.sqrt 5 ≠ 0 := ne_of_gt hs
  norm_num [rowStep, rowScale, rowHouse, rowNormalize, rowRv1, rowApply, rowRescale, forRange,
    forUp, MINDX, VINDX, Buf.set, SIGN, h1, h3, h5a, abs_div, abs_mul, hne]

/-- The bidiagonal form of `[[1, 2], [2, 4]]`: `w = [-sqrt 5, 0]`,
`rv1 = [0, 2 sqrt 5]`, `anorm = 2 sqrt 5`. -/
theorem rank1_bidiag (U w rv1 : Buf ℝ) (h0 : U.get 0 = 1) (h1 : U.get 1 = 2) (h2 : U.get 2 = 2)
    (h3 : U.get 3 = 4) :
    (bidiag Real.sqrt 2 2 2 U w rv1).w.get 0 = -Real.sqrt 5 ∧
    (bidiag Real.sqrt 2 2 2 U w rv1).w.get 1 = 0 ∧
    (bidiag Real.sqrt 2 2 2 U w rv1).rv1.get 0 = 0 ∧
    (bidiag Real.sqrt 2 2 2 U w rv1).rv1.get 1 = 2 * Real.sqrt 5 ∧
    (bidiag Real.sqrt 2 2 2 U w rv1).anorm = 2 * Real.sqrt 5 := by
  have hs := sqrt5_pos
  have h5a : |Real.sqrt 5| = Real.sqrt 5 := abs_of_pos hs
  obtain ⟨c1, c2, c3, c4⟩ := rank1_colStep U h0 h1 h2 h3
  obtain ⟨r1, r2, r3, r4⟩ := rank1_rowStep (colStep Real.sqrt 2 2 2 1 U).1
    (rv1.set (VINDX 1) (0 * 0)) c3 c4
  have e : bidiag Real.sqrt 2 2 2 U w rv1 =
      bidiagStep Real.sqrt 2 2 2 2 (bidiagStep Real.sqrt 2 2 2 1
        { u := U, w := w, rv1 := rv1, g := 0, scale := 0, anorm := 0 }) := rfl
  rw [e]
  -- the state after the first step
  have b1w : (bidiagStep Real.sqrt 2 2 2 1
      { u := U, w := w, rv1 := rv1, g := 0, scale := 0, anorm := 0 }).w.get 0 = -Real.sqrt 5 := by
    show (w.set (VINDX 1) ((colStep Real.sqrt 2 2 2 1 U).2.2 *
      (colStep Real.sqrt 2 2 2 1 U).2.1)).get 0 = _
    rw [c1, c2, VINDX_one, Buf.get_set_same]
    ring
  have b1r : (bidiagStep Real.sqrt 2 2 2 1
      { u := U, w := w, rv1 := rv1, g := 0, scale := 0, anorm := 0 }).rv1.get 0 = 0 := by
    show (rowStep Real.sqrt 2 2 2 1 (colStep Real.sqrt 2 2 2 1 U).1
      (rv1.set (VINDX 1) (0 * 0))).2.1.get 0 = 0
    rw [r3, VINDX_one, Buf.get_set_same, zero_mul]
  have b1g : (bidiagStep Real.sqrt 2 2 2 1
      { u := U, w := w, rv1 := rv1, g := 0, scale := 0, anorm := 0 }).g = 1 := r1
  have b1s : (bidiagStep Real.sqrt 2 2 2 1
      { u := U, w := w, rv1 := rv1, g := 0, scale := 0, anorm := 0 }).scale = 2 * Real.sqrt 5 := r2
  have b1u : (bidiagStep Real.sqrt 2 2 2 1
      { u := U, w := w, rv1 := rv1, g := 0, scale := 0, anorm := 0 }).u.get 3 = 0 := r4
  have b1a : (bidiagStep Real.sqrt 2 2 2 1
      { u := U, w := w, rv1 := rv1, g := 0, scale := 0, anorm := 0 }).anorm = Real.sqrt 5 := by
    show MAX 0 (|(w.set (VINDX 1) ((colStep Real.sqrt 2 2 2 1 U).2.2 *
      (colStep Real.sqrt 2 2 2 1 U).2.1)).get (VINDX 1)| +
      |(rowStep Real.sqrt 2 2 2 1 (colStep Real.sqrt 2 2 2 1 U).1
        (rv1.set (VINDX 1) (0 * 0))).2.1.get (VINDX 1)|) = _
    rw [VINDX_one] at r3 ⊢
    rw [r3, Buf.get_set_same, Buf.get_set_same, c1, c2]
    have e3 : (3 : ℝ) * -(Real.sqrt 5 / 3) = -Real.sqrt 5 := by ring
    rw [e3, abs_neg, h5a, zero_mul, abs_zero, add_zero]
    unfold MAX
    rw [if_neg (not_lt.mpr hs.le)]
  generalize bidiagStep Real.sqrt 2 2 2 1
      { u := U, w := w, rv1 := rv1, g := 0, scale := 0, anorm := 0 } = b1 at b1w b1r b1g b1s b1u b1a
  have hne : Real.sqrt 5 ≠ 0 := ne_of_gt hs
  norm_num [bidiagStep, colStep, colScale, rowStep, forRange, forUp, MINDX, VINDX, Buf.set, MAX,
    b1w, b1r, b1g, b1s, b1u, b1a, h5a, abs_mul]



end EvalRank1
section EvalRank1b

theorem rank1_splitCancel1 (nm m : Nat) (matu : Int) (st : St ℝ)
    (hw0 : st.w.get 0 = -Real.sqrt 5) (hr0 : st.rv1.get 0 = 0)
    (hr1 : st.rv1.get 1 = 2 * Real.sqrt 5) :
    splitCancel nm m matu (2 * Real.sqrt 5) Real.sqrt 2 st = (st, 1) := by
  have hs := sqrt5_pos
  have hne : Real.sqrt 5 ≠ 0 := ne_of_gt hs
  have e : splitScan (2 * Real.sqrt 5) st.w st.rv1 2 = (1, true) := by
    simp [splitScan, VINDX, anorm_test, hw0, hr0, hr1, hne]
  unfold splitCancel
  simp only [e, if_true]

/-- The QR sweep on a 2 x 2 bidiagonal form (`k = 2`, `L = 1`), scalar by scalar. -/
theorem qrSweep_two {K : Type} [LinearOrderedField K] (nm m n : Nat) (matu matv : Int)
    (sqrt : K → K) (st : St K) (z w0 w1 r0 r1 f1 g1 f2 za c1 s1 f3 g3 h3 y3 zb c2 s2 : K)
    (hw0 : st.w.get 0 = w0) (hw1 : st.w.get 1 = w1) (hr0 : st.rv1.get 0 = r0)
    (hr1 : st.rv1.get 1 = r1)
    (hf1 : ((w0 - z) * (w0 + z) + (r0 - r1) * (r0 + r1)) / (2 * r1 * w0) = f1)
    (hg1 : sqrt (f1 * f1 + 1) = g1)
    (hf2 : ((w0 - z) * (w0 + z) + r1 * (w0 / (f1 + SIGN g1 f1) - r1)) / w0 = f2)
    (hza : sqrt (f2 * f2 + 1 * r1 * (1 * r1)) = za)
    (hc1 : f2 / za = c1) (hs1 : 1 * r1 / za = s1)
    (hf3 : w0 * c1 + 1 * r1 * s1 = f3) (hg3 : -w0 * s1 + 1 * r1 * c1 = g3)
    (hh3 : w1 * s1 = h3) (hy3 : w1 * c1 = y3)
    (hzb : sqrt (f3 * f3 + h3 * h3) = zb)
    (hc2 : (if zb ≠ 0 then f3 / zb else c1) = c2)
    (hs2 : (if zb ≠ 0 then h3 / zb else s1) = s2) :
    (qrSweep nm m n matu matv sqrt 2 1 z st).w.get 0 = zb ∧
    (qrSweep nm m n matu matv sqrt 2 1 z st).w.get 1 = -s2 * g3 + c2 * y3 ∧
    (qrSweep nm m n matu matv sqrt 2 1 z st).rv1.get 0 = 0 ∧
    (qrSweep nm m n matu matv sqrt 2 1 z st).rv1.get 1 = c2 * g3 + s2 * y3 := by
  subst hw0 hw1 hr0 hr1 hf1 hg1 hf2 hza hc1 hs1 hf3 hg3 hh3 hy3 hzb hc2 hs2
  simp [qrSweep, qrStep, forRange, forUp, VINDX, Buf.set]

theorem rank1_qrSweep (nm m n : Nat) (matu matv : Int) (st : St ℝ)
    (hw0 : st.w.get 0 = -Real.sqrt 5) (hw1 : st.w.get 1 = 0) (hr0 : st.rv1.get 0 = 0)
    (hr1 : st.rv1.get 1 = 2 * Real.sqrt 5) :
    (qrSweep nm m n matu matv Real.sqrt 2 1 0 st).w.get 0 = 0 ∧
    (qrSweep nm m n matu matv Real.sqrt 2 1 0 st).w.get 1 = -Real.sqrt 5 ∧
    (qrSweep nm m n matu matv Real.sqrt 2 1 0 st).rv1.get 0 = 0 ∧
    (qrSweep nm m n matu matv Real.sqrt 2 1 0 st).rv1.get 1 = 2 * Real.sqrt 5 := by
  have hs := sqrt5_pos
  have hss := sqrt5_sq
  have hne : Real.sqrt 5 ≠ 0 := ne_of_gt hs
  have key := qrSweep_two nm m n matu matv Real.sqrt st 0 (-Real.sqrt 5) 0 0 (2 * Real.sqrt 5)
    (3 / 4) (5 / 4) (4 * Real.sqrt 5) 10 (2 * Real.sqrt 5 / 5) (Real.sqrt 5 / 5) 0 5 0 0 0
    (2 * Real.sqrt 5 / 5) (Real.sqrt 5 / 5) hw0 hw1 hr0 hr1
    (by
      have hd : 2 * (2 * Real.sqrt 5) * -Real.sqrt 5 ≠ 0 :=
        mul_ne_zero (mul_ne_zero two_ne_zero (mul_ne_zero two_ne_zero hne)) (neg_ne_zero.mpr hne)
      rw [div_eq_iff hd]
      ring)
    (by
      rw [show (3 / 4 * (3 / 4) + 1 : ℝ) = (5 / 4) ^ 2 by norm_num]
      exact Real.sqrt_sq (by norm_num))
    (by
      have e : SIGN (5 / 4 : ℝ) (3 / 4) = 5 / 4 := by
        unfold SIGN
        rw [if_pos (by norm_num), abs_of_pos (by norm_num)]
      rw [e, div_eq_iff (neg_ne_zero.mpr hne)]
      ring)
    (by
      rw [show (4 * Real.sqrt 5 * (4 * Real.sqrt 5) + 1 * (2 * Real.sqrt 5) *
        (1 * (2 * Real.sqrt 5)) : ℝ) = 10 ^ 2 by nlinarith]
      exact Real.sqrt_sq (by norm_num))
    (by ring) (by ring) (by ring) (by linear_combination sqrt5_sq) (by ring) (by ring)
    (by simp) (by simp) (by simp)
  refine ⟨key.1, ?_, key.2.2.1, ?_⟩
  · rw [key.2.1]; ring
  · rw [key.2.2.2]; ring

/-- One turn of the cancellation loop that does not break. -/
theorem cancelLoop_one {K : Type} [LinearOrderedField K] (nm m : Nat) (matu : Int)
    (anorm : K) (sqrt : K → K) (L1 i : Nat) (c s : K) (st : St K) (f h : K)
    (hf : s * st.rv1.get (VINDX i) = f) (hne : f ≠ 0)
    (hh : sqrt (f * f + st.w.get (VINDX i) * st.w.get (VINDX i)) = h) :
    (cancelLoop nm m matu anorm sqrt L1 1 i c s st).w = st.w.set (VINDX i) h ∧
    (cancelLoop nm m matu anorm sqrt L1 1 i c s st).rv1 =
      st.rv1.set (VINDX i) (st.rv1.get (VINDX i) * c) := by
  subst hf hh
  rw [cancelLoop]
  simp only []
  rw [if_neg (fun e => hne ((anorm_test _ anorm).mp e))]
  split_ifs <;> exact ⟨rfl, rfl⟩

theorem rank1_splitCancel2 (nm m : Nat) (matu : Int) (st : St ℝ)
    (hw0 : st.w.get 0 = 0) (hw1 : st.w.get 1 = -Real.sqrt 5) (hr0 : st.rv1.get 0 = 0)
    (hr1 : st.rv1.get 1 = 2 * Real.sqrt 5) :
    (splitCancel nm m matu (2 * Real.sqrt 5) Real.sqrt 2 st).2 = 2 ∧
    (splitCancel nm m matu (2 * Real.sqrt 5) Real.sqrt 2 st).1.w.get 0 = 0 ∧
    (splitCancel nm m matu (2 * Real.sqrt 5) Real.sqrt 2 st).1.w.get 1 = 5 ∧
    (splitCancel nm m matu (2 * Real.sqrt 5) Real.sqrt 2 st).1.rv1.get 0 = 0 := by
  have hs := sqrt5_pos
  have hne : Real.sqrt 5 ≠ 0 := ne_of_gt hs
  have e : splitScan (2 * Real.sqrt 5) st.w st.rv1 2 = (2, false) := by
    simp [splitScan, VINDX, anorm_test, hw0, hr0, hr1, hne]
  have e1 : VINDX 2 = 1 := by unfold VINDX; norm_num
  have cl := cancelLoop_one nm m matu (2 * Real.sqrt 5) Real.sqrt (2 - 1) 2 0 1 st
    (2 * Real.sqrt 5) 5 (by rw [e1, hr1, one_mul]) (mul_ne_zero two_ne_zero hne)
    (by
      rw [e1, hw1, show (2 * Real.sqrt 5 * (2 * Real.sqrt 5) + -Real.sqrt 5 * -Real.sqrt 5 : ℝ) =
        5 ^ 2 by nlinarith [sqrt5_sq]]
      exact Real.sqrt_sq (by norm_num))
  unfold splitCancel
  simp only [e]
  refine ⟨rfl, ?_, ?_, ?_⟩
  · show (cancelLoop nm m matu (2 * Real.sqrt 5) Real.sqrt (2 - 1) (2 + 1 - 2) 2 0 1 st).w.get 0 = 0
    rw [cl.1, e1, Buf.get_set_ne _ _ (by norm_num), hw0]
  · show (cancelLoop nm m matu (2 * Real.sqrt 5) Real.sqrt (2 - 1) (2 + 1 - 2) 2 0 1 st).w.get 1 = 5
    rw [cl.1, e1, Buf.get_set_same]
  · show (cancelLoop nm m matu (2 * Real.sqrt 5) Real.sqrt (2 - 1) (2 + 1 - 2) 2 0 1 st).rv1.get 0
      = 0
    rw [cl.2, e1, Buf.get_set_ne _ _ (by norm_num), hr0]

/-- The diagonalization of the bidiagonal form of `[[1, 2], [2, 4]]`: one QR sweep
and one cancellation for `k = 2`, nothing for `k = 1`; `ierr = 0`, `w = [0, 5]`. -/
theorem rank1_diagonalize (nm m n : Nat) (matu matv : Int) (st : St ℝ)
    (hw0 : st.w.get 0 = -Real.sqrt 5) (hw1 : st.w.get 1 = 0) (hr0 : st.rv1.get 0 = 0)
    (hr1 : st.rv1.get 1 = 2 * Real.sqrt 5) :
    (diagonalize nm m n matu matv (2 * Real.sqrt 5) Real.sqrt 2 st).2 = 0 ∧
    (diagonalize nm m n matu matv (2 * Real.sqrt 5) Real.sqrt 2 st).1.w.get 0 = 0 ∧
    (diagonalize nm m n matu matv (2 * Real.sqrt 5) Real.sqrt 2 st).1.w.get 1 = 5 := by
  have e1 : VINDX 2 = 1 := by unfold VINDX; norm_num
  have sc1 := rank1_splitCancel1 nm m matu st hw0 hr0 hr1
  obtain ⟨q1, q2, q3, q4⟩ := rank1_qrSweep nm m n matu matv st hw0 hw1 hr0 hr1
  obtain ⟨c1, c2, c3, c4⟩ := rank1_splitCancel2 nm m matu _ q1 q2 q3 q4
  -- the REPEAT loop for k = 2
  have r2 : repeatK nm m n matu matv (2 * Real.sqrt 5) Real.sqrt 2 30 st =
      ((splitCancel nm m matu (2 * Real.sqrt 5) Real.sqrt 2
        (qrSweep nm m n matu matv Real.sqrt 2 1 0 st)).1, true) := by
    rw [repeatK]
    simp only [sc1]
    rw [if_pos (by decide)]
    rw [e1, hw1, repeatK]
    simp only [c1]
    rw [if_neg (by decide)]
    congr 1
    unfold converge
    simp only []
    rw [e1, c3, if_neg (by norm_num)]
  -- the REPEAT loop for k = 1
  have r1 : ∀ s1 : St ℝ, s1.rv1.get 0 = 0 → s1.w.get 0 = 0 →
      repeatK nm m n matu matv (2 * Real.sqrt 5) Real.sqrt 1 30 s1 = (s1, true) := by
    intro s1 h0 hw
    have es : splitScan (2 * Real.sqrt 5) s1.w s1.rv1 1 = (1, true) := by
      simp [splitScan, VINDX, h0]
    have ec : splitCancel nm m matu (2 * Real.sqrt 5) Real.sqrt 1 s1 = (s1, 1) := by
      unfold splitCancel
      simp only [es, if_true]
    rw [repeatK]
    simp only [ec]
    rw [if_neg (by decide)]
    congr 1
    unfold converge
    simp only []
    rw [VINDX_one, hw, if_neg (by norm_num)]
  rw [diagonalize, r2]
  simp only [if_true]
  rw [diagonalize, r1 _ c4 c2]
  simp only [if_true]
  exact ⟨rfl, c2, c3⟩

end EvalRank1b
section EvalRank1c

/-- The run of `svd` on any array that holds `[[1, 2], [2, 4]]` in its first 4
cells (`nm = m = n = 2`), with any flags and any initial contents of the other
arrays: `ierr = 0`, `w = [0, 5]`. -/
theorem rank1_svdCore (rv1 a w u v : Buf ℝ) (matu matv : Int) (h0 : a.get 0 = 1)
    (h1 : a.get 1 = 2) (h2 : a.get 2 = 2) (h3 : a.get 3 = 4) :
    (svdCore Real.sqrt 2 2 2 a w matu u matv v rv1).2 = 0 ∧
    (svdCore Real.sqrt 2 2 2 a w matu u matv v rv1).1.w.get 0 = 0 ∧
    (svdCore Real.sqrt 2 2 2 a w matu u matv v rv1).1.w.get 1 = 5 := by
  have win : ∀ x : Int, 0 ≤ x → x < 4 → Win 2 2 2 x := by
    intro x hx0 hx4
    rw [Win_iff]
    refine ⟨(x / 2).toNat, (x % 2).toNat, by omega, by omega, ?_⟩
    push_cast
    omega
  have c0 : (copyAU 2 2 2 a u).get 0 = 1 := by
    rw [copyAU_window 2 2 2 a u 0 (win 0 (by norm_num) (by norm_num)), h0]
  have c1 : (copyAU 2 2 2 a u).get 1 = 2 := by
    rw [copyAU_window 2 2 2 a u 1 (win 1 (by norm_num) (by norm_num)), h1]
  have c2 : (copyAU 2 2 2 a u).get 2 = 2 := by
    rw [copyAU_window 2 2 2 a u 2 (win 2 (by norm_num) (by norm_num)), h2]
  have c3 : (copyAU 2 2 2 a u).get 3 = 4 := by
    rw [copyAU_window 2 2 2 a u 3 (win 3 (by norm_num) (by norm_num)), h3]
  obtain ⟨b1, b2, b3, b4, b5⟩ := rank1_bidiag (copyAU 2 2 2 a u) w rv1 c0 c1 c2 c3
  have ea : (svdPrep Real.sqrt 2 2 2 a w matu u matv v rv1).2 = 2 * Real.sqrt 5 := b5
  unfold svdCore
  simp only []
  rw [ea]
  exact rank1_diagonalize 2 2 2 matu matv _ b1 b2 b3 b4

/-- The outputs of lines 155-465 reproduce `a` when both flags are set and
`ierr = 0`: `a[i*nm+j] = sum_r u[i*nm+r] * w[r] * v[j*nm+r]`. -/
theorem svdCore_recon (nm m n : Nat) (a w u v rv1 : Buf ℝ) (matu matv : Int)
    (hm : 1 ≤ m) (hn : 1 ≤ n) (hnm : n ≤ nm) (hmatu : matu ≠ 0) (hmatv : matv ≠ 0)
    (hierr : (svdCore Real.sqrt nm m n a w matu u matv v rv1).2 = 0) :
    ∀ i j : Nat, i < m → j < n →
      a.get ((i : Int) * nm + j) =
        ∑ r ∈ Finset.range n,
          (svdCore Real.sqrt nm m n a w matu u matv v rv1).1.u.get ((i : Int) * nm + r) *
          (svdCore Real.sqrt nm m n a w matu u matv v rv1).1.w.get (r : Int) *
          (svdCore Real.sqrt nm m n a w matu u matv v rv1).1.v.get ((j : Int) * nm + r) := by
  have hprep := svdPrep_Recon nm m n a w u v rv1 matu matv hmatu hmatv hnm hm hn
  have hfin := diagonalize_Recon nm m n matu matv hmatu hmatv
    (svdPrep Real.sqrt nm m n a w matu u matv v rv1).2 a hnm n (le_refl _) _
    (svdPrep_rv1_zero Real.sqrt nm m n a w matu u matv v rv1 hn)
    (fun t h1 h2 => by omega) hprep hierr
  intro i j hi hj
  have h1 := hfin.1 (i + 1) (j + 1) (by omega) (by omega) (by omega) (by omega)
  rw [Prod3_diag n _ _ _ _ hfin.2, sum_Icc_one_eq_range] at h1
  simp only [M, MINDX_succ] at h1
  rw [h1]
  apply Finset.sum_congr rfl
  intro r _
  have e1 : VINDX (r + 1) = (r : Int) := by unfold VINDX; omega
  rw [e1]
  rfl

end EvalRank1c

/-! ## The solver when one test fails and one succeeds -/

/-- The two loops of `svdsolve` for `n = m = nm = 2` when the test `w[0] >= tol`
fails and the test `w[1] >= tol` succeeds. -/
theorem svdsolve_second_only {K : Type} [Arith K] (tv u w v b x : Buf K) (tol : K)
    (h0 : Arith.leb tol 0 = false) (h1 : Arith.leb tol (w.get 0) = false)
    (h2 : Arith.leb tol (w.get 1) = true) :
    (Fp.svdsolve (some tv) 2 2 2 (some u) (some w) (some v) (some b) (some x) tol).ierr = 0 ∧
    ∃ x1, (Fp.svdsolve (some tv) 2 2 2 (some u) (some w) (some v) (some b) (some x) tol).x =
        some x1 ∧
      x1.get 0 = (0 + v.get 0 * 0) +
        v.get 1 * (((0 + u.get 1 * b.get 0) + u.get 3 * b.get 1) / w.get 1) ∧
      x1.get 1 = (0 + v.get 2 * 0) +
        v.get 3 * (((0 + u.get 1 * b.get 0) + u.get 3 * b.get 1) / w.get 1) := by
  simp [Fp.svdsolve, Fp.solveTv, Fp.solveX, forUp, Buf.set, h0, h1, h2]

/-! ## The run on [[12, 7], [0, 12]] in exact arithmetic -/

set_option maxHeartbeats 4000000 in
set_option maxRecDepth 100000 in
/-- The bidiagonal form of `[[12, 7], [0, 12]]`: `w = [-12, 12]`, `rv1 = [0, 7]`,
`anorm = 19`. -/
theorem m127_bidiag (U w rv1 : Buf ℝ) (h0 : U.get 0 = 12) (h1 : U.get 1 = 7) (h2 : U.get 2 = 0)
    (h3 : U.get 3 = 12) :
    (bidiag Real.sqrt 2 2 2 U w rv1).w.get 0 = -12 ∧
    (bidiag Real.sqrt 2 2 2 U w rv1).w.get 1 = 12 ∧
    (bidiag Real.sqrt 2 2 2 U w rv1).rv1.get 0 = 0 ∧
    (bidiag Real.sqrt 2 2 2 U w rv1).rv1.get 1 = 7 ∧
    (bidiag Real.sqrt 2 2 2 U w rv1).anorm = 19 := by
  norm_num [bidiag, bidiagStep, colStep, colScale, colHouse, colNormalize, colApply, colRescale,
    rowStep, rowScale, rowHouse, rowNormalize, rowRv1, rowApply, rowRescale, forRange, forUp,
    MINDX, VINDX, Buf.set, SIGN, MAX, h0, h1, h2, h3]

/-- The QR sweep on the bidiagonal form of `[[12, 7], [0, 12]]` gives `w = [9, -16]`
and `rv1 = [0, 0]`. -/
theorem m127_qrSweep (nm m n : Nat) (matu matv : Int) (st : St ℝ)
    (hw0 : st.w.get 0 = -12) (hw1 : st.w.get 1 = 12) (hr0 : st.rv1.get 0 = 0)
    (hr1 : st.rv1.get 1 = 7) :
    (qrSweep nm m n matu matv Real.sqrt 2 1 12 st).w.get 0 = 9 ∧
    (qrSweep nm m n matu matv Real.sqrt 2 1 12 st).w.get 1 = -16 ∧
    (qrSweep nm m n matu matv Real.sqrt 2 1 12 st).rv1.get 0 = 0 ∧
    (qrSweep nm m n matu matv Real.sqrt 2 1 12 st).rv1.get 1 = 0 := by
  have key := qrSweep_two nm m n matu matv Real.sqrt st 12 (-12) 12 0 7
    (7 / 24) (25 / 24) (28 / 3) (35 / 3) (4 / 5) (3 / 5) (-27 / 5) (64 / 5) (36 / 5) (48 / 5) 9
    (-3 / 5) (4 / 5) hw0 hw1 hr0 hr1
    (by norm_num)
    (by
      rw [show (7 / 24 * (7 / 24) + 1 : ℝ) = (25 / 24) ^ 2 by norm_num]
      exact Real.sqrt_sq (by norm_num))
    (by
      have e : SIGN (25 / 24 : ℝ) (7 / 24) = 25 / 24 := by
        unfold SIGN
        rw [if_pos (by norm_num), abs_of_pos (by norm_num)]
      rw [e]
      norm_num)
    (by
      rw [show (28 / 3 * (28 / 3) + 1 * 7 * (1 * 7) : ℝ) = (35 / 3) ^ 2 by norm_num]
      exact Real.sqrt_sq (by norm_num))
    (by norm_num) (by norm_num) (by norm_num) (by norm_num) (by norm_num) (by norm_num)
    (by
      rw [show (-27 / 5 * (-27 / 5) + 36 / 5 * (36 / 5) : ℝ) = 9 ^ 2 by norm_num]
      exact Real.sqrt_sq (by norm_num))
    (by norm_num) (by norm_num)
  refine ⟨key.1, ?_, key.2.2.1, ?_⟩
  · rw [key.2.1]; norm_num
  · rw [key.2.2.2]; norm_num

/-- The diagonalization of the bidiagonal form of `[[12, 7], [0, 12]]`: one QR
sweep for `k = 2`, after which `rv1[1] = 0` and `w[1] = -16` is negated; nothing
for `k = 1`; `ierr = 0`, `w = [9, 16]`. -/
theorem m127_diagonalize (nm m n : Nat) (matu matv : Int) (st : St ℝ)
    (hw0 : st.w.get 0 = -12) (hw1 : st.w.get 1 = 12) (hr0 : st.rv1.get 0 = 0)
    (hr1 : st.rv1.get 1 = 7) :
    (diagonalize nm m n matu matv 19 Real.sqrt 2 st).2 = 0 ∧
    (diagonalize nm m n matu matv 19 Real.sqrt 2 st).1.w.get 0 = 9 ∧
    (diagonalize nm m n matu matv 19 Real.sqrt 2 st).1.w.get 1 = 16 := by
  have e1 : VINDX 2 = 1 := by unfold VINDX; norm_num
  have sc1 : splitCancel nm m matu 19 Real.sqrt 2 st = (st, 1) := by
    have e : splitScan 19 st.w st.rv1 2 = (1, true) := by
      simp [splitScan, VINDX, anorm_test, hw0, hr0, hr1]
    unfold splitCancel
    simp only [e, if_true]
  obtain ⟨q1, q2, q3, q4⟩ := m127_qrSweep nm m n matu matv st hw0 hw1 hr0 hr1
  have sc2 : splitCancel nm m matu 19 Real.sqrt 2
      (qrSweep nm m n matu matv Real.sqrt 2 1 12 st) =
      (qrSweep nm m n matu matv Real.sqrt 2 1 12 st, 2) := by
    have e : splitScan 19 (qrSweep nm m n matu matv Real.sqrt 2 1 12 st).w
        (qrSweep nm m n matu matv Real.sqrt 2 1 12 st).rv1 2 = (2, true) := by
      simp [splitScan, VINDX, anorm_test, q4]
    unfold splitCancel
    simp only [e, if_true]
  -- the REPEAT loop for k = 2
  have r2 : repeatK nm m n matu matv 19 Real.sqrt 2 30 st =
      (converge nm n matv 2 (qrSweep nm m n matu matv Real.sqrt 2 1 12 st), true) := by
    rw [repeatK]
    simp only [sc1]
    rw [if_pos (by decide)]
    rw [e1, hw1, repeatK]
    simp only [sc2]
    rw [if_neg (by decide)]
  have cw1 : (converge nm n matv 2 (qrSweep nm m n matu matv Real.sqrt 2 1 12 st)).w.get 1 =
      16 := by
    unfold converge
    simp only []
    rw [e1, q2, if_pos (by norm_num)]
    split_ifs
    · show ((qrSweep nm m n matu matv Real.sqrt 2 1 12 st).w.set 1 (- -16)).get 1 = 16
      rw [Buf.get_set_same]; norm_num
    · show ((qrSweep nm m n matu matv Real.sqrt 2 1 12 st).w.set 1 (- -16)).get 1 = 16
      rw [Buf.get_set_same]; norm_num
  have cw0 : (converge nm n matv 2 (qrSweep nm m n matu matv Real.sqrt 2 1 12 st)).w.get 0 =
      9 := by
    rw [converge_w_frame _ _ _ _ _ _ (by rw [e1]; norm_num), q1]
  have cr0 : (converge nm n matv 2 (qrSweep nm m n matu matv Real.sqrt 2 1 12 st)).rv1.get 0 =
      0 := by
    rw [converge_rv1, q3]
  -- the REPEAT loop for k = 1
  have r1 : ∀ s1 : St ℝ, s1.rv1.get 0 = 0 → s1.w.get 0 = 9 →
      repeatK nm m n matu matv 19 Real.sqrt 1 30 s1 = (s1, true) := by
    intro s1 h0 hw
    have es : splitScan 19 s1.w s1.rv1 1 = (1, true) := by
      simp [splitScan, VINDX, h0]
    have ec : splitCancel nm m matu 19 Real.sqrt 1 s1 = (s1, 1) := by
      unfold splitCancel
      simp only [es, if_true]
    rw [repeatK]
    simp only [ec]
    rw [if_neg (by decide)]
    congr 1
    unfold converge
    simp only []
    rw [VINDX_one, hw, if_neg (by norm_num)]
  rw [diagonalize, r2]
  simp only [if_true]
  rw [diagonalize, r1 _ cr0 cw0]
  simp only [if_true]
  exact ⟨rfl, cw0, cw1⟩

/-- The run of `svd` on any array that holds `[[12, 7], [0, 12]]` in its first 4
cells (`nm = m = n = 2`), with any flags and any initial contents of the other
arrays, in exact real arithmetic: one QR sweep, `ierr = 0`, `w = [9, 16]`. -/
theorem m127_svdCore (rv1 a w u v : Buf ℝ) (matu matv : Int) (h0 : a.get 0 = 12)
    (h1 : a.get 1 = 7) (h2 : a.get 2 = 0) (h3 : a.get 3 = 12) :
    (svdCore Real.sqrt 2 2 2 a w matu u matv v rv1).2 = 0 ∧
    (svdCore Real.sqrt 2 2 2 a w matu u matv v rv1).1.w.get 0 = 9 ∧
    (svdCore Real.sqrt 2 2 2 a w matu u matv v rv1).1.w.get 1 = 16 := by
  have win : ∀ x : Int, 0 ≤ x → x < 4 → Win 2 2 2 x := by
    intro x hx0 hx4
    rw [Win_iff]
    refine ⟨(x / 2).toNat, (x % 2).toNat, by omega, by omega, ?_⟩
    push_cast
    omega
  have c0 : (copyAU 2 2 2 a u).get 0 = 12 := by
    rw [copyAU_window 2 2 2 a u 0 (win 0 (by norm_num) (by norm_num)), h0]
  have c1 : (copyAU 2 2 2 a u).get 1 = 7 := by
    rw [copyAU_window 2 2 2 a u 1 (win 1 (by norm_num) (by norm_num)), h1]
  have c2 : (copyAU 2 2 2 a u).get 2 = 0 := by
    rw [copyAU_window 2 2 2 a u 2 (win 2 (by norm_num) (by norm_num)), h2]
  have c3 : (copyAU 2 2 2 a u).get 3 = 12 := by
    rw [copyAU_window 2 2 2 a u 3 (win 3 (by norm_num) (by norm_num)), h3]
  obtain ⟨b1, b2, b3, b4, b5⟩ := m127_bidiag (copyAU 2 2 2 a u) w rv1 c0 c1 c2 c3
  have ea : (svdPrep Real.sqrt 2 2 2 a w matu u matv v rv1).2 = 19 := b5
  unfold svdCore
  simp only []
  rw [ea]
  exact m127_diagonalize 2 2 2 matu matv _ b1 b2 b3 b4

/-! ## The control flow of the diagonalization in double precision -/

section FpDiag

open Arith

variable {K : Type} [Arith K]

theorem fp_splitScan_le (anorm : K) (w rv1 : Buf K) (k : Nat) :
    (Fp.splitScan anorm w rv1 k).1 ≤ k := by
  induction k with
  | zero => simp [Fp.splitScan]
  | succ k ih =>
    rw [Fp.splitScan]
    split_ifs
    · exact le_refl _
    · exact le_refl _
    · exact Nat.le_succ_of_le ih

/-- When `rv1[0]` passes the split test, the scan ends at some `L >= 1`, and at
`L = 1` only through the test of `rv1`. -/
theorem fp_splitScan_pos (anorm : K) (w rv1 : Buf K) (k : Nat)
    (h0 : eqb (fabs (rv1.get 0) + anorm) anorm = true) (hk : 1 ≤ k) :
    1 ≤ (Fp.splitScan anorm w rv1 k).1 ∧
      ((Fp.splitScan anorm w rv1 k).1 = 1 → (Fp.splitScan anorm w rv1 k).2 = true) := by
  induction k with
  | zero => omega
  | succ k ih =>
    rw [Fp.splitScan]
    by_cases hk0 : k = 0
    · subst hk0
      have e : VINDX (0 + 1) = 0 := by simp [VINDX]
      have : eqb (fabs (rv1.get (VINDX (0 + 1))) + anorm) anorm = true := by
        rw [e]; exact h0
      rw [if_pos this]
      simp
    · split_ifs with h1 h2
      · exact ⟨by simp, fun _ => rfl⟩
      · exact ⟨by simp, fun h => by simp at h; omega⟩
      · exact ih (by omega)

/-- When no value passes the split test (`anorm` is a NaN), the scan falls
through with `L = 0`. -/
theorem fp_splitScan_none (anorm : K) (w rv1 : Buf K) (k : Nat)
    (hbad : ∀ x : K, eqb (fabs x + anorm) anorm = false) :
    Fp.splitScan anorm w rv1 k = (0, false) := by
  induction k with
  | zero => rfl
  | succ k ih =>
    rw [Fp.splitScan, if_neg (by rw [hbad]; simp), if_neg (by rw [hbad]; simp)]
    exact ih

theorem fp_cancelLoop_w_frame (nm m : Nat) (matu : Int) (anorm : K) (L1 : Nat)
    (x : Int) (cnt i : Nat) (c s : K) (st : St K)
    (hx : ∀ j, i ≤ j → j < i + cnt → VINDX j ≠ x) :
    (Fp.cancelLoop nm m matu anorm L1 cnt i c s st).w.get x = st.w.get x := by
  induction cnt generalizing i c s st with
  | zero => rfl
  | succ cnt ih =>
    rw [Fp.cancelLoop]
    simp only []
    split_ifs with h1 h2
    · rfl
    · rw [ih _ _ _ _ (fun j h3 h4 => hx j (by omega) (by omega))]
      exact Buf.get_set_ne _ _ (fun h => hx i (le_refl _) (by omega) h.symm)
    · rw [ih _ _ _ _ (fun j h3 h4 => hx j (by omega) (by omega))]
      exact Buf.get_set_ne _ _ (fun h => hx i (le_refl _) (by omega) h.symm)

theorem fp_cancelLoop_rv1_frame (nm m : Nat) (matu : Int) (anorm : K) (L1 : Nat)
    (x : Int) (cnt i : Nat) (c s : K) (st : St K)
    (hx : ∀ j, i ≤ j → j < i + cnt → VINDX j ≠ x) :
    (Fp.cancelLoop nm m matu anorm L1 cnt i c s st).rv1.get x = st.rv1.get x := by
  induction cnt generalizing i c s st with
  | zero => rfl
  | succ cnt ih =>
    rw [Fp.cancelLoop]
    simp only []
    have key : (st.rv1.set (VINDX i) (st.rv1.get (VINDX i) * c)).get x = st.rv1.get x :=
      Buf.get_set_ne _ _ (fun h => hx i (le_refl _) (by omega) h.symm)
    split_ifs with h1 h2
    · exact key
    · rw [ih _ _ _ _ (fun j h3 h4 => hx j (by omega) (by omega))]
      exact key
    · rw [ih _ _ _ _ (fun j h3 h4 => hx j (by omega) (by omega))]
      exact key

theorem fp_splitCancel_le (nm m : Nat) (matu : Int) (anorm : K) (k : Nat)
    (st : St K) : (Fp.splitCancel nm m matu anorm k st).2 ≤ k := by
  unfold Fp.splitCancel
  simp only []
  split_ifs <;> exact fp_splitScan_le anorm st.w st.rv1 k

theorem fp_splitCancel_pos (nm m : Nat) (matu : Int) (anorm : K) (k : Nat)
    (st : St K) (h0 : eqb (fabs (st.rv1.get 0) + anorm) anorm = true) (hk : 1 ≤ k) :
    1 ≤ (Fp.splitCancel nm m matu anorm k st).2 := by
  unfold Fp.splitCancel
  simp only []
  split_ifs <;> exact (fp_splitScan_pos anorm st.w st.rv1 k h0 hk).1

theorem fp_splitCancel_none (nm m : Nat) (matu : Int) (anorm : K) (k : Nat)
    (st : St K) (hbad : ∀ x : K, eqb (fabs x + anorm) anorm = false) :
    (Fp.splitCancel nm m matu anorm k st).2 = 0 := by
  unfold Fp.splitCancel
  simp only []
  rw [fp_splitScan_none anorm st.w st.rv1 k hbad]
  simp

theorem fp_splitCancel_w_frame (nm m : Nat) (matu : Int) (anorm : K) (k : Nat)
    (st : St K) (x : Int) (hx : VINDX k < x) :
    (Fp.splitCancel nm m matu anorm k st).1.w.get x = st.w.get x := by
  unfold Fp.splitCancel
  simp only []
  split_ifs
  · rfl
  · apply fp_cancelLoop_w_frame
    intro j h1 h2
    have := fp_splitScan_le anorm st.w st.rv1 k
    unfold VINDX at hx ⊢
    omega

/-- When `rv1[0]` passes the split test, the split test and the cancellation
leave `rv1[0]` as it is. -/
theorem fp_splitCancel_rv1_keep (nm m : Nat) (matu : Int) (anorm : K) (k : Nat)
    (st : St K) (h0 : eqb (fabs (st.rv1.get 0) + anorm) anorm = true) (hk : 1 ≤ k) :
    (Fp.splitCancel nm m matu anorm k st).1.rv1.get 0 = st.rv1.get 0 := by
  have hp := fp_splitScan_pos anorm st.w st.rv1 k h0 hk
  unfold Fp.splitCancel
  simp only []
  split_ifs with hf
  · rfl
  · apply fp_cancelLoop_rv1_frame
    intro j h1 h2
    have h3 : (Fp.splitScan anorm st.w st.rv1 k).1 ≠ 1 := fun h => hf (hp.2 h)
    have h4 := hp.1
    unfold VINDX
    omega

theorem fp_qrStep_w_frame (nm m n : Nat) (matu matv : Int) (i1 : Nat) (q : QSt K)
    (x : Int) (hx : x ≠ VINDX i1) :
    (Fp.qrStep nm m n matu matv i1 q).st.w.get x = q.st.w.get x := by
  unfold Fp.qrStep
  exact Buf.get_set_ne _ _ hx

theorem fp_qrStep_rv1_frame (nm m n : Nat) (matu matv : Int) (i1 : Nat) (q : QSt K)
    (x : Int) (hx : x ≠ VINDX i1) :
    (Fp.qrStep nm m n matu matv i1 q).st.rv1.get x = q.st.rv1.get x := by
  unfold Fp.qrStep
  exact Buf.get_set_ne _ _ hx

theorem fp_qrSweep_w_frame (nm m n : Nat) (matu matv : Int) (k L : Nat) (z : K)
    (st : St K) (x : Int) (hx : VINDX k < x) :
    (Fp.qrSweep nm m n matu matv k L z st).w.get x = st.w.get x := by
  unfold Fp.qrSweep
  simp only []
  rw [Buf.get_set_ne _ _ (ne_of_gt hx)]
  apply forRange_keep (Fp.qrStep nm m n matu matv) (fun q => q.st.w.get x = st.w.get x)
  · rfl
  · intro i t h1 h2 hp
    rw [fp_qrStep_w_frame _ _ _ _ _ _ _ _ (by unfold VINDX at hx ⊢; omega)]
    exact hp

/-- After a QR sweep with `1 <= L < k`, `rv1[0]` is the constant `0.0` (when
`L = 1`) or is unchanged. -/
theorem fp_qrSweep_rv1_zero (nm m n : Nat) (matu matv : Int) (k L : Nat) (z : K)
    (st : St K) (hL : 1 ≤ L) (hLk : L < k) :
    (Fp.qrSweep nm m n matu matv k L z st).rv1.get 0 = 0 ∨
      (Fp.qrSweep nm m n matu matv k L z st).rv1.get 0 = st.rv1.get 0 := by
  unfold Fp.qrSweep
  simp only []
  rw [Buf.get_set_ne _ _ (by unfold VINDX; omega), Buf.get_set]
  split_ifs with h
  · left; rfl
  · right
    have hL2 : 2 ≤ L := by
      unfold VINDX at h
      omega
    apply forRange_keep (Fp.qrStep nm m n matu matv) (fun q => q.st.rv1.get 0 = st.rv1.get 0)
    · rfl
    · intro i t h1 h2 hp
      rw [fp_qrStep_rv1_frame _ _ _ _ _ _ _ _ (by unfold VINDX; omega)]
      exact hp

theorem fp_qrSweep_test (hl : Laws K) (nm m n : Nat) (matu matv : Int) (anorm : K) (k L : Nat)
    (z : K) (st : St K) (h0 : eqb (fabs (st.rv1.get 0) + anorm) anorm = true)
    (hL : 1 ≤ L) (hLk : L < k) :
    eqb (fabs ((Fp.qrSweep nm m n matu matv k L z st).rv1.get 0) + anorm) anorm = true := by
  rcases fp_qrSweep_rv1_zero nm m n matu matv k L z st hL hLk with h | h
  · rw [h]
    exact hl.test_zero _ _ h0
  · rw [h]
    exact h0

/-- The value left in `w[k]` at convergence is not negative, and is `>= 0.0`
unless it is a NaN. -/
theorem fp_converge_w_nonneg (hl : Laws K) (nm n : Nat) (matv : Int) (k : Nat) (st : St K) :
    ltb ((Fp.converge nm n matv k st).w.get (VINDX k)) 0 = false ∧
    (leb 0 ((Fp.converge nm n matv k st).w.get (VINDX k)) = true ∨
      eqb ((Fp.converge nm n matv k st).w.get (VINDX k))
        ((Fp.converge nm n matv k st).w.get (VINDX k)) = false) := by
  unfold Fp.converge
  simp only []
  split_ifs with h1 h2
  · show ltb ((st.w.set (VINDX k) (-st.w.get (VINDX k))).get (VINDX k)) 0 = false ∧
      (leb 0 ((st.w.set (VINDX k) (-st.w.get (VINDX k))).get (VINDX k)) = true ∨ _)
    rw [Buf.get_set_same]
    have := hl.neg_of_neg _ h1
    exact ⟨this.2, Or.inl this.1⟩
  · show ltb ((st.w.set (VINDX k) (-st.w.get (VINDX k))).get (VINDX k)) 0 = false ∧
      (leb 0 ((st.w.set (VINDX k) (-st.w.get (VINDX k))).get (VINDX k)) = true ∨ _)
    rw [Buf.get_set_same]
    have := hl.neg_of_neg _ h1
    exact ⟨this.2, Or.inl this.1⟩
  · have h3 : ltb (st.w.get (VINDX k)) 0 = false := by
      simpa using h1
    exact ⟨h3, hl.nonneg_of_not_neg _ h3⟩

theorem fp_converge_w_frame (nm n : Nat) (matv : Int) (k : Nat) (st : St K) (x : Int)
    (hx : x ≠ VINDX k) : (Fp.converge nm n matv k st).w.get x = st.w.get x := by
  unfold Fp.converge
  simp only []
  split_ifs with h1 h2
  · exact Buf.get_set_ne _ _ hx
  · exact Buf.get_set_ne _ _ hx
  · rfl

theorem fp_converge_rv1 (nm n : Nat) (matv : Int) (k : Nat) (st : St K) :
    (Fp.converge nm n matv k st).rv1 = st.rv1 := by
  unfold Fp.converge
  simp only []
  split_ifs <;> rfl

/-- The REPEAT loop for one `k >= 1`, entered with an `rv1[0]` that passes the
split test: `rv1[0]` still passes it afterwards, `w` is unchanged above index
`k`, a converged `w[k]` is not negative, and `k = 1` converges. -/
theorem fp_repeatK_spec (hl : Laws K) (nm m n : Nat) (matu matv : Int) (anorm : K) (k : Nat)
    (hk : 1 ≤ k) (rem : Nat) (st : St K)
    (h0 : eqb (fabs (st.rv1.get 0) + anorm) anorm = true) :
    eqb (fabs ((Fp.repeatK nm m n matu matv anorm k rem st).1.rv1.get 0) + anorm) anorm = true ∧
    (∀ x, VINDX k < x →
      (Fp.repeatK nm m n matu matv anorm k rem st).1.w.get x = st.w.get x) ∧
    ((Fp.repeatK nm m n matu matv anorm k rem st).2 = true →
      ltb ((Fp.repeatK nm m n matu matv anorm k rem st).1.w.get (VINDX k)) 0 = false ∧
      (leb 0 ((Fp.repeatK nm m n matu matv anorm k rem st).1.w.get (VINDX k)) = true ∨
        eqb ((Fp.repeatK nm m n matu matv anorm k rem st).1.w.get (VINDX k))
          ((Fp.repeatK nm m n matu matv anorm k rem st).1.w.get (VINDX k)) = false)) ∧
    (k = 1 → (Fp.repeatK nm m n matu matv anorm k rem st).2 = true) := by
  induction rem generalizing st with
  | zero =>
    have hL1 := fp_splitCancel_pos nm m matu anorm k st h0 hk
    have hL2 := fp_splitCancel_le nm m matu anorm k st
    have hr0 := fp_splitCancel_rv1_keep nm m matu anorm k st h0 hk
    have hwf := fp_splitCancel_w_frame nm m matu anorm k st
    rw [Fp.repeatK]
    split_ifs with hL
    · refine ⟨by rw [hr0]; exact h0, hwf, fun h => by simp at h, fun h1 => ?_⟩
      exact absurd (by omega) hL
    · refine ⟨?_, ?_, fun _ => fp_converge_w_nonneg hl _ _ _ _ _, fun _ => rfl⟩
      · rw [fp_converge_rv1, hr0]; exact h0
      · intro x hx
        rw [fp_converge_w_frame _ _ _ _ _ _ (ne_of_gt hx)]
        exact hwf x hx
  | succ rem ih =>
    have hL1 := fp_splitCancel_pos nm m matu anorm k st h0 hk
    have hL2 := fp_splitCancel_le nm m matu anorm k st
    have hr0 := fp_splitCancel_rv1_keep nm m matu anorm k st h0 hk
    have hwf := fp_splitCancel_w_frame nm m matu anorm k st
    rw [Fp.repeatK]
    split_ifs with hL
    · have hq0 := fp_qrSweep_test hl nm m n matu matv anorm k
        (Fp.splitCancel nm m matu anorm k st).2
        ((Fp.splitCancel nm m matu anorm k st).1.w.get (VINDX k))
        (Fp.splitCancel nm m matu anorm k st).1 (by rw [hr0]; exact h0) hL1 (by omega)
      have := ih _ hq0
      refine ⟨this.1, ?_, this.2.2.1, this.2.2.2⟩
      intro x hx
      rw [this.2.1 x hx, fp_qrSweep_w_frame _ _ _ _ _ _ _ _ _ _ hx]
      exact hwf x hx
    · refine ⟨?_, ?_, fun _ => fp_converge_w_nonneg hl _ _ _ _ _, fun _ => rfl⟩
      · rw [fp_converge_rv1, hr0]; exact h0
      · intro x hx
        rw [fp_converge_w_frame _ _ _ _ _ _ (ne_of_gt hx)]
        exact hwf x hx

/-- The frame of the REPEAT loop that needs no assumption: `w` is unchanged
above index `k`. -/
theorem fp_repeatK_w_frame (nm m n : Nat) (matu matv : Int) (anorm : K) (k : Nat)
    (rem : Nat) (st : St K) (x : Int) (hx : VINDX k < x) :
    (Fp.repeatK nm m n matu matv anorm k rem st).1.w.get x = st.w.get x := by
  induction rem generalizing st with
  | zero =>
    rw [Fp.repeatK]
    split_ifs with hL
    · exact fp_splitCancel_w_frame nm m matu anorm k st x hx
    · rw [fp_converge_w_frame _ _ _ _ _ _ (ne_of_gt hx)]
      exact fp_splitCancel_w_frame nm m matu anorm k st x hx
  | succ rem ih =>
    rw [Fp.repeatK]
    split_ifs with hL
    · rw [ih, fp_qrSweep_w_frame _ _ _ _ _ _ _ _ _ _ hx]
      exact fp_splitCancel_w_frame nm m matu anorm k st x hx
    · rw [fp_converge_w_frame _ _ _ _ _ _ (ne_of_gt hx)]
      exact fp_splitCancel_w_frame nm m matu anorm k st x hx

/-- A REPEAT loop that leaves through the error exit made `rem` sweeps, none of
its `rem + 1` split tests isolated `k`, and it returns the arrays of the last
split test and cancellation. -/
theorem fp_repeatK_fail (nm m n : Nat) (matu matv : Int) (anorm : K) (k : Nat)
    (rem : Nat) (st : St K)
    (h : (Fp.repeatK nm m n matu matv anorm k rem st).2 = false) :
    (∀ j, j ≤ rem →
      (Fp.splitCancel nm m matu anorm k
        ((Fp.sweepOnce nm m n matu matv anorm k)^[j] st)).2 ≠ k) ∧
    (Fp.repeatK nm m n matu matv anorm k rem st).1 =
      (Fp.splitCancel nm m matu anorm k
        ((Fp.sweepOnce nm m n matu matv anorm k)^[rem] st)).1 := by
  induction rem generalizing st with
  | zero =>
    rw [Fp.repeatK] at h ⊢
    split_ifs at h ⊢ with hL
    · refine ⟨fun j hj => ?_, rfl⟩
      have : j = 0 := by omega
      subst this
      exact hL
  | succ rem ih =>
    rw [Fp.repeatK] at h ⊢
    split_ifs at h ⊢ with hL
    · have := ih (Fp.sweepOnce nm m n matu matv anorm k st) h
      refine ⟨fun j hj => ?_, ?_⟩
      · cases j with
        | zero => exact hL
        | succ j =>
          rw [Function.iterate_succ_apply]
          exact this.1 j (by omega)
      · rw [Function.iterate_succ_apply]
        exact this.2

theorem fp_repeatK_bad (nm m n : Nat) (matu matv : Int) (anorm : K) (k : Nat) (hk : 1 ≤ k)
    (hbad : ∀ x : K, eqb (fabs x + anorm) anorm = false) (rem : Nat) (st : St K) :
    (Fp.repeatK nm m n matu matv anorm k rem st).2 = false := by
  induction rem generalizing st with
  | zero =>
    rw [Fp.repeatK]
    rw [if_pos (by rw [fp_splitCancel_none nm m matu anorm k st hbad]; omega)]
  | succ rem ih =>
    rw [Fp.repeatK]
    rw [if_pos (by rw [fp_splitCancel_none nm m matu anorm k st hbad]; omega)]
    exact ih _

theorem fp_diagonalize_ierr (nm m n : Nat) (matu matv : Int) (anorm : K)
    (k : Nat) (st : St K) :
    (Fp.diagonalize nm m n matu matv anorm k st).2 = 0 ∨
      (1 ≤ (Fp.diagonalize nm m n matu matv anorm k st).2 ∧
        (Fp.diagonalize nm m n matu matv anorm k st).2 ≤ k) := by
  induction k generalizing st with
  | zero => left; rfl
  | succ k ih =>
    rw [Fp.diagonalize]
    by_cases h : (Fp.repeatK nm m n matu matv anorm (k + 1) 30 st).2 = true
    · simp only [h, if_true]
      rcases ih (Fp.repeatK nm m n matu matv anorm (k + 1) 30 st).1 with h0 | ⟨h1, h2⟩
      · left; exact h0
      · right; exact ⟨h1, by push_cast; omega⟩
    · simp only [h]
      right
      constructor <;> simp

/-- When no value passes the split test, the diagonalization leaves through the
error exit at its first index. -/
theorem fp_diagonalize_bad (nm m n : Nat) (matu matv : Int) (anorm : K) (k0 : Nat)
    (hbad : ∀ x : K, eqb (fabs x + anorm) anorm = false) (st : St K) :
    Fp.diagonalize nm m n matu matv anorm (k0 + 1) st =
      ((Fp.repeatK nm m n matu matv anorm (k0 + 1) 30 st).1, ((k0 + 1 : Nat) : Int)) := by
  rw [Fp.diagonalize]
  have h := fp_repeatK_bad nm m n matu matv anorm (k0 + 1) (by omega) hbad 30 st
  simp only [h]
  simp

theorem fp_diagonalize_fail (nm m n : Nat) (matu matv : Int) (anorm : K)
    (k0 : Nat) (st : St K) (k : Nat) (hk : 0 < k)
    (h : (Fp.diagonalize nm m n matu matv anorm k0 st).2 = (k : Int)) :
    ∃ st0, Fp.stateAt nm m n matu matv anorm k k0 st = some st0 ∧
      Fp.repeatK nm m n matu matv anorm k 30 st0 =
        ((Fp.diagonalize nm m n matu matv anorm k0 st).1, false) := by
  induction k0 generalizing st with
  | zero =>
    rw [Fp.diagonalize] at h
    simp only [] at h
    omega
  | succ k0 ih =>
    rw [Fp.diagonalize] at h ⊢
    rw [Fp.stateAt]
    simp only [] at h ⊢
    by_cases hr : (Fp.repeatK nm m n matu matv anorm (k0 + 1) 30 st).2 = true
    · rw [if_pos hr] at h ⊢
      have hle : k ≤ k0 := by
        rcases fp_diagonalize_ierr nm m n matu matv anorm k0
          (Fp.repeatK nm m n matu matv anorm (k0 + 1) 30 st).1 with h1 | ⟨_, h2⟩
        · rw [h] at h1; omega
        · rw [h] at h2; omega
      rw [if_neg (by omega), if_pos hr]
      exact ih _ h
    · rw [if_neg hr] at h ⊢
      simp only [Nat.cast_inj] at h
      rw [if_pos h]
      refine ⟨st, rfl, ?_⟩
      subst h
      simp only [Bool.not_eq_true] at hr
      rw [if_neg (by simp [hr]), ← hr]

theorem fp_stateAt_inv (hl : Laws K) (nm m n : Nat) (matu matv : Int) (anorm : K)
    (k k0 : Nat) (st st0 : St K)
    (h : Fp.stateAt nm m n matu matv anorm k k0 st = some st0)
    (h0 : eqb (fabs (st.rv1.get 0) + anorm) anorm = true)
    (hw : ∀ j, k0 < j → j ≤ n → ltb (st.w.get (VINDX j)) 0 = false ∧
      (leb 0 (st.w.get (VINDX j)) = true ∨ eqb (st.w.get (VINDX j)) (st.w.get (VINDX j)) = false)) :
    k ≤ k0 ∧ eqb (fabs (st0.rv1.get 0) + anorm) anorm = true ∧
      ∀ j, k < j → j ≤ n → ltb (st0.w.get (VINDX j)) 0 = false ∧
        (leb 0 (st0.w.get (VINDX j)) = true ∨
          eqb (st0.w.get (VINDX j)) (st0.w.get (VINDX j)) = false) := by
  induction k0 generalizing st with
  | zero =>
    rw [Fp.stateAt] at h
    split_ifs at h with hk
    cases h
    exact ⟨by omega, h0, fun j h1 h2 => hw j (by omega) h2⟩
  | succ k0 ih =>
    rw [Fp.stateAt] at h
    simp only [] at h
    split_ifs at h with hk hr
    · cases h
      exact ⟨by omega, h0, fun j h1 h2 => hw j (by omega) h2⟩
    · have sp := fp_repeatK_spec hl nm m n matu matv anorm (k0 + 1) (by omega) 30 st h0
      have := ih _ h sp.1 (fun j h1 h2 => by
        by_cases hj : j = k0 + 1
        · subst hj; exact sp.2.2.1 hr
        · rw [sp.2.1 _ (by unfold VINDX; omega)]
          exact hw j (by omega) h2)
      exact ⟨by omega, this.2⟩

theorem fp_diagonalize_ok (hl : Laws K) (nm m n : Nat) (matu matv : Int) (anorm : K)
    (k0 : Nat) (st : St K)
    (h : (Fp.diagonalize nm m n matu matv anorm k0 st).2 = 0)
    (h0 : eqb (fabs (st.rv1.get 0) + anorm) anorm = true)
    (hw : ∀ j, k0 < j → j ≤ n → ltb (st.w.get (VINDX j)) 0 = false ∧
      (leb 0 (st.w.get (VINDX j)) = true ∨ eqb (st.w.get (VINDX j)) (st.w.get (VINDX j)) = false)) :
    ∀ j, 1 ≤ j → j ≤ n →
      ltb ((Fp.diagonalize nm m n matu matv anorm k0 st).1.w.get (VINDX j)) 0 = false ∧
      (leb 0 ((Fp.diagonalize nm m n matu matv anorm k0 st).1.w.get (VINDX j)) = true ∨
        eqb ((Fp.diagonalize nm m n matu matv anorm k0 st).1.w.get (VINDX j))
          ((Fp.diagonalize nm m n matu matv anorm k0 st).1.w.get (VINDX j)) = false) := by
  induction k0 generalizing st with
  | zero =>
    rw [Fp.diagonalize]
    exact fun j h1 h2 => hw j (by omega) h2
  | succ k0 ih =>
    rw [Fp.diagonalize] at h ⊢
    split_ifs at h ⊢ with hr
    · have sp := fp_repeatK_spec hl nm m n matu matv anorm (k0 + 1) (by omega) 30 st h0
      exact ih _ h sp.1 (fun j h1 h2 => by
        by_cases hj : j = k0 + 1
        · subst hj; exact sp.2.2.1 hr
        · rw [sp.2.1 _ (by unfold VINDX; omega)]
          exact hw j (by omega) h2)
    · simp only at h
      omega

theorem fp_diagonalize_ierr_ne_one (hl : Laws K) (nm m n : Nat) (matu matv : Int) (anorm : K)
    (k0 : Nat) (st : St K) (h0 : eqb (fabs (st.rv1.get 0) + anorm) anorm = true) :
    (Fp.diagonalize nm m n matu matv anorm k0 st).2 ≠ 1 := by
  induction k0 generalizing st with
  | zero => rw [Fp.diagonalize]; simp
  | succ k0 ih =>
    rw [Fp.diagonalize]
    have sp := fp_repeatK_spec hl nm m n matu matv anorm (k0 + 1) (by omega) 30 st h0
    split_ifs with hr
    · exact ih _ sp.1
    · intro h
      simp only at h
      have : k0 + 1 = 1 := by omega
      exact hr (sp.2.2.2 this)

theorem fp_rowRv1_frame (nm n i : Nat) (h : K) (u rv1 : Buf K) (x : Int)
    (hx : x ≤ VINDX i) : (Fp.rowRv1 nm n i h u rv1).get x = rv1.get x := by
  unfold Fp.rowRv1
  apply forRange_keep _ (fun r : Buf K => r.get x = rv1.get x)
  · rfl
  · intro k t h1 h2 hp
    rw [Buf.get_set_ne _ _ (by unfold VINDX at hx ⊢; omega)]
    exact hp

theorem fp_rowStep_rv1_frame (nm m n i : Nat) (u rv1 : Buf K) (x : Int)
    (hx : x ≤ VINDX i) : (Fp.rowStep nm m n i u rv1).2.1.get x = rv1.get x := by
  unfold Fp.rowStep
  simp only []
  split_ifs
  · exact fp_rowRv1_frame nm n i _ _ rv1 x hx
  · rfl
  · rfl

/-- The bidiagonalization leaves `rv1[0] = 0.0 * 0.0`. -/
theorem fp_bidiag_rv1_zero (hl : Laws K) (nm m n : Nat) (u w rv1 : Buf K) (hn : 1 ≤ n) :
    (Fp.bidiag nm m n u w rv1).rv1.get 0 = 0 := by
  unfold Fp.bidiag
  have := forRange_induct (Fp.bidiagStep nm m n)
    (fun i b => (i = 1 → b.scale = 0 ∧ b.g = 0) ∧ (2 ≤ i → b.rv1.get 0 = 0)) 1 n
    { u := u, w := w, rv1 := rv1, g := 0, scale := 0, anorm := 0 } (by omega)
    ⟨fun _ => ⟨rfl, rfl⟩, fun h => by omega⟩
    (fun i b h1 h2 hp => by
      refine ⟨fun h => by omega, fun _ => ?_⟩
      show (Fp.rowStep nm m n i _ _).2.1.get 0 = 0
      rw [fp_rowStep_rv1_frame _ _ _ _ _ _ _ (by unfold VINDX; omega), Buf.get_set]
      split_ifs with h3
      · have hi : i = 1 := by unfold VINDX at h3; omega
        rw [(hp.1 hi).1, (hp.1 hi).2]
        exact hl.zero_mul_zero
      · exact hp.2 (by unfold VINDX at h3; omega))
  exact this.2 (by omega)

theorem fp_svdPrep_rv1_zero (hl : Laws K) (nm m n : Nat) (a w : Buf K) (matu : Int) (u : Buf K)
    (matv : Int) (v rv1 : Buf K) (hn : 1 ≤ n) :
    (Fp.svdPrep nm m n a w matu u matv v rv1).1.rv1.get 0 = 0 := by
  unfold Fp.svdPrep
  exact fp_bidiag_rv1_zero hl nm m n _ _ _ hn

/-- On input that passes the check, with `a`, `w`, `u` present and the workspace
allocated, a call of `svd` that returns has run lines 155-465. -/
theorem fp_svd_eq_some (rv1 : Buf K) (nm m n : Nat) (a w : Buf K) (matu : Int)
    (u : Buf K) (matv : Int) (v : Option (Buf K)) (hm : 2 ≤ m) (hn : 2 ≤ n)
    (hnm : n ≤ nm ∨ m ≤ nm) (out : SvdOut K)
    (h : Fp.svd (some rv1) (nm : Int) m n (some a) (some w) matu (some u) matv v = some out) :
    out = { ret := 0,
            ierr := (Fp.svdCore nm m n a w matu u matv (v.getD ⟨fun _ => 0⟩) rv1).2,
            u := some (Fp.svdCore nm m n a w matu u matv (v.getD ⟨fun _ => 0⟩) rv1).1.u,
            w := some (Fp.svdCore nm m n a w matu u matv (v.getD ⟨fun _ => 0⟩) rv1).1.w,
            v := v.map (fun _ =>
              (Fp.svdCore nm m n a w matu u matv (v.getD ⟨fun _ => 0⟩) rv1).1.v) } := by
  unfold Fp.svd at h
  have hc : ¬ ((n : Int) ≤ 1 ∨ (m : Int) ≤ 1 ∨ ((nm : Int) < n ∧ (nm : Int) < m) ∨
      (some a).isNone ∨ (some w).isNone) := by
    simp only [Option.isNone_some, Bool.false_eq_true, or_false, not_or, not_and,
      not_le, not_lt]
    refine ⟨by omega, by omega, by omega⟩
  rw [if_neg hc] at h
  simp only [Int.toNat_ofNat] at h
  split_ifs at h with h1
  simp only [Option.some.injEq] at h
  exact h.symm

end FpDiag
section DblLaws

theorem dbl_eq_nan_right (x : Dbl) : Dbl.eq x Dbl.nan = false := by
  cases x <;> rfl

theorem dbl_scaled_zero (s : Bool) (e e0 : Int) : Dbl.scaled s 0 e e0 = 0 := by
  unfold Dbl.scaled
  cases s <;> simp

theorem dbl_scaled_neg_iff (s : Bool) (m : Nat) (e e0 : Int) :
    Dbl.scaled s m e e0 < 0 ↔ s = true ∧ m ≠ 0 := by
  unfold Dbl.scaled
  rw [Nat.shiftLeft_eq]
  have hp : 0 < 2 ^ (e - e0).toNat := by positivity
  cases s
  · simp only [Bool.false_eq_true, if_false, false_and, iff_false, not_lt]
    exact Int.ofNat_nonneg _
  · simp only [if_true, true_and]
    constructor
    · intro h hm
      subst hm
      simp at h
    · intro hm
      have : 0 < m * 2 ^ (e - e0).toNat := Nat.mul_pos (Nat.pos_of_ne_zero hm) hp
      omega

theorem dbl_scaled_false_nonneg (m : Nat) (e e0 : Int) : 0 ≤ Dbl.scaled false m e e0 := by
  unfold Dbl.scaled
  simp

theorem dbl_scaled_false_pos (m : Nat) (e e0 : Int) (hm : m ≠ 0) :
    0 < Dbl.scaled false m e e0 := by
  unfold Dbl.scaled
  rw [Nat.shiftLeft_eq]
  have hp : 0 < 2 ^ (e - e0).toNat := by positivity
  have : 0 < m * 2 ^ (e - e0).toNat := Nat.mul_pos (Nat.pos_of_ne_zero hm) hp
  simp only [Bool.false_eq_true, if_false]
  omega

/-- The comparison `x < 0.0` on doubles: true of the negative infinity and of
the finite values with the sign set and a non-zero mantissa. -/
theorem dbl_lt_zero_iff (z : Dbl) :
    Dbl.lt z (Dbl.fin false 0 0) = true ↔
      z = Dbl.inf true ∨ ∃ m e, m ≠ 0 ∧ z = Dbl.fin true m e := by
  cases z with
  | nan => simp [Dbl.lt]
  | inf s => cases s <;> simp [Dbl.lt]
  | fin s m e =>
    unfold Dbl.lt
    rw [decide_eq_true_iff, dbl_scaled_zero, dbl_scaled_neg_iff]
    constructor
    · rintro ⟨h1, h2⟩
      subst h1
      exact Or.inr ⟨m, e, h2, rfl⟩
    · rintro (h | ⟨m1, e1, h1, h2⟩)
      · cases h
      · cases h2
        exact ⟨rfl, h1⟩

/-- The comparison `0.0 <= x` on doubles: true of everything but the NaN, the
negative infinity and the negative finite values. -/
theorem dbl_zero_le_of_not_lt (z : Dbl) (h : Dbl.lt z (Dbl.fin false 0 0) = false) :
    Dbl.le (Dbl.fin false 0 0) z = true ∨ z = Dbl.nan := by
  cases z with
  | nan => right; rfl
  | inf s =>
    left
    cases s
    · rfl
    · simp [Dbl.lt] at h
  | fin s m e =>
    left
    unfold Dbl.lt at h
    rw [decide_eq_false_iff_not, dbl_scaled_zero, not_lt] at h
    unfold Dbl.le Dbl.lt Dbl.eq
    rw [Bool.or_eq_true, decide_eq_true_iff, decide_eq_true_iff, dbl_scaled_zero]
    rw [min_comm] at h
    rcases lt_or_eq_of_le h with h1 | h1
    · exact Or.inl h1
    · exact Or.inr h1

/-- The operations of `double` satisfy the laws used by the control flow. -/
theorem dblLaws : Laws Dbl where
  zero_mul_zero := by decide
  test_zero := by
    intro x a h
    show Dbl.eq (Dbl.add (Dbl.fabs (Dbl.fin false 0 0)) a) a = true
    cases a with
    | nan =>
      have : Dbl.eq (Dbl.add (Dbl.fabs x) Dbl.nan) Dbl.nan = true := h
      rw [dbl_eq_nan_right] at this
      exact absurd this (by decide)
    | inf t => cases t <;> rfl
    | fin t n f =>
      by_cases hn : n = 0
      · subst hn
        simp [Dbl.fabs, Dbl.add, Dbl.eq, dbl_scaled_zero]
      · simp [Dbl.fabs, Dbl.add, Dbl.eq, hn]
  neg_of_neg := by
    intro z h
    have h1 : Dbl.lt z (Dbl.fin false 0 0) = true := h
    show Dbl.le (Dbl.fin false 0 0) (Dbl.neg z) = true ∧
      Dbl.lt (Dbl.neg z) (Dbl.fin false 0 0) = false
    rcases (dbl_lt_zero_iff z).mp h1 with h2 | ⟨m, e, hm, h2⟩
    · subst h2
      exact ⟨rfl, rfl⟩
    · subst h2
      constructor
      · unfold Dbl.neg Dbl.le Dbl.lt
        rw [Bool.or_eq_true, decide_eq_true_iff, dbl_scaled_zero]
        exact Or.inl (dbl_scaled_false_pos m e _ hm)
      · unfold Dbl.neg Dbl.lt
        rw [decide_eq_false_iff_not, dbl_scaled_zero, not_lt]
        exact dbl_scaled_false_nonneg m e _
  nonneg_of_not_neg := by
    intro z h
    have h1 : Dbl.lt z (Dbl.fin false 0 0) = false := h
    rcases dbl_zero_le_of_not_lt z h1 with h2 | h2
    · exact Or.inl h2
    · right
      subst h2
      rfl

end DblLaws
section FpTraceFacts

open Arith

variable {K : Type} [Arith K]

theorem dbl_eq_self (z : Dbl) (h : Dbl.eq z z = false) : z = Dbl.nan := by
  cases z with
  | nan => rfl
  | inf s => cases s <;> simp [Dbl.eq] at h
  | fin s m e => simp [Dbl.eq] at h

end FpTraceFacts
section FpRuns

open Arith

variable {K : Type} [Arith K]

/-- When `0.0` does not pass the split test, no value does. -/
theorem fp_bad_of_not_good (hl : Laws K) (anorm : K)
    (hg : ¬ eqb (fabs (0 : K) + anorm) anorm = true) :
    ∀ x : K, eqb (fabs x + anorm) anorm = false := by
  intro x
  by_contra h
  exact hg (hl.test_zero x anorm (by simpa using h))

/-- The status left by lines 155-465 is 0 or lies in `2..n`. -/
theorem fp_svdCore_status (hl : Laws K) (nm m n : Nat) (a w : Buf K) (matu : Int) (u : Buf K)
    (matv : Int) (v rv1 : Buf K) (hn : 2 ≤ n) :
    (Fp.svdCore nm m n a w matu u matv v rv1).2 = 0 ∨
      (2 ≤ (Fp.svdCore nm m n a w matu u matv v rv1).2 ∧
        (Fp.svdCore nm m n a w matu u matv v rv1).2 ≤ n) := by
  unfold Fp.svdCore
  simp only []
  have hz := fp_svdPrep_rv1_zero hl nm m n a w matu u matv v rv1 (by omega)
  by_cases hg : eqb (fabs (0 : K) + (Fp.svdPrep nm m n a w matu u matv v rv1).2)
      (Fp.svdPrep nm m n a w matu u matv v rv1).2 = true
  · have h0 : eqb (fabs ((Fp.svdPrep nm m n a w matu u matv v rv1).1.rv1.get 0) +
        (Fp.svdPrep nm m n a w matu u matv v rv1).2)
        (Fp.svdPrep nm m n a w matu u matv v rv1).2 = true := by
      rw [hz]; exact hg
    rcases fp_diagonalize_ierr nm m n matu matv (Fp.svdPrep nm m n a w matu u matv v rv1).2 n
      (Fp.svdPrep nm m n a w matu u matv v rv1).1 with h1 | ⟨h1, h2⟩
    · left; exact h1
    · right
      have h3 := fp_diagonalize_ierr_ne_one hl nm m n matu matv
        (Fp.svdPrep nm m n a w matu u matv v rv1).2 n _ h0
      constructor
      · omega
      · exact h2
  · have hbad := fp_bad_of_not_good hl _ hg
    obtain ⟨n1, rfl⟩ : ∃ n1, n = n1 + 1 := ⟨n - 1, by omega⟩
    rw [fp_diagonalize_bad nm m (n1 + 1) matu matv _ n1 hbad]
    right
    simp only []
    constructor
    · push_cast; omega
    · exact le_refl _

theorem fp_svd_valid (rv1 : Buf K) (nm m n : Nat) (a w : Buf K) (matu : Int)
    (u : Buf K) (matv : Int) (v : Buf K) (hm : 2 ≤ m) (hn : 2 ≤ n) (hnm : n ≤ nm ∨ m ≤ nm) :
    Fp.svd (some rv1) (nm : Int) m n (some a) (some w) matu (some u) matv (some v) =
      some { ret := 0, ierr := (Fp.svdCore nm m n a w matu u matv v rv1).2,
             u := some (Fp.svdCore nm m n a w matu u matv v rv1).1.u,
             w := some (Fp.svdCore nm m n a w matu u matv v rv1).1.w,
             v := some (Fp.svdCore nm m n a w matu u matv v rv1).1.v } := by
  unfold Fp.svd
  have h : ¬ ((n : Int) ≤ 1 ∨ (m : Int) ≤ 1 ∨ ((nm : Int) < n ∧ (nm : Int) < m) ∨
      (some a).isNone ∨ (some w).isNone) := by
    simp only [Option.isNone_some, Bool.false_eq_true, or_false, not_or, not_and,
      not_le, not_lt]
    refine ⟨by omega, by omega, by omega⟩
  rw [if_neg h]
  simp

/-- Every status that `svd` returns is -2, -1, 0 or lies in `2..n`. -/
theorem fp_svd_status (hl : Laws K) (al : Option (Buf K)) (nm m n : Int)
    (a w u v : Option (Buf K)) (matu matv : Int) (o : SvdOut K)
    (ho : Fp.svd al nm m n a w matu u matv v = some o) :
    o.ierr = -2 ∨ o.ierr = -1 ∨ o.ierr = 0 ∨ (2 ≤ o.ierr ∧ o.ierr ≤ n) := by
  unfold Fp.svd at ho
  by_cases hc : n ≤ 1 ∨ m ≤ 1 ∨ (nm < n ∧ nm < m) ∨ a.isNone ∨ w.isNone
  · rw [if_pos hc] at ho
    cases ho; left; rfl
  · rw [if_neg hc] at ho
    have hn1 : 1 < n := by
      by_contra hh
      exact hc (Or.inl (by omega))
    rcases al with _ | r0
    · cases ho; right; left; rfl
    rcases a with _ | a0
    · exact absurd (Or.inr (Or.inr (Or.inr (Or.inl rfl)))) hc
    rcases w with _ | w0
    · exact absurd (Or.inr (Or.inr (Or.inr (Or.inr rfl)))) hc
    rcases u with _ | u0
    · cases ho
    simp only [] at ho
    split_ifs at ho
    cases ho
    right; right
    show (Fp.svdCore nm.toNat m.toNat n.toNat a0 w0 matu _ matv _ r0).2 = 0 ∨ _
    have hnn : ((n.toNat : Nat) : Int) = n := Int.toNat_of_nonneg (by omega)
    rcases fp_svdCore_status hl nm.toNat m.toNat n.toNat a0 w0 matu u0 matv
      (v.getD ⟨fun _ => 0⟩) r0 (by omega) with h0 | ⟨h1, h2⟩
    · left; exact h0
    · right
      exact ⟨h1, le_trans h2 (le_of_eq hnn)⟩

end FpRuns

section DoubleRuns

/-- Non-negativity in double precision. For `m >= 2`, `n >= 2`,
`nm >= max(m, n)` and any `matu`, `matv`: if `svd` returns with `ierr = 0`,
then for every `0 <= j < n` the test `w[j] < 0.0` is false, and `w[j] >= 0.0`
holds unless `w[j]` is a NaN. -/
theorem singular_values_nonneg_double (rv1 a w u : Buf Dbl) (v : Option (Buf Dbl))
    (nm m n : Nat) (matu matv : Int) (hm : 2 ≤ m) (hn : 2 ≤ n) (hnm : max m n ≤ nm)
    (out : SvdOut Dbl)
    (hout : Fp.svd (some rv1) (nm : Int) m n (some a) (some w) matu (some u) matv v = some out)
    (hierr : out.ierr = 0) :
    ∃ w1 : Buf Dbl, out.w = some w1 ∧ ∀ j : Nat, j < n →
      Dbl.lt (w1 (j : Int)) (Dbl.fin false 0 0) = false ∧
      (Dbl.le (Dbl.fin false 0 0) (w1 (j : Int)) = true ∨ w1 (j : Int) = Dbl.nan) := by
  have e := fp_svd_eq_some rv1 nm m n a w matu u matv v hm hn (Or.inl (by omega)) out hout
  subst e
  refine ⟨_, rfl, ?_⟩
  intro j hj
  simp only [Fp.svdCore] at hierr ⊢
  have hz := fp_svdPrep_rv1_zero dblLaws nm m n a w matu u matv (v.getD ⟨fun _ => 0⟩) rv1
    (by omega)
  by_cases hg : Arith.eqb (Arith.fabs (0 : Dbl) +
      (Fp.svdPrep nm m n a w matu u matv (v.getD ⟨fun _ => 0⟩) rv1).2)
      (Fp.svdPrep nm m n a w matu u matv (v.getD ⟨fun _ => 0⟩) rv1).2 = true
  · have h0 : Arith.eqb (Arith.fabs
        ((Fp.svdPrep nm m n a w matu u matv (v.getD ⟨fun _ => 0⟩) rv1).1.rv1.get 0) +
        (Fp.svdPrep nm m n a w matu u matv (v.getD ⟨fun _ => 0⟩) rv1).2)
        (Fp.svdPrep nm m n a w matu u matv (v.getD ⟨fun _ => 0⟩) rv1).2 = true := by
      rw [hz]; exact hg
    have := fp_diagonalize_ok dblLaws nm m n matu matv _ n _ hierr h0
      (fun j h1 h2 => by omega) (j + 1) (by omega) (by omega)
    have e2 : VINDX (j + 1) = (j : Int) := by unfold VINDX; push_cast; ring
    rw [e2] at this
    exact ⟨this.1, this.2.imp id (dbl_eq_self _)⟩
  · have hbad := fp_bad_of_not_good dblLaws _ hg
    obtain ⟨n1, rfl⟩ : ∃ n1, n = n1 + 1 := ⟨n - 1, by omega⟩
    rw [fp_diagonalize_bad nm m (n1 + 1) matu matv _ n1 hbad] at hierr
    simp only [] at hierr
    omega

/-- Non-convergence reporting in double precision. Every status that `svd`
returns is -2, -1, 0 or lies in `2..n`. For `m >= 2`, `n >= 2`,
`nm >= max(m, n)`, with `p` the arrays and `anorm` at the start of the
diagonalization: if `svd` returns a positive status `ierr = k`, then
`2 <= k <= n`; every index above `k` converged, so that the loop reached `k` in
a state `st0`; from there each of the 31 split tests (before the first sweep
and after each of 30 shift-and-QR sweeps) ended with `L != k`; and the returned
`w` is the one left by the last split test, with `w[j] = st0.w[j]`, `w[j] < 0.0`
false, and `w[j] >= 0.0` unless `w[j]` is a NaN, for every 0-based `j` with
`k <= j <= n-1`. -/
theorem nonconvergence_report_double (rv1 a w u : Buf Dbl) (v : Option (Buf Dbl))
    (nm m n : Nat) (matu matv : Int) (hm : 2 ≤ m) (hn : 2 ≤ n) (hnm : max m n ≤ nm)
    (out : SvdOut Dbl)
    (hout : Fp.svd (some rv1) (nm : Int) m n (some a) (some w) matu (some u) matv v = some out)
    (p : St Dbl × Dbl)
    (hp : p = Fp.svdPrep nm m n a w matu u matv (v.getD ⟨fun _ => 0⟩) rv1) :
    (∀ (al : Option (Buf Dbl)) (nm1 m1 n1 : Int) (a1 w1 u1 v1 : Option (Buf Dbl))
        (matu1 matv1 : Int) (o : SvdOut Dbl),
        Fp.svd al nm1 m1 n1 a1 w1 matu1 u1 matv1 v1 = some o →
        o.ierr = -2 ∨ o.ierr = -1 ∨ o.ierr = 0 ∨ (2 ≤ o.ierr ∧ o.ierr ≤ n1)) ∧
    (∀ k : Nat, 0 < k → out.ierr = (k : Int) →
      2 ≤ k ∧ k ≤ n ∧
      ∃ (st0 : St Dbl) (wf : Buf Dbl),
        Fp.stateAt nm m n matu matv p.2 k n p.1 = some st0 ∧
        (∀ j, j ≤ 30 →
          (Fp.splitCancel nm m matu p.2 k
            ((Fp.sweepOnce nm m n matu matv p.2 k)^[j] st0)).2 ≠ k) ∧
        out.w = some wf ∧
        wf = (Fp.splitCancel nm m matu p.2 k
            ((Fp.sweepOnce nm m n matu matv p.2 k)^[30] st0)).1.w ∧
        ∀ j : Nat, k ≤ j → j ≤ n - 1 →
          wf (j : Int) = st0.w (j : Int) ∧
          Dbl.lt (wf (j : Int)) (Dbl.fin false 0 0) = false ∧
          (Dbl.le (Dbl.fin false 0 0) (wf (j : Int)) = true ∨ wf (j : Int) = Dbl.nan)) := by
  constructor
  · intro al nm1 m1 n1 a1 w1 u1 v1 matu1 matv1 o ho
    exact fp_svd_status dblLaws al nm1 m1 n1 a1 w1 u1 v1 matu1 matv1 o ho
  · intro k hk hik
    have e := fp_svd_eq_some rv1 nm m n a w matu u matv v hm hn (Or.inl (by omega)) out hout
    subst e
    subst hp
    simp only [Fp.svdCore] at hik ⊢
    have hz := fp_svdPrep_rv1_zero dblLaws nm m n a w matu u matv (v.getD ⟨fun _ => 0⟩) rv1
      (by omega)
    obtain ⟨st0, hst0, hrep⟩ := fp_diagonalize_fail nm m n matu matv _ n _ k hk hik
    have hf := fp_repeatK_fail nm m n matu matv _ k 30 st0 (by rw [hrep])
    rw [hrep] at hf
    simp only at hf
    have hst : (Fp.svdCore nm m n a w matu u matv (v.getD ⟨fun _ => 0⟩) rv1).2 = (k : Int) := by
      simp only [Fp.svdCore]
      exact hik
    have hk2 : 2 ≤ k ∧ k ≤ n := by
      rcases fp_svdCore_status dblLaws nm m n a w matu u (matv) (v.getD ⟨fun _ => 0⟩) rv1 hn
        with h0 | ⟨h1, h2⟩
      · rw [hst] at h0; omega
      · rw [hst] at h1 h2; omega
    refine ⟨hk2.1, hk2.2, st0, _, hst0, hf.1, rfl, congrArg St.w hf.2, ?_⟩
    intro j hj1 hj2
    have e2 : VINDX (j + 1) = (j : Int) := by unfold VINDX; push_cast; ring
    have h4 := fp_repeatK_w_frame nm m n matu matv
      (Fp.svdPrep nm m n a w matu u matv (v.getD ⟨fun _ => 0⟩) rv1).2 k 30 st0 (j : Int)
      (by unfold VINDX; omega)
    rw [hrep] at h4
    simp only at h4
    refine ⟨h4, ?_⟩
    rw [h4]
    by_cases hg : Arith.eqb (Arith.fabs (0 : Dbl) +
        (Fp.svdPrep nm m n a w matu u matv (v.getD ⟨fun _ => 0⟩) rv1).2)
        (Fp.svdPrep nm m n a w matu u matv (v.getD ⟨fun _ => 0⟩) rv1).2 = true
    · have h0 : Arith.eqb (Arith.fabs
          ((Fp.svdPrep nm m n a w matu u matv (v.getD ⟨fun _ => 0⟩) rv1).1.rv1.get 0) +
          (Fp.svdPrep nm m n a w matu u matv (v.getD ⟨fun _ => 0⟩) rv1).2)
          (Fp.svdPrep nm m n a w matu u matv (v.getD ⟨fun _ => 0⟩) rv1).2 = true := by
        rw [hz]; exact hg
      have hinv := fp_stateAt_inv dblLaws nm m n matu matv _ k n _ st0 hst0 h0
        (fun j h1 h2 => by omega)
      have h5 := hinv.2.2 (j + 1) (by omega) (by omega)
      rw [e2] at h5
      exact ⟨h5.1, h5.2.imp id (dbl_eq_self _)⟩
    · exfalso
      have hbad := fp_bad_of_not_good dblLaws _ hg
      obtain ⟨n1, rfl⟩ : ∃ n1, n = n1 + 1 := ⟨n - 1, by omega⟩
      rw [fp_diagonalize_bad nm m (n1 + 1) matu matv _ n1 hbad] at hik
      simp only [] at hik
      omega

end DoubleRuns

/-! ## Comparisons of doubles and the solver on diag(2, 3, 4) -/

section DblOrder

/-- The integer `scaled s m e e0` is the value `(-1)^s * m * 2^e` in units of
`2^e0`. -/
theorem dbl_scaled_cast (s : Bool) (m : Nat) (e e0 : Int) (h : e0 ≤ e) :
    ((Dbl.scaled s m e e0 : Int) : ℚ) * (2 : ℚ) ^ e0 =
      (if s then -1 else 1) * (m : ℚ) * (2 : ℚ) ^ e := by
  unfold Dbl.scaled
  rw [Nat.shiftLeft_eq]
  have hk : (((e - e0).toNat : Nat) : Int) = e - e0 := Int.toNat_of_nonneg (by omega)
  have hp : (2 : ℚ) ^ ((e - e0).toNat) * (2 : ℚ) ^ e0 = (2 : ℚ) ^ e := by
    rw [← zpow_natCast, hk, ← zpow_add₀ (by norm_num)]
    congr 1
    ring
  cases s
  · simp only [Bool.false_eq_true, if_false]
    push_cast
    rw [mul_assoc, hp]
    ring
  · simp only [if_true]
    push_cast
    rw [neg_mul, mul_assoc, hp]
    ring

/-- The comparison `x <= y` of two finite doubles is the comparison of their
values. -/
theorem dbl_le_fin_iff (s : Bool) (m : Nat) (e : Int) (t : Bool) (n : Nat) (f : Int) :
    Dbl.le (Dbl.fin s m e) (Dbl.fin t n f) = true ↔
      (if s then -1 else 1) * (m : ℚ) * (2 : ℚ) ^ e ≤
        (if t then -1 else 1) * (n : ℚ) * (2 : ℚ) ^ f := by
  unfold Dbl.le Dbl.lt Dbl.eq
  simp only [Bool.or_eq_true, decide_eq_true_iff]
  rw [← le_iff_lt_or_eq]
  have h1 := dbl_scaled_cast s m e (min e f) (min_le_left _ _)
  have h2 := dbl_scaled_cast t n f (min e f) (min_le_right _ _)
  rw [← h1, ← h2]
  rw [mul_le_mul_right (zpow_pos (by norm_num : (0 : ℚ) < 2) _)]
  exact Int.cast_le.symm

/-- A double `tol <= 2.0` satisfies `tol <= 3.0` and `tol <= 4.0`. -/
theorem dbl_le_two (tol : Dbl) (h : Dbl.le tol (Dbl.fin false 4503599627370496 (-51)) = true) :
    Dbl.le tol (Dbl.fin false 6755399441055744 (-51)) = true ∧
    Dbl.le tol (Dbl.fin false 4503599627370496 (-50)) = true := by
  cases tol with
  | nan => cases h
  | inf s =>
    cases s
    · cases h
    · exact ⟨rfl, rfl⟩
  | fin s m e =>
    rw [dbl_le_fin_iff] at h ⊢
    rw [dbl_le_fin_iff]
    constructor
    · refine le_trans h ?_
      norm_num
    · refine le_trans h ?_
      norm_num

/-- A double `tol > 0.0` does not satisfy `tol <= 0.0`. -/
theorem dbl_pos_not_le (tol : Dbl) (h : Dbl.lt (Dbl.fin false 0 0) tol = true) :
    Dbl.le tol (Dbl.fin false 0 0) = false := by
  cases tol with
  | nan => cases h
  | inf s =>
    cases s
    · rfl
    · cases h
  | fin s m e =>
    have h1 : Dbl.le (Dbl.fin false 0 0) (Dbl.fin s m e) = true := by
      unfold Dbl.le
      rw [h]
      rfl
    rw [dbl_le_fin_iff] at h1
    by_contra h2
    have h3 : Dbl.le (Dbl.fin s m e) (Dbl.fin false 0 0) = true := by
      simpa using h2
    rw [dbl_le_fin_iff] at h3
    have h4 : (if s then -1 else 1) * (m : ℚ) * (2 : ℚ) ^ e = 0 := by
      have e0 : (if false then -1 else 1) * ((0 : Nat) : ℚ) * (2 : ℚ) ^ (0 : Int) = 0 := by simp
      rw [e0] at h1 h3
      exact le_antisymm h3 h1
    have hm : m = 0 := by
      have hp : (2 : ℚ) ^ e ≠ 0 := ne_of_gt (zpow_pos (by norm_num) _)
      cases s <;> simpa [hp] using h4
    subst hm
    unfold Dbl.lt at h
    rw [decide_eq_true_iff, dbl_scaled_zero, dbl_scaled_zero] at h
    exact lt_irrefl _ h

end DblOrder

/-- The two loops of `svdsolve` for `n = m = nm = 3` when the three tests
`w[j] >= tol` succeed. -/
theorem svdsolve_all_three {K : Type} [Arith K] (tv u w v b x : Buf K) (tol : K)
    (h : Arith.leb tol 0 = false) (h0 : Arith.leb tol (w.get 0) = true)
    (h1 : Arith.leb tol (w.get 1) = true) (h2 : Arith.leb tol (w.get 2) = true) :
    (Fp.svdsolve (some tv) 3 3 3 (some u) (some w) (some v) (some b) (some x) tol).ierr = 0 ∧
    ∃ x1, (Fp.svdsolve (some tv) 3 3 3 (some u) (some w) (some v) (some b) (some x) tol).x =
        some x1 ∧
      x1.get 0 = ((0 + v.get 0 *
          ((((0 + u.get 0 * b.get 0) + u.get 3 * b.get 1) + u.get 6 * b.get 2) / w.get 0)) +
        v.get 1 *
          ((((0 + u.get 1 * b.get 0) + u.get 4 * b.get 1) + u.get 7 * b.get 2) / w.get 1)) +
        v.get 2 *
          ((((0 + u.get 2 * b.get 0) + u.get 5 * b.get 1) + u.get 8 * b.get 2) / w.get 2) ∧
      x1.get 1 = ((0 + v.get 3 *
          ((((0 + u.get 0 * b.get 0) + u.get 3 * b.get 1) + u.get 6 * b.get 2) / w.get 0)) +
        v.get 4 *
          ((((0 + u.get 1 * b.get 0) + u.get 4 * b.get 1) + u.get 7 * b.get 2) / w.get 1)) +
        v.get 5 *
          ((((0 + u.get 2 * b.get 0) + u.get 5 * b.get 1) + u.get 8 * b.get 2) / w.get 2) ∧
      x1.get 2 = ((0 + v.get 6 *
          ((((0 + u.get 0 * b.get 0) + u.get 3 * b.get 1) + u.get 6 * b.get 2) / w.get 0)) +
        v.get 7 *
          ((((0 + u.get 1 * b.get 0) + u.get 4 * b.get 1) + u.get 7 * b.get 2) / w.get 1)) +
        v.get 8 *
          ((((0 + u.get 2 * b.get 0) + u.get 5 * b.get 1) + u.get 8 * b.get 2) / w.get 2) := by
  simp [Fp.svdsolve, Fp.solveTv, Fp.solveX, forUp, Buf.set, h, h0, h1, h2]
/-- The solver on the decomposition of `diag(2, 3, 4)` in double precision: for
`b = [2, 3, 4]` and every `tol` with `0.0 < tol` and `tol <= 2.0` it returns
`ierr = 0` and `x = [1, 1, 1]`. -/
theorem diag234D_solve (tv x : Buf Dbl) (tol : Dbl)
    (h0 : Dbl.lt (Dbl.fin false 0 0) tol = true)
    (h2 : Dbl.le tol (Dbl.fin false 4503599627370496 (-51)) = true) :
    (Fp.svdsolve (some tv) 3 3 3
      (some (Fp.svdCore 3 3 3 diag234D zeroD 1 zeroD 1 zeroD zeroD).1.u)
      (some (Fp.svdCore 3 3 3 diag234D zeroD 1 zeroD 1 zeroD zeroD).1.w)
      (some (Fp.svdCore 3 3 3 diag234D zeroD 1 zeroD 1 zeroD zeroD).1.v)
      (some rhs234D) (some x) tol).ierr = 0 ∧
    ∃ x1, (Fp.svdsolve (some tv) 3 3 3
        (some (Fp.svdCore 3 3 3 diag234D zeroD 1 zeroD 1 zeroD zeroD).1.u)
        (some (Fp.svdCore 3 3 3 diag234D zeroD 1 zeroD 1 zeroD zeroD).1.w)
        (some (Fp.svdCore 3 3 3 diag234D zeroD 1 zeroD 1 zeroD zeroD).1.v)
        (some rhs234D) (some x) tol).x = some x1 ∧
      x1.get 0 = Dbl.fin false 4503599627370496 (-52) ∧
      x1.get 1 = Dbl.fin false 4503599627370496 (-52) ∧
      x1.get 2 = Dbl.fin false 4503599627370496 (-52) := by
  have w0 : (Fp.svdCore 3 3 3 diag234D zeroD 1 zeroD 1 zeroD zeroD).1.w.get 0 =
      Dbl.fin false 4503599627370496 (-51) := by decide!
  have w1 : (Fp.svdCore 3 3 3 diag234D zeroD 1 zeroD 1 zeroD zeroD).1.w.get 1 =
      Dbl.fin false 6755399441055744 (-51) := by decide!
  have w2 : (Fp.svdCore 3 3 3 diag234D zeroD 1 zeroD 1 zeroD zeroD).1.w.get 2 =
      Dbl.fin false 4503599627370496 (-50) := by decide!
  have h3 := dbl_le_two tol h2
  have hz := dbl_pos_not_le tol h0
  obtain ⟨e1, x1, e2, e3, e4, e5⟩ := svdsolve_all_three tv
    (Fp.svdCore 3 3 3 diag234D zeroD 1 zeroD 1 zeroD zeroD).1.u
    (Fp.svdCore 3 3 3 diag234D zeroD 1 zeroD 1 zeroD zeroD).1.w
    (Fp.svdCore 3 3 3 diag234D zeroD 1 zeroD 1 zeroD zeroD).1.v rhs234D x tol hz
    (by rw [w0]; exact h2) (by rw [w1]; exact h3.1) (by rw [w2]; exact h3.2)
  refine ⟨e1, x1, e2, ?_, ?_, ?_⟩
  · rw [e3]
    decide!
  · rw [e4]
    decide!
  · rw [e5]
    decide!

/-! ## The solver when no test succeeds -/

/-- The two loops of `svdsolve` for `n = m = nm = 2` when both tests
`w[j] >= tol` fail. -/
theorem svdsolve_none_pass {K : Type} [Arith K] (tv u w v b x : Buf K) (tol : K)
    (h0 : Arith.leb tol 0 = false) (h1 : Arith.leb tol (w.get 0) = false)
    (h2 : Arith.leb tol (w.get 1) = false) :
    (Fp.svdsolve (some tv) 2 2 2 (some u) (some w) (some v) (some b) (some x) tol).ierr = 0 ∧
    ∃ x1, (Fp.svdsolve (some tv) 2 2 2 (some u) (some w) (some v) (some b) (some x) tol).x =
        some x1 ∧
      x1.get 0 = (0 + v.get 0 * 0) + v.get 1 * 0 ∧
      x1.get 1 = (0 + v.get 2 * 0) + v.get 3 * 0 := by
  simp [Fp.svdsolve, Fp.solveTv, Fp.solveX, forUp, Buf.set, h0, h1, h2]

/-- The comparisons `tol <= -0.0` and `tol <= 0.0` agree. -/
theorem dbl_le_negzero (tol : Dbl) :
    Dbl.le tol (Dbl.fin true 0 0) = Dbl.le tol (Dbl.fin false 0 0) := by
  cases tol with
  | nan => rfl
  | inf s => rfl
  | fin s m e =>
    simp only [Dbl.le, Dbl.lt, Dbl.eq, dbl_scaled_zero]

/-! ## The claims -/

section Claims

variable {K : Type} [LinearOrderedField K]

/-- C3 (solver formula). For `m >= 2`, `n >= 2`, `nm >= max(m, n)` and `tol > 0`, with
every array present and the workspace allocated, `svdsolve` returns the value 0,
sets `ierr = 0`, and writes `x[j] = sum_{i<n} v[j*nm+i] * t[i]` for every `j < n`,
where `t[i] = (sum_{k<m} u[k*nm+i] * b[k]) / w[i]` if `w[i] >= tol` and `t[i] = 0`
otherwise (so `w[i] = tol` is divided, and column `i` of `u` is not used when
`w[i] < tol`). -/
theorem svdsolve_formula (tv : Buf K) (nm m n : Nat) (u w v b x : Buf K) (tol : K)
    (hm : 2 ≤ m) (hn : 2 ≤ n) (hnm : max m n ≤ nm) (htol : 0 < tol) :
    ∃ x' : Buf K,
      svdsolve (some tv) (nm : Int) m n (some u) (some w) (some v) (some b) (some x) tol =
        { ret := 0, ierr := 0, x := some x' } ∧
      ∀ j : Nat, j < n →
        x' (j : Int) = ∑ i ∈ Finset.range n, v ((j : Int) * nm + i) *
          (if w (i : Int) ≥ tol then
            (∑ k ∈ Finset.range m, u ((k : Int) * nm + i) * b (k : Int)) / w (i : Int)
           else 0) := by
  refine ⟨_, svdsolve_valid tv nm m n u w v b x tol hm hn (Or.inl (by omega)) htol, ?_⟩
  intro j hj
  show (solveX nm n v (solveTv nm m n u w b tol tv) x).get (j : Int) = _
  rw [solveX_get, if_pos (by omega)]
  apply Finset.sum_congr rfl
  intro i hi
  rw [Finset.mem_range] at hi
  show _ * (solveTv nm m n u w b tol tv).get (i : Int) = _
  rw [solveTv_get, if_pos (by omega)]
  simp [solveT]

/-- Witness of C3 at `nm = m = n = 2`, all arrays zero, `tol = 1`. -/
theorem svdsolve_formula_witness :
    (2 ≤ 2) ∧ (max 2 2 ≤ 2) ∧ ((0 : ℚ) < 1) ∧
    ∃ x' : Buf ℚ,
      svdsolve (some ⟨fun _ => 0⟩) ((2 : Nat) : Int) (2 : Nat) (2 : Nat) (some ⟨fun _ => 0⟩)
        (some ⟨fun _ => 0⟩) (some ⟨fun _ => 0⟩) (some ⟨fun _ => 0⟩) (some ⟨fun _ => 0⟩) (1 : ℚ) =
        { ret := 0, ierr := 0, x := some x' } ∧
      ∀ j : Nat, j < 2 →
        x' (j : Int) = ∑ i ∈ Finset.range 2, (⟨fun _ => 0⟩ : Buf ℚ) ((j : Int) * (2 : Nat) + i) *
          (if (⟨fun _ => 0⟩ : Buf ℚ) (i : Int) ≥ 1 then
            (∑ k ∈ Finset.range 2, (⟨fun _ => 0⟩ : Buf ℚ) ((k : Int) * (2 : Nat) + i) *
              (⟨fun _ => 0⟩ : Buf ℚ) (k : Int)) / (⟨fun _ => 0⟩ : Buf ℚ) (i : Int)
           else 0) :=
  ⟨le_refl 2, by decide, by norm_num,
    svdsolve_formula ⟨fun _ => 0⟩ 2 2 2 ⟨fun _ => 0⟩ ⟨fun _ => 0⟩ ⟨fun _ => 0⟩ ⟨fun _ => 0⟩
      ⟨fun _ => 0⟩ 1 (le_refl 2) (le_refl 2) (by decide) (by norm_num)⟩

/-- C5 (leading dimension), evaluated at the failing input `nm = 2`, `m = 3`, `n = 2`:
here `nm < max(m, n)`, yet `svd` does not set `ierr = -2` (it runs the decomposition
and overwrites `u`, `w`) and `svdsolve` sets `ierr = 0` and overwrites `x`. -/
theorem small_leading_dimension_accepted (sqrt : K → K) (rv1 tv a w u v b x : Buf K)
    (matu matv : Int) :
    (∃ out, svd sqrt (some rv1) 2 3 2 (some a) (some w) matu (some u) matv (some v) = some out ∧
      out.ierr ≠ -2 ∧ out.u = some (svdCore sqrt 2 3 2 a w matu u matv v rv1).1.u) ∧
    svdsolve (some tv) 2 3 2 (some u) (some w) (some v) (some b) (some x) (1 : K) =
      { ret := 0, ierr := 0, x := some (solveX 2 2 v (solveTv 2 3 2 u w b 1 tv) x) } := by
  constructor
  · refine ⟨_, svd_valid sqrt rv1 2 3 2 a w matu u matv v (by omega) (by omega) (by omega),
      ?_, rfl⟩
    show (svdCore sqrt 2 3 2 a w matu u matv v rv1).2 ≠ -2
    unfold svdCore
    intro h
    rcases diagonalize_ierr 2 3 2 matu matv _ sqrt 2 _ with h0 | ⟨h1, _⟩
    · rw [h] at h0; omega
    · rw [h] at h1; omega
  · exact svdsolve_valid tv 2 3 2 u w v b x 1 (by omega) (by omega) (by omega) one_pos

/-- C6 (degenerate shape and tolerance). Whenever `m <= 1` or `n <= 1`, `svd` sets
`ierr = -2` and leaves `u`, `w`, `v` as they were; whenever `m <= 1` or `n <= 1` or
`tol <= 0`, `svdsolve` sets `ierr = -2` and leaves `x` as it was; and the function
value of both is 0 on every return. -/
theorem degenerate_rejected (sqrt : K → K) (rv1 tv : Option (Buf K)) (nm m n : Int)
    (a w u v b x : Option (Buf K)) (matu matv : Int) (tol : K) :
    ((m ≤ 1 ∨ n ≤ 1) →
      svd sqrt rv1 nm m n a w matu u matv v =
        some { ret := 0, ierr := -2, u := u, w := w, v := v }) ∧
    ((m ≤ 1 ∨ n ≤ 1 ∨ tol ≤ 0) →
      svdsolve tv nm m n u w v b x tol = { ret := 0, ierr := -2, x := x }) ∧
    (∀ out, svd sqrt rv1 nm m n a w matu u matv v = some out → out.ret = 0) ∧
    (svdsolve tv nm m n u w v b x tol).ret = 0 := by
  refine ⟨?_, ?_, ?_, ?_⟩
  · intro h
    unfold svd
    rw [if_pos]
    rcases h with h | h
    · exact Or.inr (Or.inl h)
    · exact Or.inl h
  · intro h
    unfold svdsolve
    rw [if_pos]
    rcases h with h | h | h
    · exact Or.inr (Or.inl h)
    · exact Or.inl h
    · simp [h]
  · intro out h
    unfold svd at h
    split at h
    · cases h; rfl
    · split at h
      · split at h
        · cases h
        · split at h
          · cases h
          · cases h; rfl
      · cases h; rfl
  · unfold svdsolve
    split
    · rfl
    · split <;> rfl

/-- Witness of C6 at `m = 1`, `n = 2`, `nm = 2`, `tol = 1`, all arrays zero. -/
theorem degenerate_rejected_witness :
    ((1 : Int) ≤ 1 ∨ (2 : Int) ≤ 1) ∧ ((1 : Int) ≤ 1 ∨ (2 : Int) ≤ 1 ∨ (1 : ℚ) ≤ 0) ∧
    svd (fun q : ℚ => q) (some ⟨fun _ => 0⟩) 2 1 2 (some ⟨fun _ => 0⟩) (some ⟨fun _ => 0⟩) 1
        (some ⟨fun _ => 0⟩) 1 (some ⟨fun _ => 0⟩) =
      some { ret := 0, ierr := -2, u := some ⟨fun _ => 0⟩, w := some ⟨fun _ => 0⟩,
             v := some ⟨fun _ => 0⟩ } ∧
    svdsolve (some ⟨fun _ => 0⟩) 2 1 2 (some ⟨fun _ => 0⟩) (some ⟨fun _ => 0⟩)
        (some ⟨fun _ => 0⟩) (some ⟨fun _ => 0⟩) (some ⟨fun _ => 0⟩) (1 : ℚ) =
      { ret := 0, ierr := -2, x := some ⟨fun _ => 0⟩ } :=
  ⟨Or.inl (le_refl 1), Or.inl (le_refl 1),
    (degenerate_rejected (fun q : ℚ => q) (some ⟨fun _ => 0⟩) (some ⟨fun _ => 0⟩) 2 1 2
      (some ⟨fun _ => 0⟩) (some ⟨fun _ => 0⟩) (some ⟨fun _ => 0⟩) (some ⟨fun _ => 0⟩)
      (some ⟨fun _ => 0⟩) (some ⟨fun _ => 0⟩) 1 1 1).1 (Or.inl (le_refl 1)),
    (degenerate_rejected (fun q : ℚ => q) (some ⟨fun _ => 0⟩) (some ⟨fun _ => 0⟩) 2 1 2
      (some ⟨fun _ => 0⟩) (some ⟨fun _ => 0⟩) (some ⟨fun _ => 0⟩) (some ⟨fun _ => 0⟩)
      (some ⟨fun _ => 0⟩) (some ⟨fun _ => 0⟩) 1 1 1).2.1 (Or.inl (le_refl 1))⟩

/-- C7 (null buffers in the decomposer), evaluated at failing inputs with
`nm = m = n = 2`, `a` and `w` present and the workspace allocated: with `u` null,
and with `v` null while `matv = 1`, `svd` does not return `ierr = -2`; the check
passes, `rv1` is allocated and the code stores through the null pointer. -/
theorem null_u_v_not_rejected (sqrt : K → K) (rv1 a w u : Buf K) (matu matv : Int)
    (v : Option (Buf K)) :
    svd sqrt (some rv1) 2 2 2 (some a) (some w) matu none matv v = none ∧
    svd sqrt (some rv1) 2 2 2 (some a) (some w) matu (some u) 1 none = none := by
  constructor <;> simp [svd]

/-- Non-negativity in exact arithmetic. For `m >= 2`, `n >= 2`, `nm >= max(m, n)` and any `matu`,
`matv`: if `svd` returns with `ierr = 0`, then `w[j] >= 0` for every `0 <= j < n`. -/
theorem singular_values_nonneg_exact (sqrt : K → K) (rv1 a w u : Buf K) (v : Option (Buf K))
    (nm m n : Nat) (matu matv : Int) (hm : 2 ≤ m) (hn : 2 ≤ n) (hnm : max m n ≤ nm)
    (out : SvdOut K)
    (hout : svd sqrt (some rv1) (nm : Int) m n (some a) (some w) matu (some u) matv v = some out)
    (hierr : out.ierr = 0) :
    ∃ w' : Buf K, out.w = some w' ∧ ∀ j : Nat, j < n → 0 ≤ w' (j : Int) := by
  have e := svd_eq_some sqrt rv1 nm m n a w matu u matv v hm hn (Or.inl (by omega)) out hout
  subst e
  refine ⟨_, rfl, ?_⟩
  intro j hj
  simp only [svdCore] at hierr ⊢
  have := diagonalize_ok nm m n matu matv _ sqrt n _ hierr
    (svdPrep_rv1_zero sqrt nm m n a w matu u matv _ rv1 (by omega))
    (fun j h1 h2 => by omega) (j + 1) (by omega) (by omega)
  have e2 : VINDX (j + 1) = (j : Int) := by unfold VINDX; push_cast; ring
  rwa [e2] at this

/-- Non-convergence reporting in exact arithmetic. Every status that `svd` returns is -2, -1, 0 or
lies in `2..n`. For `m >= 2`, `n >= 2`, `nm >= max(m, n)`: if `svd` returns a
positive status `ierr = k`, then `2 <= k <= n`; every index above `k` converged,
so that the loop reached `k` in a state `st0`; from there each of the 31 split
tests (before the first sweep and after each of 30 shift-and-QR sweeps) ended
with `L != k`; and the returned `w` is the one left by the last split test, with
`w[j] = st0.w[j] >= 0` for every 0-based `j` with `k <= j <= n-1`. -/
theorem nonconvergence_report_exact (sqrt : K → K) (rv1 a w u : Buf K) (v : Option (Buf K))
    (nm m n : Nat) (matu matv : Int) (hm : 2 ≤ m) (hn : 2 ≤ n) (hnm : max m n ≤ nm)
    (out : SvdOut K)
    (hout : svd sqrt (some rv1) (nm : Int) m n (some a) (some w) matu (some u) matv v = some out) :
    (∀ (al : Option (Buf K)) (nm' m' n' : Int) (a' w' u' v' : Option (Buf K))
        (matu' matv' : Int) (o : SvdOut K),
        svd sqrt al nm' m' n' a' w' matu' u' matv' v' = some o →
        o.ierr = -2 ∨ o.ierr = -1 ∨ o.ierr = 0 ∨ (2 ≤ o.ierr ∧ o.ierr ≤ n')) ∧
    (∀ k : Nat, 0 < k → out.ierr = (k : Int) →
      2 ≤ k ∧ k ≤ n ∧
      ∃ (st0 : St K) (wf : Buf K),
        stateAt nm m n matu matv
          (svdPrep sqrt nm m n a w matu u matv (v.getD ⟨fun _ => 0⟩) rv1).2 sqrt k n
          (svdPrep sqrt nm m n a w matu u matv (v.getD ⟨fun _ => 0⟩) rv1).1 = some st0 ∧
        (∀ j, j ≤ 30 →
          (splitCancel nm m matu
            (svdPrep sqrt nm m n a w matu u matv (v.getD ⟨fun _ => 0⟩) rv1).2 sqrt k
            ((sweepOnce nm m n matu matv
              (svdPrep sqrt nm m n a w matu u matv (v.getD ⟨fun _ => 0⟩) rv1).2 sqrt k)^[j]
              st0)).2 ≠ k) ∧
        out.w = some wf ∧
        wf = (splitCancel nm m matu
            (svdPrep sqrt nm m n a w matu u matv (v.getD ⟨fun _ => 0⟩) rv1).2 sqrt k
            ((sweepOnce nm m n matu matv
              (svdPrep sqrt nm m n a w matu u matv (v.getD ⟨fun _ => 0⟩) rv1).2 sqrt k)^[30]
              st0)).1.w ∧
        ∀ j : Nat, k ≤ j → j ≤ n - 1 → wf (j : Int) = st0.w (j : Int) ∧ 0 ≤ wf (j : Int)) := by
  constructor
  · intro al nm' m' n' a' w' u' v' matu' matv' o ho
    unfold svd at ho
    by_cases hc : n' ≤ 1 ∨ m' ≤ 1 ∨ (nm' < n' ∧ nm' < m') ∨ a'.isNone ∨ w'.isNone
    · rw [if_pos hc] at ho
      cases ho; left; rfl
    · rw [if_neg hc] at ho
      have hn' : 1 < n' := by
        by_contra hh
        exact hc (Or.inl (by omega))
      rcases al with _ | r0
      · cases ho; right; left; rfl
      rcases a' with _ | a0
      · exact absurd (Or.inr (Or.inr (Or.inr (Or.inl rfl)))) hc
      rcases w' with _ | w0
      · exact absurd (Or.inr (Or.inr (Or.inr (Or.inr rfl)))) hc
      rcases u' with _ | u0
      · cases ho
      simp only [] at ho
      split_ifs at ho
      cases ho
      right; right
      show (svdCore sqrt nm'.toNat m'.toNat n'.toNat a0 w0 matu' _ matv' _ r0).2 = 0 ∨ _
      unfold svdCore
      simp only []
      rcases diagonalize_ierr nm'.toNat m'.toNat n'.toNat matu' matv'
        (svdPrep sqrt nm'.toNat m'.toNat n'.toNat a0 w0 matu' u0 matv'
          (v'.getD ⟨fun _ => 0⟩) r0).2 sqrt n'.toNat
        (svdPrep sqrt nm'.toNat m'.toNat n'.toNat a0 w0 matu' u0 matv'
          (v'.getD ⟨fun _ => 0⟩) r0).1 with h0 | ⟨h1, h2⟩
      · left; exact h0
      · right
        have h3 := diagonalize_ierr_ne_one nm'.toNat m'.toNat n'.toNat matu' matv'
          (svdPrep sqrt nm'.toNat m'.toNat n'.toNat a0 w0 matu' u0 matv'
            (v'.getD ⟨fun _ => 0⟩) r0).2 sqrt n'.toNat _
          (svdPrep_rv1_zero sqrt nm'.toNat m'.toNat n'.toNat a0 w0 matu' u0 matv'
            (v'.getD ⟨fun _ => 0⟩) r0 (by omega))
        constructor
        · omega
        · have : ((n'.toNat : Nat) : Int) = n' := Int.toNat_of_nonneg (by omega)
          omega
  · intro k hk hik
    have e := svd_eq_some sqrt rv1 nm m n a w matu u matv v hm hn (Or.inl (by omega)) out hout
    subst e
    simp only [svdCore] at hik ⊢
    have hp0 := svdPrep_rv1_zero sqrt nm m n a w matu u matv (v.getD ⟨fun _ => 0⟩) rv1
      (by omega)
    obtain ⟨st0, hst0, hrep⟩ := diagonalize_fail nm m n matu matv _ sqrt n _ k hk hik
    have hinv := stateAt_inv nm m n matu matv _ sqrt k n _ st0 hst0 hp0
      (fun j h1 h2 => by omega)
    have hk2 : 2 ≤ k := by
      have h3 := diagonalize_ierr_ne_one nm m n matu matv
        (svdPrep sqrt nm m n a w matu u matv (v.getD ⟨fun _ => 0⟩) rv1).2 sqrt n _ hp0
      rw [hik] at h3
      by_contra hh
      have : k = 1 := by omega
      subst this
      exact h3 rfl
    have hf := repeatK_fail nm m n matu matv _ sqrt k 30 st0 (by rw [hrep])
    have sp := repeatK_spec nm m n matu matv
      (svdPrep sqrt nm m n a w matu u matv (v.getD ⟨fun _ => 0⟩) rv1).2 sqrt k (by omega) 30
      st0 hinv.2.1
    rw [hrep] at hf sp
    simp only at hf sp
    refine ⟨hk2, hinv.1, st0, _, hst0, hf.1, rfl, congrArg St.w hf.2, ?_⟩
    intro j hj1 hj2
    have e2 : VINDX (j + 1) = (j : Int) := by unfold VINDX; push_cast; ring
    have h4 := sp.2.1 (j : Int) (by unfold VINDX; omega)
    have h5 := hinv.2.2 (j + 1) (by omega) (by omega)
    rw [e2] at h5
    exact ⟨h4, by rw [h4]; exact h5⟩

/-- Orthogonality of V in exact real arithmetic. For `m >= 2`, `n >= 2`,
`nm >= max(m, n)`: if `svd` is called with `matv` set (`matv != 0`, in
particular `matv = 1`) and returns, with `ierr = 0` or with a positive status,
then the output `v` satisfies `V^T V = I_n`: `sum_{i<n} v[i*nm+p] * v[i*nm+q]`
is 1 if `p = q` and 0 otherwise, for all `p, q < n`. -/
theorem v_orthogonal_exact (rv1 a w u v : Buf ℝ) (nm m n : Nat) (matu matv : Int)
    (hm : 2 ≤ m) (hn : 2 ≤ n) (hnm : max m n ≤ nm) (hmatv : matv ≠ 0) (out : SvdOut ℝ)
    (hout : svd Real.sqrt (some rv1) (nm : Int) m n (some a) (some w) matu (some u) matv
      (some v) = some out) :
    ∃ v' : Buf ℝ, out.v = some v' ∧
      ∀ p q : Nat, p < n → q < n →
        ∑ i ∈ Finset.range n, v' ((i : Int) * nm + p) * v' ((i : Int) * nm + q) =
          if p = q then 1 else 0 := by
  have e := svd_eq_some Real.sqrt rv1 nm m n a w matu u matv (some v) hm hn
    (Or.inl (by omega)) out hout
  subst e
  refine ⟨_, rfl, ?_⟩
  have hnnm : n ≤ nm := by omega
  have hprep : ColsON (M nm (svdPrep Real.sqrt nm m n a w matu u matv v rv1).1.v) 1 n 1 n := by
    unfold svdPrep
    simp only []
    rw [if_pos hmatv]
    exact accV_ColsON nm n _ _ v _ _ (by omega) hnnm (fun i h1 h2 =>
      bidiag_RowOK nm m n _ w rv1 hnnm i h1 h2)
  have hfin := diagonalize_v_ColsON nm m n matu matv
    (svdPrep Real.sqrt nm m n a w matu u matv v rv1).2 hnnm n (le_refl _) _
    (svdPrep_rv1_zero Real.sqrt nm m n a w matu u matv v rv1 (by omega)) hprep
  intro p q hp hq
  have := hfin (p + 1) (q + 1) (by omega) (by omega) (by omega) (by omega)
  rw [sum_Icc_one_eq_range] at this
  simp only [Nat.add_right_cancel_iff] at this
  rw [← this]
  apply Finset.sum_congr rfl
  intro i _
  simp only [M, MINDX_succ]
  rfl

/-- Orthogonality of U in exact real arithmetic, for `m >= n`. For `m >= n >= 2`,
`nm >= max(m, n)`: if `svd` is called with `matu` set (`matu != 0`, in
particular `matu = 1`) and returns, with `ierr = 0` or with a positive status,
then the output `u` satisfies `U^T U = I_n`: `sum_{i<m} u[i*nm+p] * u[i*nm+q]`
is 1 if `p = q` and 0 otherwise, for all `p, q < n`. -/
theorem u_orthonormal_exact (rv1 a w u v : Buf ℝ) (nm m n : Nat) (matu matv : Int)
    (hn : 2 ≤ n) (hmn : n ≤ m) (hnm : max m n ≤ nm) (hmatu : matu ≠ 0) (out : SvdOut ℝ)
    (hout : svd Real.sqrt (some rv1) (nm : Int) m n (some a) (some w) matu (some u) matv
      (some v) = some out) :
    ∃ u' : Buf ℝ, out.u = some u' ∧
      ∀ p q : Nat, p < n → q < n →
        ∑ i ∈ Finset.range m, u' ((i : Int) * nm + p) * u' ((i : Int) * nm + q) =
          if p = q then 1 else 0 := by
  have e := svd_eq_some Real.sqrt rv1 nm m n a w matu u matv (some v) (by omega) hn
    (Or.inl (by omega)) out hout
  subst e
  refine ⟨_, rfl, ?_⟩
  have hnnm : n ≤ nm := by omega
  have hprep : ColsON (M nm (svdPrep Real.sqrt nm m n a w matu u matv v rv1).1.u) 1 m 1 n := by
    unfold svdPrep
    simp only []
    rw [if_pos hmatu]
    exact accU_ColsON nm m n _ _ hmn hnnm (fun i h1 h2 =>
      bidiag_ColOK nm m n _ w rv1 hnnm i h1 h2 (by omega))
  have hfin := diagonalize_u_ColsON nm m n matu matv
    (svdPrep Real.sqrt nm m n a w matu u matv v rv1).2 hnnm n (le_refl _) _
    (svdPrep_rv1_zero Real.sqrt nm m n a w matu u matv v rv1 (by omega)) hprep
  intro p q hp hq
  have := hfin (p + 1) (q + 1) (by omega) (by omega) (by omega) (by omega)
  rw [sum_Icc_one_eq_range] at this
  simp only [Nat.add_right_cancel_iff] at this
  rw [← this]
  apply Finset.sum_congr rfl
  intro i _
  simp only [M, MINDX_succ]
  rfl

/-- Reconstruction in exact real arithmetic. For `m >= 2`, `n >= 2`, `nm >= max(m, n)`, exact real
arithmetic: if `svd` is called with `matu` and `matv` set (non-zero, in
particular `matu = matv = 1`) and returns with `ierr = 0`, then the outputs
satisfy `A = U diag(w) V^T`: for all `i < m`, `j < n`,
`a[i*nm+j] = sum_{r<n} u[i*nm+r] * w[r] * v[j*nm+r]`. -/
theorem reconstruction_exact (rv1 a w u v : Buf ℝ) (nm m n : Nat) (matu matv : Int)
    (hm : 2 ≤ m) (hn : 2 ≤ n) (hnm : max m n ≤ nm) (hmatu : matu ≠ 0) (hmatv : matv ≠ 0)
    (out : SvdOut ℝ)
    (hout : svd Real.sqrt (some rv1) (nm : Int) m n (some a) (some w) matu (some u) matv
      (some v) = some out)
    (hierr : out.ierr = 0) :
    ∃ u' w' v' : Buf ℝ, out.u = some u' ∧ out.w = some w' ∧ out.v = some v' ∧
      ∀ i j : Nat, i < m → j < n →
        a ((i : Int) * nm + j) =
          ∑ r ∈ Finset.range n, u' ((i : Int) * nm + r) * w' (r : Int) * v' ((j : Int) * nm + r) := by
  have e := svd_eq_some Real.sqrt rv1 nm m n a w matu u matv (some v) hm hn
    (Or.inl (by omega)) out hout
  subst e
  refine ⟨_, _, _, rfl, rfl, rfl, ?_⟩
  have hnnm : n ≤ nm := by omega
  have hprep := svdPrep_Recon nm m n a w u v rv1 matu matv hmatu hmatv hnnm (by omega)
    (by omega)
  have hfin := diagonalize_Recon nm m n matu matv hmatu hmatv
    (svdPrep Real.sqrt nm m n a w matu u matv v rv1).2 a hnnm n (le_refl _) _
    (svdPrep_rv1_zero Real.sqrt nm m n a w matu u matv v rv1 (by omega))
    (fun t h1 h2 => by omega) hprep hierr
  intro i j hi hj
  have h1 := hfin.1 (i + 1) (j + 1) (by omega) (by omega) (by omega) (by omega)
  rw [Prod3_diag n _ _ _ _ hfin.2, sum_Icc_one_eq_range] at h1
  simp only [M, MINDX_succ] at h1
  rw [h1]
  apply Finset.sum_congr rfl
  intro r _
  have e1 : VINDX (r + 1) = (r : Int) := by unfold VINDX; omega
  rw [e1]
  rfl

/-- Householder sign choice in exact real arithmetic. Exact real arithmetic, any `nm`, `m`, `n`, any
step `i` and any contents of `u`. Column step: when the L1 scale of column `i`
(rows `i..m`) is non-zero, the sum of squares `s` left by the normalisation loop
is positive, and with `f = u[i,i]` (after the normalisation) and
`g = -SIGN(sqrt(s), f)` the value returned by the step: `g < 0` when `f >= 0`,
`g > 0` when `f < 0`, `h = f*g - s` satisfies `h <= -s < 0` (so the divisor `h`
of `s / h` is not zero) and the new pivot `f - g` is not zero. Row step: the
same with the L1 scale of row `i` (columns `i+1..n`), `f = u[i,i+1]`, and the
divisor `h` of `u[i,k] / h`. -/
theorem householder_sign_exact (nm m n i : Nat) (u rv1 : Buf ℝ) :
    (colScale nm m i u ≠ 0 →
      0 < (colNormalize nm m i (colScale nm m i u) u).1 ∧
      (colHouse Real.sqrt nm m n i (colScale nm m i u) u).2 =
        -(SIGN (Real.sqrt (colNormalize nm m i (colScale nm m i u) u).1)
          ((colNormalize nm m i (colScale nm m i u) u).2 (MINDX i i nm))) ∧
      (0 ≤ (colNormalize nm m i (colScale nm m i u) u).2 (MINDX i i nm) →
        (colHouse Real.sqrt nm m n i (colScale nm m i u) u).2 < 0) ∧
      ((colNormalize nm m i (colScale nm m i u) u).2 (MINDX i i nm) < 0 →
        0 < (colHouse Real.sqrt nm m n i (colScale nm m i u) u).2) ∧
      (colNormalize nm m i (colScale nm m i u) u).2 (MINDX i i nm) *
          (colHouse Real.sqrt nm m n i (colScale nm m i u) u).2 -
          (colNormalize nm m i (colScale nm m i u) u).1 ≤
        -(colNormalize nm m i (colScale nm m i u) u).1 ∧
      (colNormalize nm m i (colScale nm m i u) u).2 (MINDX i i nm) *
          (colHouse Real.sqrt nm m n i (colScale nm m i u) u).2 -
          (colNormalize nm m i (colScale nm m i u) u).1 < 0 ∧
      (colNormalize nm m i (colScale nm m i u) u).2 (MINDX i i nm) -
          (colHouse Real.sqrt nm m n i (colScale nm m i u) u).2 ≠ 0) ∧
    (rowScale nm n i u ≠ 0 →
      0 < (rowNormalize nm n i (rowScale nm n i u) u).1 ∧
      (rowHouse Real.sqrt nm m n i (rowScale nm n i u) u rv1).2.2 =
        -(SIGN (Real.sqrt (rowNormalize nm n i (rowScale nm n i u) u).1)
          ((rowNormalize nm n i (rowScale nm n i u) u).2 (MINDX i (i + 1) nm))) ∧
      (0 ≤ (rowNormalize nm n i (rowScale nm n i u) u).2 (MINDX i (i + 1) nm) →
        (rowHouse Real.sqrt nm m n i (rowScale nm n i u) u rv1).2.2 < 0) ∧
      ((rowNormalize nm n i (rowScale nm n i u) u).2 (MINDX i (i + 1) nm) < 0 →
        0 < (rowHouse Real.sqrt nm m n i (rowScale nm n i u) u rv1).2.2) ∧
      (rowNormalize nm n i (rowScale nm n i u) u).2 (MINDX i (i + 1) nm) *
          (rowHouse Real.sqrt nm m n i (rowScale nm n i u) u rv1).2.2 -
          (rowNormalize nm n i (rowScale nm n i u) u).1 ≤
        -(rowNormalize nm n i (rowScale nm n i u) u).1 ∧
      (rowNormalize nm n i (rowScale nm n i u) u).2 (MINDX i (i + 1) nm) *
          (rowHouse Real.sqrt nm m n i (rowScale nm n i u) u rv1).2.2 -
          (rowNormalize nm n i (rowScale nm n i u) u).1 < 0 ∧
      (rowNormalize nm n i (rowScale nm n i u) u).2 (MINDX i (i + 1) nm) -
          (rowHouse Real.sqrt nm m n i (rowScale nm n i u) u rv1).2.2 ≠ 0) := by
  constructor
  · intro hc
    have hs := colNormalize_pos nm m i u hc
    have hg : (colHouse Real.sqrt nm m n i (colScale nm m i u) u).2 =
        -(SIGN (Real.sqrt (colNormalize nm m i (colScale nm m i u) u).1)
          ((colNormalize nm m i (colScale nm m i u) u).2 (MINDX i i nm))) := rfl
    obtain ⟨s1, s2, s3, s4, _, s6⟩ :=
      sign_choice ((colNormalize nm m i (colScale nm m i u) u).2 (MINDX i i nm)) _ hs
    rw [hg]
    exact ⟨hs, rfl, s1, s2, s3, s4, s6⟩
  · intro hr
    have hs := rowNormalize_pos nm n i u hr
    have hg : (rowHouse Real.sqrt nm m n i (rowScale nm n i u) u rv1).2.2 =
        -(SIGN (Real.sqrt (rowNormalize nm n i (rowScale nm n i u) u).1)
          ((rowNormalize nm n i (rowScale nm n i u) u).2 (MINDX i (i + 1) nm))) := rfl
    obtain ⟨s1, s2, s3, s4, _, s6⟩ :=
      sign_choice ((rowNormalize nm n i (rowScale nm n i u) u).2 (MINDX i (i + 1) nm)) _ hs
    rw [hg]
    exact ⟨hs, rfl, s1, s2, s3, s4, s6⟩

/-- The split scan leaves through a `goto` in exact arithmetic. For every `n >= 1`
and every content of the arrays, in any ordered field (so in exact real
arithmetic): `rv1[0] = 0` after the bidiagonalization, and at every arrival at
the label `L520` during the diagonalization (index `k`, arrays `st`):
`1 <= k <= n`; `rv1[0] = 0`, so the first test of the scan succeeds at `L = 1`;
the scan `for (L = k; L >= 1; --L)` ends with `1 <= L <= k` (the value `L = 0`
of a fall through the bottom does not occur), through `goto L565` with the test
on `rv1[L-1]` satisfied or through `goto L540` with the test on `w[L-2]`
satisfied and `L >= 2` (so `w[VINDX(L1)]` and column `L1 = L - 1` of `u` are at
index `>= 0` and column `>= 1`); and `rv1[0] = 0` still holds after the
cancellation, and after the QR sweep when one follows. -/
theorem split_scan_exits_exact (sqrt : K → K) (nm m n : Nat) (a w u v rv1 : Buf K) (matu matv : Int)
    (hn : 1 ≤ n) :
    (svdPrep sqrt nm m n a w matu u matv v rv1).1.rv1 0 = 0 ∧
    ∀ ks ∈ scans nm m n matu matv (svdPrep sqrt nm m n a w matu u matv v rv1).2 sqrt n
        (svdPrep sqrt nm m n a w matu u matv v rv1).1,
      1 ≤ ks.1 ∧ ks.1 ≤ n ∧ ks.2.rv1 0 = 0 ∧
      |ks.2.rv1 (VINDX 1)| + (svdPrep sqrt nm m n a w matu u matv v rv1).2 =
        (svdPrep sqrt nm m n a w matu u matv v rv1).2 ∧
      1 ≤ (splitScan (svdPrep sqrt nm m n a w matu u matv v rv1).2 ks.2.w ks.2.rv1 ks.1).1 ∧
      (splitScan (svdPrep sqrt nm m n a w matu u matv v rv1).2 ks.2.w ks.2.rv1 ks.1).1 ≤ ks.1 ∧
      ((splitScan (svdPrep sqrt nm m n a w matu u matv v rv1).2 ks.2.w ks.2.rv1 ks.1).2 = true →
        |ks.2.rv1 (VINDX
            (splitScan (svdPrep sqrt nm m n a w matu u matv v rv1).2 ks.2.w ks.2.rv1 ks.1).1)| +
          (svdPrep sqrt nm m n a w matu u matv v rv1).2 =
            (svdPrep sqrt nm m n a w matu u matv v rv1).2) ∧
      ((splitScan (svdPrep sqrt nm m n a w matu u matv v rv1).2 ks.2.w ks.2.rv1 ks.1).2 = false →
        2 ≤ (splitScan (svdPrep sqrt nm m n a w matu u matv v rv1).2 ks.2.w ks.2.rv1 ks.1).1 ∧
        0 ≤ VINDX
          ((splitScan (svdPrep sqrt nm m n a w matu u matv v rv1).2 ks.2.w ks.2.rv1 ks.1).1 - 1) ∧
        |ks.2.w (VINDX
            ((splitScan (svdPrep sqrt nm m n a w matu u matv v rv1).2 ks.2.w ks.2.rv1 ks.1).1
              - 1))| + (svdPrep sqrt nm m n a w matu u matv v rv1).2 =
            (svdPrep sqrt nm m n a w matu u matv v rv1).2) ∧
      (splitCancel nm m matu (svdPrep sqrt nm m n a w matu u matv v rv1).2 sqrt ks.1 ks.2).1.rv1 0
        = 0 ∧
      ((splitCancel nm m matu (svdPrep sqrt nm m n a w matu u matv v rv1).2 sqrt ks.1 ks.2).2
          ≠ ks.1 →
        (sweepOnce nm m n matu matv (svdPrep sqrt nm m n a w matu u matv v rv1).2 sqrt ks.1
          ks.2).rv1 0 = 0) := by
  have hp := svdPrep_rv1_zero sqrt nm m n a w matu u matv v rv1 hn
  refine ⟨hp, fun ks hks => ?_⟩
  obtain ⟨h1, h2, h3⟩ := scans_rv1_zero nm m n matu matv _ sqrt n _ hp ks hks
  have hsp := splitScan_pos (svdPrep sqrt nm m n a w matu u matv v rv1).2 ks.2.w ks.2.rv1 ks.1
    h3 h1
  have hex := splitScan_exit (svdPrep sqrt nm m n a w matu u matv v rv1).2 ks.2.w ks.2.rv1 ks.1
    hsp.1
  have hc0 := splitCancel_rv1_zero nm m matu (svdPrep sqrt nm m n a w matu u matv v rv1).2 sqrt
    ks.1 ks.2 0 h3
  refine ⟨h1, h2, h3, ?_, hsp.1, splitScan_le _ _ _ _, hex.1, fun hf => ?_, hc0, fun hL => ?_⟩
  · show |ks.2.rv1.get (VINDX 1)| + _ = _
    rw [VINDX_one, h3, abs_zero, zero_add]
  · have h2' : 2 ≤ (splitScan (svdPrep sqrt nm m n a w matu u matv v rv1).2 ks.2.w ks.2.rv1
        ks.1).1 := by
      by_contra hc
      have := hsp.2 (by omega)
      rw [hf] at this
      exact Bool.false_ne_true this
    refine ⟨h2', ?_, hex.2 hf⟩
    unfold VINDX
    omega
  · unfold sweepOnce
    exact qrSweep_rv1_zero nm m n matu matv sqrt ks.1 _ _ _ hc0
      (splitCancel_pos nm m matu _ sqrt ks.1 ks.2 h3 h1)
      (lt_of_le_of_ne (splitCancel_le nm m matu _ sqrt ks.1 ks.2) hL)

/-- Counters of QR sweeps that follow the REPEAT loop. `svd` and `svdsolve` are total
functions of their inputs in the embedding: every loop is a recursion on a
counter fixed at loop entry (`k` for the split scan, `k + 1 - L` for the
cancellation, `30 - its` for the REPEAT loop). For every input: (1) a call of
`svd` fails to return only by a store through a `NULL` pointer `u` (or `v` with
`matv` set) after the checks, and a call that returns has the value 0; (2)
`svdsolve` returns the value 0; (3) for each index `k` and each content of the
arrays, the shift and QR sweep is executed at most 30 times, and not at all for
`k = 1` when `rv1[0] = 0`; (4) the whole diagonalization of a run of `svd`
performs at most `30 * (n - 1)` sweeps. -/
theorem sweep_counters_bounded (sqrt : K → K) (rv1Alloc tvAlloc : Option (Buf K)) (nmi mi ni : Int)
    (ao wo uo vo bo xo : Option (Buf K)) (tol : K)
    (nm m n k : Nat) (a w u v rv1 : Buf K) (matu matv : Int) (anorm : K) (st : St K) :
    (svd sqrt rv1Alloc nmi mi ni ao wo matu uo matv vo = none ↔
      (¬ (ni ≤ 1 ∨ mi ≤ 1 ∨ (nmi < ni ∧ nmi < mi) ∨ ao.isNone ∨ wo.isNone) ∧
        rv1Alloc.isSome ∧ (uo.isNone ∨ (matv ≠ 0 ∧ vo.isNone)))) ∧
    (∀ out, svd sqrt rv1Alloc nmi mi ni ao wo matu uo matv vo = some out → out.ret = 0) ∧
    (svdsolve tvAlloc nmi mi ni uo wo vo bo xo tol).ret = 0 ∧
    sweepsK nm m n matu matv anorm sqrt k 30 st ≤ 30 ∧
    (st.rv1 0 = 0 → sweepsK nm m n matu matv anorm sqrt 1 30 st = 0) ∧
    sweeps nm m n matu matv (svdPrep sqrt nm m n a w matu u matv v rv1).2 sqrt n
      (svdPrep sqrt nm m n a w matu u matv v rv1).1 ≤ 30 * (n - 1) := by
  refine ⟨svd_none_iff sqrt rv1Alloc nmi mi ni ao wo matu uo matv vo,
    fun out h => svd_ret sqrt rv1Alloc nmi mi ni ao wo matu uo matv vo out h,
    svdsolve_ret tvAlloc nmi mi ni uo wo vo bo xo tol,
    sweepsK_le nm m n matu matv anorm sqrt k 30 st,
    fun h0 => sweepsK_one nm m n matu matv anorm sqrt 30 st h0, ?_⟩
  cases n with
  | zero => exact Nat.zero_le _
  | succ n =>
    exact sweeps_le nm m (n + 1) matu matv _ sqrt (n + 1) _
      (svdPrep_rv1_zero sqrt nm m (n + 1) a w matu u matv v rv1 (by omega))

/-- C13 (`svdsolve` is read-only on its inputs). The arrays are separate objects;
`u`, `w`, `v`, `b` are only read (the embedding passes them by value and
returns `ierr` and `x` alone, the source having no store into them). For every
call, valid or rejected, with result `out`: (1) when `ierr` is not 0 the array
`x` is returned as it was; (2) when `ierr = 0` the array `x` was present and is
changed at the indices `0..n-1` only; (3) a second call with the same `nm`,
`m`, `n`, `u`, `w`, `v`, `b`, `tol`, on the array `x` as the first call left it
and with a workspace of any content (allocated if and only if it was in the
first call), gives the same `ierr` and the same `x`; (4) `ierr` and
`x[0..n-1]` do not depend on the initial contents of `x` and of the workspace. -/
theorem svdsolve_read_only (tvAlloc : Option (Buf K)) (nm m n : Int)
    (u w v b x : Option (Buf K)) (tol : K) :
    ((svdsolve tvAlloc nm m n u w v b x tol).ierr ≠ 0 →
      (svdsolve tvAlloc nm m n u w v b x tol).x = x) ∧
    ((svdsolve tvAlloc nm m n u w v b x tol).ierr = 0 →
      ∃ x0 x1 : Buf K, x = some x0 ∧ (svdsolve tvAlloc nm m n u w v b x tol).x = some x1 ∧
        ∀ y : Int, (y < 0 ∨ n ≤ y) → x1 y = x0 y) ∧
    (∀ tvAlloc2 : Option (Buf K), tvAlloc2.isSome = tvAlloc.isSome →
      svdsolve tvAlloc2 nm m n u w v b (svdsolve tvAlloc nm m n u w v b x tol).x tol =
        svdsolve tvAlloc nm m n u w v b x tol) ∧
    (∀ (tvAlloc2 : Option (Buf K)) (x2 : Option (Buf K)),
      tvAlloc2.isSome = tvAlloc.isSome → x2.isSome = x.isSome →
      (svdsolve tvAlloc2 nm m n u w v b x2 tol).ierr =
        (svdsolve tvAlloc nm m n u w v b x tol).ierr ∧
      ((svdsolve tvAlloc nm m n u w v b x tol).ierr = 0 →
        ∃ x1 x3 : Buf K, (svdsolve tvAlloc nm m n u w v b x tol).x = some x1 ∧
          (svdsolve tvAlloc2 nm m n u w v b x2 tol).x = some x3 ∧
          ∀ y : Int, 0 ≤ y → y < n → x3 y = x1 y)) := by
  rcases svdsolve_cases tvAlloc nm m n u w v b x tol with ⟨h, hc⟩ | ⟨h, htv, hc⟩ |
    ⟨tv, u0, w0, v0, b0, x0, htv, hu, hw, hv, hb, hx, hc, h⟩
  · rw [h]
    refine ⟨fun _ => rfl, fun h0 => by simp at h0, fun tv2 _ => ?_, fun tv2 x2 _ hx2 => ?_⟩
    · rcases svdsolve_cases tv2 nm m n u w v b x tol with ⟨h2, _⟩ | ⟨_, _, hc2⟩ |
        ⟨_, _, _, _, _, _, _, _, _, _, _, _, hc2, _⟩
      · exact h2
      · exact absurd hc hc2
      · exact absurd hc hc2
    · have hc2 : n ≤ 1 ∨ m ≤ 1 ∨ (nm < n ∧ nm < m) ∨ u.isNone ∨ w.isNone ∨
          v.isNone ∨ b.isNone ∨ x2.isNone ∨ tol ≤ 0 := by
        have e : x2.isNone = x.isNone := by
          cases x2 <;> cases x <;> simp at hx2 ⊢
        rw [e]; exact hc
      refine ⟨?_, fun h0 => by simp at h0⟩
      unfold svdsolve
      rw [if_pos hc2]
  · rw [h]
    subst htv
    refine ⟨fun _ => rfl, fun h0 => by simp at h0, fun tv2 ht2 => ?_, fun tv2 x2 ht2 hx2 => ?_⟩
    · have : tv2 = none := by
        cases tv2 with
        | none => rfl
        | some t => simp at ht2
      subst this
      exact h
    · have : tv2 = none := by
        cases tv2 with
        | none => rfl
        | some t => simp at ht2
      subst this
      have hc2 : ¬ (n ≤ 1 ∨ m ≤ 1 ∨ (nm < n ∧ nm < m) ∨ u.isNone ∨ w.isNone ∨
          v.isNone ∨ b.isNone ∨ x2.isNone ∨ tol ≤ 0) := by
        have e : x2.isNone = x.isNone := by
          cases x2 <;> cases x <;> simp at hx2 ⊢
        rw [e]; exact hc
      refine ⟨?_, fun h0 => by simp at h0⟩
      rcases svdsolve_cases none nm m n u w v b x2 tol with ⟨_, hc3⟩ | ⟨h3, _, _⟩ |
        ⟨_, _, _, _, _, _, h3, _⟩
      · exact absurd hc3 hc2
      · rw [h3]
      · cases h3
  · rw [h]
    subst htv hu hw hv hb hx
    have hn : 1 < n := by
      simp only [not_or, not_le] at hc
      exact hc.1
    refine ⟨fun h0 => absurd rfl h0, fun _ => ⟨x0, _, rfl, rfl, fun y hy => ?_⟩,
      fun tv2 ht2 => ?_, fun tv2 x2 ht2 hx2 => ?_⟩
    · show (solveX _ _ _ _ _).get y = _
      rw [solveX_get, if_neg (by omega)]
    · cases tv2 with
      | none => simp at ht2
      | some t2 =>
        have hc2 : ¬ (n ≤ 1 ∨ m ≤ 1 ∨ (nm < n ∧ nm < m) ∨ (some u0).isNone ∨ (some w0).isNone ∨
            (some v0).isNone ∨ (some b0).isNone ∨
            (some (solveX nm.toNat n.toNat v0
              (solveTv nm.toNat m.toNat n.toNat u0 w0 b0 tol tv) x0)).isNone ∨ tol ≤ 0) := hc
        unfold svdsolve
        rw [if_neg hc2]
        show ({ ret := 0, ierr := 0, x := some _ } : SolveOut K) = _
        congr 2
        apply Buf.ext_get
        intro y
        simp only [solveX_get]
        split_ifs with hy
        · apply Finset.sum_congr rfl
          intro i hi
          rw [Finset.mem_range] at hi
          show v0.get _ * (solveTv _ _ _ _ _ _ _ _).get i = v0.get _ * (solveTv _ _ _ _ _ _ _ _).get i
          rw [solveTv_congr _ _ _ _ _ _ _ t2 tv i hi]
        · rfl
    · cases tv2 with
      | none => simp at ht2
      | some t2 =>
        cases x2 with
        | none => simp at hx2
        | some x2 =>
          have hc2 : ¬ (n ≤ 1 ∨ m ≤ 1 ∨ (nm < n ∧ nm < m) ∨ (some u0).isNone ∨
              (some w0).isNone ∨ (some v0).isNone ∨ (some b0).isNone ∨
              (some x2).isNone ∨ tol ≤ 0) := hc
          have e : svdsolve (some t2) nm m n (some u0) (some w0) (some v0) (some b0) (some x2)
              tol =
            { ret := 0, ierr := 0,
              x := some (solveX nm.toNat n.toNat v0
                (solveTv nm.toNat m.toNat n.toNat u0 w0 b0 tol t2) x2) } := by
            unfold svdsolve
            rw [if_neg hc2]
          rw [e]
          refine ⟨rfl, fun _ => ⟨_, _, rfl, rfl, fun y h1 h2 => ?_⟩⟩
          show (solveX _ _ _ _ _).get y = (solveX _ _ _ _ _).get y
          rw [solveX_get, solveX_get, if_pos (by omega), if_pos (by omega)]
          apply Finset.sum_congr rfl
          intro i hi
          rw [Finset.mem_range] at hi
          show v0.get _ * (solveTv _ _ _ _ _ _ _ _).get i = v0.get _ * (solveTv _ _ _ _ _ _ _ _).get i
          rw [solveTv_congr _ _ _ _ _ _ _ t2 tv i (by omega)]

/-- Witness of C13 at `nm = m = n = 2`, `u = v` the identity, `w` and `b` all ones,
`tol = 1`: the call succeeds and `x` is changed at the indices 0 and 1 only. -/
theorem svdsolve_read_only_witness :
    (svdsolve (some zeroBuf) ((2 : Nat) : Int) (2 : Nat) (2 : Nat) (some eye2) (some onesBuf)
      (some eye2) (some onesBuf) (some zeroBuf) 1).ierr = 0 ∧
    ∃ x0 x1 : Buf ℚ, some zeroBuf = some x0 ∧
      (svdsolve (some zeroBuf) ((2 : Nat) : Int) (2 : Nat) (2 : Nat) (some eye2) (some onesBuf)
        (some eye2) (some onesBuf) (some zeroBuf) 1).x = some x1 ∧
      ∀ y : Int, (y < 0 ∨ ((2 : Nat) : Int) ≤ y) → x1 y = x0 y := by
  have h : (svdsolve (some zeroBuf) ((2 : Nat) : Int) (2 : Nat) (2 : Nat) (some eye2)
      (some onesBuf) (some eye2) (some onesBuf) (some zeroBuf) (1 : ℚ)).ierr = 0 := by
    rw [svdsolve_valid zeroBuf 2 2 2 eye2 onesBuf eye2 onesBuf zeroBuf 1 (le_refl 2) (le_refl 2)
      (Or.inl (le_refl 2)) (by norm_num)]
  exact ⟨h, (svdsolve_read_only (some zeroBuf) ((2 : Nat) : Int) (2 : Nat) (2 : Nat) (some eye2)
    (some onesBuf) (some eye2) (some onesBuf) (some zeroBuf) (1 : ℚ)).2.1 h⟩

/-- C14 (frame of `svd`). The arrays `a`, `u`, `w`, `v` are separate objects; `a`
is only read (the embedding passes it by value and returns `u`, `w`, `v` and
`ierr`, the source having no store into `a`). When `matv = 0`, for every call
that returns: `v` comes back as it was (also when it is `NULL`), and a call on
any other `v`, `NULL` included, returns the same `u`, `w`, `ierr` and function
value, with that `v` unchanged. -/
theorem svd_frame_v (sqrt : K → K) (rv1Alloc : Option (Buf K)) (nm m n : Int)
    (a w : Option (Buf K)) (matu : Int) (u : Option (Buf K)) (matv : Int) (v : Option (Buf K))
    (out : SvdOut K) (hmatv : matv = 0)
    (h : svd sqrt rv1Alloc nm m n a w matu u matv v = some out) :
    out.v = v ∧
    ∀ v2 : Option (Buf K), ∃ out2 : SvdOut K,
      svd sqrt rv1Alloc nm m n a w matu u matv v2 = some out2 ∧ out2.v = v2 ∧
        out2.u = out.u ∧ out2.w = out.w ∧ out2.ierr = out.ierr ∧ out2.ret = out.ret := by
  subst hmatv
  unfold svd at h ⊢
  by_cases hc : n ≤ 1 ∨ m ≤ 1 ∨ (nm < n ∧ nm < m) ∨ a.isNone ∨ w.isNone
  · rw [if_pos hc] at h
    cases h
    exact ⟨rfl, fun v2 => ⟨{ ret := 0, ierr := -2, u := u, w := w, v := v2 },
      by rw [if_pos hc], rfl, rfl, rfl, rfl, rfl⟩⟩
  · rw [if_neg hc] at h
    cases a with
    | none => exact absurd (Or.inr (Or.inr (Or.inr (Or.inl rfl)))) hc
    | some a =>
      cases w with
      | none => exact absurd (Or.inr (Or.inr (Or.inr (Or.inr rfl)))) hc
      | some w =>
        cases rv1Alloc with
        | none =>
          cases h
          exact ⟨rfl, fun v2 => ⟨{ ret := 0, ierr := -1, u := u, w := some w, v := v2 },
            by rw [if_neg hc], rfl, rfl, rfl, rfl, rfl⟩⟩
        | some rv1 =>
          cases u with
          | none => cases h
          | some u =>
            have hv : ∀ v2 : Option (Buf K), ¬ ((0 : Int) ≠ 0 ∧ v2.isNone) :=
              fun v2 hh => hh.1 rfl
            have h' : (if (0 : Int) ≠ 0 ∧ v.isNone then none else
                some ({ ret := 0,
                        ierr := (svdCore sqrt nm.toNat m.toNat n.toNat a w matu u 0
                          (v.getD ⟨fun _ => 0⟩) rv1).2,
                        u := some (svdCore sqrt nm.toNat m.toNat n.toNat a w matu u 0
                          (v.getD ⟨fun _ => 0⟩) rv1).1.u,
                        w := some (svdCore sqrt nm.toNat m.toNat n.toNat a w matu u 0
                          (v.getD ⟨fun _ => 0⟩) rv1).1.w,
                        v := v.map (fun _ => (svdCore sqrt nm.toNat m.toNat n.toNat a w matu u 0
                          (v.getD ⟨fun _ => 0⟩) rv1).1.v) } : SvdOut K)) = some out := h
            rw [if_neg (hv v)] at h'
            cases h'
            constructor
            · cases v with
              | none => rfl
              | some v0 =>
                show some (svdCore sqrt nm.toNat m.toNat n.toNat a w matu u 0 v0 rv1).1.v = some v0
                rw [svdCore_v_zero]
            · intro v2
              rw [if_neg hc]
              refine ⟨{ ret := 0,
                        ierr := (svdCore sqrt nm.toNat m.toNat n.toNat a w matu u 0
                          (v2.getD ⟨fun _ => 0⟩) rv1).2,
                        u := some (svdCore sqrt nm.toNat m.toNat n.toNat a w matu u 0
                          (v2.getD ⟨fun _ => 0⟩) rv1).1.u,
                        w := some (svdCore sqrt nm.toNat m.toNat n.toNat a w matu u 0
                          (v2.getD ⟨fun _ => 0⟩) rv1).1.w,
                        v := v2.map (fun _ => (svdCore sqrt nm.toNat m.toNat n.toNat a w matu u 0
                          (v2.getD ⟨fun _ => 0⟩) rv1).1.v) }, ?_, ?_, ?_, ?_, ?_, rfl⟩
              · exact if_neg (hv v2)
              · cases v2 with
                | none => rfl
                | some v0 =>
                  show some (svdCore sqrt nm.toNat m.toNat n.toNat a w matu u 0 v0 rv1).1.v =
                    some v0
                  rw [svdCore_v_zero]
              · show some _ = some _
                rw [svdCore_setv sqrt nm.toNat m.toNat n.toNat a w matu u (v.getD ⟨fun _ => 0⟩)
                  (v2.getD ⟨fun _ => 0⟩) rv1]
              · show some _ = some _
                rw [svdCore_setv sqrt nm.toNat m.toNat n.toNat a w matu u (v.getD ⟨fun _ => 0⟩)
                  (v2.getD ⟨fun _ => 0⟩) rv1]
              · show (svdCore _ _ _ _ _ _ _ _ _ _ _).2 = (svdCore _ _ _ _ _ _ _ _ _ _ _).2
                rw [svdCore_setv sqrt nm.toNat m.toNat n.toNat a w matu u (v.getD ⟨fun _ => 0⟩)
                  (v2.getD ⟨fun _ => 0⟩) rv1]

/-- Witness of C14: the 2 x 2 zero matrix over the rationals, `matu = 1`,
`matv = 0` and `v = NULL`. -/
theorem svd_frame_v_witness :
    ∃ out : SvdOut ℚ,
      svd (fun x : ℚ => x) (some zeroBuf) 2 2 2 (some zeroBuf) (some zeroBuf) 1 (some zeroBuf) 0
        none = some out ∧ out.v = none ∧
      ∀ v2 : Option (Buf ℚ), ∃ out2 : SvdOut ℚ,
        svd (fun x : ℚ => x) (some zeroBuf) 2 2 2 (some zeroBuf) (some zeroBuf) 1 (some zeroBuf)
          0 v2 = some out2 ∧ out2.v = v2 ∧
          out2.u = out.u ∧ out2.w = out.w ∧ out2.ierr = out.ierr ∧ out2.ret = out.ret := by
  have h : svd (fun x : ℚ => x) (some zeroBuf) 2 2 2 (some zeroBuf) (some zeroBuf) 1
      (some zeroBuf) 0 none =
      some { ret := 0,
             ierr := (svdCore (fun x : ℚ => x) 2 2 2 zeroBuf zeroBuf 1 zeroBuf 0 ⟨fun _ => 0⟩
               zeroBuf).2,
             u := some (svdCore (fun x : ℚ => x) 2 2 2 zeroBuf zeroBuf 1 zeroBuf 0 ⟨fun _ => 0⟩
               zeroBuf).1.u,
             w := some (svdCore (fun x : ℚ => x) 2 2 2 zeroBuf zeroBuf 1 zeroBuf 0 ⟨fun _ => 0⟩
               zeroBuf).1.w,
             v := none } := by
    simp [svd]
  exact ⟨_, h, svd_frame_v (fun x : ℚ => x) (some zeroBuf) 2 2 2 (some zeroBuf) (some zeroBuf) 1
    (some zeroBuf) 0 none _ rfl h⟩

/-- Writes stay inside the logical window in exact arithmetic. For `m >= 2`, `n >= 2`,
`nm >= max(m, n)`, every content of the arrays and both values of each flag: a
call of `svd` that returns leaves `u` unchanged at every flat offset that is
not `i*nm + j` with `0 <= i < m`, `0 <= j < n`, leaves `v` unchanged at every
offset that is not `i*nm + j` with `0 <= i < n`, `0 <= j < n`, and leaves `w`
unchanged outside the indices `0..n-1`; and every call of `svdsolve` leaves `x`
unchanged outside the indices `0..n-1`. -/
theorem writes_in_window_exact (sqrt : K → K) (rv1 a w u v : Buf K) (nm m n : Nat) (matu matv : Int)
    (hm : 2 ≤ m) (hn : 2 ≤ n) (hnm : max m n ≤ nm) (out : SvdOut K)
    (hout : svd sqrt (some rv1) (nm : Int) m n (some a) (some w) matu (some u) matv (some v) =
      some out)
    (tvAlloc us ws vs bs : Option (Buf K)) (x0 : Buf K) (tol : K) :
    (∃ u1 w1 v1 : Buf K, out.u = some u1 ∧ out.w = some w1 ∧ out.v = some v1 ∧
      (∀ x : Int, (¬ ∃ i j : Nat, i < m ∧ j < n ∧ x = (i : Int) * nm + j) → u1 x = u x) ∧
      (∀ x : Int, (¬ ∃ i j : Nat, i < n ∧ j < n ∧ x = (i : Int) * nm + j) → v1 x = v x) ∧
      (∀ x : Int, (x < 0 ∨ (n : Int) ≤ x) → w1 x = w x)) ∧
    (∃ x1 : Buf K, (svdsolve tvAlloc (nm : Int) m n us ws vs bs (some x0) tol).x = some x1 ∧
      ∀ y : Int, (y < 0 ∨ (n : Int) ≤ y) → x1 y = x0 y) := by
  have hnm' : n ≤ nm := le_trans (le_max_right m n) hnm
  have ho := svd_eq_some sqrt rv1 nm m n a w matu u matv (some v) hm hn (Or.inl hnm') out hout
  have kp := svdCore_keep sqrt nm m n a w matu u matv v rv1 (by omega)
  constructor
  · rw [ho]
    refine ⟨_, _, _, rfl, rfl, rfl, fun x hx => ?_, fun x hx => ?_, fun x hx => ?_⟩
    · exact kp.1 x (fun hw => hx ((Win_iff nm m n x).mp hw))
    · exact kp.2.1 x (fun hw => hx ((Win_iff nm n n x).mp hw))
    · exact kp.2.2 x hx
  · rcases svdsolve_cases tvAlloc (nm : Int) m n us ws vs bs (some x0) tol with ⟨h, _⟩ |
      ⟨h, _, _⟩ | ⟨tv, u0, w0, v0, b0, x0', _, _, _, _, _, hx, _, h⟩
    · rw [h]; exact ⟨x0, rfl, fun _ _ => rfl⟩
    · rw [h]; exact ⟨x0, rfl, fun _ _ => rfl⟩
    · rw [h]
      cases hx
      refine ⟨_, rfl, fun y hy => ?_⟩
      show (solveX _ _ _ _ _).get y = _
      rw [solveX_get, if_neg (by simp only [Int.toNat_ofNat]; omega)]

/-- C20 (the singular values and the status do not depend on the flags). For
`m >= 2`, `n >= 2` and a leading dimension that passes the check, every matrix
`a` and workspace, two calls of `svd` with any flags `matu`, `matv` and any
initial contents of `u`, `v`, `w` both return, with the same `ierr` and the
same `w[0..n-1]`. The cells `u[i*nm+j]`, `i < m`, `j < n`, are the same when the
two `matu` are both set or both clear (whatever the `matv`), and the cells
`v[i*nm+j]`, `i < n`, `j < n`, are the same when the two `matv` are both set
(whatever the `matu`). -/
theorem outputs_independent_of_flags (sqrt : K → K) (rv1 a : Buf K) (nm m n : Nat)
    (hm : 2 ≤ m) (hn : 2 ≤ n) (hnm : n ≤ nm ∨ m ≤ nm) (matu matv mu2 mv2 : Int)
    (u w v u2 w2 v2 : Buf K) :
    ∃ out out2 : SvdOut K,
      svd sqrt (some rv1) (nm : Int) m n (some a) (some w) matu (some u) matv (some v) =
        some out ∧
      svd sqrt (some rv1) (nm : Int) m n (some a) (some w2) mu2 (some u2) mv2 (some v2) =
        some out2 ∧
      out.ierr = out2.ierr ∧
      (∃ wa wb : Buf K, out.w = some wa ∧ out2.w = some wb ∧
        ∀ j : Nat, j < n → wa (j : Int) = wb (j : Int)) ∧
      ((matu ≠ 0 ↔ mu2 ≠ 0) → ∃ ua ub : Buf K, out.u = some ua ∧ out2.u = some ub ∧
        ∀ i j : Nat, i < m → j < n → ua ((i : Int) * nm + j) = ub ((i : Int) * nm + j)) ∧
      ((matv ≠ 0 ∧ mv2 ≠ 0) → ∃ va vb : Buf K, out.v = some va ∧ out2.v = some vb ∧
        ∀ i j : Nat, i < n → j < n → va ((i : Int) * nm + j) = vb ((i : Int) * nm + j)) := by
  have rel := svdCore_rel sqrt nm m n a a rv1 (AgreeOn.refl _ a) matu matv mu2 mv2 u w v u2 w2
    v2 (by omega)
  obtain ⟨⟨r1, r2, r3, _⟩, r5⟩ := rel
  refine ⟨_, _, svd_valid sqrt rv1 nm m n a w matu u matv v hm hn hnm,
    svd_valid sqrt rv1 nm m n a w2 mu2 u2 mv2 v2 hm hn hnm, r5, ⟨_, _, rfl, rfl, ?_⟩,
    fun hp => ⟨_, _, rfl, rfl, ?_⟩, fun hp => ⟨_, _, rfl, rfl, ?_⟩⟩
  · intro j hj
    exact r3 _ ⟨by omega, by omega⟩
  · intro i j hi hj
    exact r1 hp _ ((Win_iff nm m n _).mpr ⟨i, j, hi, hj, rfl⟩)
  · intro i j hi hj
    exact r2 hp _ ((Win_iff nm n n _).mpr ⟨i, j, hi, hj, rfl⟩)

/-- Witness of C20: the 2 x 2 zero matrix over the rationals, once with both
flags set on arrays of zeros, once with both flags clear on arrays of ones. -/
theorem outputs_independent_of_flags_witness :
    (2 ≤ 2) ∧ (2 ≤ 2 ∨ 2 ≤ 2) ∧
    ∃ out out2 : SvdOut ℚ,
      svd (fun x : ℚ => x) (some zeroBuf) ((2 : Nat) : Int) (2 : Nat) (2 : Nat) (some zeroBuf)
        (some zeroBuf) 1 (some zeroBuf) 1 (some zeroBuf) = some out ∧
      svd (fun x : ℚ => x) (some zeroBuf) ((2 : Nat) : Int) (2 : Nat) (2 : Nat) (some zeroBuf)
        (some onesBuf) 0 (some onesBuf) 0 (some onesBuf) = some out2 ∧
      out.ierr = out2.ierr ∧
      (∃ wa wb : Buf ℚ, out.w = some wa ∧ out2.w = some wb ∧
        ∀ j : Nat, j < 2 → wa (j : Int) = wb (j : Int)) := by
  obtain ⟨out, out2, h1, h2, h3, h4, _⟩ := outputs_independent_of_flags (fun x : ℚ => x)
    zeroBuf zeroBuf 2 2 2 (le_refl 2) (le_refl 2) (Or.inl (le_refl 2)) 1 1 0 0 zeroBuf zeroBuf
    zeroBuf onesBuf onesBuf onesBuf
  exact ⟨le_refl 2, Or.inl (le_refl 2), out, out2, h1, h2, h3, h4⟩

/-- Solve after decompose on `diag(2, 3, 4)` in exact real arithmetic. Exact real arithmetic,
`m = n = nm = 3`, `a` any array holding `[[2,0,0],[0,3,0],[0,0,4]]` in its first
9 cells, any initial contents of `u`, `w`, `v`, `x` and of the two workspaces:
`svd` with `matu = matv = 1` returns `ierr = 0` and `w = [2, 3, 4]`, and then
`svdsolve` on the returned `u`, `w`, `v` with `b = [2, 3, 4]` and any `tol` with
`0 < tol <= 2` returns `ierr = 0` and `x = [1, 1, 1]`. -/
theorem solve_after_decompose_diag_exact (rv1 a w u v tv b x : Buf ℝ) (tol : ℝ)
    (ha : ∀ y : Int, 0 ≤ y → y < 9 → a y = diag234 y)
    (hb0 : b 0 = 2) (hb1 : b 1 = 3) (hb2 : b 2 = 4) (htol : 0 < tol) (htol2 : tol ≤ 2) :
    ∃ (out : SvdOut ℝ) (u1 w1 v1 x1 : Buf ℝ),
      svd Real.sqrt (some rv1) ((3 : Nat) : Int) (3 : Nat) (3 : Nat) (some a) (some w) 1 (some u)
        1 (some v) = some out ∧
      out.ierr = 0 ∧ out.u = some u1 ∧ out.w = some w1 ∧ out.v = some v1 ∧
      w1 0 = 2 ∧ w1 1 = 3 ∧ w1 2 = 4 ∧
      svdsolve (some tv) ((3 : Nat) : Int) (3 : Nat) (3 : Nat) (some u1) (some w1) (some v1)
        (some b) (some x) tol = { ret := 0, ierr := 0, x := some x1 } ∧
      x1 0 = 1 ∧ x1 1 = 1 ∧ x1 2 = 1 := by
  obtain ⟨e0, w0, w1, w2, hu, hv⟩ := svdCore_diag234 rv1 a w u v 1 1 ha
  have hu' := hu (by decide)
  have hv' := hv (by decide)
  have hb0' : b.get 0 = 2 := hb0
  have hb1' : b.get 1 = 3 := hb1
  have hb2' : b.get 2 = 4 := hb2
  refine ⟨_, _, _, _, _,
    svd_valid Real.sqrt rv1 3 3 3 a w 1 u 1 v (by decide) (by decide) (Or.inl (le_refl 3)),
    e0, rfl, rfl, rfl, w0, w1, w2,
    svdsolve_valid tv 3 3 3 _ _ _ b x tol (by decide) (by decide) (Or.inl (le_refl 3)) htol,
    ?_, ?_, ?_⟩
  · show (solveX 3 3 _ _ x).get 0 = 1
    rw [solveX_get, if_pos (by decide)]
    simp only [Finset.sum_range_succ, Finset.sum_range_zero, solveTv_get, solveT, zero_add]
    norm_num [hu' 0, hu' 1, hu' 2, hu' 3, hu' 4, hu' 5, hu' 6, hu' 7, hu' 8,
      hv' 0, hv' 1, hv' 2, hv' 3, hv' 4, hv' 5, hv' 6, hv' 7, hv' 8, w0, w1, w2,
      hb0', hb1', hb2']
    linarith
  · show (solveX 3 3 _ _ x).get 1 = 1
    rw [solveX_get, if_pos (by decide)]
    simp only [Finset.sum_range_succ, Finset.sum_range_zero, solveTv_get, solveT, zero_add]
    norm_num [hu' 0, hu' 1, hu' 2, hu' 3, hu' 4, hu' 5, hu' 6, hu' 7, hu' 8,
      hv' 0, hv' 1, hv' 2, hv' 3, hv' 4, hv' 5, hv' 6, hv' 7, hv' 8, w0, w1, w2,
      hb0', hb1', hb2']
    linarith
  · show (solveX 3 3 _ _ x).get 2 = 1
    rw [solveX_get, if_pos (by decide)]
    simp only [Finset.sum_range_succ, Finset.sum_range_zero, solveTv_get, solveT, zero_add]
    norm_num [hu' 0, hu' 1, hu' 2, hu' 3, hu' 4, hu' 5, hu' 6, hu' 7, hu' 8,
      hv' 0, hv' 1, hv' 2, hv' 3, hv' 4, hv' 5, hv' 6, hv' 7, hv' 8, w0, w1, w2,
      hb0', hb1', hb2']
    linarith

/-- C16 (singular values are returned unsorted). Exact real arithmetic,
`m = n = nm = 3`, `a` any array holding `diag(2, 3, 4)` in its first 9 cells, any
flags and any initial contents of the other arrays: `svd` returns `ierr = 0`
and `w = [2, 3, 4]`, which is not in non-increasing order (`w[0] < w[1]`); and
with `matu = matv = 1` the returned `U` and `V` are both `-I`, so that `w[i]`
belongs to column `i` of `U` and of `V`. -/
theorem singular_values_unsorted (rv1 a w u v : Buf ℝ) (matu matv : Int)
    (ha : ∀ y : Int, 0 ≤ y → y < 9 → a y = diag234 y) :
    (∃ (out : SvdOut ℝ) (w1 : Buf ℝ),
      svd Real.sqrt (some rv1) ((3 : Nat) : Int) (3 : Nat) (3 : Nat) (some a) (some w) matu
        (some u) matv (some v) = some out ∧
      out.ierr = 0 ∧ out.w = some w1 ∧ w1 0 = 2 ∧ w1 1 = 3 ∧ w1 2 = 4 ∧
      ¬ (∀ i j : Nat, i ≤ j → j < 3 → w1 (j : Int) ≤ w1 (i : Int))) ∧
    (∃ (out : SvdOut ℝ) (u1 v1 : Buf ℝ),
      svd Real.sqrt (some rv1) ((3 : Nat) : Int) (3 : Nat) (3 : Nat) (some a) (some w) 1
        (some u) 1 (some v) = some out ∧ out.u = some u1 ∧ out.v = some v1 ∧
      ∀ i j : Nat, i < 3 → j < 3 →
        u1 ((i : Int) * 3 + j) = (if i = j then -1 else 0) ∧
        v1 ((i : Int) * 3 + j) = (if i = j then -1 else 0)) := by
  constructor
  · obtain ⟨e0, w0, w1, w2, _, _⟩ := svdCore_diag234 rv1 a w u v matu matv ha
    refine ⟨_, _,
      svd_valid Real.sqrt rv1 3 3 3 a w matu u matv v (by decide) (by decide)
        (Or.inl (le_refl 3)), e0, rfl, w0, w1, w2, fun h => ?_⟩
    have := h 0 1 (by decide) (by decide)
    have e1 : (svdCore Real.sqrt 3 3 3 a w matu u matv v rv1).1.w.get ((1 : Nat) : Int) = 3 := w1
    have e2 : (svdCore Real.sqrt 3 3 3 a w matu u matv v rv1).1.w.get ((0 : Nat) : Int) = 2 := w0
    have this' : (svdCore Real.sqrt 3 3 3 a w matu u matv v rv1).1.w.get ((1 : Nat) : Int) ≤
      (svdCore Real.sqrt 3 3 3 a w matu u matv v rv1).1.w.get ((0 : Nat) : Int) := this
    rw [e1, e2] at this'
    norm_num at this'
  · obtain ⟨_, _, _, _, hu, hv⟩ := svdCore_diag234 rv1 a w u v 1 1 ha
    refine ⟨_, _, _,
      svd_valid Real.sqrt rv1 3 3 3 a w 1 u 1 v (by decide) (by decide)
        (Or.inl (le_refl 3)), rfl, rfl, fun i j hi hj => ?_⟩
    have hu' := hu (by decide) ((i : Int) * 3 + j) (by omega) (by omega)
    have hv' := hv (by decide) ((i : Int) * 3 + j) (by omega) (by omega)
    have e : ((i : Int) * 3 + j = 0 ∨ (i : Int) * 3 + j = 4 ∨ (i : Int) * 3 + j = 8) ↔ i = j := by
      omega
    simp only [e] at hu' hv'
    exact ⟨hu', hv'⟩

/-- Witness of C16: `a = diag(2, 3, 4)`, both flags clear, the other arrays zero. -/
theorem singular_values_unsorted_witness :
    ∃ (out : SvdOut ℝ) (w1 : Buf ℝ),
      svd Real.sqrt (some zeroBuf) ((3 : Nat) : Int) (3 : Nat) (3 : Nat) (some diag234)
        (some zeroBuf) 0 (some zeroBuf) 0 (some zeroBuf) = some out ∧
      out.ierr = 0 ∧ out.w = some w1 ∧ w1 0 = 2 ∧ w1 1 = 3 ∧ w1 2 = 4 ∧
      ¬ (∀ i j : Nat, i ≤ j → j < 3 → w1 (j : Int) ≤ w1 (i : Int)) :=
  (singular_values_unsorted zeroBuf diag234 zeroBuf zeroBuf zeroBuf 0 0 (fun _ _ _ => rfl)).1

/-- Rank-deficient regularisation on `[[1, 2], [2, 4]]` in exact real arithmetic. Exact real
arithmetic, `m = n = nm = 2`, `a` any array holding `1, 2, 2, 4` in its first 4
cells, any initial contents of `u`, `w`, `v`, `x` and of the two workspaces, any
right-hand side `b` and any `tol` with `0 < tol <= 5`: `svd` with
`matu = matv = 1` returns `ierr = 0` and `w = [0, 5]`; the test `w[0] >= tol` of
`svdsolve` fails, so nothing is divided by `w[0] = 0`; `svdsolve` returns
`ierr = 0` and `x = [(b0 + 2 b1)/25, (2 b0 + 4 b1)/25] = A^T b / 25`; this `x`
solves the normal equations `A^T A y = A^T b`, that is `5 y0 + 10 y1 = b0 + 2 b1`
and `10 y0 + 20 y1 = 2 b0 + 4 b1`, and has the least Euclidean norm among their
solutions. -/
theorem rank_deficient_solve_exact (rv1 a w u v tv b x : Buf ℝ) (tol : ℝ)
    (ha0 : a 0 = 1) (ha1 : a 1 = 2) (ha2 : a 2 = 2) (ha3 : a 3 = 4)
    (htol : 0 < tol) (htol5 : tol ≤ 5) :
    ∃ (out : SvdOut ℝ) (u1 w1 v1 x1 : Buf ℝ),
      svd Real.sqrt (some rv1) ((2 : Nat) : Int) (2 : Nat) (2 : Nat) (some a) (some w) 1 (some u)
        1 (some v) = some out ∧
      out.ierr = 0 ∧ out.u = some u1 ∧ out.w = some w1 ∧ out.v = some v1 ∧
      w1 0 = 0 ∧ w1 1 = 5 ∧ ¬ (w1 0 ≥ tol) ∧
      svdsolve (some tv) ((2 : Nat) : Int) (2 : Nat) (2 : Nat) (some u1) (some w1) (some v1)
        (some b) (some x) tol = { ret := 0, ierr := 0, x := some x1 } ∧
      x1 0 = (b 0 + 2 * b 1) / 25 ∧ x1 1 = (2 * b 0 + 4 * b 1) / 25 ∧
      5 * x1 0 + 10 * x1 1 = b 0 + 2 * b 1 ∧ 10 * x1 0 + 20 * x1 1 = 2 * b 0 + 4 * b 1 ∧
      ∀ y0 y1 : ℝ, 5 * y0 + 10 * y1 = b 0 + 2 * b 1 → 10 * y0 + 20 * y1 = 2 * b 0 + 4 * b 1 →
        x1 0 * x1 0 + x1 1 * x1 1 ≤ y0 * y0 + y1 * y1 := by
  obtain ⟨e0, w0, w1⟩ := rank1_svdCore rv1 a w u v 1 1 ha0 ha1 ha2 ha3
  have rec := svdCore_recon 2 2 2 a w u v rv1 1 1 (by decide) (by decide) (le_refl 2)
    (by decide) (by decide) e0
  have r00 := rec 0 0 (by decide) (by decide)
  have r01 := rec 0 1 (by decide) (by decide)
  have r10 := rec 1 0 (by decide) (by decide)
  have r11 := rec 1 1 (by decide) (by decide)
  simp only [Finset.sum_range_succ, Finset.sum_range_zero, zero_add] at r00 r01 r10 r11
  norm_num [w0, w1] at r00 r01 r10 r11
  have ha0' : a.get 0 = 1 := ha0
  have ha1' : a.get 1 = 2 := ha1
  have ha2' : a.get 2 = 2 := ha2
  have ha3' : a.get 3 = 4 := ha3
  rw [ha0'] at r00
  rw [ha1'] at r01
  rw [ha2'] at r10
  rw [ha3'] at r11
  have hx0 : (solveX 2 2 (svdCore Real.sqrt 2 2 2 a w 1 u 1 v rv1).1.v
      (solveTv 2 2 2 (svdCore Real.sqrt 2 2 2 a w 1 u 1 v rv1).1.u
        (svdCore Real.sqrt 2 2 2 a w 1 u 1 v rv1).1.w b tol tv) x).get 0 =
      (b.get 0 + 2 * b.get 1) / 25 := by
    rw [solveX_get, if_pos (by decide)]
    simp only [Finset.sum_range_succ, Finset.sum_range_zero, solveTv_get, solveT, zero_add]
    norm_num [w0, w1, htol5, not_le.mpr htol]
    linear_combination (-(b.get 0) / 25) * r00 + (-(b.get 1) / 25) * r10
  have hx1 : (solveX 2 2 (svdCore Real.sqrt 2 2 2 a w 1 u 1 v rv1).1.v
      (solveTv 2 2 2 (svdCore Real.sqrt 2 2 2 a w 1 u 1 v rv1).1.u
        (svdCore Real.sqrt 2 2 2 a w 1 u 1 v rv1).1.w b tol tv) x).get 1 =
      (2 * b.get 0 + 4 * b.get 1) / 25 := by
    rw [solveX_get, if_pos (by decide)]
    simp only [Finset.sum_range_succ, Finset.sum_range_zero, solveTv_get, solveT, zero_add]
    norm_num [w0, w1, htol5, not_le.mpr htol]
    linear_combination (-(b.get 0) / 25) * r01 + (-(b.get 1) / 25) * r11
  refine ⟨_, _, _, _, _,
    svd_valid Real.sqrt rv1 2 2 2 a w 1 u 1 v (by decide) (by decide) (Or.inl (le_refl 2)),
    e0, rfl, rfl, rfl, w0, w1, ?_,
    svdsolve_valid tv 2 2 2 _ _ _ b x tol (by decide) (by decide) (Or.inl (le_refl 2)) htol,
    hx0, hx1, ?_, ?_, ?_⟩
  · show ¬ ((svdCore Real.sqrt 2 2 2 a w 1 u 1 v rv1).1.w.get 0 ≥ tol)
    rw [w0]
    exact not_le.mpr htol
  · show 5 * (solveX _ _ _ _ _).get 0 + 10 * (solveX _ _ _ _ _).get 1 = b.get 0 + 2 * b.get 1
    rw [hx0, hx1]
    ring
  · show 10 * (solveX _ _ _ _ _).get 0 + 20 * (solveX _ _ _ _ _).get 1 =
      2 * b.get 0 + 4 * b.get 1
    rw [hx0, hx1]
    ring
  · intro y0 y1 hy1 hy2
    show (solveX _ _ _ _ _).get 0 * (solveX _ _ _ _ _).get 0 +
      (solveX _ _ _ _ _).get 1 * (solveX _ _ _ _ _).get 1 ≤ _
    rw [hx0, hx1]
    have hy1' : 5 * y0 + 10 * y1 = b.get 0 + 2 * b.get 1 := hy1
    have e : b.get 0 + 2 * b.get 1 = 5 * (y0 + 2 * y1) := by linarith
    have e2 : 2 * b.get 0 + 4 * b.get 1 = 10 * (y0 + 2 * y1) := by linarith
    rw [e, e2]
    nlinarith [sq_nonneg (2 * y0 - y1)]

/-- C1, the run in double precision that breaks it. Input: `m = n = nm = 2`,
`a = [[2^440, 0], [-2^440, -2^480]]` (finite doubles), `matu = matv = 1`, arrays
of zeros for `u`, `w`, `v` and the workspace. The call returns `ierr = 0`, and
every entry of `u`, of `v` and of `w` is a zero: the product `U diag(w) V^T` is
the zero matrix (its entry `(0, 0)`, computed in doubles, is a zero), while
`a[0] = 2^440`. -/
theorem reconstruction_fails_on_overflow :
    ∃ out u1 w1 v1,
      Fp.svd (some zeroD) 2 2 2 (some bigD) (some zeroD) 1 (some zeroD) 1 (some zeroD) =
        some out ∧
      out.u = some u1 ∧ out.w = some w1 ∧ out.v = some v1 ∧ out.ierr = 0 ∧
      (∀ x : Fin 4, Dbl.eq (u1.get x) (Dbl.fin false 0 0) = true) ∧
      (∀ x : Fin 4, Dbl.eq (v1.get x) (Dbl.fin false 0 0) = true) ∧
      (∀ x : Fin 2, Dbl.eq (w1.get x) (Dbl.fin false 0 0) = true) ∧
      Dbl.eq (u1.get 0 * w1.get 0 * v1.get 0 + u1.get 1 * w1.get 1 * v1.get 1)
        (Dbl.fin false 0 0) = true ∧
      bigD.get 0 = Dbl.fin false 4503599627370496 388 ∧
      Dbl.eq (u1.get 0 * w1.get 0 * v1.get 0 + u1.get 1 * w1.get 1 * v1.get 1)
        (bigD.get 0) = false := by
  refine ⟨_, _, _, _, rfl, rfl, rfl, rfl, ?_⟩
  decide!

/-- C10, the run in double precision that breaks it. Input:
`m = n = nm = 2`, `a = [[2^440, 0], [-2^440, -2^480]]`, `matv = 1` (and `matu`
0 or 1). The call returns `ierr = 0` with every entry of `v` a zero, so that
`sum_{i<2} v[i*2+p] * v[i*2+p]`, computed in doubles, is a zero and not 1, for
`p = 0` and `p = 1`. Before the first QR sweep the accumulated `v` is
`[[1, 0], [0, -1]]`. -/
theorem v_not_orthogonal_on_overflow :
    (∀ matu : Fin 2, ∃ out v1,
      Fp.svd (some zeroD) 2 2 2 (some bigD) (some zeroD) (matu : Nat) (some zeroD) 1
        (some zeroD) = some out ∧
      out.v = some v1 ∧ out.ierr = 0 ∧
      (∀ x : Fin 4, Dbl.eq (v1.get x) (Dbl.fin false 0 0) = true) ∧
      Dbl.eq (v1.get 0 * v1.get 0 + v1.get 2 * v1.get 2) 1 = false ∧
      Dbl.eq (v1.get 1 * v1.get 1 + v1.get 3 * v1.get 3) 1 = false) ∧
    (Fp.svdPrep 2 2 2 bigD zeroD 1 zeroD 1 zeroD zeroD).1.v.get 0 = 1 ∧
    (Fp.svdPrep 2 2 2 bigD zeroD 1 zeroD 1 zeroD zeroD).1.v.get 1 = Dbl.fin false 0 0 ∧
    (Fp.svdPrep 2 2 2 bigD zeroD 1 zeroD 1 zeroD zeroD).1.v.get 2 = Dbl.fin false 0 0 ∧
    (Fp.svdPrep 2 2 2 bigD zeroD 1 zeroD 1 zeroD zeroD).1.v.get 3 = -1 := by
  refine ⟨fun matu => ⟨_, _, rfl, rfl, ?_⟩, ?_⟩
  · revert matu
    decide!
  · decide!

/-- C17, the run in double precision that breaks it. Input: `m = n = nm = 2`,
`a = [[8 * 2^1020, 0], [15 * 2^1020, 0]]` (finite doubles), arrays of zeros for
`u`, `w`, `v` and the workspace. With `matu = matv = 1` the call returns
`ierr = 2` and has stored a NaN at offset `-1` of `u`, of `w` and of `v`, where
a zero was; with `matu = matv = 0` it has stored a NaN at `w[-1]`. The offset
`-1` is not `i*nm + j` with `0 <= i, j`, and not in `0..n-1`. -/
theorem writes_outside_window_on_overflow :
    ∃ out u1 w1 v1 out0 w0,
      Fp.svd (some zeroD) 2 2 2 (some hugeD) (some zeroD) 1 (some zeroD) 1 (some zeroD) =
        some out ∧
      out.u = some u1 ∧ out.w = some w1 ∧ out.v = some v1 ∧ out.ierr = 2 ∧
      zeroD.get (-1) = Dbl.fin false 0 0 ∧
      u1.get (-1) = Dbl.nan ∧ w1.get (-1) = Dbl.nan ∧ v1.get (-1) = Dbl.nan ∧
      Fp.svd (some zeroD) 2 2 2 (some hugeD) (some zeroD) 0 (some zeroD) 0 (some zeroD) =
        some out0 ∧
      out0.w = some w0 ∧ w0.get (-1) = Dbl.nan := by
  refine ⟨_, _, _, _, _, _, rfl, rfl, rfl, rfl, ?_, ?_, ?_, ?_, ?_, rfl, rfl, ?_⟩ <;> decide!

/-- C18, the run in double precision that breaks it. Input:
`a = [[8 * 2^1020, 0], [15 * 2^1020, 0]]`, `m = n = nm = 2`, `matu = matv = 1`.
At the start of the diagonalization `anorm` is a NaN and `rv1[VINDX(1)]` is `0`;
the first split scan (for `k = 2`) finds both tests false at `L = 2` and at
`L = 1` and leaves the loop through the bottom, with `L = 0`; control falls into
the cancellation with `L = 0`, `L1 = 0`, which rotates column `0` of `u`: offset
`MINDX(1,0,2) = -1` holds a NaN afterwards; `svd` returns `ierr = 2`. -/
theorem split_scan_falls_through :
    (Fp.svdPrep 2 2 2 hugeD zeroD 1 zeroD 1 zeroD zeroD).2 = Dbl.nan ∧
    (Fp.svdPrep 2 2 2 hugeD zeroD 1 zeroD 1 zeroD zeroD).1.rv1.get (VINDX 1) =
      Dbl.fin false 0 0 ∧
    Fp.splitScan (Fp.svdPrep 2 2 2 hugeD zeroD 1 zeroD 1 zeroD zeroD).2
      (Fp.svdPrep 2 2 2 hugeD zeroD 1 zeroD 1 zeroD zeroD).1.w
      (Fp.svdPrep 2 2 2 hugeD zeroD 1 zeroD 1 zeroD zeroD).1.rv1 2 = (0, false) ∧
    (Fp.splitCancel 2 2 1 (Fp.svdPrep 2 2 2 hugeD zeroD 1 zeroD 1 zeroD zeroD).2 2
      (Fp.svdPrep 2 2 2 hugeD zeroD 1 zeroD 1 zeroD zeroD).1).2 = 0 ∧
    (Fp.svdPrep 2 2 2 hugeD zeroD 1 zeroD 1 zeroD zeroD).1.u.get (MINDX 1 0 2) =
      Dbl.fin false 0 0 ∧
    MINDX 1 0 2 = -1 ∧ VINDX 0 = -1 ∧
    (Fp.splitCancel 2 2 1 (Fp.svdPrep 2 2 2 hugeD zeroD 1 zeroD 1 zeroD zeroD).2 2
      (Fp.svdPrep 2 2 2 hugeD zeroD 1 zeroD 1 zeroD zeroD).1).1.u.get (MINDX 1 0 2) =
      Dbl.nan ∧
    (Fp.svdCore 2 2 2 hugeD zeroD 1 zeroD 1 zeroD zeroD).2 = 2 := by
  decide!

/-- C19, the run in double precision that breaks it. Column step `i = 1` on
`u = [[8 * 2^1020, 0], [15 * 2^1020, 0]]` (`m = n = nm = 2`): the L1 scale
`8 * 2^1020 + 15 * 2^1020` overflows to `+inf`, which is not `0.0`; the
normalised column is zero, so `s = 0` (not positive), `f = 0`, `g = -0.0`,
`h = f*g - s = -0.0`, the new pivot `f - g` is `0`, and the quotient `s / h` of
line 197 is `0.0 / -0.0`, a NaN, which the step stores into `u[1,2]`. Row step
`i = 1` on `u = [[0, 8 * 2^1020, 15 * 2^1020], [0, 0, 0]]` (`m = 2`,
`n = nm = 3`): the same, and the quotient `u[1,2] / h` of line 227 is a NaN. -/
theorem householder_division_on_overflow :
    Fp.colScale 2 2 1 hugeD = Dbl.inf false ∧
    Arith.eqb (Fp.colScale 2 2 1 hugeD) 0 = false ∧
    (Fp.colNormalize 2 2 1 (Fp.colScale 2 2 1 hugeD) hugeD).1 = Dbl.fin false 0 0 ∧
    (Fp.colNormalize 2 2 1 (Fp.colScale 2 2 1 hugeD) hugeD).2.get (MINDX 1 1 2) =
      Dbl.fin false 0 0 ∧
    (Fp.colHouse 2 2 2 1 (Fp.colScale 2 2 1 hugeD) hugeD).2 = Dbl.fin true 0 0 ∧
    (Fp.colNormalize 2 2 1 (Fp.colScale 2 2 1 hugeD) hugeD).2.get (MINDX 1 1 2) *
        (Fp.colHouse 2 2 2 1 (Fp.colScale 2 2 1 hugeD) hugeD).2 -
      (Fp.colNormalize 2 2 1 (Fp.colScale 2 2 1 hugeD) hugeD).1 = Dbl.fin true 0 0 ∧
    (Fp.colNormalize 2 2 1 (Fp.colScale 2 2 1 hugeD) hugeD).2.get (MINDX 1 1 2) -
      (Fp.colHouse 2 2 2 1 (Fp.colScale 2 2 1 hugeD) hugeD).2 = Dbl.fin false 0 0 ∧
    (Dbl.fin false 0 0 : Dbl) / Dbl.fin true 0 0 = Dbl.nan ∧
    (Fp.colStep 2 2 2 1 hugeD).1.get (MINDX 1 2 2) = Dbl.nan ∧
    Fp.rowScale 3 3 1 hugeRowD = Dbl.inf false ∧
    (Fp.rowNormalize 3 3 1 (Fp.rowScale 3 3 1 hugeRowD) hugeRowD).1 = Dbl.fin false 0 0 ∧
    (Fp.rowHouse 3 2 3 1 (Fp.rowScale 3 3 1 hugeRowD) hugeRowD zeroD).2.2 =
      Dbl.fin true 0 0 ∧
    (Fp.rowHouse 3 2 3 1 (Fp.rowScale 3 3 1 hugeRowD) hugeRowD zeroD).2.1.get (VINDX 2) =
      Dbl.nan := by
  decide!

/-- C12, the claim fails in double precision. On `a = [[1, 2], [2, 4]]`
(`m = n = nm = 2`, `matu = matv = 1`, arrays of zeros) `svd` returns `ierr = 0`
with `w[0] = 8056283928194523 * 2^-104` (about `3.97e-16`, not `0`) and
`w[1] = 5629499534213119 * 2^-50` (the double below `5`). With `b = [5, 0]`:
for `tol = 5` the test `w[1] >= tol` fails too and `svdsolve` returns
`x = [0, 0]`, where the claim says `[1/5, 2/5]`; for `tol = 2^-53` the test
`w[0] >= tol` succeeds, `svdsolve` divides by `w[0]` and returns
`x = [-5035177455121575 * 2, 5035177455121576]`. -/
theorem rank_deficient_solve_double_fails :
    ∃ out u1 w1 v1,
      Fp.svd (some zeroD) 2 2 2 (some rank1D) (some zeroD) 1 (some zeroD) 1 (some zeroD) =
        some out ∧
      out.u = some u1 ∧ out.w = some w1 ∧ out.v = some v1 ∧ out.ierr = 0 ∧
      w1.get 0 = Dbl.fin false 8056283928194523 (-104) ∧
      w1.get 1 = Dbl.fin false 5629499534213119 (-50) ∧
      Dbl.eq (w1.get 0) 0 = false ∧ Dbl.lt (w1.get 1) (Dbl.ofInt 5) = true ∧
      (Fp.svdsolve (some zeroD) 2 2 2 (some u1) (some w1) (some v1) (some rhs50D)
        (some zeroD) (Dbl.ofInt 5)).ierr = 0 ∧
      ((Fp.svdsolve (some zeroD) 2 2 2 (some u1) (some w1) (some v1) (some rhs50D)
        (some zeroD) (Dbl.ofInt 5)).x.getD zeroD).get 0 = Dbl.fin false 0 0 ∧
      ((Fp.svdsolve (some zeroD) 2 2 2 (some u1) (some w1) (some v1) (some rhs50D)
        (some zeroD) (Dbl.ofInt 5)).x.getD zeroD).get 1 = Dbl.fin false 0 0 ∧
      (Fp.svdsolve (some zeroD) 2 2 2 (some u1) (some w1) (some v1) (some rhs50D)
        (some zeroD) (Dbl.ofScaled 1 (-53))).ierr = 0 ∧
      ((Fp.svdsolve (some zeroD) 2 2 2 (some u1) (some w1) (some v1) (some rhs50D)
        (some zeroD) (Dbl.ofScaled 1 (-53))).x.getD zeroD).get 0 =
          Dbl.fin true 5035177455121575 1 ∧
      ((Fp.svdsolve (some zeroD) 2 2 2 (some u1) (some w1) (some v1) (some rhs50D)
        (some zeroD) (Dbl.ofScaled 1 (-53))).x.getD zeroD).get 1 =
          Dbl.fin false 5035177455121576 0 := by
  refine ⟨_, _, _, _, rfl, rfl, rfl, rfl, ?_⟩
  decide!

/-- C12, amended. Over exact real arithmetic the claim holds as it stands (first
part, any `b`, any `0 < tol <= 5`). In double precision (second part, `a`
`[[1, 2], [2, 4]]`, `m = n = nm = 2`, `matu = matv = 1`, arrays of zeros) `svd`
returns `ierr = 0` with `w[0] = 8056283928194523 * 2^-104` and
`w[1] = 5629499534213119 * 2^-50`, and for every right-hand side `b`, every
content of `x` and of the workspace, and every `tol` that passes the input test
(`tol <= 0.0` false) with `w[0] >= tol` false and `w[1] >= tol` true, `svdsolve`
returns `ierr = 0` and, without any division by `w[0]`,
`x[j] = (0 + v[j,0] * 0) + v[j,1] * (((0 + u[0,1] * b[0]) + u[1,1] * b[1]) / w[1])`,
every operation a double operation. -/
theorem rank_deficient_solve :
    (∀ (rv1 a w u v tv b x : Buf ℝ) (tol : ℝ),
      a 0 = 1 → a 1 = 2 → a 2 = 2 → a 3 = 4 → 0 < tol → tol ≤ 5 →
      ∃ (out : SvdOut ℝ) (u1 w1 v1 x1 : Buf ℝ),
        svd Real.sqrt (some rv1) ((2 : Nat) : Int) (2 : Nat) (2 : Nat) (some a) (some w) 1
          (some u) 1 (some v) = some out ∧
        out.ierr = 0 ∧ out.u = some u1 ∧ out.w = some w1 ∧ out.v = some v1 ∧
        w1 0 = 0 ∧ w1 1 = 5 ∧ ¬ (w1 0 ≥ tol) ∧
        svdsolve (some tv) ((2 : Nat) : Int) (2 : Nat) (2 : Nat) (some u1) (some w1) (some v1)
          (some b) (some x) tol = { ret := 0, ierr := 0, x := some x1 } ∧
        x1 0 = (b 0 + 2 * b 1) / 25 ∧ x1 1 = (2 * b 0 + 4 * b 1) / 25 ∧
        5 * x1 0 + 10 * x1 1 = b 0 + 2 * b 1 ∧ 10 * x1 0 + 20 * x1 1 = 2 * b 0 + 4 * b 1 ∧
        ∀ y0 y1 : ℝ, 5 * y0 + 10 * y1 = b 0 + 2 * b 1 → 10 * y0 + 20 * y1 = 2 * b 0 + 4 * b 1 →
          x1 0 * x1 0 + x1 1 * x1 1 ≤ y0 * y0 + y1 * y1) ∧
    (∃ out u1 w1 v1,
      Fp.svd (some zeroD) 2 2 2 (some rank1D) (some zeroD) 1 (some zeroD) 1 (some zeroD) =
        some out ∧
      out.u = some u1 ∧ out.w = some w1 ∧ out.v = some v1 ∧ out.ierr = 0 ∧
      w1.get 0 = Dbl.fin false 8056283928194523 (-104) ∧
      w1.get 1 = Dbl.fin false 5629499534213119 (-50) ∧
      ∀ (tv b x : Buf Dbl) (tol : Dbl),
        Dbl.le tol 0 = false → Dbl.le tol (w1.get 0) = false → Dbl.le tol (w1.get 1) = true →
        (Fp.svdsolve (some tv) 2 2 2 (some u1) (some w1) (some v1) (some b) (some x) tol).ierr
          = 0 ∧
        ∃ x1,
          (Fp.svdsolve (some tv) 2 2 2 (some u1) (some w1) (some v1) (some b) (some x) tol).x =
            some x1 ∧
          x1.get 0 = (0 + v1.get 0 * 0) +
            v1.get 1 * (((0 + u1.get 1 * b.get 0) + u1.get 3 * b.get 1) / w1.get 1) ∧
          x1.get 1 = (0 + v1.get 2 * 0) +
            v1.get 3 * (((0 + u1.get 1 * b.get 0) + u1.get 3 * b.get 1) / w1.get 1)) := by
  refine ⟨fun rv1 a w u v tv b x tol h0 h1 h2 h3 ht ht5 =>
    rank_deficient_solve_exact rv1 a w u v tv b x tol h0 h1 h2 h3 ht ht5,
    _, _, _, _, rfl, rfl, rfl, rfl, by decide!, by decide!, by decide!, ?_⟩
  intro tv b x tol h0 h1 h2
  exact svdsolve_second_only tv _ _ _ b x tol h0 h1 h2

/-- Witness of C12, amended: over the reals `b = [5, 0]`, `tol = 1` gives
`x = [1/5, 2/5]`; in double precision `b = [5, 0]`, `tol = 1` gives
`x = [7205759403792792 * 2^-55, 7205759403792791 * 2^-54]`, which is
`[0.19999999999999996, 0.3999999999999999]`. -/
theorem rank_deficient_solve_witness :
    ((0 : ℝ) < 1) ∧ ((1 : ℝ) ≤ 5) ∧
    (∃ (out : SvdOut ℝ) (u1 w1 v1 x1 : Buf ℝ),
      svd Real.sqrt (some zeroBuf) ((2 : Nat) : Int) (2 : Nat) (2 : Nat) (some rank1)
        (some zeroBuf) 1 (some zeroBuf) 1 (some zeroBuf) = some out ∧
      out.ierr = 0 ∧ out.u = some u1 ∧ out.w = some w1 ∧ out.v = some v1 ∧
      w1 0 = 0 ∧ w1 1 = 5 ∧
      svdsolve (some zeroBuf) ((2 : Nat) : Int) (2 : Nat) (2 : Nat) (some u1) (some w1) (some v1)
        (some ⟨fun y => if y = 0 then 5 else 0⟩) (some zeroBuf) 1 =
          { ret := 0, ierr := 0, x := some x1 } ∧
      x1 0 = 1 / 5 ∧ x1 1 = 2 / 5) ∧
    Dbl.le (Dbl.ofInt 1) 0 = false ∧
    Dbl.le (Dbl.ofInt 1) (Dbl.fin false 8056283928194523 (-104)) = false ∧
    Dbl.le (Dbl.ofInt 1) (Dbl.fin false 5629499534213119 (-50)) = true ∧
    (∃ out u1 w1 v1 x1,
      Fp.svd (some zeroD) 2 2 2 (some rank1D) (some zeroD) 1 (some zeroD) 1 (some zeroD) =
        some out ∧
      out.u = some u1 ∧ out.w = some w1 ∧ out.v = some v1 ∧ out.ierr = 0 ∧
      (Fp.svdsolve (some zeroD) 2 2 2 (some u1) (some w1) (some v1) (some rhs50D)
        (some zeroD) (Dbl.ofInt 1)).ierr = 0 ∧
      (Fp.svdsolve (some zeroD) 2 2 2 (some u1) (some w1) (some v1) (some rhs50D)
        (some zeroD) (Dbl.ofInt 1)).x = some x1 ∧
      x1.get 0 = Dbl.fin false 7205759403792792 (-55) ∧
      x1.get 1 = Dbl.fin false 7205759403792791 (-54)) := by
  obtain ⟨out, u1, w1, v1, x1, h1, h2, h3, h4, h5, h6, h7, _, h9, h10, h11, _⟩ :=
    rank_deficient_solve.1 zeroBuf rank1 zeroBuf zeroBuf zeroBuf zeroBuf
      ⟨fun y => if y = 0 then 5 else 0⟩ zeroBuf 1 rfl rfl rfl rfl (by norm_num) (by norm_num)
  obtain ⟨dout, du, dw, dv, d1, d2, d3, d4, d5, d6, d7, d8⟩ := rank_deficient_solve.2
  have hA : Dbl.le (Dbl.ofInt 1) 0 = false := by decide!
  have hB : Dbl.le (Dbl.ofInt 1) (Dbl.fin false 8056283928194523 (-104)) = false := by decide!
  have hC : Dbl.le (Dbl.ofInt 1) (Dbl.fin false 5629499534213119 (-50)) = true := by decide!
  obtain ⟨e1, x1d, e2, e3, e4⟩ := d8 zeroD rhs50D zeroD (Dbl.ofInt 1) hA (by rw [d6]; exact hB)
    (by rw [d7]; exact hC)
  have hs : Fp.svd (some zeroD) 2 2 2 (some rank1D) (some zeroD) 1 (some zeroD) 1 (some zeroD) =
      some { ret := 0, ierr := (Fp.svdCore 2 2 2 rank1D zeroD 1 zeroD 1 zeroD zeroD).2,
             u := some (Fp.svdCore 2 2 2 rank1D zeroD 1 zeroD 1 zeroD zeroD).1.u,
             w := some (Fp.svdCore 2 2 2 rank1D zeroD 1 zeroD 1 zeroD zeroD).1.w,
             v := some (Fp.svdCore 2 2 2 rank1D zeroD 1 zeroD 1 zeroD zeroD).1.v } := rfl
  rw [hs] at d1
  have ho := Option.some.inj d1
  subst ho
  have hu := Option.some.inj d2
  have hw := Option.some.inj d3
  have hv := Option.some.inj d4
  subst hu hw hv
  refine ⟨by norm_num, by norm_num, ⟨out, u1, w1, v1, x1, h1, h2, h3, h4, h5, h6, h7, h9, ?_, ?_⟩,
    hA, hB, hC, _, _, _, _, x1d, hs, rfl, rfl, rfl, d5, e1, e2, ?_, ?_⟩
  · rw [h10]
    show ((if (0 : Int) = 0 then (5 : ℝ) else 0) + 2 * (if (1 : Int) = 0 then (5 : ℝ) else 0)) / 25
      = 1 / 5
    norm_num
  · rw [h11]
    show (2 * (if (0 : Int) = 0 then (5 : ℝ) else 0) +
      4 * (if (1 : Int) = 0 then (5 : ℝ) else 0)) / 25 = 2 / 5
    norm_num
  · rw [e3]
    decide!
  · rw [e4]
    decide!

section SolveSquare

open Matrix

/-- An invertible factorisation has one solution only: with `U^T U = I`,
`V^T V = I` (square) and every `w[i]` non-zero, `U diag(w) V^T y = U diag(w) V^T z`
gives `y = z`. -/
theorem factor_injective {n : Nat} (Um Vm : Matrix (Fin n) (Fin n) ℝ) (w : Fin n → ℝ)
    (y z : Fin n → ℝ) (hU : Umᵀ * Um = 1) (hV1 : Vmᵀ * Vm = 1) (hw : ∀ i, w i ≠ 0)
    (h : (Um * diagonal w * Vmᵀ) *ᵥ y = (Um * diagonal w * Vmᵀ) *ᵥ z) : y = z := by
  have hV2 : Vm * Vmᵀ = 1 := (Matrix.mul_eq_one_comm).mp hV1
  have h1 := congrArg (fun t => Umᵀ *ᵥ t) h
  simp only [mulVec_mulVec] at h1
  have a1 : Umᵀ * (Um * diagonal w * Vmᵀ) = diagonal w * Vmᵀ := by
    calc Umᵀ * (Um * diagonal w * Vmᵀ) = (Umᵀ * Um) * diagonal w * Vmᵀ := by
          simp only [Matrix.mul_assoc]
      _ = diagonal w * Vmᵀ := by rw [hU, Matrix.one_mul]
  rw [a1, ← mulVec_mulVec, ← mulVec_mulVec] at h1
  have h2 : Vmᵀ *ᵥ y = Vmᵀ *ᵥ z := by
    funext i
    have := congrFun h1 i
    rw [mulVec_diagonal, mulVec_diagonal] at this
    exact mul_left_cancel₀ (hw i) this
  have h3 := congrArg (fun t => Vm *ᵥ t) h2
  simp only [mulVec_mulVec, hV2, one_mulVec] at h3
  exact h3

/-- Solve after decompose on a square system in exact real arithmetic. For
`m = n >= 2`, `nm >= n`, `matu` and `matv` set: if `svd` returns `ierr = 0`
with outputs `u1`, `w1`, `v1`, and `tol > 0` is at most every `w1[j]`, then
`svdsolve` on these outputs, for any `b`, returns `ierr = 0` and an `x1` with
`A x1 = b`; and every `y` with `A y = b` agrees with `x1` on `0..n-1`. -/
theorem solve_square_exact (rv1 a w u v tv b x : Buf ℝ) (nm n : Nat) (matu matv : Int) (tol : ℝ)
    (hn : 2 ≤ n) (hnm : n ≤ nm) (hmatu : matu ≠ 0) (hmatv : matv ≠ 0) (out : SvdOut ℝ)
    (hout : svd Real.sqrt (some rv1) (nm : Int) n n (some a) (some w) matu (some u) matv
      (some v) = some out)
    (hierr : out.ierr = 0) (htol : 0 < tol) :
    ∃ u1 w1 v1 : Buf ℝ, out.u = some u1 ∧ out.w = some w1 ∧ out.v = some v1 ∧
      ((∀ j : Nat, j < n → tol ≤ w1 (j : Int)) →
        ∃ x1 : Buf ℝ,
          svdsolve (some tv) (nm : Int) n n (some u1) (some w1) (some v1) (some b) (some x) tol =
            { ret := 0, ierr := 0, x := some x1 } ∧
          (∀ i : Nat, i < n →
            ∑ l ∈ Finset.range n, a ((i : Int) * nm + l) * x1 (l : Int) = b (i : Int)) ∧
          ∀ y : Buf ℝ,
            (∀ i : Nat, i < n →
              ∑ l ∈ Finset.range n, a ((i : Int) * nm + l) * y (l : Int) = b (i : Int)) →
            ∀ j : Nat, j < n → y (j : Int) = x1 (j : Int)) := by
  obtain ⟨u1, w1, v1, hu, hw, hv, hA⟩ := reconstruction_exact rv1 a w u v nm n n matu matv hn hn
    (by simpa using hnm) hmatu hmatv out hout hierr
  obtain ⟨u2, hu2, hU⟩ := u_orthonormal_exact rv1 a w u v nm n n matu matv hn (le_refl n)
    (by simpa using hnm) hmatu out hout
  obtain ⟨v2, hv2, hV⟩ := v_orthogonal_exact rv1 a w u v nm n n matu matv hn hn
    (by simpa using hnm) hmatv out hout
  rw [hu] at hu2
  rw [hv] at hv2
  cases hu2
  cases hv2
  refine ⟨u1, w1, v1, hu, hw, hv, fun hall => ?_⟩
  have hAm := matOf_factor nm n n a u1 w1 v1 hA
  have hUm := matOf_gram nm n n u1 hU
  have hVm := matOf_gram nm n n v1 hV
  have hx : vecOf n (solveX nm n v1 (solveTv nm n n u1 w1 b tol tv) x) =
      Matrix.mulVec (matOf nm n n v1) (fun i : Fin n => solveT nm n u1 w1 b tol i) := by
    funext j
    unfold vecOf Matrix.mulVec Matrix.dotProduct matOf
    show (solveX nm n v1 (solveTv nm n n u1 w1 b tol tv) x).get _ = _
    rw [solveX_get, if_pos (by have := j.2; omega)]
    rw [← Fin.sum_univ_eq_sum_range (fun i => v1.get ((((j : Nat) : Int).toNat : Int) * nm + i) *
      (solveTv nm n n u1 w1 b tol tv).get (i : Int))]
    apply Finset.sum_congr rfl
    intro i _
    rw [solveTv_get, if_pos (by have := i.2; omega)]
    simp
  have hne : ∀ i : Fin n, vecOf n w1 i ≠ 0 := by
    intro i
    unfold vecOf
    exact ne_of_gt (lt_of_lt_of_le htol (hall i i.2))
  have ht : ∀ i : Fin n, vecOf n w1 i * solveT nm n u1 w1 b tol i =
      (Matrix.mulVec (matOf nm n n u1).transpose (vecOf n b)) i := by
    intro i
    have hc : (Matrix.mulVec (matOf nm n n u1).transpose (vecOf n b)) i =
        ∑ k ∈ Finset.range n, u1 ((k : Int) * nm + (i : Nat)) * b (k : Int) := by
      rw [matOf_transpose_mulVec]
      exact Fin.sum_univ_eq_sum_range
        (fun k => u1.get ((k : Int) * nm + (i : Nat)) * b.get (k : Int)) n
    rw [hc]
    have h1 := hall i i.2
    have h2 := hne i
    unfold solveT vecOf at *
    rw [if_pos h1, mul_div_cancel₀ _ h2]
  have hsol := pinv_square (matOf nm n n u1) (matOf nm n n v1) (vecOf n w1) (vecOf n b)
    (fun i : Fin n => solveT nm n u1 w1 b tol i) hUm hVm ht
  rw [← hAm, ← hx] at hsol
  refine ⟨_, svdsolve_valid tv nm n n u1 w1 v1 b x tol hn hn (Or.inl hnm) htol, ?_, ?_⟩
  · intro i hi
    have := congrFun hsol ⟨i, hi⟩
    rw [matOf_mulVec] at this
    exact this
  · intro y hy j hj
    have hy2 : Matrix.mulVec (matOf nm n n a) (vecOf n y) =
        Matrix.mulVec (matOf nm n n a)
          (vecOf n (solveX nm n v1 (solveTv nm n n u1 w1 b tol tv) x)) := by
      rw [hsol]
      funext i
      rw [matOf_mulVec]
      exact hy i i.2
    rw [hAm] at hy2
    have := factor_injective (matOf nm n n u1) (matOf nm n n v1) (vecOf n w1) _ _ hUm hVm hne hy2
    exact congrFun this ⟨j, hj⟩

end SolveSquare

/-- Non-negativity, as far as it holds. For `m >= 2`, `n >= 2`, `nm >= max(m, n)` and any
`matu`, `matv`, if `svd` returns with `ierr = 0`: in exact arithmetic (first
part: any ordered field, any function for `sqrt`) `w[j] >= 0` for every
`0 <= j < n`; in double precision (second part) for every `0 <= j < n` the test
`w[j] < 0.0` is false, and `w[j] >= 0.0` holds unless `w[j]` is a NaN. -/
theorem singular_values_not_negative (sqrt : K → K) :
    (∀ (rv1 a w u : Buf K) (v : Option (Buf K)) (nm m n : Nat) (matu matv : Int),
      2 ≤ m → 2 ≤ n → max m n ≤ nm → ∀ out : SvdOut K,
      svd sqrt (some rv1) (nm : Int) m n (some a) (some w) matu (some u) matv v = some out →
      out.ierr = 0 →
      ∃ w1 : Buf K, out.w = some w1 ∧ ∀ j : Nat, j < n → 0 ≤ w1 (j : Int)) ∧
    (∀ (rv1 a w u : Buf Dbl) (v : Option (Buf Dbl)) (nm m n : Nat) (matu matv : Int),
      2 ≤ m → 2 ≤ n → max m n ≤ nm → ∀ out : SvdOut Dbl,
      Fp.svd (some rv1) (nm : Int) m n (some a) (some w) matu (some u) matv v = some out →
      out.ierr = 0 →
      ∃ w1 : Buf Dbl, out.w = some w1 ∧ ∀ j : Nat, j < n →
        Dbl.lt (w1 (j : Int)) (Dbl.fin false 0 0) = false ∧
        (Dbl.le (Dbl.fin false 0 0) (w1 (j : Int)) = true ∨ w1 (j : Int) = Dbl.nan)) :=
  ⟨fun rv1 a w u v nm m n matu matv hm hn hnm out hout hierr =>
      singular_values_nonneg_exact sqrt rv1 a w u v nm m n matu matv hm hn hnm out hout hierr,
    fun rv1 a w u v nm m n matu matv hm hn hnm out hout hierr =>
      singular_values_nonneg_double rv1 a w u v nm m n matu matv hm hn hnm out hout hierr⟩

/-- Two runs that end with `ierr = 0`. Exact real arithmetic: `[[12, 7], [0, 12]]` (`m = n = nm = 2`,
`matu = matv = 1`) gives `ierr = 0` and `w = [9, 16]` after one QR sweep and the
negation of `w[1] = -16`. Double precision: `[[1, 2], [3, 4]]` gives `ierr = 0`
and `w = [6592660798938457 * 2^-54, 6153026895276493 * 2^-50]`, which is
`[0.3659661906262578, 5.464985704219043]`. -/
theorem singular_values_not_negative_example :
    (2 ≤ 2) ∧ (max 2 2 ≤ 2) ∧
    (∃ out : SvdOut ℝ,
      svd Real.sqrt (some zeroBuf) ((2 : Nat) : Int) (2 : Nat) (2 : Nat) (some mat127)
        (some zeroBuf) 1 (some zeroBuf) 1 (some zeroBuf) = some out ∧
      out.ierr = 0 ∧
      ∃ w1 : Buf ℝ, out.w = some w1 ∧ w1 0 = 9 ∧ w1 1 = 16 ∧
        ∀ j : Nat, j < 2 → 0 ≤ w1 (j : Int)) ∧
    (∃ out : SvdOut Dbl,
      Fp.svd (some zeroD) ((2 : Nat) : Int) (2 : Nat) (2 : Nat) (some mat1234D)
        (some zeroD) 1 (some zeroD) 1 (some zeroD) = some out ∧
      out.ierr = 0 ∧
      ∃ w1 : Buf Dbl, out.w = some w1 ∧
        w1 0 = Dbl.fin false 6592660798938457 (-54) ∧
        w1 1 = Dbl.fin false 6153026895276493 (-50) ∧
        ∀ j : Nat, j < 2 →
          Dbl.lt (w1 (j : Int)) (Dbl.fin false 0 0) = false ∧
          (Dbl.le (Dbl.fin false 0 0) (w1 (j : Int)) = true ∨ w1 (j : Int) = Dbl.nan)) := by
  have hs := svd_valid Real.sqrt zeroBuf 2 2 2 mat127 zeroBuf 1 zeroBuf 1 zeroBuf (le_refl 2)
    (le_refl 2) (Or.inl (le_refl 2))
  obtain ⟨e0, e1, e2⟩ := m127_svdCore zeroBuf mat127 zeroBuf zeroBuf zeroBuf 1 1
    (by simp [mat127]) (by simp [mat127]) (by simp [mat127]) (by simp [mat127])
  obtain ⟨w1, hw1, hpos⟩ := (singular_values_not_negative Real.sqrt).1 zeroBuf mat127 zeroBuf zeroBuf
    (some zeroBuf) 2 2 2 1 1 (le_refl 2) (le_refl 2) (by decide) _ hs e0
  have hw := Option.some.inj hw1
  subst hw
  have hsD := fp_svd_valid zeroD 2 2 2 mat1234D zeroD 1 zeroD 1 zeroD (le_refl 2) (le_refl 2)
    (Or.inl (le_refl 2))
  have eD : (Fp.svdCore 2 2 2 mat1234D zeroD 1 zeroD 1 zeroD zeroD).2 = 0 := by decide!
  obtain ⟨w2, hw2, hpos2⟩ := (singular_values_not_negative Real.sqrt).2 zeroD mat1234D zeroD zeroD
    (some zeroD) 2 2 2 1 1 (le_refl 2) (le_refl 2) (by decide) _ hsD eD
  have hwD := Option.some.inj hw2
  subst hwD
  exact ⟨le_refl 2, by decide, ⟨_, hs, e0, _, rfl, e1, e2, hpos⟩,
    ⟨_, hsD, eD, _, rfl, by decide!, by decide!, hpos2⟩⟩

/-- A run that ends with a positive status: the 3 x 3 matrix `[[2^600, 2^600, 0], [0, 2^600, 0], [0, 0, 1]]`
of doubles (`nm = 3`, `matu = matv = 1`). Index 3 converges at once with
`w[2] = 1.0`; at index 2 the shift overflows, `w[0]`, `w[1]` become NaN, 30
sweeps pass without a split, and `svd` returns `ierr = 2`. -/
theorem nonconvergence_report_example :
    (2 ≤ 3) ∧ (max 3 3 ≤ 3) ∧ (0 < 2) ∧
    ∃ (out : SvdOut Dbl) (p : St Dbl × Dbl),
      Fp.svd (some zeroD) ((3 : Nat) : Int) (3 : Nat) (3 : Nat) (some blockD) (some zeroD) 1
        (some zeroD) 1 (some zeroD) = some out ∧
      p = Fp.svdPrep 3 3 3 blockD zeroD 1 zeroD 1 zeroD zeroD ∧
      out.ierr = ((2 : Nat) : Int) ∧
      (∃ w1 : Buf Dbl, out.w = some w1 ∧ w1 0 = Dbl.nan ∧ w1 1 = Dbl.nan ∧
        w1 2 = Dbl.fin false 4503599627370496 (-52)) ∧
      2 ≤ 2 ∧ 2 ≤ 3 ∧
      ∃ (st0 : St Dbl) (wf : Buf Dbl),
        Fp.stateAt 3 3 3 1 1 p.2 2 3 p.1 = some st0 ∧
        (∀ j, j ≤ 30 →
          (Fp.splitCancel 3 3 1 p.2 2 ((Fp.sweepOnce 3 3 3 1 1 p.2 2)^[j] st0)).2 ≠ 2) ∧
        out.w = some wf ∧
        wf = (Fp.splitCancel 3 3 1 p.2 2 ((Fp.sweepOnce 3 3 3 1 1 p.2 2)^[30] st0)).1.w ∧
        ∀ j : Nat, 2 ≤ j → j ≤ 3 - 1 →
          wf (j : Int) = st0.w (j : Int) ∧
          Dbl.lt (wf (j : Int)) (Dbl.fin false 0 0) = false ∧
          (Dbl.le (Dbl.fin false 0 0) (wf (j : Int)) = true ∨ wf (j : Int) = Dbl.nan) := by
  have hs := fp_svd_valid zeroD 3 3 3 blockD zeroD 1 zeroD 1 zeroD (by decide) (by decide)
    (Or.inl (le_refl 3))
  have e2 : (Fp.svdCore 3 3 3 blockD zeroD 1 zeroD 1 zeroD zeroD).2 = ((2 : Nat) : Int) := by
    decide!
  have ew0 : (Fp.svdCore 3 3 3 blockD zeroD 1 zeroD 1 zeroD zeroD).1.w.get 0 = Dbl.nan := by
    decide!
  have ew1 : (Fp.svdCore 3 3 3 blockD zeroD 1 zeroD 1 zeroD zeroD).1.w.get 1 = Dbl.nan := by
    decide!
  have ew2 : (Fp.svdCore 3 3 3 blockD zeroD 1 zeroD 1 zeroD zeroD).1.w.get 2 =
      Dbl.fin false 4503599627370496 (-52) := by
    decide!
  generalize Fp.svdCore 3 3 3 blockD zeroD 1 zeroD 1 zeroD zeroD = core at hs e2 ew0 ew1 ew2
  obtain ⟨out, hout, hierr, hw⟩ : ∃ out : SvdOut Dbl,
      Fp.svd (some zeroD) ((3 : Nat) : Int) (3 : Nat) (3 : Nat) (some blockD) (some zeroD) 1
        (some zeroD) 1 (some zeroD) = some out ∧
      out.ierr = ((2 : Nat) : Int) ∧
      ∃ w1 : Buf Dbl, out.w = some w1 ∧ w1 0 = Dbl.nan ∧ w1 1 = Dbl.nan ∧
        w1 2 = Dbl.fin false 4503599627370496 (-52) :=
    ⟨_, hs, e2, _, rfl, ew0, ew1, ew2⟩
  have h := (nonconvergence_report_double zeroD blockD zeroD zeroD (some zeroD) 3 3 3 1 1 (by decide)
    (by decide) (by decide) out hout _ rfl).2 2 (by decide) hierr
  simp only [Option.getD_some] at h
  exact ⟨by decide, by decide, by decide, out, _, hout, rfl, hierr, hw, h⟩

/-- Solve after decompose, where it holds. First part, the general property in exact real
arithmetic: for a square system (`m = n >= 2`, `nm >= n`), `matu` and `matv`
set, if `svd` returns `ierr = 0` with outputs `u1`, `w1`, `v1` and `tol > 0` is
at most every `w1[j]` (so that `A` is invertible), then `svdsolve` on these
outputs, for any `b`, returns `ierr = 0` and an `x1` with `A x1 = b`, and every
`y` with `A y = b` agrees with `x1` on `0..n-1`: `x1 = A^-1 b`. Second part,
the instance in exact real arithmetic: `A = diag(2, 3, 4)` (`m = n = nm = 3`,
`matu = matv = 1`) gives `ierr = 0`, `w = [2, 3, 4]`, and with `b = [2, 3, 4]`
and any `0 < tol <= 2`, `ierr = 0` and `x = [1, 1, 1]`. Third part, the same
instance in double precision, arrays of zeros: `svd` returns `ierr = 0` and
`w = [2.0, 3.0, 4.0]`, and for every double `tol` with `0.0 < tol` and
`tol <= 2.0`, `svdsolve` returns `ierr = 0` and `x = [1.0, 1.0, 1.0]`. -/
theorem solve_after_decompose_holds :
    (∀ (rv1 a w u v tv b x : Buf ℝ) (nm n : Nat) (matu matv : Int) (tol : ℝ),
      2 ≤ n → n ≤ nm → matu ≠ 0 → matv ≠ 0 → ∀ out : SvdOut ℝ,
      svd Real.sqrt (some rv1) (nm : Int) n n (some a) (some w) matu (some u) matv
        (some v) = some out →
      out.ierr = 0 → 0 < tol →
      ∃ u1 w1 v1 : Buf ℝ, out.u = some u1 ∧ out.w = some w1 ∧ out.v = some v1 ∧
        ((∀ j : Nat, j < n → tol ≤ w1 (j : Int)) →
          ∃ x1 : Buf ℝ,
            svdsolve (some tv) (nm : Int) n n (some u1) (some w1) (some v1) (some b) (some x)
              tol = { ret := 0, ierr := 0, x := some x1 } ∧
            (∀ i : Nat, i < n →
              ∑ l ∈ Finset.range n, a ((i : Int) * nm + l) * x1 (l : Int) = b (i : Int)) ∧
            ∀ y : Buf ℝ,
              (∀ i : Nat, i < n →
                ∑ l ∈ Finset.range n, a ((i : Int) * nm + l) * y (l : Int) = b (i : Int)) →
              ∀ j : Nat, j < n → y (j : Int) = x1 (j : Int))) ∧
    (∀ (rv1 a w u v tv b x : Buf ℝ) (tol : ℝ),
      (∀ y : Int, 0 ≤ y → y < 9 → a y = diag234 y) →
      b 0 = 2 → b 1 = 3 → b 2 = 4 → 0 < tol → tol ≤ 2 →
      ∃ (out : SvdOut ℝ) (u1 w1 v1 x1 : Buf ℝ),
        svd Real.sqrt (some rv1) ((3 : Nat) : Int) (3 : Nat) (3 : Nat) (some a) (some w) 1
          (some u) 1 (some v) = some out ∧
        out.ierr = 0 ∧ out.u = some u1 ∧ out.w = some w1 ∧ out.v = some v1 ∧
        w1 0 = 2 ∧ w1 1 = 3 ∧ w1 2 = 4 ∧
        svdsolve (some tv) ((3 : Nat) : Int) (3 : Nat) (3 : Nat) (some u1) (some w1) (some v1)
          (some b) (some x) tol = { ret := 0, ierr := 0, x := some x1 } ∧
        x1 0 = 1 ∧ x1 1 = 1 ∧ x1 2 = 1) ∧
    (∃ (out : SvdOut Dbl) (u1 w1 v1 : Buf Dbl),
      Fp.svd (some zeroD) 3 3 3 (some diag234D) (some zeroD) 1 (some zeroD) 1 (some zeroD) =
        some out ∧
      out.u = some u1 ∧ out.w = some w1 ∧ out.v = some v1 ∧ out.ierr = 0 ∧
      w1.get 0 = Dbl.fin false 4503599627370496 (-51) ∧
      w1.get 1 = Dbl.fin false 6755399441055744 (-51) ∧
      w1.get 2 = Dbl.fin false 4503599627370496 (-50) ∧
      ∀ (tv x : Buf Dbl) (tol : Dbl),
        Dbl.lt (Dbl.fin false 0 0) tol = true →
        Dbl.le tol (Dbl.fin false 4503599627370496 (-51)) = true →
        (Fp.svdsolve (some tv) 3 3 3 (some u1) (some w1) (some v1) (some rhs234D) (some x)
          tol).ierr = 0 ∧
        ∃ x1,
          (Fp.svdsolve (some tv) 3 3 3 (some u1) (some w1) (some v1) (some rhs234D) (some x)
            tol).x = some x1 ∧
          x1.get 0 = Dbl.fin false 4503599627370496 (-52) ∧
          x1.get 1 = Dbl.fin false 4503599627370496 (-52) ∧
          x1.get 2 = Dbl.fin false 4503599627370496 (-52)) := by
  refine ⟨fun rv1 a w u v tv b x nm n matu matv tol hn hnm hmatu hmatv out hout hierr htol =>
      solve_square_exact rv1 a w u v tv b x nm n matu matv tol hn hnm hmatu hmatv out hout hierr
        htol,
    fun rv1 a w u v tv b x tol ha hb0 hb1 hb2 htol htol2 =>
      solve_after_decompose_diag_exact rv1 a w u v tv b x tol ha hb0 hb1 hb2 htol htol2,
    _, (Fp.svdCore 3 3 3 diag234D zeroD 1 zeroD 1 zeroD zeroD).1.u,
    (Fp.svdCore 3 3 3 diag234D zeroD 1 zeroD 1 zeroD zeroD).1.w,
    (Fp.svdCore 3 3 3 diag234D zeroD 1 zeroD 1 zeroD zeroD).1.v,
    rfl, rfl, rfl, rfl, by decide!, by decide!, by decide!, by decide!, ?_⟩
  intro tv x tol h0 h2
  exact diag234D_solve tv x tol h0 h2

/-- Instances of solve after decompose. General part: `A = [[12, 7], [0, 12]]` (`m = n = nm = 2`,
`matu = matv = 1`), whose decomposition takes a reflection and a QR sweep and
gives `ierr = 0`, `w = [9, 16]`; with `b = [19, 12]` and `tol = 9` the solver
returns `x = [1, 1]`. Instances: `diag(2, 3, 4)`, `b = [2, 3, 4]`, `tol = 2`,
over the reals and in double precision. -/
theorem solve_after_decompose_example :
    (2 ≤ 2) ∧ ((1 : Int) ≠ 0) ∧ ((0 : ℝ) < 9) ∧
    (∃ (out : SvdOut ℝ) (u1 w1 v1 x1 : Buf ℝ),
      svd Real.sqrt (some zeroBuf) ((2 : Nat) : Int) (2 : Nat) (2 : Nat) (some mat127)
        (some zeroBuf) 1 (some zeroBuf) 1 (some zeroBuf) = some out ∧
      out.ierr = 0 ∧ out.u = some u1 ∧ out.w = some w1 ∧ out.v = some v1 ∧
      w1 0 = 9 ∧ w1 1 = 16 ∧ (∀ j : Nat, j < 2 → 9 ≤ w1 (j : Int)) ∧
      svdsolve (some zeroBuf) ((2 : Nat) : Int) (2 : Nat) (2 : Nat) (some u1) (some w1)
        (some v1) (some rhs1912) (some zeroBuf) 9 = { ret := 0, ierr := 0, x := some x1 } ∧
      x1 0 = 1 ∧ x1 1 = 1) ∧
    ((0 : ℝ) < 2) ∧ ((2 : ℝ) ≤ 2) ∧
    (∃ (out : SvdOut ℝ) (u1 w1 v1 x1 : Buf ℝ),
      svd Real.sqrt (some zeroBuf) ((3 : Nat) : Int) (3 : Nat) (3 : Nat) (some diag234)
        (some zeroBuf) 1 (some zeroBuf) 1 (some zeroBuf) = some out ∧
      out.ierr = 0 ∧ out.u = some u1 ∧ out.w = some w1 ∧ out.v = some v1 ∧
      w1 0 = 2 ∧ w1 1 = 3 ∧ w1 2 = 4 ∧
      svdsolve (some zeroBuf) ((3 : Nat) : Int) (3 : Nat) (3 : Nat) (some u1) (some w1) (some v1)
        (some ⟨fun y => if y = 0 then 2 else if y = 1 then 3 else 4⟩) (some zeroBuf) 2 =
          { ret := 0, ierr := 0, x := some x1 } ∧
      x1 0 = 1 ∧ x1 1 = 1 ∧ x1 2 = 1) ∧
    Dbl.lt (Dbl.fin false 0 0) (Dbl.fin false 4503599627370496 (-51)) = true ∧
    Dbl.le (Dbl.fin false 4503599627370496 (-51)) (Dbl.fin false 4503599627370496 (-51)) = true ∧
    (∃ (out : SvdOut Dbl) (u1 w1 v1 x1 : Buf Dbl),
      Fp.svd (some zeroD) 3 3 3 (some diag234D) (some zeroD) 1 (some zeroD) 1 (some zeroD) =
        some out ∧
      out.u = some u1 ∧ out.w = some w1 ∧ out.v = some v1 ∧ out.ierr = 0 ∧
      (Fp.svdsolve (some zeroD) 3 3 3 (some u1) (some w1) (some v1) (some rhs234D) (some zeroD)
        (Dbl.fin false 4503599627370496 (-51))).ierr = 0 ∧
      (Fp.svdsolve (some zeroD) 3 3 3 (some u1) (some w1) (some v1) (some rhs234D) (some zeroD)
        (Dbl.fin false 4503599627370496 (-51))).x = some x1 ∧
      x1.get 0 = Dbl.fin false 4503599627370496 (-52) ∧
      x1.get 1 = Dbl.fin false 4503599627370496 (-52) ∧
      x1.get 2 = Dbl.fin false 4503599627370496 (-52)) := by
  have hs := svd_valid Real.sqrt zeroBuf 2 2 2 mat127 zeroBuf 1 zeroBuf 1 zeroBuf (le_refl 2)
    (le_refl 2) (Or.inl (le_refl 2))
  obtain ⟨e0, e1, e2⟩ := m127_svdCore zeroBuf mat127 zeroBuf zeroBuf zeroBuf 1 1
    (by simp [mat127]) (by simp [mat127]) (by simp [mat127]) (by simp [mat127])
  obtain ⟨u1, w1, v1, hu, hw, hv, hsol⟩ := solve_after_decompose_holds.1 zeroBuf mat127 zeroBuf zeroBuf
    zeroBuf zeroBuf rhs1912 zeroBuf 2 2 1 1 9 (le_refl 2) (le_refl 2) (by decide) (by decide) _
    hs e0 (by norm_num)
  have hw' := Option.some.inj hw
  subst hw'
  have hall : ∀ j : Nat, j < 2 →
      (9 : ℝ) ≤ (svdCore Real.sqrt 2 2 2 mat127 zeroBuf 1 zeroBuf 1 zeroBuf zeroBuf).1.w
        (j : Int) := by
    intro j hj
    interval_cases j
    · exact le_of_eq e1.symm
    · show (9 : ℝ) ≤ (svdCore Real.sqrt 2 2 2 mat127 zeroBuf 1 zeroBuf 1 zeroBuf zeroBuf).1.w.get 1
      rw [e2]
      norm_num
  obtain ⟨x1, hx, hax, huniq⟩ := hsol hall
  have hone := huniq ⟨fun _ => 1⟩ (by
    intro i hi
    interval_cases i
    · simp [Finset.sum_range_succ, mat127, rhs1912]
      norm_num
    · simp [Finset.sum_range_succ, mat127, rhs1912])
  obtain ⟨out2, a1, a2, a3, a4, g1, g2, g3, g4, g5, g6, g7, g8, g9, g10, g11, g12⟩ :=
    solve_after_decompose_holds.2.1 zeroBuf diag234 zeroBuf zeroBuf zeroBuf zeroBuf
      ⟨fun y => if y = 0 then 2 else if y = 1 then 3 else 4⟩ zeroBuf 2 (fun y _ _ => rfl)
      rfl rfl rfl (by norm_num) (le_refl 2)
  obtain ⟨dout, du, dw, dv, d1, d2, d3, d4, d5, _, _, _, d9⟩ := solve_after_decompose_holds.2.2
  have hA : Dbl.lt (Dbl.fin false 0 0) (Dbl.fin false 4503599627370496 (-51)) = true := by
    decide!
  have hB : Dbl.le (Dbl.fin false 4503599627370496 (-51))
      (Dbl.fin false 4503599627370496 (-51)) = true := by decide!
  obtain ⟨f1, xd, f2, f3, f4, f5⟩ := d9 zeroD zeroD (Dbl.fin false 4503599627370496 (-51)) hA hB
  refine ⟨le_refl 2, by decide, by norm_num,
    ⟨_, u1, _, v1, x1, hs, e0, hu, rfl, hv, e1, e2, hall, hx, ?_, ?_⟩,
    by norm_num, le_refl 2,
    ⟨out2, a1, a2, a3, a4, g1, g2, g3, g4, g5, g6, g7, g8, g9, g10, g11, g12⟩,
    hA, hB, ⟨dout, du, dw, dv, xd, d1, d2, d3, d4, d5, f1, f2, f3, f4, f5⟩⟩
  · exact (hone 0 (by decide)).symm
  · exact (hone 1 (by decide)).symm

/-- C2, the run in double precision that breaks it. Input: `m = 2`, `n = 4`,
`nm = 4`, `a = [[1, 0, 0, 0], [0, 0, 2^1023, 2^1023]]` (finite doubles), arrays
of zeros for `u`, `w`, `v` and the workspace, `matu = matv = 1` or
`matu = matv = 0`. The L1 scale of row 2, `2^1023 + 2^1023`, is `+inf`; the row
step leaves `g = -0.0`, so that `rv1[2] = scale * g` is a NaN; the steps `i = 3`
and `i = 4` leave `w[2] = w[3] = 0.0`, and `anorm = MAX(NaN, 0.0)` ends as `0.0`.
For `k = 3` the split scan fails on `rv1[2]` and succeeds on `w[1] = 0.0`
(`L = 3`), the cancellation stores `w[2] = sqrt(NaN)`, and the index converges
(`L = k`). The call returns `ierr = 0` with `w = [1, 0, NaN, 0]`, and
`w[2] >= 0.0` is false. -/
theorem singular_value_nan_on_overflow :
    (∃ out w1,
      Fp.svd (some zeroD) 4 2 4 (some wideD) (some zeroD) 1 (some zeroD) 1 (some zeroD) =
        some out ∧
      out.w = some w1 ∧ out.ierr = 0 ∧
      w1.get 0 = Dbl.fin false 4503599627370496 (-52) ∧ w1.get 1 = Dbl.fin false 0 0 ∧
      w1.get 2 = Dbl.nan ∧ w1.get 3 = Dbl.fin false 0 0 ∧
      Dbl.le (Dbl.fin false 0 0) (w1.get 2) = false) ∧
    (∃ out w0,
      Fp.svd (some zeroD) 4 2 4 (some wideD) (some zeroD) 0 (some zeroD) 0 (some zeroD) =
        some out ∧
      out.w = some w0 ∧ out.ierr = 0 ∧
      w0.get 0 = Dbl.fin false 4503599627370496 (-52) ∧ w0.get 1 = Dbl.fin false 0 0 ∧
      w0.get 2 = Dbl.nan ∧ w0.get 3 = Dbl.fin false 0 0 ∧
      Dbl.le (Dbl.fin false 0 0) (w0.get 2) = false) ∧
    Fp.rowScale 4 4 2 wideD = Dbl.inf false ∧
    (Fp.svdPrep 4 2 4 wideD zeroD 1 zeroD 1 zeroD zeroD).2 = Dbl.fin false 0 0 ∧
    (Fp.svdPrep 4 2 4 wideD zeroD 1 zeroD 1 zeroD zeroD).1.rv1.get 2 = Dbl.nan ∧
    (Fp.svdPrep 4 2 4 wideD zeroD 1 zeroD 1 zeroD zeroD).1.w.get 1 = Dbl.fin false 0 0 ∧
    (Fp.svdPrep 4 2 4 wideD zeroD 1 zeroD 1 zeroD zeroD).1.w.get 2 = Dbl.fin false 0 0 ∧
    Fp.splitScan (Fp.svdPrep 4 2 4 wideD zeroD 1 zeroD 1 zeroD zeroD).2
      (Fp.svdPrep 4 2 4 wideD zeroD 1 zeroD 1 zeroD zeroD).1.w
      (Fp.svdPrep 4 2 4 wideD zeroD 1 zeroD 1 zeroD zeroD).1.rv1 3 = (3, false) := by
  refine ⟨⟨_, _, rfl, rfl, ?_⟩, ⟨_, _, rfl, rfl, ?_⟩, ?_⟩
  · decide!
  · decide!
  · decide!

/-- C8, the run in double precision that breaks it. Input: `m = 3`, `n = 5`,
`nm = 5`, `a = [[2^600, 2^600, 0, 0, 0], [0, 2^600, 0, 0, 0],
[0, 0, 0, 2^1023, 2^1023]]` (finite doubles), arrays of zeros for `u`, `w`, `v`
and the workspace, `matu = matv = 1` or `matu = matv = 0`. The L1 scale of row 3
is `+inf`, `rv1[3]` becomes a NaN and `anorm` ends as `0.0`; the index `k = 4`
converges through the cancellation with `w[3] = NaN`; at `k = 2` the shift
overflows and 30 sweeps pass without a split. The call returns `ierr = 2` with
`w = [NaN, NaN, 0, NaN, 0]`: when the loop reaches `k = 2` the value `w[3]` is
already the NaN that is returned, and `w[3] >= 0.0` is false. -/
theorem converged_value_nan_on_overflow :
    (∃ out w1,
      Fp.svd (some zeroD) 5 3 5 (some wideBlockD) (some zeroD) 1 (some zeroD) 1 (some zeroD) =
        some out ∧
      out.w = some w1 ∧ out.ierr = 2 ∧
      w1.get 0 = Dbl.nan ∧ w1.get 1 = Dbl.nan ∧ w1.get 2 = Dbl.fin false 0 0 ∧
      w1.get 3 = Dbl.nan ∧ w1.get 4 = Dbl.fin false 0 0 ∧
      Dbl.le (Dbl.fin false 0 0) (w1.get 3) = false) ∧
    (∃ out w0,
      Fp.svd (some zeroD) 5 3 5 (some wideBlockD) (some zeroD) 0 (some zeroD) 0 (some zeroD) =
        some out ∧
      out.w = some w0 ∧ out.ierr = 2 ∧
      w0.get 0 = Dbl.nan ∧ w0.get 1 = Dbl.nan ∧ w0.get 2 = Dbl.fin false 0 0 ∧
      w0.get 3 = Dbl.nan ∧ w0.get 4 = Dbl.fin false 0 0 ∧
      Dbl.le (Dbl.fin false 0 0) (w0.get 3) = false) ∧
    Fp.rowScale 5 5 3 wideBlockD = Dbl.inf false ∧
    (Fp.svdPrep 5 3 5 wideBlockD zeroD 1 zeroD 1 zeroD zeroD).2 = Dbl.fin false 0 0 ∧
    (Fp.svdPrep 5 3 5 wideBlockD zeroD 1 zeroD 1 zeroD zeroD).1.rv1.get 3 = Dbl.nan ∧
    (Fp.svdPrep 5 3 5 wideBlockD zeroD 1 zeroD 1 zeroD zeroD).1.w.get 3 = Dbl.fin false 0 0 ∧
    (Fp.stateAt 5 3 5 1 1 (Fp.svdPrep 5 3 5 wideBlockD zeroD 1 zeroD 1 zeroD zeroD).2 2 5
      (Fp.svdPrep 5 3 5 wideBlockD zeroD 1 zeroD 1 zeroD zeroD).1).map
        (fun st => st.w.get 3) = some Dbl.nan := by
  refine ⟨⟨_, _, rfl, rfl, ?_⟩, ⟨_, _, rfl, rfl, ?_⟩, ?_⟩
  · decide!
  · decide!
  · decide!

/-- C11, the run in double precision that breaks it. Input: `m = n = nm = 2`,
`a = [[2^440, 0], [-2^440, -2^480]]` (finite doubles, determinant `-2^920`),
`matu = matv = 1`, arrays of zeros, and `b = a . [1, 1] =
[2^440, -(2^440 + 2^480)]`. `svd` returns `ierr = 0` with `w = [0.0, -0.0]`, and
for every `tol` that passes the input test (`tol <= 0.0` false) and all contents
of `x` and of the workspace, `svdsolve` returns `ierr = 0` and `x = [0, 0]`,
for which `a . x` is `0` and not `b`. -/
theorem solve_fails_on_overflow :
    ∃ out u1 w1 v1,
      Fp.svd (some zeroD) 2 2 2 (some bigD) (some zeroD) 1 (some zeroD) 1 (some zeroD) =
        some out ∧
      out.u = some u1 ∧ out.w = some w1 ∧ out.v = some v1 ∧ out.ierr = 0 ∧
      w1.get 0 = Dbl.fin false 0 0 ∧ w1.get 1 = Dbl.fin true 0 0 ∧
      Dbl.eq (bigD.get 0 * bigD.get 3 - bigD.get 1 * bigD.get 2) (Dbl.fin false 0 0) = false ∧
      bigD.get 0 * 1 + bigD.get 1 * 1 = rhsBigD.get 0 ∧
      bigD.get 2 * 1 + bigD.get 3 * 1 = rhsBigD.get 1 ∧
      ∀ (tv x : Buf Dbl) (tol : Dbl), Dbl.le tol (Dbl.fin false 0 0) = false →
        (Fp.svdsolve (some tv) 2 2 2 (some u1) (some w1) (some v1) (some rhsBigD) (some x)
          tol).ierr = 0 ∧
        ∃ x1,
          (Fp.svdsolve (some tv) 2 2 2 (some u1) (some w1) (some v1) (some rhsBigD) (some x)
            tol).x = some x1 ∧
          x1.get 0 = Dbl.fin false 0 0 ∧ x1.get 1 = Dbl.fin false 0 0 ∧
          Dbl.eq (bigD.get 0 * x1.get 0 + bigD.get 1 * x1.get 1) (rhsBigD.get 0) = false ∧
          Dbl.eq (bigD.get 2 * x1.get 0 + bigD.get 3 * x1.get 1) (rhsBigD.get 1) = false := by
  have w0 : (Fp.svdCore 2 2 2 bigD zeroD 1 zeroD 1 zeroD zeroD).1.w.get 0 = Dbl.fin false 0 0 := by
    decide!
  have w1 : (Fp.svdCore 2 2 2 bigD zeroD 1 zeroD 1 zeroD zeroD).1.w.get 1 = Dbl.fin true 0 0 := by
    decide!
  refine ⟨_, (Fp.svdCore 2 2 2 bigD zeroD 1 zeroD 1 zeroD zeroD).1.u,
    (Fp.svdCore 2 2 2 bigD zeroD 1 zeroD 1 zeroD zeroD).1.w,
    (Fp.svdCore 2 2 2 bigD zeroD 1 zeroD 1 zeroD zeroD).1.v,
    rfl, rfl, rfl, rfl, by decide!, w0, w1, by decide!, by decide!, by decide!, ?_⟩
  intro tv x tol h0
  obtain ⟨e1, x1, e2, e3, e4⟩ := svdsolve_none_pass tv
    (Fp.svdCore 2 2 2 bigD zeroD 1 zeroD 1 zeroD zeroD).1.u
    (Fp.svdCore 2 2 2 bigD zeroD 1 zeroD 1 zeroD zeroD).1.w
    (Fp.svdCore 2 2 2 bigD zeroD 1 zeroD 1 zeroD zeroD).1.v rhsBigD x tol h0
    (by rw [w0]; exact h0) (by rw [w1]; exact (dbl_le_negzero tol).trans h0)
  have hx0 : x1.get 0 = Dbl.fin false 0 0 := by
    rw [e3]
    decide!
  have hx1 : x1.get 1 = Dbl.fin false 0 0 := by
    rw [e4]
    decide!
  refine ⟨e1, x1, e2, hx0, hx1, ?_, ?_⟩
  · rw [hx0, hx1]
    decide!
  · rw [hx0, hx1]
    decide!

end Claims

end Svd
